import Mathlib

/-!
# Chain Reaction engine (`Offline 3 Chain Reaction--Adversial Search/back.cpp`)

A shallow embedding of the `ChainReaction` class of `back.cpp`: the board model, the
explosion resolver, the winner check, two evaluators and the alpha-beta search, followed
by the properties proved about them.

Conventions of the embedding:
* `int` values are `Int`; loop indices, which the source only ever takes in `0 .. m-1` and
  `0 .. n-1`, are `Nat`; the neighbour coordinates `i + di`, `j + dj` of `explode_cell` are
  `Int` and are converted back after the bounds test of the source;
* `std::vector<std::vector<Cell>> board` is a total map `Nat → Nat → Cell`, of which the code only
  reads and writes the entries with `i < m` and `j < n`;
* member functions that write `board` take the object and return the new object;
* the `while (true)` loop of `process_explosions` takes a bound on the number of waves it may run
  (`fuel`) and answers `none` when the bound is hit before a wave finds no critical cell;
* the recursion of `minimax` takes a bound on its nesting (`gas`); the root passes 3, which the
  depth limit never lets run out, and a call answers `none` only when a `process_explosions`
  call below it does or when the nesting bound is hit;
* the search functions return their value together with the object as they leave it, so that
  the saving and restoring of `board` is part of the model;
* output to `std::cout` / `std::cerr` is not modelled.
-/

/-- The `Cell` struct: an orb count and the owner's colour (`'R'`, `'B'` or the NUL character). -/
structure Cell where
  orbs : Int
  color : Char
deriving DecidableEq, Repr

/-- The character `'\0'`, used by the source for "no owner". -/
def NUL : Char := Char.ofNat 0

/-- The constant `INT_MIN` of `<climits>` for a 32-bit `int`. -/
def INT_MIN : Int := -2147483648

/-- The constant `INT_MAX` of `<climits>` for a 32-bit `int`. -/
def INT_MAX : Int := 2147483647

/-- The value that an `int` variable holds after an addition whose exact result is `x`: the
32-bit two's-complement value, which is `x` itself between `INT_MIN` and `INT_MAX`. -/
def wrap_int (x : Int) : Int := (x + 2147483648) % 4294967296 - 2147483648

/-- The data members of `class ChainReaction` that the game logic uses. -/
structure ChainReaction where
  m : Nat
  n : Nat
  board : Nat → Nat → Cell
  is_ai_vs_ai : Bool

/-- The nested loop `for (i = 0; i < m; ++i) for (j = 0; j < n; ++j)` threading a loop state. -/
def forCells {σ : Type} (m n : Nat) (f : σ → Nat → Nat → σ) (init : σ) : σ :=
  (List.range m).foldl (fun acc i => (List.range n).foldl (fun acc2 j => f acc2 i j) acc) init

/-- The assignment `board[i][j] = c`. -/
def setCell (b : Nat → Nat → Cell) (i j : Nat) (c : Cell) : Nat → Nat → Cell :=
  fun a k => if a = i ∧ k = j then c else b a k

namespace ChainReaction

/-- The constant member `DEPTH_LIMIT`. -/
def DEPTH_LIMIT : Int := 3

/-- The source's `get_critical_mass(i, j)`. -/
def get_critical_mass (s : ChainReaction) (i j : Nat) : Int :=
  if ((i : Int) = 0 ∨ (i : Int) = (s.m : Int) - 1) ∧ ((j : Int) = 0 ∨ (j : Int) = (s.n : Int) - 1) then 2
  else if (i : Int) = 0 ∨ (i : Int) = (s.m : Int) - 1 ∨ (j : Int) = 0 ∨ (j : Int) = (s.n : Int) - 1 then 3
  else 4

/-- The source's `is_valid_move(i, j, player)`. -/
def is_valid_move (s : ChainReaction) (i j : Nat) (player : Char) : Bool :=
  (s.board i j).color == NUL || (s.board i j).color == player

/-- The source's `make_move(i, j, player)`. -/
def make_move (s : ChainReaction) (i j : Nat) (player : Char) : ChainReaction :=
  { s with board := setCell s.board i j { orbs := (s.board i j).orbs + 1, color := player } }

/-- The vector `directions` of `explode_cell`. -/
def directions : List (Int × Int) := [(-1, 0), (1, 0), (0, -1), (0, 1)]

/-- One iteration of the loop over `directions` in `explode_cell(i, j)`. -/
def explode_step (m n : Nat) (i j : Nat) (player : Char) (b : Nat → Nat → Cell) (d : Int × Int) :
    Nat → Nat → Cell :=
  let ni : Int := (i : Int) + d.1
  let nj : Int := (j : Int) + d.2
  if 0 ≤ ni ∧ ni < (m : Int) ∧ 0 ≤ nj ∧ nj < (n : Int) then
    setCell b ni.toNat nj.toNat { orbs := (b ni.toNat nj.toNat).orbs + 1, color := player }
  else b

/-- The source's `explode_cell(i, j)`. -/
def explode_cell (s : ChainReaction) (i j : Nat) : ChainReaction :=
  let critical_mass := s.get_critical_mass i j
  let player := (s.board i j).color
  let orbs := (s.board i j).orbs - critical_mass
  let b1 := setCell s.board i j { orbs := orbs, color := if orbs = 0 then NUL else player }
  { s with board := directions.foldl (explode_step s.m s.n i j player) b1 }

/-- The vector `explosions` that one pass of `process_explosions` collects. -/
def explosions (s : ChainReaction) : List (Nat × Nat) :=
  forCells s.m s.n
    (fun acc i j => if (s.board i j).orbs ≥ s.get_critical_mass i j then acc ++ [(i, j)] else acc) []

/-- The loop `for (auto [i, j] : explosions) explode_cell(i, j)` over a list of cells. -/
def explode_all (s : ChainReaction) (l : List (Nat × Nat)) : ChainReaction :=
  l.foldl (fun t p => t.explode_cell p.1 p.2) s

/-- One pass of the `while` loop of `process_explosions` that found a critical cell. -/
def wave (s : ChainReaction) : ChainReaction :=
  s.explode_all s.explosions

/-- The source's `process_explosions()`; `fuel` bounds the number of waves. -/
def process_explosions : Nat → ChainReaction → Option ChainReaction
  | fuel, s =>
    if s.explosions.isEmpty then some s
    else match fuel with
      | 0 => none
      | fuel + 1 => process_explosions fuel s.wave

/-- The source's `check_winner()`. The counters `red_count`, `blue_count` and `total_moves` are
`int` variables: every addition is taken with `wrap_int`. -/
def check_winner (s : ChainReaction) : Char :=
  let counts : Int × Int := forCells s.m s.n
    (fun acc i j =>
      let red_count := if (s.board i j).color = 'R' ∧ (s.board i j).orbs > 0
        then wrap_int (acc.1 + (s.board i j).orbs) else acc.1
      let blue_count := if (s.board i j).color = 'B' ∧ (s.board i j).orbs > 0
        then wrap_int (acc.2 + (s.board i j).orbs) else acc.2
      (red_count, blue_count)) (0, 0)
  let red_count := counts.1
  let blue_count := counts.2
  let total_moves := wrap_int (red_count + blue_count)
  if total_moves < 2 then NUL
  else if red_count = 0 ∧ blue_count > 0 then 'B'
  else if blue_count = 0 ∧ red_count > 0 then 'R'
  else NUL

/-- The source's `evaluate_critical_cells()`. -/
def evaluate_critical_cells (s : ChainReaction) : Int :=
  let counts : Int × Int := forCells s.m s.n
    (fun acc i j =>
      if (s.board i j).color = 'B' then
        if s.get_critical_mass i j = 2 then (acc.1 + 5, acc.2)
        else if s.get_critical_mass i j = 3 then (acc.1 + 3, acc.2)
        else acc
      else if (s.board i j).color = 'R' then
        if s.get_critical_mass i j = 2 then (acc.1, acc.2 + 5)
        else if s.get_critical_mass i j = 3 then (acc.1, acc.2 + 3)
        else acc
      else acc) (0, 0)
  counts.1 - counts.2

/-- The source's `evaluate_board_control()`. -/
def evaluate_board_control (s : ChainReaction) : Int :=
  let counts : Int × Int := forCells s.m s.n
    (fun acc i j =>
      let blue_cells := if (s.board i j).color = 'B' then acc.1 + 1 else acc.1
      let red_cells := if (s.board i j).color = 'R' then acc.2 + 1 else acc.2
      (blue_cells, red_cells)) (0, 0)
  counts.1 - counts.2

/-- The inner `for (j ...)` loop of a maximizing node of `minimax`, row `i`, over the columns still
to visit. The loop state is `best_value`, `alpha` and the object; `child` is the recursive call
`minimax(depth + 1, false, alpha, beta, player)`. Reaching `beta <= alpha` leaves this loop only. -/
def max_cols (child : Int → Int → ChainReaction → Option (Int × ChainReaction)) (fuel : Nat)
    (current_player : Char) (beta : Int) (i : Nat) :
    List Nat → Int × Int × ChainReaction → Option (Int × Int × ChainReaction)
  | [], st => some st
  | j :: js, (best_value, alpha, s) =>
    if s.is_valid_move i j current_player then
      let board_copy := s.board
      match process_explosions fuel (s.make_move i j current_player) with
      | none => none
      | some s1 =>
        match child alpha beta s1 with
        | none => none
        | some (v, s2) =>
          let best_value := max best_value v
          let s3 := { s2 with board := board_copy }
          let alpha := max alpha best_value
          if beta ≤ alpha then some (best_value, alpha, s3)
          else max_cols child fuel current_player beta i js (best_value, alpha, s3)
    else max_cols child fuel current_player beta i js (best_value, alpha, s)

/-- The outer `for (i ...)` loop of a maximizing node of `minimax` over the rows still to visit;
each row runs the inner loop over the columns `0 .. n-1`. -/
def max_rows (child : Int → Int → ChainReaction → Option (Int × ChainReaction)) (fuel : Nat)
    (current_player : Char) (beta : Int) (n : Nat) :
    List Nat → Int × Int × ChainReaction → Option (Int × Int × ChainReaction)
  | [], st => some st
  | i :: is, st =>
    match max_cols child fuel current_player beta i (List.range n) st with
    | none => none
    | some st1 => max_rows child fuel current_player beta n is st1

/-- The inner `for (j ...)` loop of a minimizing node of `minimax`, row `i`. The loop state is
`best_value`, `beta` and the object; `child` is the recursive call
`minimax(depth + 1, true, alpha, beta, player)`. -/
def min_cols (child : Int → Int → ChainReaction → Option (Int × ChainReaction)) (fuel : Nat)
    (current_player : Char) (alpha : Int) (i : Nat) :
    List Nat → Int × Int × ChainReaction → Option (Int × Int × ChainReaction)
  | [], st => some st
  | j :: js, (best_value, beta, s) =>
    if s.is_valid_move i j current_player then
      let board_copy := s.board
      match process_explosions fuel (s.make_move i j current_player) with
      | none => none
      | some s1 =>
        match child alpha beta s1 with
        | none => none
        | some (v, s2) =>
          let best_value := min best_value v
          let s3 := { s2 with board := board_copy }
          let beta := min beta best_value
          if beta ≤ alpha then some (best_value, beta, s3)
          else min_cols child fuel current_player alpha i js (best_value, beta, s3)
    else min_cols child fuel current_player alpha i js (best_value, beta, s)

/-- The outer `for (i ...)` loop of a minimizing node of `minimax`. -/
def min_rows (child : Int → Int → ChainReaction → Option (Int × ChainReaction)) (fuel : Nat)
    (current_player : Char) (alpha : Int) (n : Nat) :
    List Nat → Int × Int × ChainReaction → Option (Int × Int × ChainReaction)
  | [], st => some st
  | i :: is, st =>
    match min_cols child fuel current_player alpha i (List.range n) st with
    | none => none
    | some st1 => min_rows child fuel current_player alpha n is st1

/-- The source's `minimax(depth, is_maximizing, alpha, beta, player)`: the returned value together
with the object as the call leaves it. `fuel` bounds the waves of every `process_explosions` call
and `gas` the nesting of recursive calls; a call at depth `d` nests at most `DEPTH_LIMIT - d`
deep, so `gas = 3` is never used up below the root. The loop bounds `m`, `n` are read at loop
entry (no statement of the search assigns them). -/
def minimax (fuel : Nat) :
    Nat → Int → Bool → Int → Int → Char → ChainReaction → Option (Int × ChainReaction)
  | gas, depth, is_maximizing, alpha, beta, player, s =>
    let winner := s.check_winner
    if winner = 'B' then some (if player = 'B' then 1000 else -1000, s)
    else if winner = 'R' then some (if player = 'R' then 1000 else -1000, s)
    else if depth ≥ DEPTH_LIMIT then
      some (if s.is_ai_vs_ai then s.evaluate_board_control else s.evaluate_critical_cells, s)
    else
      match gas with
      | 0 => none
      | gas + 1 =>
        let current_player := if is_maximizing then player else (if player = 'B' then 'R' else 'B')
        if is_maximizing then
          match max_rows (fun a b t => minimax fuel gas (depth + 1) false a b player t)
              fuel current_player beta s.n (List.range s.m) (INT_MIN, alpha, s) with
          | none => none
          | some (best_value, _, s1) => some (best_value, s1)
        else
          match min_rows (fun a b t => minimax fuel gas (depth + 1) true a b player t)
              fuel current_player alpha s.n (List.range s.m) (INT_MAX, beta, s) with
          | none => none
          | some (best_value, _, s1) => some (best_value, s1)

/-- The inner `for (j ...)` loop of `minimax_decision(player)`, row `i`. The loop state is
`best_value`, `best_move`, `valid_move_found` and the object. -/
def decision_cols (fuel : Nat) (player : Char) (i : Nat) :
    List Nat → Int × (Int × Int) × Bool × ChainReaction →
      Option (Int × (Int × Int) × Bool × ChainReaction)
  | [], st => some st
  | j :: js, (best_value, best_move, valid_move_found, s) =>
    if s.is_valid_move i j player then
      let board_copy := s.board
      match process_explosions fuel (s.make_move i j player) with
      | none => none
      | some s1 =>
        match minimax fuel 3 0 (if player = 'B' then false else true) INT_MIN INT_MAX player s1 with
        | none => none
        | some (value, s2) =>
          let s3 := { s2 with board := board_copy }
          if player = 'B' ∧ value > best_value then
            decision_cols fuel player i js (value, ((i : Int), (j : Int)), true, s3)
          else if player = 'R' ∧ value < best_value then
            decision_cols fuel player i js (value, ((i : Int), (j : Int)), true, s3)
          else decision_cols fuel player i js (best_value, best_move, true, s3)
    else decision_cols fuel player i js (best_value, best_move, valid_move_found, s)

/-- The outer `for (i ...)` loop of `minimax_decision(player)`. -/
def decision_rows (fuel : Nat) (player : Char) (n : Nat) :
    List Nat → Int × (Int × Int) × Bool × ChainReaction →
      Option (Int × (Int × Int) × Bool × ChainReaction)
  | [], st => some st
  | i :: is, st =>
    match decision_cols fuel player i (List.range n) st with
    | none => none
    | some st1 => decision_rows fuel player n is st1

/-- The source's `minimax_decision(player)`: the returned `best_move` (`(-1, -1)` when no move was
retained) together with the object as the call leaves it. -/
def minimax_decision (fuel : Nat) (player : Char) (s : ChainReaction) :
    Option ((Int × Int) × ChainReaction) :=
  match decision_rows fuel player s.n (List.range s.m)
      (if player = 'B' then INT_MIN else INT_MAX, (-1, -1), false, s) with
  | none => none
  | some (_, best_move, _, s1) => some (best_move, s1)

end ChainReaction

/-! ## Vocabulary of the specification -/

/-- The cells of an `m × n` board in the order the nested loops visit them (row-major). -/
def allCells (m n : Nat) : List (Nat × Nat) :=
  (List.range m).flatMap (fun i => (List.range n).map (fun j => (i, j)))

/-- Cell `(a, b)` is an orthogonal neighbour of cell `(i, j)`. -/
def adj (a b i j : Nat) : Prop :=
  (a + 1 = i ∧ b = j) ∨ (a = i + 1 ∧ b = j) ∨ (a = i ∧ b + 1 = j) ∨ (a = i ∧ b = j + 1)

instance (a b i j : Nat) : Decidable (adj a b i j) := by unfold adj; infer_instance

/-- The sum of `f i j` over the cells of an `m × n` board. -/
def sumCells (m n : Nat) (f : Nat → Nat → Int) : Int :=
  ∑ i in Finset.range m, ∑ j in Finset.range n, f i j

/-- Indicator of a proposition: `1` when it holds and `0` otherwise. -/
def ind (p : Prop) [Decidable p] : Int := if p then 1 else 0

/-- The sum of `f` over the four orthogonal neighbours of `(a, b)` with non-negative
coordinates. -/
def nbrSum (f : Nat → Nat → Int) (a b : Nat) : Int :=
  (if 1 ≤ a then f (a - 1) b else 0) + f (a + 1) b + (if 1 ≤ b then f a (b - 1) else 0) +
    f a (b + 1)

/-- Indicator of a list of cells: `1` when `(a, b)` occurs in the list and `0` otherwise. -/
def memInd (l : List (Nat × Nat)) (a b : Nat) : Int := if (a, b) ∈ l then 1 else 0

/-- The number of pairs of orthogonally adjacent cells of an `m × n` board. -/
def adjacentPairs (m n : Nat) : Int := (m : Int) * ((n : Int) - 1) + (n : Int) * ((m : Int) - 1)

namespace ChainReaction

/-- A board is stable when no cell has reached its critical mass. -/
def stable (s : ChainReaction) : Prop :=
  ∀ i < s.m, ∀ j < s.n, (s.board i j).orbs < s.get_critical_mass i j

instance (s : ChainReaction) : Decidable s.stable := by unfold stable; infer_instance

/-- The cell invariant of the data model: orb counts are non-negative, a cell holds no orb
exactly when it has no owner, and an owner is Red or Blue. -/
def CellInv (s : ChainReaction) : Prop :=
  ∀ i < s.m, ∀ j < s.n,
    0 ≤ (s.board i j).orbs ∧ ((s.board i j).orbs = 0 ↔ (s.board i j).color = NUL) ∧
      ((s.board i j).color = NUL ∨ (s.board i j).color = 'R' ∨ (s.board i j).color = 'B')

instance (s : ChainReaction) : Decidable s.CellInv := by unfold CellInv; infer_instance

/-- The state of a wave between two `explode_cell` calls: the invariant holds and every cell
still to detonate is an in-bounds cell at or above its critical mass, listed once. -/
def WaveInv (t : ChainReaction) (l : List (Nat × Nat)) : Prop :=
  t.CellInv ∧ l.Nodup ∧ ∀ p ∈ l, p.1 < t.m ∧ p.2 < t.n ∧ t.get_critical_mass p.1 p.2 ≤ (t.board p.1 p.2).orbs

/-- The value of `red_count` when the loops of `check_winner` end. -/
def red_count (s : ChainReaction) : Int :=
  sumCells s.m s.n (fun i j =>
    if (s.board i j).color = 'R' ∧ (s.board i j).orbs > 0 then (s.board i j).orbs else 0)

/-- The value of `blue_count` when the loops of `check_winner` end. -/
def blue_count (s : ChainReaction) : Int :=
  sumCells s.m s.n (fun i j =>
    if (s.board i j).color = 'B' ∧ (s.board i j).orbs > 0 then (s.board i j).orbs else 0)

/-- Red's total orb count: the orbs in the cells Red owns. -/
def redTotal (s : ChainReaction) : Int :=
  sumCells s.m s.n (fun i j => if (s.board i j).color = 'R' then (s.board i j).orbs else 0)

/-- Blue's total orb count: the orbs in the cells Blue owns. -/
def blueTotal (s : ChainReaction) : Int :=
  sumCells s.m s.n (fun i j => if (s.board i j).color = 'B' then (s.board i j).orbs else 0)

/-- The number of orbs on the board. -/
def orbTotal (s : ChainReaction) : Int :=
  sumCells s.m s.n (fun i j => (s.board i j).orbs)

/-- The number of in-bounds orthogonal neighbours of the in-bounds cell `(i, j)`. -/
def neighbours (s : ChainReaction) (i j : Nat) : Int :=
  ind (1 ≤ i) + ind (i + 1 < s.m) + ind (1 ≤ j) + ind (j + 1 < s.n)

/-- Indicator of detonation: `1` when `(a, b)` is in bounds and critical, so that the next wave
detonates it, and `0` otherwise. -/
def fire (s : ChainReaction) (a b : Nat) : Int :=
  if a < s.m ∧ b < s.n ∧ s.get_critical_mass a b ≤ (s.board a b).orbs then 1 else 0

/-- How often the cell `(a, b)` detonated during the first `t` waves started from `s`. -/
def fireCount (s : ChainReaction) : Nat → Nat → Nat → Int
  | 0, _, _ => 0
  | t + 1, a, b => fireCount s t a b + (wave^[t] s).fire a b

/-- The number of the last wave among the first `t` in which the cell `(a, b)` detonated, counted
from 1; `0` when it did not detonate. -/
def lastFire (s : ChainReaction) : Nat → Nat → Nat → Nat
  | 0, _, _ => 0
  | t + 1, a, b => if (wave^[t] s).fire a b = 1 then t + 1 else lastFire s t a b

/-- After `t` waves, the number of in-bounds neighbours of `(a, b)` that have detonated, and not
earlier than `(a, b)` itself last did: each of them has left an orb in `(a, b)`. -/
def chipsDue (s : ChainReaction) (t a b : Nat) : Int :=
  ind (1 ≤ a ∧ 0 < lastFire s t (a - 1) b ∧ lastFire s t a b ≤ lastFire s t (a - 1) b) +
  ind (a + 1 < s.m ∧ 0 < lastFire s t (a + 1) b ∧ lastFire s t a b ≤ lastFire s t (a + 1) b) +
  ind (1 ≤ b ∧ 0 < lastFire s t a (b - 1) ∧ lastFire s t a b ≤ lastFire s t a (b - 1)) +
  ind (b + 1 < s.n ∧ 0 < lastFire s t a (b + 1) ∧ lastFire s t a b ≤ lastFire s t a (b + 1))

/-- A bound on the number of detonations of a cell at distance `d` from a cell that never
detonated, on a board holding `N` orbs. -/
def fireBound (N : Int) : Nat → Int
  | 0 => 0
  | d + 1 => N + 4 * fireBound N d

/-- A board given by its rows; cells outside the listed rows are empty. -/
def ofRows (m n : Nat) (rows : List (List Cell)) (ai : Bool) : ChainReaction :=
  { m := m, n := n, board := fun i j => (rows.getD i []).getD j { orbs := 0, color := NUL },
    is_ai_vs_ai := ai }

/-- The rows of a board, for comparing boards cell by cell. -/
def toRows (s : ChainReaction) : List (List Cell) :=
  (List.range s.m).map (fun i => (List.range s.n).map (fun j => s.board i j))

end ChainReaction

/-! ## Minimax without pruning (the reference the search is compared with) -/

namespace ChainReaction

/-- The children of a node visited without any cutoff: for every cell in row-major order that is
a legal move of `current_player`, the move is made and resolved on a copy of the board, the
child is valued by `child`, and `pick` (`max` or `min`) folds the value into the best so far. -/
def unpruned_fold (child : ChainReaction → Option Int) (fuel : Nat) (current_player : Char)
    (s : ChainReaction) (pick : Int → Int → Int) : List (Nat × Nat) → Int → Option Int
  | [], best_value => some best_value
  | p :: rest, best_value =>
    if s.is_valid_move p.1 p.2 current_player then
      match process_explosions fuel (s.make_move p.1 p.2 current_player) with
      | none => none
      | some s1 =>
        match child s1 with
        | none => none
        | some v => unpruned_fold child fuel current_player s pick rest (pick best_value v)
    else unpruned_fold child fuel current_player s pick rest best_value

/-- Depth-limited minimax without alpha-beta pruning, following the words of the specification:
the same terminal check, depth limit, move order and evaluator as `minimax`, but every legal
move of every node is searched. `fuel` and `gas` play the same role as in `minimax`. -/
def minimax_unpruned (fuel : Nat) : Nat → Int → Bool → Char → ChainReaction → Option Int
  | gas, depth, is_maximizing, player, s =>
    let winner := s.check_winner
    if winner = 'B' then some (if player = 'B' then 1000 else -1000)
    else if winner = 'R' then some (if player = 'R' then 1000 else -1000)
    else if depth ≥ DEPTH_LIMIT then
      some (if s.is_ai_vs_ai then s.evaluate_board_control else s.evaluate_critical_cells)
    else
      match gas with
      | 0 => none
      | gas + 1 =>
        let current_player := if is_maximizing then player else (if player = 'B' then 'R' else 'B')
        if is_maximizing then
          unpruned_fold (fun t => minimax_unpruned fuel gas (depth + 1) false player t)
            fuel current_player s max (allCells s.m s.n) INT_MIN
        else
          unpruned_fold (fun t => minimax_unpruned fuel gas (depth + 1) true player t)
            fuel current_player s min (allCells s.m s.n) INT_MAX

/-- What the recursive call of a node must satisfy for the node to agree with minimax without
pruning: wherever the unpruned child returns `v` (an `int`), the pruned child returns for every
window, hands back the object, returns an `int`, and on a window `a < b` its value agrees with
`v` once both are clamped to the window. -/
def ChildOK (m n : Nat) (child_ab : Int → Int → ChainReaction → Option (Int × ChainReaction))
    (child_un : ChainReaction → Option Int) : Prop :=
  ∀ t v, t.m = m → t.n = n → child_un t = some v →
    INT_MIN ≤ v ∧ v ≤ INT_MAX ∧ ∀ a b, INT_MIN ≤ a → b ≤ INT_MAX →
      ∃ r, child_ab a b t = some (r, t) ∧ INT_MIN ≤ r ∧ r ≤ INT_MAX ∧
        (a < b → max a (min b r) = max a (min b v))

/-- Loop invariant of a maximizing node entered with the window `(a0, beta)`: `best` and `alpha`
are the loop variables of the pruned search and `vmax` is the best value of the unpruned search
over the same cells. -/
def MaxInv (a0 beta best alpha vmax : Int) : Prop :=
  alpha = max a0 best ∧ INT_MIN ≤ best ∧ best ≤ INT_MAX ∧ INT_MIN ≤ vmax ∧ vmax ≤ INT_MAX ∧
    (a0 < beta → (alpha < beta ∧ alpha = max a0 vmax) ∨ (beta ≤ best ∧ beta ≤ vmax))

/-- Loop invariant of a minimizing node entered with the window `(alpha, b0)`. -/
def MinInv (alpha b0 best beta vmin : Int) : Prop :=
  beta = min b0 best ∧ INT_MIN ≤ best ∧ best ≤ INT_MAX ∧ INT_MIN ≤ vmin ∧ vmin ≤ INT_MAX ∧
    (alpha < b0 → (alpha < beta ∧ beta = min b0 vmin) ∨ (best ≤ alpha ∧ vmin ≤ alpha))

/-- The value `minimax_decision(player)` obtains for the root move `(i, j)`: the move is made and
resolved, then `minimax` is called at depth 0 with the window `(INT_MIN, INT_MAX)`. -/
def root_value (fuel : Nat) (player : Char) (s : ChainReaction) (i j : Nat) : Option Int :=
  match process_explosions fuel (s.make_move i j player) with
  | none => none
  | some s1 =>
    match minimax fuel 3 0 (if player = 'B' then false else true) INT_MIN INT_MAX player s1 with
    | none => none
    | some (value, _) => some value

/-- The value of the root move `(i, j)` under minimax without pruning. -/
def root_value_unpruned (fuel : Nat) (player : Char) (s : ChainReaction) (i j : Nat) :
    Option Int :=
  match process_explosions fuel (s.make_move i j player) with
  | none => none
  | some s1 => minimax_unpruned fuel 3 0 (if player = 'B' then false else true) player s1

/-- The root loop of `minimax_decision` over a list of cells, with every legal move valued by
minimax without pruning; the state is `best_value` and `best_move`. -/
def decision_unpruned_fold (fuel : Nat) (player : Char) (s : ChainReaction) :
    List (Nat × Nat) → Int × (Int × Int) → Option (Int × (Int × Int))
  | [], st => some st
  | p :: rest, (best_value, best_move) =>
    if s.is_valid_move p.1 p.2 player then
      match root_value_unpruned fuel player s p.1 p.2 with
      | none => none
      | some value =>
        if player = 'B' ∧ value > best_value then
          decision_unpruned_fold fuel player s rest (value, ((p.1 : Int), (p.2 : Int)))
        else if player = 'R' ∧ value < best_value then
          decision_unpruned_fold fuel player s rest (value, ((p.1 : Int), (p.2 : Int)))
        else decision_unpruned_fold fuel player s rest (best_value, best_move)
    else decision_unpruned_fold fuel player s rest (best_value, best_move)

/-- The move the root decision retains when every legal move is valued without pruning. -/
def minimax_decision_unpruned (fuel : Nat) (player : Char) (s : ChainReaction) :
    Option (Int × Int) :=
  match decision_unpruned_fold fuel player s (allCells s.m s.n)
      (if player = 'B' then INT_MIN else INT_MAX, (-1, -1)) with
  | none => none
  | some (_, best_move) => some best_move

end ChainReaction

/-! ## Counting cells, owners during a wave, the root loop, textbook alpha-beta -/

/-- The number of cells of an `m × n` board that satisfy `p`. -/
def countCells (m n : Nat) (p : Nat → Nat → Prop) [∀ i j, Decidable (p i j)] : Int :=
  (((Finset.range m ×ˢ Finset.range n).filter (fun c => p c.1 c.2)).card : Int)

namespace ChainReaction

/-- The cell `(i, j)` lies in the first or last row and in the first or last column. -/
def corner (s : ChainReaction) (i j : Nat) : Prop :=
  (i = 0 ∨ i + 1 = s.m) ∧ (j = 0 ∨ j + 1 = s.n)

instance (s : ChainReaction) (i j : Nat) : Decidable (s.corner i j) := by
  unfold corner; infer_instance

/-- The cell `(i, j)` lies in the first or last row or in the first or last column. -/
def on_edge (s : ChainReaction) (i j : Nat) : Prop :=
  i = 0 ∨ i + 1 = s.m ∨ j = 0 ∨ j + 1 = s.n

instance (s : ChainReaction) (i j : Nat) : Decidable (s.on_edge i j) := by
  unfold on_edge; infer_instance

/-- The test of the root loop of `minimax_decision(player)` for replacing `best_value`:
`player == 'B' && value > best_value`, or `player == 'R' && value < best_value`. -/
def improves (player : Char) (value best_value : Int) : Prop :=
  (player = 'B' ∧ value > best_value) ∨ (player = 'R' ∧ value < best_value)

instance (player : Char) (value best_value : Int) :
    Decidable (improves player value best_value) := by
  unfold improves; infer_instance

/-- The root loop of `minimax_decision(player)` over a list of cells when the search values the
root move `(i, j)` at `val i j` (`none` when the search of that move does not return); the state
is `best_value` and `best_move`. -/
def decision_fold (player : Char) (s : ChainReaction) (val : Nat → Nat → Option Int) :
    List (Nat × Nat) → Int × (Int × Int) → Option (Int × (Int × Int))
  | [], st => some st
  | p :: rest, (best_value, best_move) =>
    if s.is_valid_move p.1 p.2 player then
      match val p.1 p.2 with
      | none => none
      | some value =>
        if player = 'B' ∧ value > best_value then
          decision_fold player s val rest (value, ((p.1 : Int), (p.2 : Int)))
        else if player = 'R' ∧ value < best_value then
          decision_fold player s val rest (value, ((p.1 : Int), (p.2 : Int)))
        else decision_fold player s val rest (best_value, best_move)
    else decision_fold player s val rest (best_value, best_move)

/-- A board on which `d` further moves can be resolved: it satisfies the cell invariant and has
a single row or column, or holds fewer orbs than its number of pairs of adjacent cells less
`d`. -/
def Tame (d : Nat) (s : ChainReaction) : Prop :=
  s.CellInv ∧ (s.m ≤ 1 ∨ s.n ≤ 1 ∨ s.orbTotal + (d : Int) < adjacentPairs s.m s.n)

/-- Every critical cell of the board is owned by `P`. -/
def MoverInv (P : Char) (t : ChainReaction) : Prop :=
  ∀ a < t.m, ∀ b < t.n, t.get_critical_mass a b ≤ (t.board a b).orbs → (t.board a b).color = P

/-- The board after the first `r` calls of `explode_cell` of the wave that starts on `t` (the
whole wave when `r` is at least the number of critical cells). -/
def wave_upto (t : ChainReaction) (r : Nat) : ChainReaction :=
  t.explode_all (t.explosions.take r)

/-- The loop of a maximizing node of a textbook alpha-beta search over the cells still to visit,
in row-major order: the first child after which `beta <= alpha` holds ends the whole node, which
returns the best value found up to that point. The loop state is `best_value` and `alpha`. -/
def textbook_max (child : Int → Int → ChainReaction → Option Int) (fuel : Nat)
    (current_player : Char) (beta : Int) (s : ChainReaction) :
    List (Nat × Nat) → Int × Int → Option Int
  | [], (best_value, _) => some best_value
  | p :: rest, (best_value, alpha) =>
    if s.is_valid_move p.1 p.2 current_player then
      match process_explosions fuel (s.make_move p.1 p.2 current_player) with
      | none => none
      | some s1 =>
        match child alpha beta s1 with
        | none => none
        | some v =>
          if beta ≤ max alpha (max best_value v) then some (max best_value v)
          else textbook_max child fuel current_player beta s rest
            (max best_value v, max alpha (max best_value v))
    else textbook_max child fuel current_player beta s rest (best_value, alpha)

/-- The loop of a minimizing node of a textbook alpha-beta search; the loop state is
`best_value` and `beta`. -/
def textbook_min (child : Int → Int → ChainReaction → Option Int) (fuel : Nat)
    (current_player : Char) (alpha : Int) (s : ChainReaction) :
    List (Nat × Nat) → Int × Int → Option Int
  | [], (best_value, _) => some best_value
  | p :: rest, (best_value, beta) =>
    if s.is_valid_move p.1 p.2 current_player then
      match process_explosions fuel (s.make_move p.1 p.2 current_player) with
      | none => none
      | some s1 =>
        match child alpha beta s1 with
        | none => none
        | some v =>
          if min beta (min best_value v) ≤ alpha then some (min best_value v)
          else textbook_min child fuel current_player alpha s rest
            (min best_value v, min beta (min best_value v))
    else textbook_min child fuel current_player alpha s rest (best_value, beta)

/-- A textbook alpha-beta search, following the words of the specification: the terminal check,
depth limit, move order, evaluator and window updates of `minimax`, with a cutoff that stops the
whole node. `fuel` and `gas` play the same role as in `minimax`. -/
def minimax_textbook (fuel : Nat) : Nat → Int → Bool → Int → Int → Char → ChainReaction → Option Int
  | gas, depth, is_maximizing, alpha, beta, player, s =>
    let winner := s.check_winner
    if winner = 'B' then some (if player = 'B' then 1000 else -1000)
    else if winner = 'R' then some (if player = 'R' then 1000 else -1000)
    else if depth ≥ DEPTH_LIMIT then
      some (if s.is_ai_vs_ai then s.evaluate_board_control else s.evaluate_critical_cells)
    else
      match gas with
      | 0 => none
      | gas + 1 =>
        let current_player := if is_maximizing then player else (if player = 'B' then 'R' else 'B')
        if is_maximizing then
          textbook_max (fun a b t => minimax_textbook fuel gas (depth + 1) false a b player t)
            fuel current_player beta s (allCells s.m s.n) (INT_MIN, alpha)
        else
          textbook_min (fun a b t => minimax_textbook fuel gas (depth + 1) true a b player t)
            fuel current_player alpha s (allCells s.m s.n) (INT_MAX, beta)

end ChainReaction

/-! ## Reading the game state file

`read_game_state` of the source, with the text of the file as an explicit argument. The
standard-library calls it makes (`std::getline`, `operator>>`, `std::stoi`) are given by
executable functions on lists of characters. -/

namespace ChainReaction

/-- The lines of a text as successive `std::getline` calls deliver them: the text is cut at
every newline, and a last line without a newline is delivered when it is not empty. `cur` holds
the characters of the line being read, last first. -/
def getlines : List Char → List Char → List (List Char)
  | [], cur => if cur = [] then [] else [cur.reverse]
  | c :: cs, cur => if c = '\n' then cur.reverse :: getlines cs [] else getlines cs (c :: cur)

/-- The C library's `isspace` in the "C" locale: space, tab, newline, vertical tab, form feed
and carriage return. -/
def isspace (c : Char) : Bool :=
  c = ' ' ∨ c = '\t' ∨ c = '\n' ∨ c = Char.ofNat 11 ∨ c = Char.ofNat 12 ∨ c = '\r'

/-- The C library's `isdigit`. -/
def isdigit (c : Char) : Bool := '0' ≤ c ∧ c ≤ '9'

/-- The value of a run of decimal digits. -/
def digits_value (ds : List Char) : Int :=
  ds.foldl (fun acc c => 10 * acc + ((c.toNat : Int) - 48)) 0

/-- The common core of `std::stoi` (which calls `strtol` in base 10) and of `operator>>(int&)`:
leading white space is skipped, then an optional sign and the longest run of decimal digits are
read. The conversion fails when there is no digit or when the value is not an `int`. The
characters after the digits are handed back; they are not an error. -/
def scan_int (cs : List Char) : Option (Int × List Char) :=
  let cs1 := cs.dropWhile isspace
  let cs2 := if cs1.head? = some '-' ∨ cs1.head? = some '+' then cs1.tail else cs1
  let ds := cs2.takeWhile isdigit
  if ds = [] then none
  else
    let v := if cs1.head? = some '-' then - digits_value ds else digits_value ds
    if INT_MIN ≤ v ∧ v ≤ INT_MAX then some (v, cs2.dropWhile isdigit) else none

/-- The standard library's `std::stoi(str)`; `none` stands for a thrown exception
(`std::invalid_argument` or `std::out_of_range`). -/
def stoi (cs : List Char) : Option Int := (scan_int cs).map Prod.fst

/-- The white-space separated words that `while (iss >> cell)` delivers. `cur` holds the
characters of the word being read, last first. -/
def words : List Char → List Char → List (List Char)
  | [], cur => if cur = [] then [] else [cur.reverse]
  | c :: cs, cur =>
    if isspace c then (if cur = [] then words cs [] else cur.reverse :: words cs [])
    else words cs (c :: cur)

/-- The body of the inner loop of `read_game_state` for one token `cells[j]`: the cell that is
stored, or `none` when the function returns `false` at this token. -/
def parse_cell (tok : List Char) : Option Cell :=
  if tok = "0".data then some { orbs := 0, color := NUL }
  else if tok.length < 2 ∨ (tok.getLast? ≠ some 'R' ∧ tok.getLast? ≠ some 'B') then none
  else
    match stoi tok.dropLast with
    | none => none
    | some orbs =>
      if orbs ≤ 0 then none else some { orbs := orbs, color := tok.getLast?.getD NUL }

/-- The loop `for (j ...)` of `read_game_state` over the tokens of row `i`, from column `j` on:
whether every token was accepted, and the board as the loop leaves it. -/
def read_cells (i : Nat) :
    List (List Char) → Nat → (Nat → Nat → Cell) → Bool × (Nat → Nat → Cell)
  | [], _, b => (true, b)
  | tok :: rest, j, b =>
    match parse_cell tok with
    | none => (false, b)
    | some c => read_cells i rest (j + 1) (setCell b i j c)

/-- The loop `for (i ...)` of `read_game_state` over the board lines, from row `i` on: whether
every line was accepted, and the board as the loop leaves it. -/
def read_rows (n : Nat) :
    List (List Char) → Nat → (Nat → Nat → Cell) → Bool × (Nat → Nat → Cell)
  | [], _, b => (true, b)
  | line :: rest, i, b =>
    if (words line []).length ≠ n then (false, b)
    else
      match read_cells i (words line []) 0 b with
      | (false, b1) => (false, b1)
      | (true, b1) => read_rows n rest (i + 1) b1

/-- The first part of `read_game_state`: opening the file, the `Board Size:` line and the two
dimensions. The result is the declared dimensions and the lines after the first, or `none` when
the function returns `false` in this part. `file` is the text of the file, `none` when the file
cannot be opened. -/
def read_size (file : Option String) : Option (Int × Int × List (List Char)) :=
  match file with
  | none => none
  | some text =>
    match getlines text.data [] with
    | [] => none
    | line :: rest =>
      if ¬ ("Board Size:".data.isPrefixOf line) then none
      else
        match scan_int (line.drop 11) with
        | none => none
        | some (new_m, cs) =>
          match scan_int cs with
          | none => none
          | some (new_n, _) =>
            if new_m ≤ 0 ∨ new_n ≤ 0 then none else some (new_m, new_n, rest)

/-- The part of `read_game_state` between the dimensions and the board rows: the header line,
the next-move line and the collection of the non-empty lines that follow, whose number must be
`m`. The result is these lines, or `none` when the function returns `false` in this part. -/
def read_preamble (m : Nat) (rest : List (List Char)) : Option (List (List Char)) :=
  match rest with
  | [] => none
  | header :: rest1 =>
    if header ≠ "Human Move:".data ∧ header ≠ "AI vs AI Move:".data then none
    else
      match rest1 with
      | [] => none
      | next :: rest2 =>
        if next ≠ "Next Move: AI".data ∧ next ≠ "Next Move: AI Red".data ∧
            next ≠ "Next Move: AI Blue".data then none
        else
          let lines := rest2.filter (fun l => ¬ l.isEmpty)
          if lines.length ≠ m then none else some lines

/-- The object after the step `if (new_m != m || new_n != n)` of `read_game_state`: when the
declared dimensions differ from the current ones, they are stored and the board is replaced by
an empty board. -/
def resize (s : ChainReaction) (new_m new_n : Int) : ChainReaction :=
  if new_m ≠ (s.m : Int) ∨ new_n ≠ (s.n : Int) then
    { s with m := new_m.toNat, n := new_n.toNat,
             board := fun _ _ => { orbs := 0, color := NUL } }
  else s

/-- The source's `read_game_state()`: the returned flag and the object as the call leaves it.
`file` is the text of the game state file, `none` when the file cannot be opened. -/
def read_game_state (file : Option String) (s : ChainReaction) : Bool × ChainReaction :=
  match read_size file with
  | none => (false, s)
  | some (new_m, new_n, rest) =>
    match read_preamble (s.resize new_m new_n).m rest with
    | none => (false, s.resize new_m new_n)
    | some lines =>
      ((read_rows (s.resize new_m new_n).n lines 0 (s.resize new_m new_n).board).1,
        { s.resize new_m new_n with
          board := (read_rows (s.resize new_m new_n).n lines 0 (s.resize new_m new_n).board).2 })

end ChainReaction

/-! ## The other evaluators, the game state writer and the AI-vs-AI loop -/

namespace ChainReaction

/-- The source's `evaluate_explosion_potential()`. -/
def evaluate_explosion_potential (s : ChainReaction) : Int :=
  let counts : Int × Int := forCells s.m s.n
    (fun acc i j =>
      if (s.board i j).orbs > 0 then
        let critical := s.get_critical_mass i j
        let closeness := critical - (s.board i j).orbs
        if closeness ≤ 1 ∧ (s.board i j).color = 'B' then (acc.1 + 4, acc.2)
        else if closeness ≤ 1 ∧ (s.board i j).color = 'R' then (acc.1, acc.2 + 4)
        else acc
      else acc) (0, 0)
  counts.1 - counts.2

/-- One iteration of the loop over `directions` in `simulate_chain`, for the detonating cell
`(x, y)`: the state is `temp_board` and `next_explode`. -/
def simulate_step (s : ChainReaction) (x y : Nat) (player : Char)
    (st : (Nat → Nat → Cell) × List (Nat × Nat)) (d : Int × Int) :
    (Nat → Nat → Cell) × List (Nat × Nat) :=
  let ni : Int := (x : Int) + d.1
  let nj : Int := (y : Int) + d.2
  if 0 ≤ ni ∧ ni < (s.m : Int) ∧ 0 ≤ nj ∧ nj < (s.n : Int) then
    let temp_board := setCell st.1 ni.toNat nj.toNat
      { orbs := (st.1 ni.toNat nj.toNat).orbs + 1, color := player }
    if (temp_board ni.toNat nj.toNat).orbs ≥ s.get_critical_mass ni.toNat nj.toNat then
      (temp_board, st.2 ++ [(ni.toNat, nj.toNat)])
    else (temp_board, st.2)
  else st

/-- The body of the loop `for (auto [x, y] : to_explode)` of `simulate_chain`: the state is
`chain_length`, `temp_board` and `next_explode`. -/
def simulate_cell (s : ChainReaction) (player : Char)
    (st : Int × (Nat → Nat → Cell) × List (Nat × Nat)) (p : Nat × Nat) :
    Int × (Nat → Nat → Cell) × List (Nat × Nat) :=
  let chain_length := st.1 + 1
  let critical := s.get_critical_mass p.1 p.2
  let orbs := (st.2.1 p.1 p.2).orbs - critical
  let temp_board := setCell st.2.1 p.1 p.2
    { orbs := orbs, color := if orbs = 0 then NUL else (st.2.1 p.1 p.2).color }
  let r := directions.foldl (simulate_step s p.1 p.2 player) (temp_board, st.2.2)
  (chain_length, r.1, r.2)

/-- The loop `while (!to_explode.empty())` of `simulate_chain`; `fuel` bounds the number of its
passes. The state is `chain_length`, `temp_board` and `to_explode`. -/
def simulate_loop (s : ChainReaction) (player : Char) :
    Nat → Int × (Nat → Nat → Cell) × List (Nat × Nat) → Option Int
  | fuel, (chain_length, temp_board, to_explode) =>
    if to_explode.isEmpty then some chain_length
    else match fuel with
      | 0 => none
      | fuel + 1 =>
        simulate_loop s player fuel
          (to_explode.foldl (simulate_cell s player) (chain_length, temp_board, []))

/-- The source's `simulate_chain(i, j, player)`, which works on the copy `temp_board` and leaves
the object as it is. -/
def simulate_chain (fuel : Nat) (s : ChainReaction) (i j : Nat) (player : Char) : Option Int :=
  simulate_loop s player fuel (0, s.board, [(i, j)])

/-- The body of the loops of `evaluate_chain_length` at the cell `(i, j)`: the state is
`blue_chain` and `red_chain`, `none` when a `simulate_chain` call did not return. -/
def chain_length_step (fuel : Nat) (s : ChainReaction) (acc : Option (Int × Int)) (i j : Nat) :
    Option (Int × Int) :=
  match acc with
  | none => none
  | some (blue_chain, red_chain) =>
    if (s.board i j).orbs > 0 ∧ (s.board i j).orbs ≥ s.get_critical_mass i j then
      match simulate_chain fuel s i j (s.board i j).color with
      | none => none
      | some chain_length =>
        if (s.board i j).color = 'B' then some (blue_chain + chain_length, red_chain)
        else if (s.board i j).color = 'R' then some (blue_chain, red_chain + chain_length)
        else some (blue_chain, red_chain)
    else some (blue_chain, red_chain)

/-- The source's `evaluate_chain_length()`: the returned value together with the object as the
call leaves it (`board = board_copy`). -/
def evaluate_chain_length (fuel : Nat) (s : ChainReaction) : Option (Int × ChainReaction) :=
  let board_copy := s.board
  match forCells s.m s.n (chain_length_step fuel s) (some (0, 0)) with
  | none => none
  | some (blue_chain, red_chain) => some (blue_chain - red_chain, { s with board := board_copy })

/-- The characters that `operator<<(int)` writes: the decimal digits, after a minus sign for a
negative value. -/
def print_int (v : Int) : List Char :=
  if v < 0 then '-' :: Nat.toDigits 10 v.natAbs else Nat.toDigits 10 v.natAbs

/-- What the inner loop of `write_game_state` writes for one cell, without the separator. -/
def write_cell (c : Cell) : List Char :=
  if c.orbs = 0 then "0".data else print_int c.orbs ++ [c.color]

/-- What the loop `for (j ...)` of `write_game_state` writes for row `i`. -/
def write_cells (s : ChainReaction) (i : Nat) : List Char :=
  (List.range s.n).flatMap (fun j =>
    write_cell (s.board i j) ++ (if (j : Int) < (s.n : Int) - 1 then " ".data else []))

/-- What one iteration of the loop `for (i ...)` of `write_game_state` writes. -/
def write_row (s : ChainReaction) (i : Nat) : List Char :=
  write_cells s i ++ "\n".data

/-- The source's `write_game_state(header, next_move)`: the text of the file it writes. -/
def write_game_state (s : ChainReaction) (header next_move : String) : String :=
  String.mk ("Board Size: ".data ++ print_int (s.m : Int) ++ " ".data ++ print_int (s.n : Int) ++
    "\n".data ++ header.data ++ "\n".data ++ "Next Move: ".data ++ next_move.data ++ "\n".data ++
    (List.range s.m).flatMap (write_row s))

/-- The source's `board_to_string()`. -/
def board_to_string (s : ChainReaction) : String :=
  String.mk ((List.range s.m).flatMap (fun i =>
    (List.range s.n).flatMap (fun j =>
      if (s.board i j).orbs = 0 then "0 ".data
      else print_int (s.board i j).orbs ++ [(s.board i j).color] ++ " ".data) ++ "\n".data))

/-- The local variables of `run_ai_vs_ai` together with the object. -/
structure LoopState where
  game : ChainReaction
  current_player : Char
  prev_board : String
  no_progress_count : Int

/-- The four `break` statements of the loop of `run_ai_vs_ai`, in source order: the mode changed,
no progress after two attempts, the check in the forfeit branch, a winner. -/
inductive LoopExit where
  | mode
  | stall
  | forfeit
  | winner
deriving DecidableEq, Repr

/-- One iteration of the loop `while (true)` of `run_ai_vs_ai`. `file` is the text of the game
state file when `read_game_state` opens it. The result is the loop state after the iteration,
the text written to the file if any, and the `break` taken if any; `none` when the search or the
explosions do not finish within `fuel`. -/
def ai_vs_ai_body (fuel : Nat) (file : Option String) (st : LoopState) :
    Option (LoopState × Option String × Option LoopExit) :=
  match read_game_state file st.game with
  | (false, g) => some ({ st with game := g }, none, none)
  | (true, g) =>
    if g.is_ai_vs_ai = false then some ({ st with game := g }, none, some LoopExit.mode)
    else
      let curr_board := g.board_to_string
      let count := if curr_board = st.prev_board then st.no_progress_count + 1 else 0
      if curr_board = st.prev_board ∧ count ≥ 2 then
        some ({ st with game := g, no_progress_count := count }, none, some LoopExit.stall)
      else
        match g.minimax_decision fuel st.current_player with
        | none => none
        | some (best_move, g1) =>
          if best_move.1 = -1 ∧ best_move.2 = -1 then
            let text := g1.write_game_state "AI vs AI Move:"
              (if st.current_player = 'R' then "AI Blue" else "AI Red")
            if count ≥ 2 then
              some ({ game := g1, current_player := st.current_player, prev_board := curr_board,
                      no_progress_count := count }, some text, some LoopExit.forfeit)
            else
              some ({ game := g1, current_player := if st.current_player = 'R' then 'B' else 'R',
                      prev_board := curr_board, no_progress_count := count }, some text, none)
          else
            match (g1.make_move best_move.1.toNat best_move.2.toNat
                st.current_player).process_explosions fuel with
            | none => none
            | some g2 =>
              let text := g2.write_game_state "AI vs AI Move:"
                (if st.current_player = 'R' then "AI Blue" else "AI Red")
              if g2.check_winner ≠ NUL then
                some ({ game := g2, current_player := st.current_player,
                        prev_board := curr_board, no_progress_count := count },
                  some text, some LoopExit.winner)
              else
                some ({ game := g2, current_player := if st.current_player = 'R' then 'B' else 'R',
                        prev_board := curr_board, no_progress_count := count }, some text, none)

/-- The loop `while (true)` of `run_ai_vs_ai` over the successive texts of the game state file,
one for every call of `read_game_state`: the loop state when the texts are used up or a `break`
is taken, with that `break`. -/
def ai_vs_ai_loop (fuel : Nat) : List (Option String) → LoopState →
    Option (LoopState × Option LoopExit)
  | [], st => some (st, none)
  | file :: files, st =>
    match ai_vs_ai_body fuel file st with
    | none => none
    | some (st1, _, some e) => some (st1, some e)
    | some (st1, _, none) => ai_vs_ai_loop fuel files st1

/-- The source's `run_ai_vs_ai()`. -/
def run_ai_vs_ai (fuel : Nat) (files : List (Option String)) (s : ChainReaction) :
    Option (LoopState × Option LoopExit) :=
  ai_vs_ai_loop fuel files
    { game := s, current_player := 'R', prev_board := "", no_progress_count := 0 }

/-- Two objects hold the same board: the same dimensions and, cell for cell, the same orb counts
and owners. -/
def same_board (g h : ChainReaction) : Prop :=
  g.m = h.m ∧ g.n = h.n ∧ ∀ i < g.m, ∀ j < g.n, g.board i j = h.board i j

/-- The board read on the previous poll: the object as the last successful `read_game_state` of
the iterations over `files` left it, `last` when none of them succeeded. -/
def last_board_read (fuel : Nat) :
    List (Option String) → LoopState → Option ChainReaction → Option ChainReaction
  | [], _, last => last
  | file :: files, st, last =>
    match ai_vs_ai_body fuel file st with
    | some (st1, _, none) =>
      last_board_read fuel files st1
        (if (read_game_state file st.game).1 = true then some (read_game_state file st.game).2
          else last)
    | _ => last

end ChainReaction

/-! ## Boards used as concrete instances -/

namespace ChainReaction

/-- A 3 × 3 board whose only orb is one Blue orb in the corner `(0, 0)`. -/
def corner_board : ChainReaction := ofRows 3 3 [[⟨1, 'B'⟩]] false

/-- A 2 × 3 board with two Blue cells in the second row and Red to move. -/
def two_blue_board : ChainReaction :=
  ofRows 2 3 [[⟨0, NUL⟩, ⟨0, NUL⟩, ⟨0, NUL⟩], [⟨1, 'B'⟩, ⟨1, 'B'⟩, ⟨0, NUL⟩]] false

/-- A 2 × 2 board on which every cell holds one Red orb. -/
def all_red_board : ChainReaction :=
  ofRows 2 2 [[⟨1, 'R'⟩, ⟨1, 'R'⟩], [⟨1, 'R'⟩, ⟨1, 'R'⟩]] false

/-- A 1 × 3 board: an empty cell, a cell with one Red orb, a cell with one Blue orb. -/
def red_choice_board : ChainReaction :=
  ofRows 1 3 [[⟨0, NUL⟩, ⟨1, 'R'⟩, ⟨1, 'B'⟩]] false

/-- A 2 × 2 board on which every cell holds one orb, Red and Blue alternating. -/
def full_board : ChainReaction :=
  ofRows 2 2 [[⟨1, 'R'⟩, ⟨1, 'B'⟩], [⟨1, 'B'⟩, ⟨1, 'R'⟩]] false

/-- A 1 × 2 board: a cell with one Red orb and an empty cell. -/
def red_cell_board : ChainReaction := ofRows 1 2 [[⟨1, 'R'⟩, ⟨0, NUL⟩]] false

/-- A game state file for a 1 × 2 board whose second cell token has the suffix `X`. -/
def bad_token_file : String := "Board Size: 1 2\nHuman Move:\nNext Move: AI\n2B 5X\n"

/-- A game state file that declares a 2 × 2 board and has no valid header line. -/
def bad_header_file : String := "Board Size: 2 2\nMove:\nNext Move: AI\n0 0\n0 0\n"

/-- A game state file that declares a 1 × 2 board and has no valid header line. -/
def same_size_bad_header_file : String := "Board Size: 1 2\nMove:\nNext Move: AI\n2B 0\n"

/-- A game state file for a 1 × 2 board whose second cell token is `1x2R`. -/
def letter_in_count_file : String := "Board Size: 1 2\nHuman Move:\nNext Move: AI\n0 1x2R\n"

/-- The empty 2 × 3 board. -/
def empty_board : ChainReaction := ofRows 2 3 [] false

/-- A 2 × 3 board whose first row holds a Blue, a Red and a Blue orb: the board reached from
`empty_board` by the moves Blue `(0, 0)`, Red `(0, 1)`, Blue `(0, 2)`. -/
def late_cut_board : ChainReaction :=
  ofRows 2 3 [[⟨1, 'B'⟩, ⟨1, 'R'⟩, ⟨1, 'B'⟩]] false

/-- A 3 × 3 board with a critical Blue corner `(0, 0)` and a critical Red centre `(1, 1)`. -/
def critical_pair_board : ChainReaction :=
  ofRows 3 3 [[⟨2, 'B'⟩, ⟨0, NUL⟩, ⟨0, NUL⟩], [⟨0, NUL⟩, ⟨4, 'R'⟩, ⟨0, NUL⟩]] false

/-- The empty 1 × 2 board of a game in AI-vs-AI mode. -/
def ai_game_board : ChainReaction := ofRows 1 2 [] true

/-- The game state file of the empty 1 × 2 board in AI-vs-AI mode. -/
def ai_game_file : String := "Board Size: 1 2\nAI vs AI Move:\nNext Move: AI Red\n0 0\n"

/-- A 2 × 2 board whose corner `(0, 0)` holds 4 Blue orbs, two more than its critical mass. -/
def overfull_board : ChainReaction := ofRows 2 2 [[⟨4, 'B'⟩]] false

end ChainReaction

/-! ## Max-Cut heuristics (`Offline 2 Grasp algorithm MaxCut Problem/2105107_maxcut.hpp`)

Conventions of the embedding: `int` values are `Int`; the vertex count `V` is a `Nat`; a
`std::unordered_set<int>` is its membership test `Int → Bool` (the functions modelled use only
`count`, `insert` and `erase`); `std::vector<bool> assigned(V + 1)` is a map `Int → Bool` whose
valid indices are `0 .. V`; a call whose behaviour is undefined in C++ (dereferencing the end
iterator of an empty edge list, an index outside `assigned`) answers `none`; the `while` loop of
`localSearchMaxCut` takes a bound on the number of its passes (`fuel`). -/

namespace MaxCut

/-- The class `Edge`. -/
structure Edge where
  u : Int
  v : Int
  weight : Int
deriving DecidableEq, Repr

/-- The class `Graph`. -/
structure Graph where
  V : Nat
  edges : List Edge

/-- A `std::unordered_set<int>`, given by `count`. -/
abbrev IntSet : Type := Int → Bool

/-- The empty set. -/
def emptySet : IntSet := fun _ => false

/-- The call `S.insert(z)`. -/
def insert (S : IntSet) (z : Int) : IntSet := fun k => if k = z then true else S k

/-- The call `S.erase(z)`. -/
def erase (S : IntSet) (z : Int) : IntSet := fun k => if k = z then false else S k

/-- The values `1, ..., V` of the loop `for (int z = 1; z <= g.V; z++)`. -/
def vertices (g : Graph) : List Int := List.map (fun (k : Nat) => (k : Int) + 1) (List.range g.V)

/-- The source's `Graph::getMaxWeightEdge()`: `std::max_element` with the comparison
`a.weight < b.weight` returns the first edge of greatest weight; `none` on an empty edge list,
where the source dereferences the end iterator. -/
def getMaxWeightEdge (g : Graph) : Option Edge :=
  match g.edges with
  | [] => none
  | e :: es => some (es.foldl (fun largest x => if largest.weight < x.weight then x else largest) e)

/-- The source's `computeCutWeight(g, X, Y)`. The accumulator `weight` is an `int` variable:
every addition is taken with `wrap_int`. -/
def computeCutWeight (g : Graph) (X Y : IntSet) : Int :=
  g.edges.foldl (fun weight e =>
    if (X e.u && Y e.v) || (X e.v && Y e.u) then wrap_int (weight + e.weight) else weight) 0

/-- The loop over the edges in `greedyMaxCut` for the vertex `z`: the state is `wX`, `wY`. -/
def greedy_weights (g : Graph) (X Y : IntSet) (z : Int) : Int × Int :=
  g.edges.foldl (fun (acc : Int × Int) e =>
    let wX1 := if e.u = z ∧ Y e.v = true then acc.1 + e.weight else acc.1
    let wX2 := if e.v = z ∧ Y e.u = true then wX1 + e.weight else wX1
    let wY1 := if e.u = z ∧ X e.v = true then acc.2 + e.weight else acc.2
    let wY2 := if e.v = z ∧ X e.u = true then wY1 + e.weight else wY1
    (wX2, wY2)) (0, 0)

/-- The body of the loop `for (int z = 1; z <= g.V; z++)` of `greedyMaxCut`: the state is `X`,
`Y` and `assigned`. -/
def greedy_step (g : Graph) (st : IntSet × IntSet × (Int → Bool)) (z : Int) :
    IntSet × IntSet × (Int → Bool) :=
  if st.2.2 z = true then st
  else
    let w := greedy_weights g st.1 st.2.1 z
    if w.1 > w.2 then (insert st.1 z, st.2.1, fun k => if k = z then true else st.2.2 k)
    else (st.1, insert st.2.1 z, fun k => if k = z then true else st.2.2 k)

/-- The source's `greedyMaxCut(g)`. -/
def greedyMaxCut (g : Graph) : Option (IntSet × IntSet) :=
  match getMaxWeightEdge g with
  | none => none
  | some maxEdge =>
    if 0 ≤ maxEdge.u ∧ maxEdge.u ≤ (g.V : Int) ∧ 0 ≤ maxEdge.v ∧ maxEdge.v ≤ (g.V : Int) then
      let X := insert emptySet maxEdge.u
      let Y := insert emptySet maxEdge.v
      let assigned : Int → Bool :=
        fun k => if k = maxEdge.v then true else if k = maxEdge.u then true else false
      let r := (vertices g).foldl (greedy_step g) (X, Y, assigned)
      some (r.1, r.2.1)
    else none

/-- The loop over the edges in `localSearchMaxCut` for the vertex `v`: the state is `sigmaS`,
`sigmaSbar`. -/
def local_sigmas (g : Graph) (Y : IntSet) (v : Int) : Int × Int :=
  g.edges.foldl (fun (acc : Int × Int) e =>
    if e.u = v then
      (if Y e.v = true then (acc.1 + e.weight, acc.2) else (acc.1, acc.2 + e.weight))
    else if e.v = v then
      (if Y e.u = true then (acc.1 + e.weight, acc.2) else (acc.1, acc.2 + e.weight))
    else acc) (0, 0)

/-- The body of the loop `for (int v = 1; v <= g.V; v++)` of `localSearchMaxCut`: the state is
`X`, `Y` and `improved`. -/
def local_step (g : Graph) (st : IntSet × IntSet × Bool) (v : Int) : IntSet × IntSet × Bool :=
  if st.1 v = false ∧ st.2.1 v = false then st
  else
    let sg := local_sigmas g st.2.1 v
    if st.1 v = true ∧ sg.2 - sg.1 > 0 then (erase st.1 v, insert st.2.1 v, true)
    else if st.2.1 v = true ∧ sg.1 - sg.2 > 0 then (insert st.1 v, erase st.2.1 v, true)
    else st

/-- The loop `while (improved)` of `localSearchMaxCut`: the state is `X`, `Y`, `improved` and
`iterations`; `fuel` bounds the number of passes. -/
def local_loop (g : Graph) : Nat → IntSet × IntSet × Bool × Int → Option ((IntSet × IntSet) × Int)
  | fuel, (X, Y, improved, iterations) =>
    if improved = true then
      match fuel with
      | 0 => none
      | fuel + 1 =>
        local_loop g fuel
          (((vertices g).foldl (local_step g) (X, Y, false)).1,
            ((vertices g).foldl (local_step g) (X, Y, false)).2.1,
            ((vertices g).foldl (local_step g) (X, Y, false)).2.2, iterations + 1)
    else some ((X, Y), iterations)

/-- The source's `localSearchMaxCut(g, X, Y)`. -/
def localSearchMaxCut (fuel : Nat) (g : Graph) (X Y : IntSet) : Option ((IntSet × IntSet) × Int) :=
  local_loop g fuel (X, Y, true, 0)

/-- The set with the members of the list. -/
def ofList (l : List Int) : IntSet := fun k => decide (k ∈ l)

/-- The partition that has `v` on the other side. -/
def flip (X Y : IntSet) (v : Int) : IntSet × IntSet :=
  if X v = true then (erase X v, insert Y v) else (insert X v, erase Y v)

/-- The sets `X` and `Y` are disjoint and every vertex `1, ..., V` is in one of them. -/
def Splits (g : Graph) (X Y : IntSet) : Prop :=
  (∀ k, ¬ (X k = true ∧ Y k = true)) ∧
    ∀ k, 1 ≤ k → k ≤ (g.V : Int) → (X k = true ∨ Y k = true)

/-- What the edge `e` adds to `computeCutWeight(g, X, Y)`. -/
def cut_term (X Y : IntSet) (e : Edge) : Int :=
  if ((X e.u && Y e.v) || (X e.v && Y e.u)) = true then e.weight else 0

/-- What the edge `e` adds to `sigmaSbar - sigmaS` in `localSearchMaxCut` for the vertex `v`. -/
def gain_term (Y : IntSet) (v : Int) (e : Edge) : Int :=
  if e.u = v then (if Y e.v = true then - e.weight else e.weight)
  else if e.v = v then (if Y e.u = true then - e.weight else e.weight)
  else 0

/-- The sum of the absolute values of the edge weights. -/
def total_weight (g : Graph) : Int :=
  (g.edges.map (fun e => if 0 ≤ e.weight then e.weight else - e.weight)).sum

/-- A triangle on the vertices 1, 2, 3 with the weights 5, 3 and 4. -/
def triangle : Graph := { V := 3, edges := [⟨1, 2, 5⟩, ⟨2, 3, 3⟩, ⟨1, 3, 4⟩] }

end MaxCut


/-! ## Loops over the board -/

theorem forCells_eq_foldl {σ : Type} (m n : Nat) (f : σ → Nat → Nat → σ) (init : σ) :
    forCells m n f init = (allCells m n).foldl (fun acc p => f acc p.1 p.2) init := by
  unfold forCells allCells
  generalize List.range m = rows
  induction rows generalizing init with
  | nil => rfl
  | cons i rest ih =>
    simp only [List.foldl_cons, List.flatMap_cons, List.foldl_append, List.foldl_map]
    exact ih _

theorem mem_allCells {m n i j : Nat} : (i, j) ∈ allCells m n ↔ i < m ∧ j < n := by
  simp [allCells, List.mem_flatMap, List.mem_map, List.mem_range]

theorem nodup_allCells (m n : Nat) : (allCells m n).Nodup := by
  unfold allCells
  rw [List.nodup_flatMap]
  refine ⟨fun i _ => (List.nodup_range n).map (fun a b h => by simpa using h), ?_⟩
  refine (List.nodup_range m).pairwise_of_forall_ne ?_
  intro a _ b _ hab
  simp only [Function.onFun, List.disjoint_left, List.mem_map, List.mem_range]
  rintro ⟨x, y⟩ ⟨_, _, h1⟩ ⟨_, _, h2⟩
  simp only [Prod.mk.injEq] at h1 h2
  omega

theorem foldl_filter_append {α : Type} (p : α → Bool) (l : List α) (acc : List α) :
    l.foldl (fun acc x => if p x then acc ++ [x] else acc) acc = acc ++ l.filter p := by
  induction l generalizing acc with
  | nil => simp
  | cons x xs ih =>
    simp only [List.foldl_cons, List.filter_cons]
    rw [ih]
    by_cases h : p x <;> simp [h]

namespace ChainReaction

/-! ## The explosion resolver -/

theorem explosions_eq_filter (s : ChainReaction) :
    s.explosions = (allCells s.m s.n).filter
      (fun p => decide ((s.board p.1 p.2).orbs ≥ s.get_critical_mass p.1 p.2)) := by
  unfold explosions
  rw [forCells_eq_foldl]
  have := foldl_filter_append
    (fun p : Nat × Nat => decide ((s.board p.1 p.2).orbs ≥ s.get_critical_mass p.1 p.2))
    (allCells s.m s.n) []
  simpa using this

theorem mem_explosions {s : ChainReaction} {i j : Nat} :
    (i, j) ∈ s.explosions ↔ i < s.m ∧ j < s.n ∧ s.get_critical_mass i j ≤ (s.board i j).orbs := by
  rw [explosions_eq_filter, List.mem_filter, mem_allCells]
  simp [and_assoc]

theorem nodup_explosions (s : ChainReaction) : s.explosions.Nodup := by
  rw [explosions_eq_filter]
  exact (nodup_allCells _ _).filter _

theorem explosions_eq_nil_iff (s : ChainReaction) : s.explosions = [] ↔ s.stable := by
  rw [List.eq_nil_iff_forall_not_mem]
  constructor
  · intro h i hi j hj
    have := h (i, j)
    rw [mem_explosions] at this
    omega
  · rintro h ⟨i, j⟩ hmem
    rw [mem_explosions] at hmem
    have := h i hmem.1 j hmem.2.1
    omega

theorem explode_cell_m (s : ChainReaction) (i j : Nat) : (s.explode_cell i j).m = s.m := rfl

theorem explode_cell_n (s : ChainReaction) (i j : Nat) : (s.explode_cell i j).n = s.n := rfl

theorem explode_cell_mode (s : ChainReaction) (i j : Nat) :
    (s.explode_cell i j).is_ai_vs_ai = s.is_ai_vs_ai := rfl

theorem explode_cell_mass (s : ChainReaction) (i j a b : Nat) :
    (s.explode_cell i j).get_critical_mass a b = s.get_critical_mass a b := rfl

theorem explode_step_apply (m n i j : Nat) (p : Char) (b : Nat → Nat → Cell) (d : Int × Int)
    (a k : Nat) :
    explode_step m n i j p b d a k =
      if (0 ≤ (i : Int) + d.1 ∧ (i : Int) + d.1 < (m : Int) ∧ 0 ≤ (j : Int) + d.2 ∧
          (j : Int) + d.2 < (n : Int)) ∧ a = ((i : Int) + d.1).toNat ∧ k = ((j : Int) + d.2).toNat
      then { orbs := (b a k).orbs + 1, color := p } else b a k := by
  unfold explode_step
  by_cases h : 0 ≤ (i : Int) + d.1 ∧ (i : Int) + d.1 < (m : Int) ∧ 0 ≤ (j : Int) + d.2 ∧
      (j : Int) + d.2 < (n : Int)
  · simp only [h, and_self, if_true, setCell, true_and]
    by_cases h2 : a = ((i : Int) + d.1).toNat ∧ k = ((j : Int) + d.2).toNat
    · rw [if_pos h2, if_pos h2, h2.1, h2.2]
    · rw [if_neg h2, if_neg h2]
  · simp only [h, if_false, false_and]

/-- What `explode_cell(i, j)` leaves in each cell: an in-bounds orthogonal neighbour gains one orb
and takes the colour of `(i, j)`; the cell `(i, j)` loses its critical mass and is cleared when it
reaches zero; every other cell is untouched. -/
theorem explode_cell_board (s : ChainReaction) (i j a b : Nat) :
    (s.explode_cell i j).board a b =
      if adj a b i j ∧ a < s.m ∧ b < s.n then
        { orbs := (s.board a b).orbs + 1, color := (s.board i j).color }
      else if a = i ∧ b = j then
        { orbs := (s.board i j).orbs - s.get_critical_mass i j,
          color := if (s.board i j).orbs - s.get_critical_mass i j = 0 then NUL
            else (s.board i j).color }
      else s.board a b := by
  have h1 : ((0 ≤ (i : Int) + (-1) ∧ (i : Int) + (-1) < (s.m : Int) ∧ 0 ≤ (j : Int) + 0 ∧
      (j : Int) + 0 < (s.n : Int)) ∧ a = ((i : Int) + (-1)).toNat ∧ b = ((j : Int) + 0).toNat) ↔
      ((a + 1 = i ∧ b = j) ∧ a < s.m ∧ b < s.n) := by omega
  have h2 : ((0 ≤ (i : Int) + 1 ∧ (i : Int) + 1 < (s.m : Int) ∧ 0 ≤ (j : Int) + 0 ∧
      (j : Int) + 0 < (s.n : Int)) ∧ a = ((i : Int) + 1).toNat ∧ b = ((j : Int) + 0).toNat) ↔
      ((a = i + 1 ∧ b = j) ∧ a < s.m ∧ b < s.n) := by omega
  have h3 : ((0 ≤ (i : Int) + 0 ∧ (i : Int) + 0 < (s.m : Int) ∧ 0 ≤ (j : Int) + (-1) ∧
      (j : Int) + (-1) < (s.n : Int)) ∧ a = ((i : Int) + 0).toNat ∧ b = ((j : Int) + (-1)).toNat) ↔
      ((a = i ∧ b + 1 = j) ∧ a < s.m ∧ b < s.n) := by omega
  have h4 : ((0 ≤ (i : Int) + 0 ∧ (i : Int) + 0 < (s.m : Int) ∧ 0 ≤ (j : Int) + 1 ∧
      (j : Int) + 1 < (s.n : Int)) ∧ a = ((i : Int) + 0).toNat ∧ b = ((j : Int) + 1).toNat) ↔
      ((a = i ∧ b = j + 1) ∧ a < s.m ∧ b < s.n) := by omega
  simp only [explode_cell, directions, List.foldl_cons, List.foldl_nil, explode_step_apply,
    h1, h2, h3, h4, setCell, adj]
  by_cases c1 : (a + 1 = i ∧ b = j) ∧ a < s.m ∧ b < s.n
  · have e2 : ¬ ((a = i + 1 ∧ b = j) ∧ a < s.m ∧ b < s.n) := by omega
    have e3 : ¬ ((a = i ∧ b + 1 = j) ∧ a < s.m ∧ b < s.n) := by omega
    have e4 : ¬ ((a = i ∧ b = j + 1) ∧ a < s.m ∧ b < s.n) := by omega
    have e5 : ¬ (a = i ∧ b = j) := by omega
    have e6 : ((a + 1 = i ∧ b = j) ∨ (a = i + 1 ∧ b = j) ∨ (a = i ∧ b + 1 = j) ∨
      (a = i ∧ b = j + 1)) ∧ a < s.m ∧ b < s.n := by omega
    rw [if_neg e4, if_neg e3, if_neg e2, if_pos c1, if_neg e5, if_pos e6]
  · rw [if_neg c1]
    by_cases c2 : (a = i + 1 ∧ b = j) ∧ a < s.m ∧ b < s.n
    · have e3 : ¬ ((a = i ∧ b + 1 = j) ∧ a < s.m ∧ b < s.n) := by omega
      have e4 : ¬ ((a = i ∧ b = j + 1) ∧ a < s.m ∧ b < s.n) := by omega
      have e5 : ¬ (a = i ∧ b = j) := by omega
      have e6 : ((a + 1 = i ∧ b = j) ∨ (a = i + 1 ∧ b = j) ∨ (a = i ∧ b + 1 = j) ∨
        (a = i ∧ b = j + 1)) ∧ a < s.m ∧ b < s.n := by omega
      rw [if_neg e4, if_neg e3, if_pos c2, if_neg e5, if_pos e6]
    · rw [if_neg c2]
      by_cases c3 : (a = i ∧ b + 1 = j) ∧ a < s.m ∧ b < s.n
      · have e4 : ¬ ((a = i ∧ b = j + 1) ∧ a < s.m ∧ b < s.n) := by omega
        have e5 : ¬ (a = i ∧ b = j) := by omega
        have e6 : ((a + 1 = i ∧ b = j) ∨ (a = i + 1 ∧ b = j) ∨ (a = i ∧ b + 1 = j) ∨
          (a = i ∧ b = j + 1)) ∧ a < s.m ∧ b < s.n := by omega
        rw [if_neg e4, if_pos c3, if_neg e5, if_pos e6]
      · rw [if_neg c3]
        by_cases c4 : (a = i ∧ b = j + 1) ∧ a < s.m ∧ b < s.n
        · have e5 : ¬ (a = i ∧ b = j) := by omega
          have e6 : ((a + 1 = i ∧ b = j) ∨ (a = i + 1 ∧ b = j) ∨ (a = i ∧ b + 1 = j) ∨
            (a = i ∧ b = j + 1)) ∧ a < s.m ∧ b < s.n := by omega
          rw [if_pos c4, if_neg e5, if_pos e6]
        · have e6 : ¬ (((a + 1 = i ∧ b = j) ∨ (a = i + 1 ∧ b = j) ∨ (a = i ∧ b + 1 = j) ∨
            (a = i ∧ b = j + 1)) ∧ a < s.m ∧ b < s.n) := by omega
          rw [if_neg c4, if_neg e6]

theorem explode_all_m (s : ChainReaction) (l : List (Nat × Nat)) : (s.explode_all l).m = s.m := by
  induction l generalizing s with
  | nil => rfl
  | cons p ps ih => simp only [explode_all, List.foldl_cons] at ih ⊢; rw [ih]; rfl

theorem explode_all_n (s : ChainReaction) (l : List (Nat × Nat)) : (s.explode_all l).n = s.n := by
  induction l generalizing s with
  | nil => rfl
  | cons p ps ih => simp only [explode_all, List.foldl_cons] at ih ⊢; rw [ih]; rfl

theorem explode_all_mode (s : ChainReaction) (l : List (Nat × Nat)) :
    (s.explode_all l).is_ai_vs_ai = s.is_ai_vs_ai := by
  induction l generalizing s with
  | nil => rfl
  | cons p ps ih => simp only [explode_all, List.foldl_cons] at ih ⊢; rw [ih]; rfl

theorem wave_m (s : ChainReaction) : s.wave.m = s.m := explode_all_m _ _

theorem wave_n (s : ChainReaction) : s.wave.n = s.n := explode_all_n _ _

theorem wave_mode (s : ChainReaction) : s.wave.is_ai_vs_ai = s.is_ai_vs_ai := explode_all_mode _ _

theorem wave_of_stable {s : ChainReaction} (h : s.stable) : s.wave = s := by
  unfold wave
  rw [(explosions_eq_nil_iff s).mpr h]
  rfl

theorem iterate_wave_m (s : ChainReaction) (k : Nat) : (wave^[k] s).m = s.m := by
  induction k generalizing s with
  | zero => rfl
  | succ k ih => rw [Function.iterate_succ_apply, ih, wave_m]

theorem iterate_wave_n (s : ChainReaction) (k : Nat) : (wave^[k] s).n = s.n := by
  induction k generalizing s with
  | zero => rfl
  | succ k ih => rw [Function.iterate_succ_apply, ih, wave_n]

theorem process_explosions_of_stable {s : ChainReaction} (h : s.stable) (fuel : Nat) :
    process_explosions fuel s = some s := by
  have he : s.explosions.isEmpty = true := by
    rw [List.isEmpty_iff]; exact (explosions_eq_nil_iff s).mpr h
  cases fuel <;> simp [process_explosions, he]

theorem process_explosions_zero_of_not_stable {s : ChainReaction} (h : ¬ s.stable) :
    process_explosions 0 s = none := by
  have he : ¬ (s.explosions.isEmpty = true) := by
    rw [List.isEmpty_iff]; exact fun e => h ((explosions_eq_nil_iff s).mp e)
  simp [process_explosions, he]

theorem process_explosions_succ_of_not_stable {s : ChainReaction} (h : ¬ s.stable) (fuel : Nat) :
    process_explosions (fuel + 1) s = process_explosions fuel s.wave := by
  have he : ¬ (s.explosions.isEmpty = true) := by
    rw [List.isEmpty_iff]; exact fun e => h ((explosions_eq_nil_iff s).mp e)
  simp [process_explosions, he]

/-- A returned board is reached by finitely many waves and is stable. -/
theorem process_explosions_some {fuel : Nat} {s t : ChainReaction}
    (h : process_explosions fuel s = some t) : ∃ k ≤ fuel, t = wave^[k] s ∧ t.stable := by
  induction fuel generalizing s with
  | zero =>
    by_cases hs : s.stable
    · rw [process_explosions_of_stable hs] at h
      exact ⟨0, le_refl _, by simpa using h.symm, by cases h; exact hs⟩
    · rw [process_explosions_zero_of_not_stable hs] at h; cases h
  | succ fuel ih =>
    by_cases hs : s.stable
    · rw [process_explosions_of_stable hs] at h
      exact ⟨0, Nat.zero_le _, by simpa using h.symm, by cases h; exact hs⟩
    · rw [process_explosions_succ_of_not_stable hs] at h
      obtain ⟨k, hk, ht, hst⟩ := ih h
      exact ⟨k + 1, by omega, by rw [Function.iterate_succ_apply]; exact ht, hst⟩

/-- If some number of waves reaches a stable board, the resolver returns with that much fuel. -/
theorem process_explosions_of_iterate {s : ChainReaction} (k : Nat) (h : (wave^[k] s).stable)
    (fuel : Nat) (hf : k ≤ fuel) : ∃ t, process_explosions fuel s = some t := by
  induction k generalizing s fuel with
  | zero => exact ⟨s, process_explosions_of_stable h fuel⟩
  | succ k ih =>
    by_cases hs : s.stable
    · exact ⟨s, process_explosions_of_stable hs fuel⟩
    · obtain ⟨f, rfl⟩ : ∃ f, fuel = f + 1 := ⟨fuel - 1, by omega⟩
      rw [process_explosions_succ_of_not_stable hs]
      rw [Function.iterate_succ_apply] at h
      exact ih h f (by omega)

theorem process_explosions_m {fuel : Nat} {s t : ChainReaction}
    (h : process_explosions fuel s = some t) : t.m = s.m := by
  obtain ⟨k, _, rfl, _⟩ := process_explosions_some h
  exact iterate_wave_m s k

theorem process_explosions_n {fuel : Nat} {s t : ChainReaction}
    (h : process_explosions fuel s = some t) : t.n = s.n := by
  obtain ⟨k, _, rfl, _⟩ := process_explosions_some h
  exact iterate_wave_n s k

end ChainReaction

namespace ChainReaction

/-! ## The cell invariant -/

theorem two_le_mass (s : ChainReaction) (i j : Nat) : 2 ≤ s.get_critical_mass i j := by
  unfold get_critical_mass; split_ifs <;> omega

theorem mass_le_four (s : ChainReaction) (i j : Nat) : s.get_critical_mass i j ≤ 4 := by
  unfold get_critical_mass; split_ifs <;> omega

theorem make_move_m (s : ChainReaction) (i j : Nat) (p : Char) : (s.make_move i j p).m = s.m := rfl

theorem make_move_n (s : ChainReaction) (i j : Nat) (p : Char) : (s.make_move i j p).n = s.n := rfl

theorem make_move_board (s : ChainReaction) (i j : Nat) (p : Char) (a b : Nat) :
    (s.make_move i j p).board a b =
      if a = i ∧ b = j then { orbs := (s.board i j).orbs + 1, color := p } else s.board a b := rfl

theorem NUL_ne_R : ¬ ('R' = NUL) := by decide

theorem NUL_ne_B : ¬ ('B' = NUL) := by decide

theorem make_move_inv {s : ChainReaction} (h : s.CellInv) (i j : Nat) {p : Char}
    (hp : p = 'R' ∨ p = 'B') : (s.make_move i j p).CellInv := by
  intro a ha b hb
  have := h a ha b hb
  rw [make_move_board]
  by_cases c : a = i ∧ b = j
  · rw [if_pos c]
    obtain ⟨rfl, rfl⟩ := c
    have hne : ¬ (p = NUL) := by rcases hp with rfl | rfl <;> decide
    refine ⟨by simp only; omega, ?_, Or.inr hp⟩
    simp only
    constructor
    · intro h0; omega
    · intro h0; exact absurd h0 hne
  · rw [if_neg c]; exact this

theorem waveInv_step {t : ChainReaction} {p : Nat × Nat} {l : List (Nat × Nat)}
    (h : WaveInv t (p :: l)) : WaveInv (t.explode_cell p.1 p.2) l := by
  obtain ⟨hinv, hnd, hcrit⟩ := h
  obtain ⟨i, j⟩ := p
  have hp := hcrit (i, j) (List.mem_cons_self _ _)
  simp only at hp
  have hsrc := hinv i hp.1 j hp.2.1
  have h2 := two_le_mass t i j
  have hcol : ¬ ((t.board i j).color = NUL) := fun e => by
    have := hsrc.2.1.mpr e; omega
  have hcolRB : (t.board i j).color = 'R' ∨ (t.board i j).color = 'B' := by
    rcases hsrc.2.2 with e | e
    · exact absurd e hcol
    · exact e
  refine ⟨?_, (List.nodup_cons.mp hnd).2, ?_⟩
  · intro a ha b hb
    rw [explode_cell_m] at ha
    rw [explode_cell_n] at hb
    have hab := hinv a ha b hb
    rw [explode_cell_board]
    by_cases c1 : adj a b i j ∧ a < t.m ∧ b < t.n
    · rw [if_pos c1]
      refine ⟨by simp only; omega, ?_, Or.inr hcolRB⟩
      simp only
      constructor
      · intro h0; omega
      · intro h0; exact absurd h0 hcol
    · rw [if_neg c1]
      by_cases c2 : a = i ∧ b = j
      · rw [if_pos c2]
        refine ⟨by simp only; omega, ?_, ?_⟩
        · simp only
          by_cases z : (t.board i j).orbs - t.get_critical_mass i j = 0
          · simp [z]
          · simp [z, hcol]
        · simp only
          by_cases z : (t.board i j).orbs - t.get_critical_mass i j = 0
          · simp [z]
          · simp only [z, if_false]; exact Or.inr hcolRB
      · rw [if_neg c2]; exact hab
  · rintro ⟨a, b⟩ hq
    have hq' := hcrit (a, b) (List.mem_cons_of_mem _ hq)
    simp only at hq'
    have hne : ¬ (a = i ∧ b = j) := by
      rintro ⟨rfl, rfl⟩
      exact (List.nodup_cons.mp hnd).1 hq
    refine ⟨hq'.1, hq'.2.1, ?_⟩
    simp only
    rw [explode_cell_mass, explode_cell_board]
    by_cases c1 : adj a b i j ∧ a < t.m ∧ b < t.n
    · rw [if_pos c1]; simp only; omega
    · rw [if_neg c1, if_neg hne]; exact hq'.2.2

theorem waveInv_take {t : ChainReaction} {l : List (Nat × Nat)} (h : WaveInv t l) (k : Nat) :
    (t.explode_all (l.take k)).CellInv := by
  induction l generalizing t k with
  | nil => simpa [explode_all] using h.1
  | cons p ps ih =>
    cases k with
    | zero => simpa [explode_all] using h.1
    | succ k =>
      simp only [List.take_succ_cons, explode_all, List.foldl_cons]
      exact ih (waveInv_step h) k

theorem waveInv_explosions {s : ChainReaction} (h : s.CellInv) : WaveInv s s.explosions :=
  ⟨h, nodup_explosions s, fun p hp => by
    obtain ⟨i, j⟩ := p
    exact mem_explosions.mp hp⟩

theorem wave_inv {s : ChainReaction} (h : s.CellInv) : s.wave.CellInv := by
  have := waveInv_take (waveInv_explosions h) s.explosions.length
  rwa [List.take_length] at this

theorem iterate_wave_inv {s : ChainReaction} (h : s.CellInv) (k : Nat) : (wave^[k] s).CellInv := by
  induction k generalizing s with
  | zero => exact h
  | succ k ih => rw [Function.iterate_succ_apply]; exact ih (wave_inv h)

end ChainReaction

namespace ChainReaction

/-! ## Claims about the resolver -/

/-- C1. Whenever `process_explosions` returns, the returned board is stable: it has the
dimensions of the starting board and none of its cells has `orbs >= get_critical_mass`. This
holds for every starting board and every bound on the number of waves. -/
theorem process_explosions_returns_stable (fuel : Nat) (s t : ChainReaction)
    (h : process_explosions fuel s = some t) :
    t.m = s.m ∧ t.n = s.n ∧
      ∀ i < s.m, ∀ j < s.n, ¬ ((t.board i j).orbs ≥ t.get_critical_mass i j) := by
  obtain ⟨k, _, rfl, hst⟩ := process_explosions_some h
  refine ⟨iterate_wave_m s k, iterate_wave_n s k, ?_⟩
  intro i hi j hj
  have := hst i (by rw [iterate_wave_m]; exact hi) j (by rw [iterate_wave_n]; exact hj)
  omega

/-- C1, instance: a second Blue orb on the corner of `corner_board` is resolved in one wave and
the board returned is stable. -/
theorem process_explosions_returns_stable_witness :
    process_explosions 5 (corner_board.make_move 0 0 'B') = some (corner_board.make_move 0 0 'B').wave ∧
      ((corner_board.make_move 0 0 'B').wave.m = 3 ∧ (corner_board.make_move 0 0 'B').wave.n = 3 ∧
        ∀ i < 3, ∀ j < 3, ¬ (((corner_board.make_move 0 0 'B').wave.board i j).orbs ≥
          (corner_board.make_move 0 0 'B').wave.get_critical_mass i j)) :=
  ⟨rfl, process_explosions_returns_stable 5 (corner_board.make_move 0 0 'B') _ rfl⟩

/-- C3. The cell invariant (no negative orb count, `orbs == 0` exactly when the cell has no owner,
every owner Red or Blue) is preserved by a move followed by resolution: if it holds on a board,
then it holds after `make_move(i, j, player)` for `player` Red or Blue, it holds after each
`explode_cell` call of each wave of `process_explosions` (the board after the first `t` calls of
the wave number `k`), and it holds on the board `process_explosions` returns. The invariant
carries `0 <= orbs`, so no orb count becomes negative. The legality of the move is not needed. -/
theorem cell_invariant_preserved (s : ChainReaction) (i j : Nat) (player : Char)
    (hinv : s.CellInv) (hp : player = 'R' ∨ player = 'B') :
    (s.make_move i j player).CellInv ∧
      (∀ k t : Nat, ((wave^[k] (s.make_move i j player)).explode_all
        ((wave^[k] (s.make_move i j player)).explosions.take t)).CellInv) ∧
      (∀ (fuel : Nat) (r : ChainReaction),
        process_explosions fuel (s.make_move i j player) = some r → r.CellInv) := by
  have h1 := make_move_inv hinv i j hp
  refine ⟨h1, ?_, ?_⟩
  · intro k t
    exact waveInv_take (waveInv_explosions (iterate_wave_inv h1 k)) t
  · intro fuel r hr
    obtain ⟨k, _, rfl, _⟩ := process_explosions_some hr
    exact iterate_wave_inv h1 k

/-- C3, instance: `corner_board` satisfies the invariant, and so does the board returned after a
second Blue orb is placed on its corner. -/
theorem cell_invariant_preserved_witness :
    corner_board.CellInv ∧ (corner_board.make_move 0 0 'B').wave.CellInv :=
  ⟨by decide, (cell_invariant_preserved corner_board 0 0 'B' (by decide) (Or.inr rfl)).2.2 5 _ rfl⟩

/-- C4. Resolution is idempotent at a fixed point: on a board with no critical cell
`process_explosions` returns that very board whatever the bound on waves (also with no wave
allowed), so running it again on its own result changes nothing; and for any starting board the
board returned by one run is returned unchanged by a second run. -/
theorem process_explosions_fixed_point (s : ChainReaction)
    (hs : ∀ i < s.m, ∀ j < s.n, (s.board i j).orbs < s.get_critical_mass i j) :
    (∀ fuel, process_explosions fuel s = some s) ∧
      (∀ f1 f2, (process_explosions f1 s).bind (process_explosions f2) = process_explosions f1 s) ∧
      (∀ (u t : ChainReaction) (f1 f2 : Nat), process_explosions f1 u = some t →
        process_explosions f2 t = some t) := by
  have h1 : ∀ fuel, process_explosions fuel s = some s := process_explosions_of_stable hs
  refine ⟨h1, ?_, ?_⟩
  · intro f1 f2
    rw [h1 f1, Option.some_bind, h1 f2]
  · intro u t f1 f2 h
    obtain ⟨k, _, _, hst⟩ := process_explosions_some h
    exact process_explosions_of_stable hst f2

/-- C4, instance: `two_blue_board` has no critical cell. -/
theorem process_explosions_fixed_point_witness :
    (∀ i < two_blue_board.m, ∀ j < two_blue_board.n,
        (two_blue_board.board i j).orbs < two_blue_board.get_critical_mass i j) ∧
      (∀ fuel, process_explosions fuel two_blue_board = some two_blue_board) :=
  ⟨by decide, (process_explosions_fixed_point two_blue_board (by decide)).1⟩

end ChainReaction

/-! ## The winner check -/

theorem foldl_range_pair_sum (n : Nat) (f g : Nat → Int) (a b : Int) :
    (List.range n).foldl (fun (acc : Int × Int) j => (acc.1 + f j, acc.2 + g j)) (a, b) =
      (a + ∑ j in Finset.range n, f j, b + ∑ j in Finset.range n, g j) := by
  induction n with
  | zero => simp
  | succ n ih =>
    rw [List.range_succ, List.foldl_append, ih]
    simp only [List.foldl_cons, List.foldl_nil, Finset.sum_range_succ]
    ext <;> simp only <;> ring

theorem forCells_pair_sum (m n : Nat) (f g : Nat → Nat → Int) (a b : Int) :
    forCells m n (fun (acc : Int × Int) i j => (acc.1 + f i j, acc.2 + g i j)) (a, b) =
      (a + sumCells m n f, b + sumCells m n g) := by
  unfold forCells sumCells
  induction m with
  | zero => simp
  | succ m ih =>
    rw [List.range_succ, List.foldl_append, ih]
    simp only [List.foldl_cons, List.foldl_nil, Finset.sum_range_succ]
    rw [foldl_range_pair_sum]
    ext <;> simp only <;> ring

theorem sumCells_congr {m n : Nat} {f g : Nat → Nat → Int}
    (h : ∀ i < m, ∀ j < n, f i j = g i j) : sumCells m n f = sumCells m n g := by
  unfold sumCells
  refine Finset.sum_congr rfl (fun i hi => Finset.sum_congr rfl (fun j hj => ?_))
  exact h i (Finset.mem_range.mp hi) j (Finset.mem_range.mp hj)

theorem sumCells_add (m n : Nat) (f g : Nat → Nat → Int) :
    sumCells m n (fun i j => f i j + g i j) = sumCells m n f + sumCells m n g := by
  unfold sumCells
  simp only [Finset.sum_add_distrib]

theorem sumCells_nonneg {m n : Nat} {f : Nat → Nat → Int} (h : ∀ i < m, ∀ j < n, 0 ≤ f i j) :
    0 ≤ sumCells m n f := by
  unfold sumCells
  refine Finset.sum_nonneg (fun i hi => Finset.sum_nonneg (fun j hj => ?_))
  exact h i (Finset.mem_range.mp hi) j (Finset.mem_range.mp hj)

theorem wrap_int_of_range {x : Int} (h1 : INT_MIN ≤ x) (h2 : x ≤ INT_MAX) : wrap_int x = x := by
  unfold wrap_int
  unfold INT_MIN at h1
  unfold INT_MAX at h2
  omega

theorem list_sum_range_map (n : Nat) (f : Nat → Int) :
    ((List.range n).map f).sum = ∑ j in Finset.range n, f j := by
  induction n with
  | zero => rfl
  | succ n ih =>
    rw [List.range_succ, List.map_append, List.sum_append, ih, Finset.sum_range_succ]
    simp

theorem sum_allCells (m n : Nat) (f : Nat → Nat → Int) :
    ((allCells m n).map (fun p => f p.1 p.2)).sum = sumCells m n f := by
  unfold allCells sumCells
  induction m with
  | zero => rfl
  | succ m ih =>
    rw [List.range_succ, List.flatMap_append, List.map_append, List.sum_append, ih,
      Finset.sum_range_succ]
    simp only [List.flatMap_cons, List.flatMap_nil, List.append_nil, List.map_map]
    rw [← list_sum_range_map]
    rfl

/-- Two `int` counters that only grow and end within the range of an `int` never wrap. -/
theorem foldl_wrap_pair {α : Type} (c d : α → Prop) [DecidablePred c] [DecidablePred d]
    (w : α → Int) (hc : ∀ a, c a → 0 ≤ w a) (hd : ∀ a, d a → 0 ≤ w a) :
    ∀ (l : List α) (acc : Int × Int), 0 ≤ acc.1 → 0 ≤ acc.2 →
      acc.1 + (l.map (fun a => if c a then w a else 0)).sum ≤ INT_MAX →
      acc.2 + (l.map (fun a => if d a then w a else 0)).sum ≤ INT_MAX →
      l.foldl (fun (acc : Int × Int) a =>
        (if c a then wrap_int (acc.1 + w a) else acc.1,
         if d a then wrap_int (acc.2 + w a) else acc.2)) acc =
        (acc.1 + (l.map (fun a => if c a then w a else 0)).sum,
         acc.2 + (l.map (fun a => if d a then w a else 0)).sum) := by
  intro l
  induction l with
  | nil => intro acc _ _ _ _; simp
  | cons a l ih =>
    intro acc h1 h2 h3 h4
    have n1 : 0 ≤ (l.map (fun a => if c a then w a else 0)).sum :=
      List.sum_nonneg (fun x hx => by
        obtain ⟨y, _, rfl⟩ := List.mem_map.1 hx
        split_ifs with k
        · exact hc y k
        · exact le_refl _)
    have n2 : 0 ≤ (l.map (fun a => if d a then w a else 0)).sum :=
      List.sum_nonneg (fun x hx => by
        obtain ⟨y, _, rfl⟩ := List.mem_map.1 hx
        split_ifs with k
        · exact hd y k
        · exact le_refl _)
    rw [List.map_cons, List.sum_cons] at h3 h4
    have e1 : (if c a then wrap_int (acc.1 + w a) else acc.1) =
        acc.1 + (if c a then w a else 0) := by
      split_ifs with k
      · have := hc a k
        rw [if_pos k] at h3
        exact wrap_int_of_range (by unfold INT_MIN; omega) (by omega)
      · omega
    have e2 : (if d a then wrap_int (acc.2 + w a) else acc.2) =
        acc.2 + (if d a then w a else 0) := by
      split_ifs with k
      · have := hd a k
        rw [if_pos k] at h4
        exact wrap_int_of_range (by unfold INT_MIN; omega) (by omega)
      · omega
    have p1 : 0 ≤ (if c a then w a else 0) := by
      split_ifs with k
      · exact hc a k
      · exact le_refl _
    have p2 : 0 ≤ (if d a then w a else 0) := by
      split_ifs with k
      · exact hd a k
      · exact le_refl _
    rw [List.foldl_cons, e1, e2, ih _ (by simp only []; omega) (by simp only []; omega)
      (by simp only []; omega) (by simp only []; omega), List.map_cons, List.sum_cons,
      List.map_cons, List.sum_cons]
    ext <;> simp only [] <;> omega

namespace ChainReaction

theorem check_winner_eq (s : ChainReaction) (hfit : s.red_count + s.blue_count ≤ INT_MAX) :
    s.check_winner =
      if s.red_count + s.blue_count < 2 then NUL
      else if s.red_count = 0 ∧ s.blue_count > 0 then 'B'
      else if s.blue_count = 0 ∧ s.red_count > 0 then 'R'
      else NUL := by
  have hr : 0 ≤ s.red_count := sumCells_nonneg (fun i _ j _ => by split_ifs <;> omega)
  have hb : 0 ≤ s.blue_count := sumCells_nonneg (fun i _ j _ => by split_ifs <;> omega)
  have key : forCells s.m s.n
      (fun (acc : Int × Int) i j =>
        (if (s.board i j).color = 'R' ∧ (s.board i j).orbs > 0
          then wrap_int (acc.1 + (s.board i j).orbs) else acc.1,
         if (s.board i j).color = 'B' ∧ (s.board i j).orbs > 0
          then wrap_int (acc.2 + (s.board i j).orbs) else acc.2)) (0, 0) =
        (s.red_count, s.blue_count) := by
    rw [forCells_eq_foldl]
    have e := foldl_wrap_pair
      (fun p : Nat × Nat => (s.board p.1 p.2).color = 'R' ∧ (s.board p.1 p.2).orbs > 0)
      (fun p : Nat × Nat => (s.board p.1 p.2).color = 'B' ∧ (s.board p.1 p.2).orbs > 0)
      (fun p : Nat × Nat => (s.board p.1 p.2).orbs)
      (fun p hp => by
        have := hp.2
        show 0 ≤ (s.board p.1 p.2).orbs
        omega)
      (fun p hp => by
        have := hp.2
        show 0 ≤ (s.board p.1 p.2).orbs
        omega) (allCells s.m s.n) (0, 0) (le_refl _) (le_refl _)
      (by
        rw [sum_allCells s.m s.n (fun i j =>
          if (s.board i j).color = 'R' ∧ (s.board i j).orbs > 0 then (s.board i j).orbs else 0)]
        show 0 + s.red_count ≤ INT_MAX
        omega)
      (by
        rw [sum_allCells s.m s.n (fun i j =>
          if (s.board i j).color = 'B' ∧ (s.board i j).orbs > 0 then (s.board i j).orbs else 0)]
        show 0 + s.blue_count ≤ INT_MAX
        omega)
    rw [e,
      sum_allCells s.m s.n (fun i j =>
        if (s.board i j).color = 'R' ∧ (s.board i j).orbs > 0 then (s.board i j).orbs else 0),
      sum_allCells s.m s.n (fun i j =>
        if (s.board i j).color = 'B' ∧ (s.board i j).orbs > 0 then (s.board i j).orbs else 0)]
    simp [red_count, blue_count]
  unfold check_winner
  simp only [key]
  rw [wrap_int_of_range (by unfold INT_MIN; omega) hfit]

theorem red_count_eq_redTotal {s : ChainReaction} (h : s.CellInv) : s.red_count = s.redTotal := by
  unfold red_count redTotal
  refine sumCells_congr (fun i hi j hj => ?_)
  have := h i hi j hj
  by_cases c : (s.board i j).color = 'R'
  · have hne : ¬ ((s.board i j).color = NUL) := by rw [c]; decide
    have : 0 < (s.board i j).orbs := by
      have h0 : ¬ ((s.board i j).orbs = 0) := fun e => hne (this.2.1.mp e)
      omega
    simp [c, this]
  · simp [c]

theorem blue_count_eq_blueTotal {s : ChainReaction} (h : s.CellInv) :
    s.blue_count = s.blueTotal := by
  unfold blue_count blueTotal
  refine sumCells_congr (fun i hi j hj => ?_)
  have := h i hi j hj
  by_cases c : (s.board i j).color = 'B'
  · have hne : ¬ ((s.board i j).color = NUL) := by rw [c]; decide
    have : 0 < (s.board i j).orbs := by
      have h0 : ¬ ((s.board i j).orbs = 0) := fun e => hne (this.2.1.mp e)
      omega
    simp [c, this]
  · simp [c]

theorem orbTotal_eq {s : ChainReaction} (h : s.CellInv) :
    s.orbTotal = s.redTotal + s.blueTotal := by
  unfold orbTotal redTotal blueTotal
  rw [← sumCells_add]
  refine sumCells_congr (fun i hi j hj => ?_)
  have := h i hi j hj
  rcases this.2.2 with c | c | c
  · have h0 := this.2.1.mpr c
    have r : ¬ ((s.board i j).color = 'R') := by rw [c]; decide
    have b : ¬ ((s.board i j).color = 'B') := by rw [c]; decide
    simp [r, b, h0]
  · have b : ¬ ((s.board i j).color = 'B') := by rw [c]; decide
    simp [c, b]
  · have r : ¬ ((s.board i j).color = 'R') := by rw [c]; decide
    simp [c, r]

theorem redTotal_nonneg {s : ChainReaction} (h : s.CellInv) : 0 ≤ s.redTotal := by
  refine sumCells_nonneg (fun i hi j hj => ?_)
  have := (h i hi j hj).1
  split_ifs <;> omega

theorem blueTotal_nonneg {s : ChainReaction} (h : s.CellInv) : 0 ≤ s.blueTotal := by
  refine sumCells_nonneg (fun i hi j hj => ?_)
  have := (h i hi j hj).1
  split_ifs <;> omega

/-- C10. Winner check, on every board of the data model (cell invariant) whose number of orbs
is a value of an `int`, so that the `int` counters of `check_winner` hold the totals:
`check_winner` returns Blue exactly when Red's total orb count is 0, Blue's is at least 1 and the
board holds at least 2 orbs; it returns Red exactly in the mirrored case; in every other case it
returns no winner (the NUL character). -/
theorem check_winner_spec (s : ChainReaction) (h : s.CellInv) (hfit : s.orbTotal ≤ INT_MAX) :
    (s.check_winner = 'B' ↔ s.redTotal = 0 ∧ 1 ≤ s.blueTotal ∧ 2 ≤ s.orbTotal) ∧
    (s.check_winner = 'R' ↔ s.blueTotal = 0 ∧ 1 ≤ s.redTotal ∧ 2 ≤ s.orbTotal) ∧
    ((¬ (s.redTotal = 0 ∧ 1 ≤ s.blueTotal ∧ 2 ≤ s.orbTotal) ∧
      ¬ (s.blueTotal = 0 ∧ 1 ≤ s.redTotal ∧ 2 ≤ s.orbTotal)) → s.check_winner = NUL) := by
  rw [check_winner_eq s (by
    rw [red_count_eq_redTotal h, blue_count_eq_blueTotal h, ← orbTotal_eq h]; exact hfit),
    red_count_eq_redTotal h, blue_count_eq_blueTotal h, orbTotal_eq h]
  have hr := redTotal_nonneg h
  have hb := blueTotal_nonneg h
  have nB : ¬ (NUL = 'B') := by decide
  have nR : ¬ (NUL = 'R') := by decide
  have bR : ¬ ('B' = 'R') := by decide
  have rB : ¬ ('R' = 'B') := by decide
  refine ⟨?_, ?_, ?_⟩
  · split_ifs <;> simp_all <;> omega
  · split_ifs <;> simp_all <;> omega
  · split_ifs <;> simp_all <;> omega

/-- C10, instance: `two_blue_board` holds two Blue orbs and no Red orb, so Blue is the winner. -/
theorem check_winner_spec_witness :
    two_blue_board.CellInv ∧ two_blue_board.orbTotal ≤ INT_MAX ∧
      two_blue_board.check_winner = 'B' :=
  ⟨by decide, by decide!,
    (check_winner_spec two_blue_board (by decide) (by decide!)).1.mpr (by decide!)⟩

end ChainReaction

namespace ChainReaction

/-! ## The search leaves the board as it found it -/

theorem iterate_wave_mode (s : ChainReaction) (k : Nat) :
    (wave^[k] s).is_ai_vs_ai = s.is_ai_vs_ai := by
  induction k generalizing s with
  | zero => rfl
  | succ k ih => rw [Function.iterate_succ_apply, ih, wave_mode]

theorem process_explosions_mode {fuel : Nat} {s t : ChainReaction}
    (h : process_explosions fuel s = some t) : t.is_ai_vs_ai = s.is_ai_vs_ai := by
  obtain ⟨k, _, rfl, _⟩ := process_explosions_some h
  exact iterate_wave_mode s k

/-- Restoring the saved board after a move, its resolution and a search that hands back the
object it was given yields the object before the move. -/
theorem restore_eq {fuel : Nat} {s s1 : ChainReaction} {i j : Nat} {p : Char}
    (h : process_explosions fuel (s.make_move i j p) = some s1) :
    ({ s1 with board := s.board } : ChainReaction) = s := by
  have hm := process_explosions_m h
  have hn := process_explosions_n h
  have hmode := process_explosions_mode h
  cases s; cases s1
  simp only [make_move] at hm hn hmode
  simp only [mk.injEq, and_true, true_and]
  exact ⟨hm, hn, hmode⟩

theorem max_cols_board {child : Int → Int → ChainReaction → Option (Int × ChainReaction)}
    (hchild : ∀ a b t v t', child a b t = some (v, t') → t' = t)
    (fuel : Nat) (cur : Char) (beta : Int) (i : Nat) (js : List Nat)
    (bv al : Int) (s : ChainReaction) (bv' al' : Int) (s' : ChainReaction)
    (h : max_cols child fuel cur beta i js (bv, al, s) = some (bv', al', s')) : s' = s := by
  induction js generalizing bv al with
  | nil => simp only [max_cols, Option.some.injEq, Prod.mk.injEq] at h; exact h.2.2.symm
  | cons j js ih =>
    simp only [max_cols] at h
    split at h
    · split at h
      · cases h
      · rename_i s1 hs1
        split at h
        · cases h
        · rename_i v s2 hc
          have e2 := hchild _ _ _ _ _ hc
          subst e2
          rw [restore_eq hs1] at h
          split at h
          · simp only [Option.some.injEq, Prod.mk.injEq] at h; exact h.2.2.symm
          · exact ih _ _ h
    · exact ih _ _ h

theorem max_rows_board {child : Int → Int → ChainReaction → Option (Int × ChainReaction)}
    (hchild : ∀ a b t v t', child a b t = some (v, t') → t' = t)
    (fuel : Nat) (cur : Char) (beta : Int) (n : Nat) (is : List Nat)
    (bv al : Int) (s : ChainReaction) (bv' al' : Int) (s' : ChainReaction)
    (h : max_rows child fuel cur beta n is (bv, al, s) = some (bv', al', s')) : s' = s := by
  induction is generalizing bv al with
  | nil => simp only [max_rows, Option.some.injEq, Prod.mk.injEq] at h; exact h.2.2.symm
  | cons i is ih =>
    simp only [max_rows] at h
    split at h
    · cases h
    · rename_i st1 hst
      obtain ⟨b1, a1, s1⟩ := st1
      have := max_cols_board hchild fuel cur beta i _ bv al s b1 a1 s1 hst
      subst this
      exact ih _ _ h

theorem min_cols_board {child : Int → Int → ChainReaction → Option (Int × ChainReaction)}
    (hchild : ∀ a b t v t', child a b t = some (v, t') → t' = t)
    (fuel : Nat) (cur : Char) (alpha : Int) (i : Nat) (js : List Nat)
    (bv be : Int) (s : ChainReaction) (bv' be' : Int) (s' : ChainReaction)
    (h : min_cols child fuel cur alpha i js (bv, be, s) = some (bv', be', s')) : s' = s := by
  induction js generalizing bv be with
  | nil => simp only [min_cols, Option.some.injEq, Prod.mk.injEq] at h; exact h.2.2.symm
  | cons j js ih =>
    simp only [min_cols] at h
    split at h
    · split at h
      · cases h
      · rename_i s1 hs1
        split at h
        · cases h
        · rename_i v s2 hc
          have e2 := hchild _ _ _ _ _ hc
          subst e2
          rw [restore_eq hs1] at h
          split at h
          · simp only [Option.some.injEq, Prod.mk.injEq] at h; exact h.2.2.symm
          · exact ih _ _ h
    · exact ih _ _ h

theorem min_rows_board {child : Int → Int → ChainReaction → Option (Int × ChainReaction)}
    (hchild : ∀ a b t v t', child a b t = some (v, t') → t' = t)
    (fuel : Nat) (cur : Char) (alpha : Int) (n : Nat) (is : List Nat)
    (bv be : Int) (s : ChainReaction) (bv' be' : Int) (s' : ChainReaction)
    (h : min_rows child fuel cur alpha n is (bv, be, s) = some (bv', be', s')) : s' = s := by
  induction is generalizing bv be with
  | nil => simp only [min_rows, Option.some.injEq, Prod.mk.injEq] at h; exact h.2.2.symm
  | cons i is ih =>
    simp only [min_rows] at h
    split at h
    · cases h
    · rename_i st1 hst
      obtain ⟨b1, a1, s1⟩ := st1
      have := min_cols_board hchild fuel cur alpha i _ bv be s b1 a1 s1 hst
      subst this
      exact ih _ _ h

/-- The head of `minimax`: terminal check and depth cutoff, which need no recursive call. -/
theorem minimax_of_winner_B (fuel gas : Nat) (depth : Int) (mx : Bool) (alpha beta : Int)
    (player : Char) (s : ChainReaction) (h : s.check_winner = 'B') :
    minimax fuel gas depth mx alpha beta player s =
      some (if player = 'B' then 1000 else -1000, s) := by
  cases gas <;> simp [minimax, h]

theorem minimax_of_winner_R (fuel gas : Nat) (depth : Int) (mx : Bool) (alpha beta : Int)
    (player : Char) (s : ChainReaction) (h : s.check_winner = 'R') :
    minimax fuel gas depth mx alpha beta player s =
      some (if player = 'R' then 1000 else -1000, s) := by
  have hB : ¬ (s.check_winner = 'B') := by rw [h]; decide
  cases gas <;> simp [minimax, h, hB]

theorem minimax_of_cutoff (fuel gas : Nat) (depth : Int) (mx : Bool) (alpha beta : Int)
    (player : Char) (s : ChainReaction) (hB : ¬ (s.check_winner = 'B'))
    (hR : ¬ (s.check_winner = 'R')) (hd : depth ≥ DEPTH_LIMIT) :
    minimax fuel gas depth mx alpha beta player s =
      some (if s.is_ai_vs_ai then s.evaluate_board_control else s.evaluate_critical_cells, s) := by
  cases gas <;> simp [minimax, hB, hR, hd]

theorem minimax_expand (fuel gas : Nat) (depth : Int) (mx : Bool) (alpha beta : Int)
    (player : Char) (s : ChainReaction) (hB : ¬ (s.check_winner = 'B'))
    (hR : ¬ (s.check_winner = 'R')) (hd : ¬ (depth ≥ DEPTH_LIMIT)) :
    minimax fuel (gas + 1) depth mx alpha beta player s =
      if mx = true then
        match max_rows (fun a b t => minimax fuel gas (depth + 1) false a b player t)
            fuel (if mx = true then player else (if player = 'B' then 'R' else 'B'))
            beta s.n (List.range s.m) (INT_MIN, alpha, s) with
        | none => none
        | some (best_value, _, s1) => some (best_value, s1)
      else
        match min_rows (fun a b t => minimax fuel gas (depth + 1) true a b player t)
            fuel (if mx = true then player else (if player = 'B' then 'R' else 'B'))
            alpha s.n (List.range s.m) (INT_MAX, beta, s) with
        | none => none
        | some (best_value, _, s1) => some (best_value, s1) := by
  rw [minimax]
  simp only [hB, hR, hd, if_false]

theorem minimax_zero_expand (fuel : Nat) (depth : Int) (mx : Bool) (alpha beta : Int)
    (player : Char) (s : ChainReaction) (hB : ¬ (s.check_winner = 'B'))
    (hR : ¬ (s.check_winner = 'R')) (hd : ¬ (depth ≥ DEPTH_LIMIT)) :
    minimax fuel 0 depth mx alpha beta player s = none := by
  rw [minimax]
  simp only [hB, hR, hd, if_false]

theorem minimax_board (fuel gas : Nat) (depth : Int) (mx : Bool) (alpha beta : Int)
    (player : Char) (s : ChainReaction) (v : Int) (s' : ChainReaction)
    (h : minimax fuel gas depth mx alpha beta player s = some (v, s')) : s' = s := by
  induction gas generalizing depth mx alpha beta s v s' with
  | zero =>
    by_cases hB : s.check_winner = 'B'
    · rw [minimax_of_winner_B _ _ _ _ _ _ _ _ hB] at h
      simp only [Option.some.injEq, Prod.mk.injEq] at h; exact h.2.symm
    · by_cases hR : s.check_winner = 'R'
      · rw [minimax_of_winner_R _ _ _ _ _ _ _ _ hR] at h
        simp only [Option.some.injEq, Prod.mk.injEq] at h; exact h.2.symm
      · by_cases hd : depth ≥ DEPTH_LIMIT
        · rw [minimax_of_cutoff _ _ _ _ _ _ _ _ hB hR hd] at h
          simp only [Option.some.injEq, Prod.mk.injEq] at h; exact h.2.symm
        · rw [minimax_zero_expand _ _ _ _ _ _ _ hB hR hd] at h; cases h
  | succ gas ih =>
    by_cases hB : s.check_winner = 'B'
    · rw [minimax_of_winner_B _ _ _ _ _ _ _ _ hB] at h
      simp only [Option.some.injEq, Prod.mk.injEq] at h; exact h.2.symm
    · by_cases hR : s.check_winner = 'R'
      · rw [minimax_of_winner_R _ _ _ _ _ _ _ _ hR] at h
        simp only [Option.some.injEq, Prod.mk.injEq] at h; exact h.2.symm
      · by_cases hd : depth ≥ DEPTH_LIMIT
        · rw [minimax_of_cutoff _ _ _ _ _ _ _ _ hB hR hd] at h
          simp only [Option.some.injEq, Prod.mk.injEq] at h; exact h.2.symm
        · rw [minimax_expand _ _ _ _ _ _ _ _ hB hR hd] at h
          split at h
          · split at h
            · cases h
            · rename_i bv al s1 hrows
              simp only [Option.some.injEq, Prod.mk.injEq] at h
              rw [← h.2]
              exact max_rows_board (fun a b t v t' hc => ih _ _ _ _ _ _ _ hc) _ _ _ _ _ _ _ _ _ _ _ hrows
          · split at h
            · cases h
            · rename_i bv al s1 hrows
              simp only [Option.some.injEq, Prod.mk.injEq] at h
              rw [← h.2]
              exact min_rows_board (fun a b t v t' hc => ih _ _ _ _ _ _ _ hc) _ _ _ _ _ _ _ _ _ _ _ hrows

theorem decision_cols_board (fuel : Nat) (player : Char) (i : Nat) (js : List Nat)
    (bv : Int) (bm : Int × Int) (f : Bool) (s : ChainReaction)
    (bv' : Int) (bm' : Int × Int) (f' : Bool) (s' : ChainReaction)
    (h : decision_cols fuel player i js (bv, bm, f, s) = some (bv', bm', f', s')) : s' = s := by
  induction js generalizing bv bm f with
  | nil => simp only [decision_cols, Option.some.injEq, Prod.mk.injEq] at h; exact h.2.2.2.symm
  | cons j js ih =>
    simp only [decision_cols] at h
    split at h
    · split at h
      · cases h
      · rename_i s1 hs1
        split at h
        · cases h
        · rename_i v s2 hc
          have e2 := minimax_board _ _ _ _ _ _ _ _ _ _ hc
          subst e2
          rw [restore_eq hs1] at h
          split at h
          · exact ih _ _ _ h
          · split at h
            · exact ih _ _ _ h
            · exact ih _ _ _ h
    · exact ih _ _ _ h

theorem decision_rows_board (fuel : Nat) (player : Char) (n : Nat) (is : List Nat)
    (bv : Int) (bm : Int × Int) (f : Bool) (s : ChainReaction)
    (bv' : Int) (bm' : Int × Int) (f' : Bool) (s' : ChainReaction)
    (h : decision_rows fuel player n is (bv, bm, f, s) = some (bv', bm', f', s')) : s' = s := by
  induction is generalizing bv bm f with
  | nil => simp only [decision_rows, Option.some.injEq, Prod.mk.injEq] at h; exact h.2.2.2.symm
  | cons i is ih =>
    simp only [decision_rows] at h
    split at h
    · cases h
    · rename_i st1 hst
      obtain ⟨b1, m1, f1, s1⟩ := st1
      have := decision_cols_board fuel player i _ bv bm f s b1 m1 f1 s1 hst
      subst this
      exact ih _ _ _ h

theorem minimax_decision_board (fuel : Nat) (player : Char) (s : ChainReaction)
    (mv : Int × Int) (s' : ChainReaction)
    (h : minimax_decision fuel player s = some (mv, s')) : s' = s := by
  unfold minimax_decision at h
  split at h
  · cases h
  · rename_i bv bm f s1 hrows
    simp only [Option.some.injEq, Prod.mk.injEq] at h
    rw [← h.2]
    exact decision_rows_board _ _ _ _ _ _ _ _ _ _ _ _ hrows

theorem decision_cols_no_move (fuel : Nat) (player : Char) (i : Nat) (js : List Nat)
    (st : Int × (Int × Int) × Bool × ChainReaction)
    (h : ∀ j ∈ js, st.2.2.2.is_valid_move i j player = false) :
    decision_cols fuel player i js st = some st := by
  obtain ⟨bv, bm, f, s⟩ := st
  induction js with
  | nil => rfl
  | cons j js ih =>
    have hj := h j (List.mem_cons_self _ _)
    simp only at hj
    simp only [decision_cols, hj, Bool.false_eq_true, if_false]
    exact ih (fun k hk => h k (List.mem_cons_of_mem _ hk))

theorem decision_rows_no_move (fuel : Nat) (player : Char) (n : Nat) (is : List Nat)
    (st : Int × (Int × Int) × Bool × ChainReaction)
    (h : ∀ i ∈ is, ∀ j < n, st.2.2.2.is_valid_move i j player = false) :
    decision_rows fuel player n is st = some st := by
  induction is with
  | nil => rfl
  | cons i is ih =>
    have hi := h i (List.mem_cons_self _ _)
    simp only [decision_rows]
    rw [decision_cols_no_move fuel player i (List.range n) st
      (fun j hj => hi j (List.mem_range.mp hj))]
    exact ih (fun k hk => h k (List.mem_cons_of_mem _ hk))

/-- C6. The search is rollback-guaranteed: whenever `minimax(depth, is_maximizing, alpha, beta,
player)` returns, for every board and every argument tuple, the object it leaves is the object
it was called on (same board cell for cell, same dimensions and mode), cutoffs included; and the
same holds for `minimax_decision(player)`: the search never commits a move. -/
theorem search_restores_board (fuel gas : Nat) (depth : Int) (is_maximizing : Bool)
    (alpha beta : Int) (player : Char) (s : ChainReaction) :
    (∀ (v : Int) (s' : ChainReaction),
        minimax fuel gas depth is_maximizing alpha beta player s = some (v, s') →
          s' = s ∧ ∀ i j, s'.board i j = s.board i j) ∧
      (∀ (mv : Int × Int) (s' : ChainReaction),
        minimax_decision fuel player s = some (mv, s') →
          s' = s ∧ ∀ i j, s'.board i j = s.board i j) := by
  constructor
  · intro v s' h
    have := minimax_board _ _ _ _ _ _ _ _ _ _ h
    subst this
    exact ⟨rfl, fun _ _ => rfl⟩
  · intro mv s' h
    have := minimax_decision_board _ _ _ _ _ h
    subst this
    exact ⟨rfl, fun _ _ => rfl⟩

/-- C6, instance: the root decision for Red on `two_blue_board` returns and leaves the board as
it found it. -/
theorem search_restores_board_witness :
    ∃ (mv : Int × Int) (s' : ChainReaction),
      minimax_decision 10 'R' two_blue_board = some (mv, s') ∧ s' = two_blue_board := by
  have h : (minimax_decision 10 'R' two_blue_board).isSome = true := by decide!
  obtain ⟨⟨mv, s'⟩, hs⟩ := Option.isSome_iff_exists.mp h
  exact ⟨mv, s', hs,
    ((search_restores_board 10 3 0 true INT_MIN INT_MAX 'R' two_blue_board).2 mv s' hs).1⟩

/-- C7. Terminal check: on every board on which `check_winner` returns a winner `W` (Red or
Blue), `minimax` returns `+1000` when `W` is the perspective colour `player` and `-1000`
otherwise, for every depth, every `is_maximizing`, every `alpha` and `beta`; it does so without
any recursive call (also when no nesting is allowed, `gas = 0`), so before the depth cutoff and
before any move is expanded, and the board is left untouched. -/
theorem minimax_terminal (fuel gas : Nat) (depth : Int) (is_maximizing : Bool)
    (alpha beta : Int) (player : Char) (s : ChainReaction) (W : Char)
    (hW : W = 'R' ∨ W = 'B') (h : s.check_winner = W) :
    minimax fuel gas depth is_maximizing alpha beta player s =
      some (if W = player then 1000 else -1000, s) := by
  rcases hW with rfl | rfl
  · rw [minimax_of_winner_R _ _ _ _ _ _ _ _ h]
    by_cases c : player = 'R'
    · simp [c]
    · have c2 : ¬ ('R' = player) := fun e => c e.symm
      simp [c, c2]
  · rw [minimax_of_winner_B _ _ _ _ _ _ _ _ h]
    by_cases c : player = 'B'
    · simp [c]
    · have c2 : ¬ ('B' = player) := fun e => c e.symm
      simp [c, c2]

/-- C7, instance: Blue has won on `two_blue_board`, so from Red's perspective the value is
`-1000` at depth 0 with no nesting allowed. -/
theorem minimax_terminal_witness :
    two_blue_board.check_winner = 'B' ∧
      minimax 0 0 0 true INT_MIN INT_MAX 'R' two_blue_board = some (-1000, two_blue_board) :=
  ⟨by decide,
    minimax_terminal 0 0 0 true INT_MIN INT_MAX 'R' two_blue_board 'B' (Or.inr rfl) (by decide)⟩

/-- C9. No-move sentinel: if no cell of the board is a legal move for `player` (every cell is
owned by the other colour), `minimax_decision(player)` returns the coordinates `(-1, -1)`;
it returns whatever the wave bound, so no move is simulated, and the board is left unchanged. -/
theorem minimax_decision_no_move (fuel : Nat) (player : Char) (s : ChainReaction)
    (h : ∀ i < s.m, ∀ j < s.n, s.is_valid_move i j player = false) :
    minimax_decision fuel player s = some ((-1, -1), s) := by
  unfold minimax_decision
  rw [decision_rows_no_move fuel player s.n (List.range s.m) _
    (fun i hi j hj => h i (List.mem_range.mp hi) j hj)]

/-- C9, instance: every cell of `all_red_board` is Red, so Blue has no legal move. -/
theorem minimax_decision_no_move_witness :
    (∀ i < all_red_board.m, ∀ j < all_red_board.n,
        all_red_board.is_valid_move i j 'B' = false) ∧
      minimax_decision 0 'B' all_red_board = some ((-1, -1), all_red_board) :=
  ⟨by decide, minimax_decision_no_move 0 'B' all_red_board (by decide)⟩

end ChainReaction

namespace ChainReaction

/-! ## Alpha-beta pruning against minimax without pruning -/

theorem move_resolve_m {fuel : Nat} {s s1 : ChainReaction} {i j : Nat} {p : Char}
    (h : process_explosions fuel (s.make_move i j p) = some s1) : s1.m = s.m :=
  (process_explosions_m h).trans (make_move_m s i j p)

theorem move_resolve_n {fuel : Nat} {s s1 : ChainReaction} {i j : Nat} {p : Char}
    (h : process_explosions fuel (s.make_move i j p) = some s1) : s1.n = s.n :=
  (process_explosions_n h).trans (make_move_n s i j p)

theorem unpruned_fold_append (child : ChainReaction → Option Int) (fuel : Nat) (cur : Char)
    (s : ChainReaction) (pick : Int → Int → Int) (l1 l2 : List (Nat × Nat)) (b : Int) :
    unpruned_fold child fuel cur s pick (l1 ++ l2) b =
      (unpruned_fold child fuel cur s pick l1 b).bind (unpruned_fold child fuel cur s pick l2) := by
  induction l1 generalizing b with
  | nil => rfl
  | cons p l1 ih =>
    simp only [List.cons_append, unpruned_fold]
    split
    · split
      · rfl
      · split
        · rfl
        · exact ih _
    · exact ih _

theorem unpruned_fold_max_ge {child : ChainReaction → Option Int} {fuel : Nat} {cur : Char}
    {s : ChainReaction} {l : List (Nat × Nat)} {b b' : Int}
    (h : unpruned_fold child fuel cur s max l b = some b') : b ≤ b' := by
  induction l generalizing b with
  | nil => simp only [unpruned_fold, Option.some.injEq] at h; omega
  | cons p l ih =>
    simp only [unpruned_fold] at h
    split at h
    · split at h
      · cases h
      · split at h
        · cases h
        · have := ih h; omega
    · exact ih h

theorem unpruned_fold_min_le {child : ChainReaction → Option Int} {fuel : Nat} {cur : Char}
    {s : ChainReaction} {l : List (Nat × Nat)} {b b' : Int}
    (h : unpruned_fold child fuel cur s min l b = some b') : b' ≤ b := by
  induction l generalizing b with
  | nil => simp only [unpruned_fold, Option.some.injEq] at h; omega
  | cons p l ih =>
    simp only [unpruned_fold] at h
    split at h
    · split at h
      · cases h
      · split at h
        · cases h
        · have := ih h; omega
    · exact ih h

theorem unpruned_fold_max_range {child_ab : Int → Int → ChainReaction → Option (Int × ChainReaction)}
    {child : ChainReaction → Option Int} {fuel : Nat} {cur : Char}
    {s : ChainReaction} (hc : ChildOK s.m s.n child_ab child) {l : List (Nat × Nat)} {b b' : Int}
    (hb : INT_MIN ≤ b ∧ b ≤ INT_MAX)
    (h : unpruned_fold child fuel cur s max l b = some b') : INT_MIN ≤ b' ∧ b' ≤ INT_MAX := by
  induction l generalizing b with
  | nil => simp only [unpruned_fold, Option.some.injEq] at h; omega
  | cons p l ih =>
    simp only [unpruned_fold] at h
    split at h
    · split at h
      · cases h
      · rename_i s1 hs1
        split at h
        · cases h
        · rename_i v hv
          have := hc s1 v (move_resolve_m hs1) (move_resolve_n hs1) hv
          exact ih (by omega) h
    · exact ih hb h

theorem unpruned_fold_min_range {child_ab : Int → Int → ChainReaction → Option (Int × ChainReaction)}
    {child : ChainReaction → Option Int} {fuel : Nat} {cur : Char}
    {s : ChainReaction} (hc : ChildOK s.m s.n child_ab child) {l : List (Nat × Nat)} {b b' : Int}
    (hb : INT_MIN ≤ b ∧ b ≤ INT_MAX)
    (h : unpruned_fold child fuel cur s min l b = some b') : INT_MIN ≤ b' ∧ b' ≤ INT_MAX := by
  induction l generalizing b with
  | nil => simp only [unpruned_fold, Option.some.injEq] at h; omega
  | cons p l ih =>
    simp only [unpruned_fold] at h
    split at h
    · split at h
      · cases h
      · rename_i s1 hs1
        split at h
        · cases h
        · rename_i v hv
          have := hc s1 v (move_resolve_m hs1) (move_resolve_n hs1) hv
          exact ih (by omega) h
    · exact ih hb h

theorem maxInv_break {a0 beta best alpha vmax r v vfin : Int}
    (hinv : MaxInv a0 beta best alpha vmax)
    (hr : INT_MIN ≤ r ∧ r ≤ INT_MAX)
    (hclamp : alpha < beta → max alpha (min beta r) = max alpha (min beta v))
    (hcut : beta ≤ max alpha (max best r)) (hfin : max vmax v ≤ vfin)
    (hrange : INT_MIN ≤ vfin ∧ vfin ≤ INT_MAX) :
    MaxInv a0 beta (max best r) (max alpha (max best r)) vfin := by
  obtain ⟨e1, e2, e3, e4, e5, e6⟩ := hinv
  refine ⟨by omega, by omega, by omega, hrange.1, hrange.2, ?_⟩
  intro hwin
  rcases e6 hwin with ⟨c1, c2⟩ | ⟨c1, c2⟩
  · have := hclamp c1
    right; omega
  · right; omega

theorem maxInv_continue {a0 beta best alpha vmax r v : Int}
    (hinv : MaxInv a0 beta best alpha vmax)
    (hr : INT_MIN ≤ r ∧ r ≤ INT_MAX) (hv : INT_MIN ≤ v ∧ v ≤ INT_MAX)
    (hclamp : alpha < beta → max alpha (min beta r) = max alpha (min beta v))
    (hcut : ¬ (beta ≤ max alpha (max best r))) :
    MaxInv a0 beta (max best r) (max alpha (max best r)) (max vmax v) := by
  obtain ⟨e1, e2, e3, e4, e5, e6⟩ := hinv
  refine ⟨by omega, by omega, by omega, by omega, by omega, ?_⟩
  intro hwin
  rcases e6 hwin with ⟨c1, c2⟩ | ⟨c1, c2⟩
  · have := hclamp c1
    left; omega
  · exfalso; omega

theorem minInv_break {alpha b0 best beta vmin r v vfin : Int}
    (hinv : MinInv alpha b0 best beta vmin)
    (hr : INT_MIN ≤ r ∧ r ≤ INT_MAX)
    (hclamp : alpha < beta → max alpha (min beta r) = max alpha (min beta v))
    (hcut : min beta (min best r) ≤ alpha) (hfin : vfin ≤ min vmin v)
    (hrange : INT_MIN ≤ vfin ∧ vfin ≤ INT_MAX) :
    MinInv alpha b0 (min best r) (min beta (min best r)) vfin := by
  obtain ⟨e1, e2, e3, e4, e5, e6⟩ := hinv
  refine ⟨by omega, by omega, by omega, hrange.1, hrange.2, ?_⟩
  intro hwin
  rcases e6 hwin with ⟨c1, c2⟩ | ⟨c1, c2⟩
  · have := hclamp c1
    right; omega
  · right; omega

theorem minInv_continue {alpha b0 best beta vmin r v : Int}
    (hinv : MinInv alpha b0 best beta vmin)
    (hr : INT_MIN ≤ r ∧ r ≤ INT_MAX) (hv : INT_MIN ≤ v ∧ v ≤ INT_MAX)
    (hclamp : alpha < beta → max alpha (min beta r) = max alpha (min beta v))
    (hcut : ¬ (min beta (min best r) ≤ alpha)) :
    MinInv alpha b0 (min best r) (min beta (min best r)) (min vmin v) := by
  obtain ⟨e1, e2, e3, e4, e5, e6⟩ := hinv
  refine ⟨by omega, by omega, by omega, by omega, by omega, ?_⟩
  intro hwin
  rcases e6 hwin with ⟨c1, c2⟩ | ⟨c1, c2⟩
  · have := hclamp c1
    left; omega
  · exfalso; omega

theorem max_cols_sound {child_ab : Int → Int → ChainReaction → Option (Int × ChainReaction)}
    {child_un : ChainReaction → Option Int} {fuel : Nat} {cur : Char} {s : ChainReaction}
    (hc : ChildOK s.m s.n child_ab child_un) {a0 beta : Int} (ha0 : INT_MIN ≤ a0)
    (hbeta : beta ≤ INT_MAX) (i : Nat) (js : List Nat) (best alpha vmax vmax' : Int)
    (hinv : MaxInv a0 beta best alpha vmax)
    (hun : unpruned_fold child_un fuel cur s max (js.map (fun j => (i, j))) vmax = some vmax') :
    ∃ best' alpha', max_cols child_ab fuel cur beta i js (best, alpha, s) = some (best', alpha', s) ∧
      MaxInv a0 beta best' alpha' vmax' := by
  induction js generalizing best alpha vmax with
  | nil =>
    simp only [List.map_nil, unpruned_fold, Option.some.injEq] at hun
    subst hun
    exact ⟨best, alpha, rfl, hinv⟩
  | cons j js ih =>
    simp only [List.map_cons, unpruned_fold] at hun
    simp only [max_cols]
    split at hun
    · rename_i hvalid
      rw [if_pos hvalid]
      split at hun
      · cases hun
      · rename_i s1 hs1
        split at hun
        · cases hun
        · rename_i v hv
          obtain ⟨hv1, hv2, hch⟩ :=
            hc s1 v (move_resolve_m hs1) (move_resolve_n hs1) hv
          have halpha : INT_MIN ≤ alpha := by have := hinv.1; omega
          obtain ⟨r, hr, hr1, hr2, hclamp⟩ := hch alpha beta halpha hbeta
          simp only [hs1, hr, restore_eq hs1]
          by_cases hcut : beta ≤ max alpha (max best r)
          · rw [if_pos hcut]
            have hge := unpruned_fold_max_ge hun
            have hrange := unpruned_fold_max_range hc (b := max vmax v)
              (by have := hinv.2.2.2; omega) hun
            exact ⟨_, _, rfl, maxInv_break hinv ⟨hr1, hr2⟩ hclamp hcut hge hrange⟩
          · rw [if_neg hcut]
            exact ih _ _ _ (maxInv_continue hinv ⟨hr1, hr2⟩ ⟨hv1, hv2⟩ hclamp hcut) hun
    · rename_i hvalid
      rw [if_neg hvalid]
      exact ih _ _ _ hinv hun

theorem min_cols_sound {child_ab : Int → Int → ChainReaction → Option (Int × ChainReaction)}
    {child_un : ChainReaction → Option Int} {fuel : Nat} {cur : Char} {s : ChainReaction}
    (hc : ChildOK s.m s.n child_ab child_un) {alpha b0 : Int} (halpha : INT_MIN ≤ alpha)
    (hb0 : b0 ≤ INT_MAX) (i : Nat) (js : List Nat) (best beta vmin vmin' : Int)
    (hinv : MinInv alpha b0 best beta vmin)
    (hun : unpruned_fold child_un fuel cur s min (js.map (fun j => (i, j))) vmin = some vmin') :
    ∃ best' beta', min_cols child_ab fuel cur alpha i js (best, beta, s) = some (best', beta', s) ∧
      MinInv alpha b0 best' beta' vmin' := by
  induction js generalizing best beta vmin with
  | nil =>
    simp only [List.map_nil, unpruned_fold, Option.some.injEq] at hun
    subst hun
    exact ⟨best, beta, rfl, hinv⟩
  | cons j js ih =>
    simp only [List.map_cons, unpruned_fold] at hun
    simp only [min_cols]
    split at hun
    · rename_i hvalid
      rw [if_pos hvalid]
      split at hun
      · cases hun
      · rename_i s1 hs1
        split at hun
        · cases hun
        · rename_i v hv
          obtain ⟨hv1, hv2, hch⟩ :=
            hc s1 v (move_resolve_m hs1) (move_resolve_n hs1) hv
          have hbeta : beta ≤ INT_MAX := by have := hinv.1; omega
          obtain ⟨r, hr, hr1, hr2, hclamp⟩ := hch alpha beta halpha hbeta
          simp only [hs1, hr, restore_eq hs1]
          by_cases hcut : min beta (min best r) ≤ alpha
          · rw [if_pos hcut]
            have hle := unpruned_fold_min_le hun
            have hrange := unpruned_fold_min_range hc (b := min vmin v)
              (by have := hinv.2.2.2; omega) hun
            exact ⟨_, _, rfl, minInv_break hinv ⟨hr1, hr2⟩ hclamp hcut hle hrange⟩
          · rw [if_neg hcut]
            exact ih _ _ _ (minInv_continue hinv ⟨hr1, hr2⟩ ⟨hv1, hv2⟩ hclamp hcut) hun
    · rename_i hvalid
      rw [if_neg hvalid]
      exact ih _ _ _ hinv hun

end ChainReaction

theorem sumCells_le {m n : Nat} {f : Nat → Nat → Int} {c : Int}
    (h : ∀ i < m, ∀ j < n, f i j ≤ c) : sumCells m n f ≤ c * ((m : Int) * (n : Int)) := by
  unfold sumCells
  calc ∑ i in Finset.range m, ∑ j in Finset.range n, f i j
      ≤ ∑ i in Finset.range m, ∑ j in Finset.range n, c :=
        Finset.sum_le_sum (fun i hi => Finset.sum_le_sum (fun j hj =>
          h i (Finset.mem_range.mp hi) j (Finset.mem_range.mp hj)))
    _ = c * ((m : Int) * (n : Int)) := by
        simp only [Finset.sum_const, Finset.card_range, nsmul_eq_mul]; ring

namespace ChainReaction

theorem evaluate_critical_cells_eq (s : ChainReaction) :
    s.evaluate_critical_cells =
      sumCells s.m s.n (fun i j => if (s.board i j).color = 'B' then
          (if s.get_critical_mass i j = 2 then 5 else if s.get_critical_mass i j = 3 then 3 else 0)
        else 0) -
      sumCells s.m s.n (fun i j => if (s.board i j).color = 'R' then
          (if s.get_critical_mass i j = 2 then 5 else if s.get_critical_mass i j = 3 then 3 else 0)
        else 0) := by
  have e : (fun (acc : Int × Int) (i j : Nat) =>
      (if (s.board i j).color = 'B' then
        if s.get_critical_mass i j = 2 then (acc.1 + 5, acc.2)
        else if s.get_critical_mass i j = 3 then (acc.1 + 3, acc.2)
        else acc
      else if (s.board i j).color = 'R' then
        if s.get_critical_mass i j = 2 then (acc.1, acc.2 + 5)
        else if s.get_critical_mass i j = 3 then (acc.1, acc.2 + 3)
        else acc
      else acc : Int × Int)) =
      (fun (acc : Int × Int) (i j : Nat) =>
        (acc.1 + (if (s.board i j).color = 'B' then
          (if s.get_critical_mass i j = 2 then 5 else if s.get_critical_mass i j = 3 then 3 else 0)
          else 0),
         acc.2 + (if (s.board i j).color = 'R' then
          (if s.get_critical_mass i j = 2 then 5 else if s.get_critical_mass i j = 3 then 3 else 0)
          else 0))) := by
    funext acc i j
    have bR : ¬ ('B' = 'R') := by decide
    by_cases cB : (s.board i j).color = 'B'
    · have cR : ¬ ((s.board i j).color = 'R') := by rw [cB]; exact bR
      simp only [cB, cR, if_true, if_false]
      split_ifs <;> simp
    · simp only [cB, if_false]
      split_ifs <;> simp
  unfold evaluate_critical_cells
  simp only [e, forCells_pair_sum, zero_add]

theorem evaluate_board_control_eq (s : ChainReaction) :
    s.evaluate_board_control =
      sumCells s.m s.n (fun i j => if (s.board i j).color = 'B' then 1 else 0) -
      sumCells s.m s.n (fun i j => if (s.board i j).color = 'R' then 1 else 0) := by
  have e : (fun (acc : Int × Int) (i j : Nat) =>
      ((if (s.board i j).color = 'B' then acc.1 + 1 else acc.1,
        if (s.board i j).color = 'R' then acc.2 + 1 else acc.2) : Int × Int)) =
      (fun (acc : Int × Int) (i j : Nat) =>
        (acc.1 + (if (s.board i j).color = 'B' then 1 else 0),
         acc.2 + (if (s.board i j).color = 'R' then 1 else 0))) := by
    funext acc i j
    ext <;> simp only <;> split_ifs <;> simp
  unfold evaluate_board_control
  simp only [e, forCells_pair_sum, zero_add]

theorem evaluate_critical_cells_bound (s : ChainReaction) :
    -(5 * ((s.m : Int) * (s.n : Int))) ≤ s.evaluate_critical_cells ∧
      s.evaluate_critical_cells ≤ 5 * ((s.m : Int) * (s.n : Int)) := by
  rw [evaluate_critical_cells_eq]
  have h1 := sumCells_le (m := s.m) (n := s.n) (c := 5)
    (f := fun i j => if (s.board i j).color = 'B' then
      (if s.get_critical_mass i j = 2 then 5 else if s.get_critical_mass i j = 3 then 3 else 0)
      else 0) (fun i _ j _ => by simp only; split_ifs <;> omega)
  have h2 := sumCells_le (m := s.m) (n := s.n) (c := 5)
    (f := fun i j => if (s.board i j).color = 'R' then
      (if s.get_critical_mass i j = 2 then 5 else if s.get_critical_mass i j = 3 then 3 else 0)
      else 0) (fun i _ j _ => by simp only; split_ifs <;> omega)
  have h3 := sumCells_nonneg (m := s.m) (n := s.n)
    (f := fun i j => if (s.board i j).color = 'B' then
      (if s.get_critical_mass i j = 2 then 5 else if s.get_critical_mass i j = 3 then 3 else 0)
      else 0) (fun i _ j _ => by simp only; split_ifs <;> omega)
  have h4 := sumCells_nonneg (m := s.m) (n := s.n)
    (f := fun i j => if (s.board i j).color = 'R' then
      (if s.get_critical_mass i j = 2 then 5 else if s.get_critical_mass i j = 3 then 3 else 0)
      else 0) (fun i _ j _ => by simp only; split_ifs <;> omega)
  constructor <;> linarith

theorem evaluate_board_control_bound (s : ChainReaction) :
    -(5 * ((s.m : Int) * (s.n : Int))) ≤ s.evaluate_board_control ∧
      s.evaluate_board_control ≤ 5 * ((s.m : Int) * (s.n : Int)) := by
  rw [evaluate_board_control_eq]
  have h1 := sumCells_le (m := s.m) (n := s.n) (c := 5)
    (f := fun i j => if (s.board i j).color = 'B' then 1 else 0)
    (fun i _ j _ => by simp only; split_ifs <;> omega)
  have h2 := sumCells_le (m := s.m) (n := s.n) (c := 5)
    (f := fun i j => if (s.board i j).color = 'R' then 1 else 0)
    (fun i _ j _ => by simp only; split_ifs <;> omega)
  have h3 := sumCells_nonneg (m := s.m) (n := s.n)
    (f := fun i j => if (s.board i j).color = 'B' then 1 else 0)
    (fun i _ j _ => by simp only; split_ifs <;> omega)
  have h4 := sumCells_nonneg (m := s.m) (n := s.n)
    (f := fun i j => if (s.board i j).color = 'R' then 1 else 0)
    (fun i _ j _ => by simp only; split_ifs <;> omega)
  constructor <;> linarith

theorem max_rows_sound {child_ab : Int → Int → ChainReaction → Option (Int × ChainReaction)}
    {child_un : ChainReaction → Option Int} {fuel : Nat} {cur : Char} {s : ChainReaction}
    (hc : ChildOK s.m s.n child_ab child_un) {a0 beta : Int} (ha0 : INT_MIN ≤ a0)
    (hbeta : beta ≤ INT_MAX) (n : Nat) (is : List Nat) (best alpha vmax vmax' : Int)
    (hinv : MaxInv a0 beta best alpha vmax)
    (hun : unpruned_fold child_un fuel cur s max
      (is.flatMap (fun i => (List.range n).map (fun j => (i, j)))) vmax = some vmax') :
    ∃ best' alpha', max_rows child_ab fuel cur beta n is (best, alpha, s) = some (best', alpha', s) ∧
      MaxInv a0 beta best' alpha' vmax' := by
  induction is generalizing best alpha vmax with
  | nil =>
    simp only [List.flatMap_nil, unpruned_fold, Option.some.injEq] at hun
    subst hun
    exact ⟨best, alpha, rfl, hinv⟩
  | cons i is ih =>
    rw [List.flatMap_cons, unpruned_fold_append] at hun
    obtain ⟨vmid, h1, h2⟩ := Option.bind_eq_some.mp hun
    obtain ⟨b1, a1, hcols, hinv1⟩ := max_cols_sound hc ha0 hbeta i _ best alpha vmax vmid hinv h1
    simp only [max_rows, hcols]
    exact ih _ _ _ hinv1 h2

theorem min_rows_sound {child_ab : Int → Int → ChainReaction → Option (Int × ChainReaction)}
    {child_un : ChainReaction → Option Int} {fuel : Nat} {cur : Char} {s : ChainReaction}
    (hc : ChildOK s.m s.n child_ab child_un) {alpha b0 : Int} (halpha : INT_MIN ≤ alpha)
    (hb0 : b0 ≤ INT_MAX) (n : Nat) (is : List Nat) (best beta vmin vmin' : Int)
    (hinv : MinInv alpha b0 best beta vmin)
    (hun : unpruned_fold child_un fuel cur s min
      (is.flatMap (fun i => (List.range n).map (fun j => (i, j)))) vmin = some vmin') :
    ∃ best' beta', min_rows child_ab fuel cur alpha n is (best, beta, s) = some (best', beta', s) ∧
      MinInv alpha b0 best' beta' vmin' := by
  induction is generalizing best beta vmin with
  | nil =>
    simp only [List.flatMap_nil, unpruned_fold, Option.some.injEq] at hun
    subst hun
    exact ⟨best, beta, rfl, hinv⟩
  | cons i is ih =>
    rw [List.flatMap_cons, unpruned_fold_append] at hun
    obtain ⟨vmid, h1, h2⟩ := Option.bind_eq_some.mp hun
    obtain ⟨b1, a1, hcols, hinv1⟩ := min_cols_sound hc halpha hb0 i _ best beta vmin vmid hinv h1
    simp only [min_rows, hcols]
    exact ih _ _ _ hinv1 h2

end ChainReaction

namespace ChainReaction

theorem minimax_unpruned_of_winner_B (fuel gas : Nat) (depth : Int) (mx : Bool)
    (player : Char) (s : ChainReaction) (h : s.check_winner = 'B') :
    minimax_unpruned fuel gas depth mx player s = some (if player = 'B' then 1000 else -1000) := by
  cases gas <;> simp [minimax_unpruned, h]

theorem minimax_unpruned_of_winner_R (fuel gas : Nat) (depth : Int) (mx : Bool)
    (player : Char) (s : ChainReaction) (h : s.check_winner = 'R') :
    minimax_unpruned fuel gas depth mx player s = some (if player = 'R' then 1000 else -1000) := by
  have hB : ¬ (s.check_winner = 'B') := by rw [h]; decide
  cases gas <;> simp [minimax_unpruned, h, hB]

theorem minimax_unpruned_of_cutoff (fuel gas : Nat) (depth : Int) (mx : Bool)
    (player : Char) (s : ChainReaction) (hB : ¬ (s.check_winner = 'B'))
    (hR : ¬ (s.check_winner = 'R')) (hd : depth ≥ DEPTH_LIMIT) :
    minimax_unpruned fuel gas depth mx player s =
      some (if s.is_ai_vs_ai then s.evaluate_board_control else s.evaluate_critical_cells) := by
  cases gas <;> simp [minimax_unpruned, hB, hR, hd]

theorem minimax_unpruned_expand (fuel gas : Nat) (depth : Int) (mx : Bool)
    (player : Char) (s : ChainReaction) (hB : ¬ (s.check_winner = 'B'))
    (hR : ¬ (s.check_winner = 'R')) (hd : ¬ (depth ≥ DEPTH_LIMIT)) :
    minimax_unpruned fuel (gas + 1) depth mx player s =
      if mx = true then
        unpruned_fold (fun t => minimax_unpruned fuel gas (depth + 1) false player t)
          fuel (if mx = true then player else (if player = 'B' then 'R' else 'B')) s max
          (allCells s.m s.n) INT_MIN
      else
        unpruned_fold (fun t => minimax_unpruned fuel gas (depth + 1) true player t)
          fuel (if mx = true then player else (if player = 'B' then 'R' else 'B')) s min
          (allCells s.m s.n) INT_MAX := by
  rw [minimax_unpruned]
  simp only [hB, hR, hd, if_false]

theorem minimax_unpruned_zero_expand (fuel : Nat) (depth : Int) (mx : Bool)
    (player : Char) (s : ChainReaction) (hB : ¬ (s.check_winner = 'B'))
    (hR : ¬ (s.check_winner = 'R')) (hd : ¬ (depth ≥ DEPTH_LIMIT)) :
    minimax_unpruned fuel 0 depth mx player s = none := by
  rw [minimax_unpruned]
  simp only [hB, hR, hd, if_false]

/-- A value in the range of `int` that is returned for every window agrees with itself. -/
theorem leaf_sound {val : Int} (h1 : INT_MIN ≤ val) (h2 : val ≤ INT_MAX) (s : ChainReaction)
    {res : Option (Int × ChainReaction)} (hres : res = some (val, s)) :
    ∃ r, res = some (r, s) ∧ INT_MIN ≤ r ∧ r ≤ INT_MAX ∧
      ∀ a b : Int, a < b → max a (min b r) = max a (min b val) :=
  ⟨val, hres, h1, h2, fun _ _ _ => rfl⟩

/-- Alpha-beta against minimax without pruning at one node: if the unpruned search of the node
returns `v`, then `v` is an `int`, and for every window the pruned search returns, hands back
the object, returns an `int`, and agrees with `v` after clamping to the window when `a < b`. -/
theorem minimax_sound (fuel gas : Nat) (depth : Int) (mx : Bool) (player : Char)
    (s : ChainReaction) (v : Int) (hfit : 5 * ((s.m : Int) * (s.n : Int)) ≤ INT_MAX)
    (h : minimax_unpruned fuel gas depth mx player s = some v) :
    INT_MIN ≤ v ∧ v ≤ INT_MAX ∧ ∀ a b, INT_MIN ≤ a → b ≤ INT_MAX →
      ∃ r, minimax fuel gas depth mx a b player s = some (r, s) ∧ INT_MIN ≤ r ∧ r ≤ INT_MAX ∧
        (a < b → max a (min b r) = max a (min b v)) := by
  have hmin : INT_MIN = -2147483648 := rfl
  have hmax : INT_MAX = 2147483647 := rfl
  induction gas generalizing depth mx s v with
  | zero =>
    by_cases hB : s.check_winner = 'B'
    · rw [minimax_unpruned_of_winner_B _ _ _ _ _ _ hB] at h
      simp only [Option.some.injEq] at h
      have hv : INT_MIN ≤ v ∧ v ≤ INT_MAX := by rw [← h]; split_ifs <;> omega
      refine ⟨hv.1, hv.2, fun a b _ _ => ⟨v, ?_, hv.1, hv.2, fun _ => rfl⟩⟩
      rw [minimax_of_winner_B _ _ _ _ _ _ _ _ hB, h]
    · by_cases hR : s.check_winner = 'R'
      · rw [minimax_unpruned_of_winner_R _ _ _ _ _ _ hR] at h
        simp only [Option.some.injEq] at h
        have hv : INT_MIN ≤ v ∧ v ≤ INT_MAX := by rw [← h]; split_ifs <;> omega
        refine ⟨hv.1, hv.2, fun a b _ _ => ⟨v, ?_, hv.1, hv.2, fun _ => rfl⟩⟩
        rw [minimax_of_winner_R _ _ _ _ _ _ _ _ hR, h]
      · by_cases hd : depth ≥ DEPTH_LIMIT
        · rw [minimax_unpruned_of_cutoff _ _ _ _ _ _ hB hR hd] at h
          simp only [Option.some.injEq] at h
          have hv : INT_MIN ≤ v ∧ v ≤ INT_MAX := by
            have b1 := evaluate_board_control_bound s
            have b2 := evaluate_critical_cells_bound s
            rw [← h]; split_ifs <;> omega
          refine ⟨hv.1, hv.2, fun a b _ _ => ⟨v, ?_, hv.1, hv.2, fun _ => rfl⟩⟩
          rw [minimax_of_cutoff _ _ _ _ _ _ _ _ hB hR hd, h]
        · rw [minimax_unpruned_zero_expand _ _ _ _ _ hB hR hd] at h; cases h
  | succ gas ih =>
    by_cases hB : s.check_winner = 'B'
    · rw [minimax_unpruned_of_winner_B _ _ _ _ _ _ hB] at h
      simp only [Option.some.injEq] at h
      have hv : INT_MIN ≤ v ∧ v ≤ INT_MAX := by rw [← h]; split_ifs <;> omega
      refine ⟨hv.1, hv.2, fun a b _ _ => ⟨v, ?_, hv.1, hv.2, fun _ => rfl⟩⟩
      rw [minimax_of_winner_B _ _ _ _ _ _ _ _ hB, h]
    · by_cases hR : s.check_winner = 'R'
      · rw [minimax_unpruned_of_winner_R _ _ _ _ _ _ hR] at h
        simp only [Option.some.injEq] at h
        have hv : INT_MIN ≤ v ∧ v ≤ INT_MAX := by rw [← h]; split_ifs <;> omega
        refine ⟨hv.1, hv.2, fun a b _ _ => ⟨v, ?_, hv.1, hv.2, fun _ => rfl⟩⟩
        rw [minimax_of_winner_R _ _ _ _ _ _ _ _ hR, h]
      · by_cases hd : depth ≥ DEPTH_LIMIT
        · rw [minimax_unpruned_of_cutoff _ _ _ _ _ _ hB hR hd] at h
          simp only [Option.some.injEq] at h
          have hv : INT_MIN ≤ v ∧ v ≤ INT_MAX := by
            have b1 := evaluate_board_control_bound s
            have b2 := evaluate_critical_cells_bound s
            rw [← h]; split_ifs <;> omega
          refine ⟨hv.1, hv.2, fun a b _ _ => ⟨v, ?_, hv.1, hv.2, fun _ => rfl⟩⟩
          rw [minimax_of_cutoff _ _ _ _ _ _ _ _ hB hR hd, h]
        · rw [minimax_unpruned_expand _ _ _ _ _ _ hB hR hd] at h
          by_cases hmx : mx = true
          · rw [if_pos hmx] at h
            have hc : ChildOK s.m s.n
                (fun a b t => minimax fuel gas (depth + 1) false a b player t)
                (fun t => minimax_unpruned fuel gas (depth + 1) false player t) := by
              intro t w htm htn hw
              exact ih (depth + 1) false t w (by rw [htm, htn]; exact hfit) hw
            have hvr := unpruned_fold_max_range hc (b := INT_MIN) (by omega) h
            refine ⟨hvr.1, hvr.2, fun a b ha hb => ?_⟩
            have hinit : MaxInv a b INT_MIN a INT_MIN :=
              ⟨by omega, by omega, by omega, by omega, by omega, fun hab => Or.inl ⟨hab, by omega⟩⟩
            obtain ⟨best', alpha', hrows, hinv⟩ :=
              max_rows_sound hc ha hb s.n (List.range s.m) INT_MIN a INT_MIN v hinit h
            refine ⟨best', ?_, hinv.2.1, hinv.2.2.1, ?_⟩
            · rw [minimax_expand _ _ _ _ _ _ _ _ hB hR hd, if_pos hmx, hrows]
            · intro hab
              obtain ⟨e1, _, _, _, _, e6⟩ := hinv
              rcases e6 hab with ⟨c1, c2⟩ | ⟨c1, c2⟩ <;> omega
          · rw [if_neg hmx] at h
            have hc : ChildOK s.m s.n
                (fun a b t => minimax fuel gas (depth + 1) true a b player t)
                (fun t => minimax_unpruned fuel gas (depth + 1) true player t) := by
              intro t w htm htn hw
              exact ih (depth + 1) true t w (by rw [htm, htn]; exact hfit) hw
            have hvr := unpruned_fold_min_range hc (b := INT_MAX) (by omega) h
            refine ⟨hvr.1, hvr.2, fun a b ha hb => ?_⟩
            have hinit : MinInv a b INT_MAX b INT_MAX :=
              ⟨by omega, by omega, by omega, by omega, by omega, fun hab => Or.inl ⟨hab, by omega⟩⟩
            obtain ⟨best', beta', hrows, hinv⟩ :=
              min_rows_sound hc ha hb s.n (List.range s.m) INT_MAX b INT_MAX v hinit h
            refine ⟨best', ?_, hinv.2.1, hinv.2.2.1, ?_⟩
            · rw [minimax_expand _ _ _ _ _ _ _ _ hB hR hd, if_neg hmx, hrows]
            · intro hab
              obtain ⟨e1, _, _, _, _, e6⟩ := hinv
              rcases e6 hab with ⟨c1, c2⟩ | ⟨c1, c2⟩ <;> omega

end ChainReaction

namespace ChainReaction

theorem root_value_sound (fuel : Nat) (player : Char) (s : ChainReaction)
    (hfit : 5 * ((s.m : Int) * (s.n : Int)) ≤ INT_MAX) (i j : Nat) (v : Int)
    (h : root_value_unpruned fuel player s i j = some v) :
    ∃ s1, process_explosions fuel (s.make_move i j player) = some s1 ∧
      minimax fuel 3 0 (if player = 'B' then false else true) INT_MIN INT_MAX player s1 =
        some (v, s1) := by
  unfold root_value_unpruned at h
  split at h
  · cases h
  · rename_i s1 hs1
    refine ⟨s1, hs1, ?_⟩
    have hfit1 : 5 * ((s1.m : Int) * (s1.n : Int)) ≤ INT_MAX := by
      rw [move_resolve_m hs1, move_resolve_n hs1]; exact hfit
    obtain ⟨hv1, hv2, hall⟩ := minimax_sound fuel 3 0 _ player s1 v hfit1 h
    have hmin : INT_MIN = -2147483648 := rfl
    have hmax : INT_MAX = 2147483647 := rfl
    obtain ⟨r, hr, hr1, hr2, hclamp⟩ := hall INT_MIN INT_MAX (le_refl _) (le_refl _)
    have hrv : r = v := by
      have := hclamp (by omega)
      omega
    rw [hr, hrv]

theorem decision_cols_sound (fuel : Nat) (player : Char) (s : ChainReaction)
    (hfit : 5 * ((s.m : Int) * (s.n : Int)) ≤ INT_MAX) (i : Nat) (js : List Nat)
    (bv : Int) (bm : Int × Int) (f : Bool) (bv' : Int) (bm' : Int × Int)
    (h : decision_unpruned_fold fuel player s (js.map (fun j => (i, j))) (bv, bm) =
      some (bv', bm')) :
    ∃ f', decision_cols fuel player i js (bv, bm, f, s) = some (bv', bm', f', s) := by
  induction js generalizing bv bm f with
  | nil =>
    simp only [List.map_nil, decision_unpruned_fold, Option.some.injEq, Prod.mk.injEq] at h
    exact ⟨f, by simp only [decision_cols, h.1, h.2]⟩
  | cons j js ih =>
    simp only [List.map_cons, decision_unpruned_fold] at h
    simp only [decision_cols]
    split at h
    · rename_i hvalid
      rw [if_pos hvalid]
      split at h
      · cases h
      · rename_i value hval
        obtain ⟨s1, hs1, hmm⟩ := root_value_sound fuel player s hfit i j value hval
        simp only [hs1, hmm, restore_eq hs1]
        split at h
        · rename_i c1
          rw [if_pos c1]
          exact ih _ _ _ h
        · rename_i c1
          rw [if_neg c1]
          split at h
          · rename_i c2
            rw [if_pos c2]
            exact ih _ _ _ h
          · rename_i c2
            rw [if_neg c2]
            exact ih _ _ _ h
    · rename_i hvalid
      rw [if_neg hvalid]
      exact ih _ _ _ h

theorem decision_unpruned_fold_append (fuel : Nat) (player : Char) (s : ChainReaction)
    (l1 l2 : List (Nat × Nat)) (st : Int × (Int × Int)) :
    decision_unpruned_fold fuel player s (l1 ++ l2) st =
      (decision_unpruned_fold fuel player s l1 st).bind
        (decision_unpruned_fold fuel player s l2) := by
  obtain ⟨bv, bm⟩ := st
  induction l1 generalizing bv bm with
  | nil => rfl
  | cons p l1 ih =>
    simp only [List.cons_append, decision_unpruned_fold]
    split
    · split
      · rfl
      · split
        · exact ih _ _
        · split
          · exact ih _ _
          · exact ih _ _
    · exact ih _ _

theorem decision_rows_sound (fuel : Nat) (player : Char) (s : ChainReaction)
    (hfit : 5 * ((s.m : Int) * (s.n : Int)) ≤ INT_MAX) (n : Nat) (is : List Nat)
    (bv : Int) (bm : Int × Int) (f : Bool) (bv' : Int) (bm' : Int × Int)
    (h : decision_unpruned_fold fuel player s
      (is.flatMap (fun i => (List.range n).map (fun j => (i, j)))) (bv, bm) = some (bv', bm')) :
    ∃ f', decision_rows fuel player n is (bv, bm, f, s) = some (bv', bm', f', s) := by
  induction is generalizing bv bm f with
  | nil =>
    simp only [List.flatMap_nil, decision_unpruned_fold, Option.some.injEq, Prod.mk.injEq] at h
    exact ⟨f, by simp only [decision_rows, h.1, h.2]⟩
  | cons i is ih =>
    rw [List.flatMap_cons, decision_unpruned_fold_append] at h
    obtain ⟨⟨b1, m1⟩, h1, h2⟩ := Option.bind_eq_some.mp h
    obtain ⟨f1, hcols⟩ := decision_cols_sound fuel player s hfit i _ bv bm f b1 m1 h1
    simp only [decision_rows, hcols]
    exact ih _ _ _ h2

/-- C5. Alpha-beta pruning never changes the result. On every board whose evaluator values fit
an `int` (`5 * m * n <= INT_MAX`), for every mode, player and wave bound: whenever minimax
without pruning (same terminal check, depth limit 3, move order and evaluator) returns the value
`v` for a root move, the value `minimax_decision` obtains for that move, `minimax` at depth 0 with
the window `(INT_MIN, INT_MAX)`, is `v` as well; therefore whenever the unpruned root decision
returns a move, `minimax_decision` returns the same move (and leaves the board as it was). -/
theorem alpha_beta_equals_unpruned (fuel : Nat) (player : Char) (s : ChainReaction)
    (hfit : 5 * ((s.m : Int) * (s.n : Int)) ≤ INT_MAX) :
    (∀ (i j : Nat) (v : Int),
        root_value_unpruned fuel player s i j = some v → root_value fuel player s i j = some v) ∧
      (∀ mv : Int × Int, minimax_decision_unpruned fuel player s = some mv →
        minimax_decision fuel player s = some (mv, s)) := by
  constructor
  · intro i j v h
    obtain ⟨s1, hs1, hmm⟩ := root_value_sound fuel player s hfit i j v h
    simp only [root_value, hs1, hmm]
  · intro mv h
    unfold minimax_decision_unpruned at h
    split at h
    · cases h
    · rename_i bv bm hfold
      simp only [Option.some.injEq] at h
      subst h
      obtain ⟨f', hrows⟩ := decision_rows_sound fuel player s hfit s.n (List.range s.m)
        _ _ false bv bm hfold
      simp only [minimax_decision, hrows]

/-- C5, instance: on `two_blue_board` with Red to move the unpruned root decision returns the
move `(0, 2)`, and so does `minimax_decision`. -/
theorem alpha_beta_equals_unpruned_witness :
    5 * ((two_blue_board.m : Int) * (two_blue_board.n : Int)) ≤ INT_MAX ∧
      minimax_decision_unpruned 10 'R' two_blue_board = some (0, 2) ∧
      minimax_decision 10 'R' two_blue_board = some ((0, 2), two_blue_board) :=
  ⟨by decide, by decide!,
    (alpha_beta_equals_unpruned 10 'R' two_blue_board (by decide)).2 (0, 2) (by decide!)⟩

/-- C8, failing input. With Red to move on `red_choice_board` (1 × 3: empty, one Red orb, one
Blue orb) both `(0, 0)` and `(0, 1)` are legal; the search values `(0, 0)` at `-1000` (a loss
from Red's perspective) and `(0, 1)` at `+1000` (a win from Red's perspective), and
`minimax_decision('R')` returns `(0, 0)`. On `two_blue_board` (2 × 3) it returns `(0, 2)`, valued
`0`, although `(0, 0)` is legal and valued `+1000`. The root loop keeps the smallest value for
Red while `minimax` scores a Red win as `+1000`. -/
theorem minimax_decision_red_keeps_worst :
    (red_choice_board.is_valid_move 0 0 'R' = true ∧ red_choice_board.is_valid_move 0 1 'R' = true ∧
      root_value 10 'R' red_choice_board 0 0 = some (-1000) ∧
      root_value 10 'R' red_choice_board 0 1 = some 1000 ∧
      (minimax_decision 10 'R' red_choice_board).map Prod.fst = some (0, 0)) ∧
    (two_blue_board.is_valid_move 0 0 'R' = true ∧ two_blue_board.is_valid_move 0 2 'R' = true ∧
      root_value 10 'R' two_blue_board 0 0 = some 1000 ∧
      root_value 10 'R' two_blue_board 0 2 = some 0 ∧
      (minimax_decision 10 'R' two_blue_board).map Prod.fst = some (0, 2)) := by
  refine ⟨⟨?_, ?_, ?_, ?_, ?_⟩, ⟨?_, ?_, ?_, ?_, ?_⟩⟩ <;> decide!

end ChainReaction

/-! ## Orb accounting -/

theorem ind_nonneg (p : Prop) [Decidable p] : 0 ≤ ind p := by unfold ind; split_ifs <;> omega

theorem ind_le_one (p : Prop) [Decidable p] : ind p ≤ 1 := by unfold ind; split_ifs <;> omega

theorem sumCells_sub (m n : Nat) (f g : Nat → Nat → Int) :
    sumCells m n (fun i j => f i j - g i j) = sumCells m n f - sumCells m n g := by
  unfold sumCells
  simp only [Finset.sum_sub_distrib]

theorem sumCells_point (m n x y : Nat) (c : Int) :
    sumCells m n (fun a b => if a = x ∧ b = y then c else 0) = if x < m ∧ y < n then c else 0 := by
  unfold sumCells
  have h : ∀ a, (∑ b in Finset.range n, if a = x ∧ b = y then c else 0) =
      if a = x then (if y < n then c else 0) else 0 := by
    intro a
    by_cases ha : a = x
    · simp [ha, Finset.sum_ite_eq']
    · simp [ha]
  simp only [h, Finset.sum_ite_eq', Finset.mem_range]
  by_cases hx : x < m <;> by_cases hy : y < n <;> simp [hx, hy]

theorem sumCells_le_sumCells {m n : Nat} {f g : Nat → Nat → Int}
    (h : ∀ i < m, ∀ j < n, f i j ≤ g i j) : sumCells m n f ≤ sumCells m n g := by
  unfold sumCells
  exact Finset.sum_le_sum (fun i hi => Finset.sum_le_sum (fun j hj =>
    h i (Finset.mem_range.mp hi) j (Finset.mem_range.mp hj)))

theorem le_sumCells {m n : Nat} {f : Nat → Nat → Int} (h : ∀ i < m, ∀ j < n, 0 ≤ f i j)
    {a b : Nat} (ha : a < m) (hb : b < n) : f a b ≤ sumCells m n f := by
  unfold sumCells
  have h1 : f a b ≤ ∑ j in Finset.range n, f a j :=
    Finset.single_le_sum (f := fun j => f a j) (fun j hj => h a ha j (Finset.mem_range.mp hj))
      (Finset.mem_range.mpr hb)
  have h2 : (∑ j in Finset.range n, f a j) ≤ ∑ i in Finset.range m, ∑ j in Finset.range n, f i j :=
    Finset.single_le_sum (f := fun i => ∑ j in Finset.range n, f i j)
      (fun i hi => Finset.sum_nonneg (fun j hj =>
        h i (Finset.mem_range.mp hi) j (Finset.mem_range.mp hj)))
      (Finset.mem_range.mpr ha)
  exact le_trans h1 h2

namespace ChainReaction

theorem explode_cell_orbs (s : ChainReaction) (i j a b : Nat) :
    ((s.explode_cell i j).board a b).orbs =
      (s.board a b).orbs + (if adj a b i j ∧ a < s.m ∧ b < s.n then 1 else 0) -
        (if a = i ∧ b = j then s.get_critical_mass i j else 0) := by
  rw [explode_cell_board]
  by_cases c1 : adj a b i j ∧ a < s.m ∧ b < s.n
  · have c2 : ¬ (a = i ∧ b = j) := by
      have := c1.1; unfold adj at this; omega
    rw [if_pos c1, if_pos c1, if_neg c2]; simp
  · by_cases c2 : a = i ∧ b = j
    · rw [if_neg c1, if_neg c1, if_pos c2, if_pos c2, c2.1, c2.2]; simp
    · rw [if_neg c1, if_neg c1, if_neg c2, if_neg c2]; simp

theorem sumCells_up (m n i j : Nat) :
    sumCells m n (fun a b => if a + 1 = i ∧ b = j then (1 : Int) else 0) =
      if 1 ≤ i ∧ i - 1 < m ∧ j < n then 1 else 0 := by
  have e : (fun a b : Nat => if a + 1 = i ∧ b = j then (1 : Int) else 0) =
      (fun a b => if a = i - 1 ∧ b = j then (if 1 ≤ i then 1 else 0) else 0) := by
    funext a b; split_ifs <;> first | rfl | omega
  rw [e, sumCells_point]
  split_ifs <;> first | rfl | omega

theorem sumCells_down (m n i j : Nat) :
    sumCells m n (fun a b => if a = i + 1 ∧ b = j then (1 : Int) else 0) =
      if i + 1 < m ∧ j < n then 1 else 0 := sumCells_point m n (i + 1) j 1

theorem sumCells_left (m n i j : Nat) :
    sumCells m n (fun a b => if a = i ∧ b + 1 = j then (1 : Int) else 0) =
      if 1 ≤ j ∧ i < m ∧ j - 1 < n then 1 else 0 := by
  have e : (fun a b : Nat => if a = i ∧ b + 1 = j then (1 : Int) else 0) =
      (fun a b => if a = i ∧ b = j - 1 then (if 1 ≤ j then 1 else 0) else 0) := by
    funext a b; split_ifs <;> first | rfl | omega
  rw [e, sumCells_point]
  split_ifs <;> first | rfl | omega

theorem sumCells_right (m n i j : Nat) :
    sumCells m n (fun a b => if a = i ∧ b = j + 1 then (1 : Int) else 0) =
      if i < m ∧ j + 1 < n then 1 else 0 := sumCells_point m n i (j + 1) 1

theorem adj_indicator (i j a b : Nat) :
    (if adj a b i j then (1 : Int) else 0) =
      (if a + 1 = i ∧ b = j then 1 else 0) + (if a = i + 1 ∧ b = j then 1 else 0) +
      (if a = i ∧ b + 1 = j then 1 else 0) + (if a = i ∧ b = j + 1 then 1 else 0) := by
  unfold adj
  by_cases h1 : a + 1 = i ∧ b = j
  · have h2 : ¬ (a = i + 1 ∧ b = j) := by omega
    have h3 : ¬ (a = i ∧ b + 1 = j) := by omega
    have h4 : ¬ (a = i ∧ b = j + 1) := by omega
    rw [if_pos (Or.inl h1), if_pos h1, if_neg h2, if_neg h3, if_neg h4]; rfl
  · by_cases h2 : a = i + 1 ∧ b = j
    · have h3 : ¬ (a = i ∧ b + 1 = j) := by omega
      have h4 : ¬ (a = i ∧ b = j + 1) := by omega
      rw [if_pos (Or.inr (Or.inl h2)), if_neg h1, if_pos h2, if_neg h3, if_neg h4]; rfl
    · by_cases h3 : a = i ∧ b + 1 = j
      · have h4 : ¬ (a = i ∧ b = j + 1) := by omega
        rw [if_pos (Or.inr (Or.inr (Or.inl h3))), if_neg h1, if_neg h2, if_pos h3, if_neg h4]; rfl
      · by_cases h4 : a = i ∧ b = j + 1
        · rw [if_pos (Or.inr (Or.inr (Or.inr h4))), if_neg h1, if_neg h2, if_neg h3, if_pos h4]
          rfl
        · have hn : ¬ ((a + 1 = i ∧ b = j) ∨ (a = i + 1 ∧ b = j) ∨ (a = i ∧ b + 1 = j) ∨
              (a = i ∧ b = j + 1)) := by
            rintro (h | h | h | h)
            · exact h1 h
            · exact h2 h
            · exact h3 h
            · exact h4 h
          rw [if_neg hn, if_neg h1, if_neg h2, if_neg h3, if_neg h4]; rfl

/-- In-bounds neighbours of an in-bounds cell, counted over the board. -/
theorem sumCells_adj (s : ChainReaction) (i j : Nat) (hi : i < s.m) (hj : j < s.n) :
    sumCells s.m s.n (fun a b => if adj a b i j ∧ a < s.m ∧ b < s.n then (1 : Int) else 0) =
      s.neighbours i j := by
  have e : sumCells s.m s.n (fun a b => if adj a b i j ∧ a < s.m ∧ b < s.n then (1 : Int) else 0) =
      sumCells s.m s.n (fun a b =>
        (((if a + 1 = i ∧ b = j then (1 : Int) else 0) + (if a = i + 1 ∧ b = j then 1 else 0)) +
        (if a = i ∧ b + 1 = j then 1 else 0)) + (if a = i ∧ b = j + 1 then 1 else 0)) := by
    refine sumCells_congr (fun a ha b hb => ?_)
    rw [← adj_indicator]
    by_cases c : adj a b i j <;> simp [c, ha, hb]
  rw [e, sumCells_add, sumCells_add, sumCells_add, sumCells_up, sumCells_down, sumCells_left,
    sumCells_right]
  unfold neighbours ind
  split_ifs <;> omega

/-- One explosion changes the number of orbs on the board by the number of in-bounds neighbours
of the cell minus its critical mass. -/
theorem explode_cell_orbTotal (s : ChainReaction) (i j : Nat) (hi : i < s.m) (hj : j < s.n) :
    (s.explode_cell i j).orbTotal = s.orbTotal + s.neighbours i j - s.get_critical_mass i j := by
  unfold orbTotal
  rw [explode_cell_m, explode_cell_n]
  have e : (fun a b => ((s.explode_cell i j).board a b).orbs) =
      (fun a b => ((s.board a b).orbs +
        (if adj a b i j ∧ a < s.m ∧ b < s.n then (1 : Int) else 0)) -
        (if a = i ∧ b = j then s.get_critical_mass i j else 0)) := by
    funext a b; exact explode_cell_orbs s i j a b
  rw [e, sumCells_sub, sumCells_add, sumCells_adj s i j hi hj, sumCells_point]
  simp [hi, hj]

theorem neighbours_le_mass (s : ChainReaction) (i j : Nat) :
    s.neighbours i j ≤ s.get_critical_mass i j := by
  unfold neighbours ind get_critical_mass
  split_ifs <;> omega

theorem neighbours_eq_mass (s : ChainReaction) (i j : Nat) (hi : i < s.m) (hj : j < s.n)
    (hm : 2 ≤ s.m) (hn : 2 ≤ s.n) : s.neighbours i j = s.get_critical_mass i j := by
  unfold neighbours ind get_critical_mass
  split_ifs <;> omega

theorem neighbours_lt_mass (s : ChainReaction) (i j : Nat) (hi : i < s.m) (hj : j < s.n)
    (h1 : s.m ≤ 1 ∨ s.n ≤ 1) : s.neighbours i j + 1 ≤ s.get_critical_mass i j := by
  unfold neighbours ind get_critical_mass
  split_ifs <;> omega

end ChainReaction

/-! ## The number of orbs on the board under resolution -/
namespace ChainReaction

theorem mass_congr {s t : ChainReaction} (hm : t.m = s.m) (hn : t.n = s.n) (a b : Nat) :
    t.get_critical_mass a b = s.get_critical_mass a b := by
  unfold get_critical_mass; rw [hm, hn]

theorem iterate_wave_mass (s : ChainReaction) (k a b : Nat) :
    (wave^[k] s).get_critical_mass a b = s.get_critical_mass a b :=
  mass_congr (iterate_wave_m s k) (iterate_wave_n s k) a b

theorem explode_all_orbTotal (s : ChainReaction) (l : List (Nat × Nat))
    (hl : ∀ p ∈ l, p.1 < s.m ∧ p.2 < s.n) :
    (s.explode_all l).orbTotal =
      s.orbTotal + (l.map (fun p => s.neighbours p.1 p.2 - s.get_critical_mass p.1 p.2)).sum := by
  induction l generalizing s with
  | nil => simp [explode_all]
  | cons p l ih =>
    have hp := hl p (List.mem_cons_self _ _)
    have := ih (s.explode_cell p.1 p.2) (fun q hq => hl q (List.mem_cons_of_mem _ hq))
    simp only [explode_all, List.foldl_cons] at this ⊢
    rw [this, explode_cell_orbTotal s p.1 p.2 hp.1 hp.2, List.map_cons, List.sum_cons]
    have e : (fun q : Nat × Nat => (s.explode_cell p.1 p.2).neighbours q.1 q.2 -
        (s.explode_cell p.1 p.2).get_critical_mass q.1 q.2) =
        (fun q : Nat × Nat => s.neighbours q.1 q.2 - s.get_critical_mass q.1 q.2) := rfl
    rw [e]; ring

theorem explosions_in_bounds (s : ChainReaction) : ∀ p ∈ s.explosions, p.1 < s.m ∧ p.2 < s.n := by
  rintro ⟨i, j⟩ hp
  have := mem_explosions.mp hp
  exact ⟨this.1, this.2.1⟩

/-- With at least two rows and two columns a wave keeps the number of orbs on the board. -/
theorem wave_orbTotal_eq (s : ChainReaction) (hm : 2 ≤ s.m) (hn : 2 ≤ s.n) :
    s.wave.orbTotal = s.orbTotal := by
  unfold wave
  rw [explode_all_orbTotal s _ (explosions_in_bounds s)]
  have : (s.explosions.map (fun p => s.neighbours p.1 p.2 - s.get_critical_mass p.1 p.2)).sum
      = 0 := by
    apply List.sum_eq_zero
    intro x hx
    obtain ⟨p, hp, rfl⟩ := List.mem_map.mp hx
    have hb := explosions_in_bounds s p hp
    rw [neighbours_eq_mass s p.1 p.2 hb.1 hb.2 hm hn]; ring
  rw [this]; ring

theorem iterate_wave_orbTotal_eq (s : ChainReaction) (hm : 2 ≤ s.m) (hn : 2 ≤ s.n) (k : Nat) :
    (wave^[k] s).orbTotal = s.orbTotal := by
  induction k generalizing s with
  | zero => rfl
  | succ k ih =>
    rw [Function.iterate_succ_apply, ih s.wave (by rw [wave_m]; exact hm) (by rw [wave_n]; exact hn),
      wave_orbTotal_eq s hm hn]

theorem list_sum_le_neg_length (l : List Int) (h : ∀ x ∈ l, x ≤ -1) :
    l.sum ≤ -(l.length : Int) := by
  induction l with
  | nil => simp
  | cons x l ih =>
    have hx := h x (List.mem_cons_self _ _)
    have := ih (fun y hy => h y (List.mem_cons_of_mem _ hy))
    simp only [List.sum_cons, List.length_cons, Nat.cast_add, Nat.cast_one]
    omega

theorem list_sum_nonpos (l : List Int) (h : ∀ x ∈ l, x ≤ 0) : l.sum ≤ 0 := by
  induction l with
  | nil => simp
  | cons x l ih =>
    have hx := h x (List.mem_cons_self _ _)
    have := ih (fun y hy => h y (List.mem_cons_of_mem _ hy))
    simp only [List.sum_cons]
    omega

/-- A wave never adds orbs to the board. -/
theorem wave_orbTotal_le (s : ChainReaction) : s.wave.orbTotal ≤ s.orbTotal := by
  unfold wave
  rw [explode_all_orbTotal s _ (explosions_in_bounds s)]
  have := list_sum_nonpos
    (s.explosions.map (fun p => s.neighbours p.1 p.2 - s.get_critical_mass p.1 p.2))
    (fun x hx => by
      obtain ⟨p, hp, rfl⟩ := List.mem_map.mp hx
      have := neighbours_le_mass s p.1 p.2
      omega)
  omega

/-- On a board with a single row or a single column a wave that detonates some cell removes at
least one orb from the board. -/
theorem wave_orbTotal_lt (s : ChainReaction) (h1 : s.m ≤ 1 ∨ s.n ≤ 1) (hs : ¬ s.stable) :
    s.wave.orbTotal + 1 ≤ s.orbTotal := by
  unfold wave
  rw [explode_all_orbTotal s _ (explosions_in_bounds s)]
  have hsum := list_sum_le_neg_length
    (s.explosions.map (fun p => s.neighbours p.1 p.2 - s.get_critical_mass p.1 p.2))
    (fun x hx => by
      obtain ⟨p, hp, rfl⟩ := List.mem_map.mp hx
      have hb := explosions_in_bounds s p hp
      have := neighbours_lt_mass s p.1 p.2 hb.1 hb.2 h1
      omega)
  have hlen : 0 < s.explosions.length := by
    rw [List.length_pos]
    exact fun e => hs ((explosions_eq_nil_iff s).mp e)
  rw [List.length_map] at hsum
  omega

theorem orbTotal_nonneg {s : ChainReaction} (h : s.CellInv) : 0 ≤ s.orbTotal :=
  sumCells_nonneg (fun i hi j hj => (h i hi j hj).1)

/-- A stable board holds at most `critical mass - 1` orbs in each cell. -/
theorem orbTotal_le_of_stable {s : ChainReaction} (h : s.stable) :
    s.orbTotal ≤ sumCells s.m s.n (fun i j => s.get_critical_mass i j - 1) :=
  sumCells_le_sumCells (fun i hi j hj => by have := h i hi j hj; omega)

/-- With at least two rows and two columns, a board that holds more orbs than a stable board can
hold is never resolved. -/
theorem process_explosions_none_of_overfull (s : ChainReaction) (hm : 2 ≤ s.m) (hn : 2 ≤ s.n)
    (h : sumCells s.m s.n (fun i j => s.get_critical_mass i j - 1) < s.orbTotal) (fuel : Nat) :
    process_explosions fuel s = none := by
  cases hres : process_explosions fuel s with
  | none => rfl
  | some t =>
    exfalso
    obtain ⟨k, _, rfl, hst⟩ := process_explosions_some hres
    have h1 := orbTotal_le_of_stable hst
    rw [iterate_wave_orbTotal_eq s hm hn k, iterate_wave_m, iterate_wave_n] at h1
    have e : (fun i j => (wave^[k] s).get_critical_mass i j - 1) =
        (fun i j => s.get_critical_mass i j - 1) := by
      funext i j; rw [iterate_wave_mass]
    rw [e] at h1
    omega

/-- On a board with a single row or a single column every wave that detonates a cell loses an
orb, so a board of the data model is resolved within as many waves as it holds orbs. -/
theorem stable_of_single_line (N : Nat) (s : ChainReaction) (hinv : s.CellInv)
    (h1 : s.m ≤ 1 ∨ s.n ≤ 1) (hN : s.orbTotal ≤ (N : Int)) :
    ∃ k ≤ N, (wave^[k] s).stable := by
  induction N generalizing s with
  | zero =>
    by_cases hs : s.stable
    · exact ⟨0, le_refl _, hs⟩
    · exfalso
      have := wave_orbTotal_lt s h1 hs
      have := orbTotal_nonneg (wave_inv hinv)
      simp only [Nat.cast_zero] at hN
      omega
  | succ N ih =>
    by_cases hs : s.stable
    · exact ⟨0, Nat.zero_le _, hs⟩
    · have hlt := wave_orbTotal_lt s h1 hs
      obtain ⟨k, hk, hst⟩ := ih s.wave (wave_inv hinv)
        (by rw [wave_m, wave_n]; exact h1) (by push_cast at hN; omega)
      exact ⟨k + 1, by omega, by rw [Function.iterate_succ_apply]; exact hst⟩

/-- C2, counterexample. `full_board` (2 × 2, one orb in every cell) is stable and satisfies the
cell invariant, `(0, 0)` is a legal move for Red, and after `make_move(0, 0, 'R')` the board
holds 5 orbs, one more than a stable 2 × 2 board can hold: `process_explosions` runs out of
every bound on the number of waves without reaching a board free of critical cells. -/
theorem process_explosions_cycles_on_full_board :
    full_board.stable ∧ full_board.CellInv ∧ full_board.is_valid_move 0 0 'R' = true ∧
      ∀ fuel, process_explosions fuel (full_board.make_move 0 0 'R') = none :=
  ⟨by decide, by decide, by decide,
    process_explosions_none_of_overfull (full_board.make_move 0 0 'R') (by decide) (by decide)
      (by decide)⟩

end ChainReaction

/-! ## Waves as synchronous steps -/

theorem nbrSum_add (f g : Nat → Nat → Int) (a b : Nat) :
    nbrSum (fun x y => f x y + g x y) a b = nbrSum f a b + nbrSum g a b := by
  unfold nbrSum
  split_ifs <;> ring

theorem memInd_cons (p : Nat × Nat) (l : List (Nat × Nat)) (hp : p ∉ l) (a b : Nat) :
    memInd (p :: l) a b = (if a = p.1 ∧ b = p.2 then 1 else 0) + memInd l a b := by
  unfold memInd
  obtain ⟨i, j⟩ := p
  by_cases h : a = i ∧ b = j
  · obtain ⟨rfl, rfl⟩ := h
    simp [hp]
  · have h2 : ¬ ((a, b) = (i, j)) := by simpa using h
    by_cases h3 : (a, b) ∈ l
    · simp [h, h2, h3]
    · simp [h, h2, h3]

theorem nbrSum_point (i j a b : Nat) :
    nbrSum (fun x y => if x = i ∧ y = j then (1 : Int) else 0) a b =
      if adj a b i j then 1 else 0 := by
  rw [ChainReaction.adj_indicator]
  unfold nbrSum
  have e1 : (if 1 ≤ a then (if a - 1 = i ∧ b = j then (1 : Int) else 0) else 0) =
      if a = i + 1 ∧ b = j then 1 else 0 := by split_ifs <;> first | rfl | omega
  have e2 : (if 1 ≤ b then (if a = i ∧ b - 1 = j then (1 : Int) else 0) else 0) =
      if a = i ∧ b = j + 1 then 1 else 0 := by split_ifs <;> first | rfl | omega
  rw [e1, e2]; ring

namespace ChainReaction

theorem explode_all_orbs (s : ChainReaction) (l : List (Nat × Nat)) (hnd : l.Nodup) (a b : Nat)
    (ha : a < s.m) (hb : b < s.n) :
    ((s.explode_all l).board a b).orbs =
      (s.board a b).orbs - s.get_critical_mass a b * memInd l a b + nbrSum (memInd l) a b := by
  induction l generalizing s with
  | nil => simp [explode_all, memInd, nbrSum]
  | cons p l ih =>
    obtain ⟨hp, hl⟩ := List.nodup_cons.mp hnd
    have := ih (s.explode_cell p.1 p.2) hl ha hb
    simp only [explode_all, List.foldl_cons] at this ⊢
    rw [this, explode_cell_orbs, explode_cell_mass]
    have e : memInd (p :: l) = fun x y => (if x = p.1 ∧ y = p.2 then 1 else 0) + memInd l x y := by
      funext x y; exact memInd_cons p l hp x y
    rw [e, nbrSum_add, nbrSum_point]
    have hin : (adj a b p.1 p.2 ∧ a < s.m ∧ b < s.n) ↔ adj a b p.1 p.2 := by
      constructor
      · exact fun h => h.1
      · exact fun h => ⟨h, ha, hb⟩
    simp only [hin]
    by_cases c : a = p.1 ∧ b = p.2
    · rw [if_pos c, if_pos c, c.1, c.2]; ring
    · rw [if_neg c, if_neg c]; ring

theorem memInd_explosions (s : ChainReaction) : memInd s.explosions = s.fire := by
  funext a b
  unfold memInd fire
  simp only [mem_explosions]

/-- A wave is a synchronous step: every in-bounds cell loses its critical mass if it was
critical when the wave began and gains one orb for each neighbour that was critical then. -/
theorem wave_orbs (s : ChainReaction) (a b : Nat) (ha : a < s.m) (hb : b < s.n) :
    (s.wave.board a b).orbs =
      (s.board a b).orbs - s.get_critical_mass a b * s.fire a b + nbrSum s.fire a b := by
  unfold wave
  rw [explode_all_orbs s _ (nodup_explosions s) a b ha hb, memInd_explosions]

theorem fire_nonneg (s : ChainReaction) (a b : Nat) : 0 ≤ s.fire a b := by
  unfold fire; split_ifs <;> omega

theorem fire_le_one (s : ChainReaction) (a b : Nat) : s.fire a b ≤ 1 := by
  unfold fire; split_ifs <;> omega

theorem fire_eq_one_iff (s : ChainReaction) (a b : Nat) :
    s.fire a b = 1 ↔ a < s.m ∧ b < s.n ∧ s.get_critical_mass a b ≤ (s.board a b).orbs := by
  unfold fire; split_ifs with h
  · simp [h]
  · simp [h]

theorem fireCount_nonneg (s : ChainReaction) (t a b : Nat) : 0 ≤ s.fireCount t a b := by
  induction t with
  | zero => simp [fireCount]
  | succ t ih => simp only [fireCount]; have := fire_nonneg (wave^[t] s) a b; omega

/-- Orb accounting over `t` waves: an in-bounds cell holds what it held at the start, minus its
critical mass for each of its detonations, plus one orb for each detonation of a neighbour. -/
theorem iterate_wave_orbs (s : ChainReaction) (t a b : Nat) (ha : a < s.m) (hb : b < s.n) :
    ((wave^[t] s).board a b).orbs =
      (s.board a b).orbs - s.get_critical_mass a b * s.fireCount t a b +
        nbrSum (s.fireCount t) a b := by
  induction t with
  | zero => simp [fireCount, nbrSum]
  | succ t ih =>
    rw [Function.iterate_succ_apply', wave_orbs _ a b (by rw [iterate_wave_m]; exact ha)
      (by rw [iterate_wave_n]; exact hb), ih, iterate_wave_mass]
    have e : s.fireCount (t + 1) = fun x y => s.fireCount t x y + (wave^[t] s).fire x y := by
      funext x y; rfl
    rw [e, nbrSum_add]
    ring

end ChainReaction

/-! ## How often a cell can detonate -/

theorem nbrSum_ge_down {f : Nat → Nat → Int} (hf : ∀ x y, 0 ≤ f x y) (a b : Nat) :
    f (a + 1) b ≤ nbrSum f a b := by
  unfold nbrSum
  have h1 := hf (a - 1) b
  have h3 := hf a (b - 1)
  have h4 := hf a (b + 1)
  split_ifs <;> omega

theorem nbrSum_ge_right {f : Nat → Nat → Int} (hf : ∀ x y, 0 ≤ f x y) (a b : Nat) :
    f a (b + 1) ≤ nbrSum f a b := by
  unfold nbrSum
  have h1 := hf (a - 1) b
  have h2 := hf (a + 1) b
  have h3 := hf a (b - 1)
  split_ifs <;> omega

theorem nbrSum_ge_up {f : Nat → Nat → Int} (hf : ∀ x y, 0 ≤ f x y) (a b : Nat) (ha : 1 ≤ a) :
    f (a - 1) b ≤ nbrSum f a b := by
  unfold nbrSum
  have h2 := hf (a + 1) b
  have h3 := hf a (b - 1)
  have h4 := hf a (b + 1)
  split_ifs <;> omega

theorem nbrSum_ge_left {f : Nat → Nat → Int} (hf : ∀ x y, 0 ≤ f x y) (a b : Nat) (hb : 1 ≤ b) :
    f a (b - 1) ≤ nbrSum f a b := by
  unfold nbrSum
  have h1 := hf (a - 1) b
  have h2 := hf (a + 1) b
  have h4 := hf a (b + 1)
  split_ifs <;> omega

namespace ChainReaction

theorem iterate_wave_orbTotal_le (s : ChainReaction) (k : Nat) :
    (wave^[k] s).orbTotal ≤ s.orbTotal := by
  induction k with
  | zero => exact le_refl _
  | succ k ih =>
    rw [Function.iterate_succ_apply']
    exact le_trans (wave_orbTotal_le _) ih

theorem orbs_le_orbTotal {s : ChainReaction} (h : s.CellInv) {a b : Nat} (ha : a < s.m)
    (hb : b < s.n) : (s.board a b).orbs ≤ s.orbTotal :=
  le_sumCells (f := fun i j => (s.board i j).orbs) (fun i hi j hj => (h i hi j hj).1) ha hb

/-- The neighbours of a cell detonated, together, at most as often as the orbs on the board and
four times the detonations of the cell allow. -/
theorem nbrSum_fireCount_le {s : ChainReaction} (h : s.CellInv) (t a b : Nat) (ha : a < s.m)
    (hb : b < s.n) : nbrSum (s.fireCount t) a b ≤ s.orbTotal + 4 * s.fireCount t a b := by
  have hacc := iterate_wave_orbs s t a b ha hb
  have h0 := (h a ha b hb).1
  have ht := orbs_le_orbTotal (iterate_wave_inv h t) (a := a) (b := b)
    (by rw [iterate_wave_m]; exact ha) (by rw [iterate_wave_n]; exact hb)
  have hle := iterate_wave_orbTotal_le s t
  have hF := fireCount_nonneg s t a b
  have hmul : s.get_critical_mass a b * s.fireCount t a b ≤ 4 * s.fireCount t a b :=
    mul_le_mul_of_nonneg_right (mass_le_four s a b) hF
  omega

theorem fireBound_nonneg {N : Int} (hN : 0 ≤ N) (d : Nat) : 0 ≤ fireBound N d := by
  induction d with
  | zero => simp [fireBound]
  | succ d ih => simp only [fireBound]; omega

theorem fireBound_mono {N : Int} (hN : 0 ≤ N) {d e : Nat} (h : d ≤ e) :
    fireBound N d ≤ fireBound N e := by
  induction e with
  | zero =>
    have : d = 0 := by omega
    rw [this]
  | succ e ih =>
    by_cases c : d = e + 1
    · rw [c]
    · have := ih (by omega)
      have h0 := fireBound_nonneg hN e
      simp only [fireBound]; omega

/-- If the cell `(a0, b0)` has not detonated during the first `t` waves, a cell at distance at
most `d` from it has detonated at most `fireBound N d` times. -/
theorem fireCount_le_fireBound {s : ChainReaction} (h : s.CellInv) (t a0 b0 : Nat)
    (ha0 : a0 < s.m) (hb0 : b0 < s.n) (h0 : s.fireCount t a0 b0 = 0) (d : Nat) :
    ∀ a b, a < s.m → b < s.n → (a - a0) + (a0 - a) + ((b - b0) + (b0 - b)) ≤ d →
      s.fireCount t a b ≤ fireBound s.orbTotal d := by
  have hN := orbTotal_nonneg h
  have hF : ∀ x y, 0 ≤ s.fireCount t x y := fireCount_nonneg s t
  induction d with
  | zero =>
    intro a b ha hb hd
    have e1 : a = a0 := by omega
    have e2 : b = b0 := by omega
    rw [e1, e2, h0]; simp [fireBound]
  | succ d ih =>
    intro a b ha hb hd
    simp only [fireBound]
    have hB := fireBound_nonneg hN d
    by_cases c1 : a0 < a
    · have hn := ih (a - 1) b (by omega) hb (by omega)
      have h1 := nbrSum_ge_down hF (a - 1) b
      have h2 := nbrSum_fireCount_le h t (a - 1) b (by omega) hb
      have e : a - 1 + 1 = a := by omega
      rw [e] at h1
      omega
    · by_cases c2 : a < a0
      · have hn := ih (a + 1) b (by omega) hb (by omega)
        have h1 := nbrSum_ge_up hF (a + 1) b (by omega)
        have h2 := nbrSum_fireCount_le h t (a + 1) b (by omega) hb
        have e : a + 1 - 1 = a := by omega
        rw [e] at h1
        omega
      · by_cases c3 : b0 < b
        · have hn := ih a (b - 1) ha (by omega) (by omega)
          have h1 := nbrSum_ge_right hF a (b - 1)
          have h2 := nbrSum_fireCount_le h t a (b - 1) ha (by omega)
          have e : b - 1 + 1 = b := by omega
          rw [e] at h1
          omega
        · by_cases c4 : b < b0
          · have hn := ih a (b + 1) ha (by omega) (by omega)
            have h1 := nbrSum_ge_left hF a (b + 1) (by omega)
            have h2 := nbrSum_fireCount_le h t a (b + 1) ha (by omega)
            have e : b + 1 - 1 = b := by omega
            rw [e] at h1
            omega
          · have e1 : a = a0 := by omega
            have e2 : b = b0 := by omega
            rw [e1, e2, h0]; omega

/-- Every wave that finds a critical cell adds a detonation. -/
theorem le_sumCells_fireCount (s : ChainReaction) (T : Nat)
    (hns : ∀ t < T, ¬ (wave^[t] s).stable) : (T : Int) ≤ sumCells s.m s.n (s.fireCount T) := by
  induction T with
  | zero => simp [sumCells, fireCount]
  | succ T ih =>
    have h1 := ih (fun t ht => hns t (by omega))
    have e : s.fireCount (T + 1) = fun x y => s.fireCount T x y + (wave^[T] s).fire x y := by
      funext x y; rfl
    rw [e, sumCells_add]
    have hT := hns T (by omega)
    unfold stable at hT
    push_neg at hT
    obtain ⟨i, hi, j, hj, hc⟩ := hT
    have hfire : (wave^[T] s).fire i j = 1 := (fire_eq_one_iff _ i j).mpr ⟨hi, hj, hc⟩
    rw [iterate_wave_m] at hi
    rw [iterate_wave_n] at hj
    have := le_sumCells (f := (wave^[T] s).fire) (m := s.m) (n := s.n)
      (fun x _ y _ => fire_nonneg _ x y) hi hj
    push_cast
    omega

/-- If more waves than `m * n * fireBound N (m + n)` found a critical cell, every cell has
detonated. -/
theorem fireCount_pos_of_long {s : ChainReaction} (h : s.CellInv) (T : Nat)
    (hns : ∀ t < T, ¬ (wave^[t] s).stable)
    (hT : fireBound s.orbTotal (s.m + s.n) * ((s.m : Int) * (s.n : Int)) < (T : Int)) :
    ∀ a b, a < s.m → b < s.n → 0 < s.fireCount T a b := by
  intro a0 b0 ha0 hb0
  by_contra hneg
  have h0 : s.fireCount T a0 b0 = 0 := by
    have := fireCount_nonneg s T a0 b0; omega
  have hall : ∀ i < s.m, ∀ j < s.n, s.fireCount T i j ≤ fireBound s.orbTotal (s.m + s.n) :=
    fun i hi j hj =>
      fireCount_le_fireBound h T a0 b0 ha0 hb0 h0 (s.m + s.n) i j hi hj (by omega)
  have h1 := sumCells_le hall
  have h2 := le_sumCells_fireCount s T hns
  omega

end ChainReaction

/-! ## Orbs left behind by detonated neighbours -/

theorem chip_term (cond : Prop) [Decidable cond] (t Lv Lu : Nat) (fv fu : Int)
    (hv : fv = 0 ∨ fv = 1) (hu : fu = 0 ∨ fu = 1) (hLu : Lu ≤ t) :
    ind (cond ∧ 0 < (if fu = 1 then t + 1 else Lu) ∧
        (if fv = 1 then t + 1 else Lv) ≤ (if fu = 1 then t + 1 else Lu)) ≤
      (if fv = 1 then 0 else ind (cond ∧ 0 < Lu ∧ Lv ≤ Lu)) + (if cond then fu else 0) := by
  unfold ind
  by_cases hc : cond
  · rcases hv with rfl | rfl <;> rcases hu with rfl | rfl <;> simp [hc] <;> split_ifs <;> omega
  · rcases hv with rfl | rfl <;> rcases hu with rfl | rfl <;> simp [hc]

theorem line_pairs (l : Nat → Nat) (n : Nat) :
    (n : Int) - 1 ≤ ∑ b in Finset.range n,
      (ind (1 ≤ b ∧ l b ≤ l (b - 1)) + ind (b + 1 < n ∧ l b ≤ l (b + 1))) := by
  cases n with
  | zero => simp
  | succ n =>
    rw [Finset.sum_add_distrib, Finset.sum_range_succ', Finset.sum_range_succ, ← add_assoc]
    have e1 : ind (1 ≤ 0 ∧ l 0 ≤ l (0 - 1)) = 0 := by simp [ind]
    have e2 : ind (n + 1 < n + 1 ∧ l n ≤ l (n + 1)) = 0 := by simp [ind]
    rw [e1, e2, add_zero, add_zero, ← Finset.sum_add_distrib]
    have h : ∀ b ∈ Finset.range n, (1 : Int) ≤
        ind (1 ≤ b + 1 ∧ l (b + 1) ≤ l (b + 1 - 1)) + ind (b + 1 < n + 1 ∧ l b ≤ l (b + 1)) := by
      intro b hb
      have hb' := Finset.mem_range.mp hb
      simp only [Nat.add_sub_cancel]
      unfold ind
      split_ifs <;> omega
    have hn : ∑ _b in Finset.range n, (1 : Int) = (n : Int) := by simp
    have e3 : ((n + 1 : Nat) : Int) - 1 = (n : Int) := by push_cast; ring
    rw [e3, ← hn]
    exact Finset.sum_le_sum h

namespace ChainReaction

theorem lastFire_le (s : ChainReaction) (t a b : Nat) : s.lastFire t a b ≤ t := by
  induction t with
  | zero => simp [lastFire]
  | succ t ih => simp only [lastFire]; split_ifs <;> omega

theorem fire_zero_or_one (s : ChainReaction) (a b : Nat) : s.fire a b = 0 ∨ s.fire a b = 1 := by
  unfold fire; split_ifs <;> simp

theorem lastFire_pos_of_fireCount_pos (s : ChainReaction) (t a b : Nat)
    (h : 0 < s.fireCount t a b) : 0 < s.lastFire t a b := by
  induction t with
  | zero => simp [fireCount] at h
  | succ t ih =>
    simp only [fireCount] at h
    simp only [lastFire]
    rcases fire_zero_or_one (wave^[t] s) a b with h0 | h1
    · rw [h0] at h
      rw [h0]
      simp only [zero_ne_one, if_false]
      exact ih (by omega)
    · rw [if_pos h1]; omega

/-- Each neighbour that detonated, and not before the cell itself last did, has left an orb in
the cell that is still there. -/
theorem chipsDue_le_orbs {s : ChainReaction} (h : s.CellInv) (t a b : Nat) (ha : a < s.m)
    (hb : b < s.n) : s.chipsDue t a b ≤ ((wave^[t] s).board a b).orbs := by
  induction t with
  | zero =>
    have := (h a ha b hb).1
    simp [chipsDue, lastFire, ind]
    exact this
  | succ t ih =>
    rw [Function.iterate_succ_apply', wave_orbs _ a b (by rw [iterate_wave_m]; exact ha)
      (by rw [iterate_wave_n]; exact hb)]
    have hv := fire_zero_or_one (wave^[t] s) a b
    have t1 := chip_term (1 ≤ a) t (s.lastFire t a b) (s.lastFire t (a - 1) b)
      ((wave^[t] s).fire a b) ((wave^[t] s).fire (a - 1) b) hv (fire_zero_or_one _ _ _)
      (lastFire_le _ _ _ _)
    have t2 := chip_term (a + 1 < s.m) t (s.lastFire t a b) (s.lastFire t (a + 1) b)
      ((wave^[t] s).fire a b) ((wave^[t] s).fire (a + 1) b) hv (fire_zero_or_one _ _ _)
      (lastFire_le _ _ _ _)
    have t3 := chip_term (1 ≤ b) t (s.lastFire t a b) (s.lastFire t a (b - 1))
      ((wave^[t] s).fire a b) ((wave^[t] s).fire a (b - 1)) hv (fire_zero_or_one _ _ _)
      (lastFire_le _ _ _ _)
    have t4 := chip_term (b + 1 < s.n) t (s.lastFire t a b) (s.lastFire t a (b + 1))
      ((wave^[t] s).fire a b) ((wave^[t] s).fire a (b + 1)) hv (fire_zero_or_one _ _ _)
      (lastFire_le _ _ _ _)
    have f2 := fire_nonneg (wave^[t] s) (a + 1) b
    have f4 := fire_nonneg (wave^[t] s) a (b + 1)
    have u2 : (if a + 1 < s.m then (wave^[t] s).fire (a + 1) b else 0) ≤
        (wave^[t] s).fire (a + 1) b := by split_ifs <;> omega
    have u4 : (if b + 1 < s.n then (wave^[t] s).fire a (b + 1) else 0) ≤
        (wave^[t] s).fire a (b + 1) := by split_ifs <;> omega
    have hch : s.chipsDue (t + 1) a b =
        ind (1 ≤ a ∧ 0 < (if (wave^[t] s).fire (a - 1) b = 1 then t + 1 else s.lastFire t (a - 1) b) ∧
          (if (wave^[t] s).fire a b = 1 then t + 1 else s.lastFire t a b) ≤
            (if (wave^[t] s).fire (a - 1) b = 1 then t + 1 else s.lastFire t (a - 1) b)) +
        ind (a + 1 < s.m ∧ 0 < (if (wave^[t] s).fire (a + 1) b = 1 then t + 1 else s.lastFire t (a + 1) b) ∧
          (if (wave^[t] s).fire a b = 1 then t + 1 else s.lastFire t a b) ≤
            (if (wave^[t] s).fire (a + 1) b = 1 then t + 1 else s.lastFire t (a + 1) b)) +
        ind (1 ≤ b ∧ 0 < (if (wave^[t] s).fire a (b - 1) = 1 then t + 1 else s.lastFire t a (b - 1)) ∧
          (if (wave^[t] s).fire a b = 1 then t + 1 else s.lastFire t a b) ≤
            (if (wave^[t] s).fire a (b - 1) = 1 then t + 1 else s.lastFire t a (b - 1))) +
        ind (b + 1 < s.n ∧ 0 < (if (wave^[t] s).fire a (b + 1) = 1 then t + 1 else s.lastFire t a (b + 1)) ∧
          (if (wave^[t] s).fire a b = 1 then t + 1 else s.lastFire t a b) ≤
            (if (wave^[t] s).fire a (b + 1) = 1 then t + 1 else s.lastFire t a (b + 1))) := rfl
    have hold : s.chipsDue t a b =
        ind (1 ≤ a ∧ 0 < s.lastFire t (a - 1) b ∧ s.lastFire t a b ≤ s.lastFire t (a - 1) b) +
        ind (a + 1 < s.m ∧ 0 < s.lastFire t (a + 1) b ∧ s.lastFire t a b ≤ s.lastFire t (a + 1) b) +
        ind (1 ≤ b ∧ 0 < s.lastFire t a (b - 1) ∧ s.lastFire t a b ≤ s.lastFire t a (b - 1)) +
        ind (b + 1 < s.n ∧ 0 < s.lastFire t a (b + 1) ∧ s.lastFire t a b ≤ s.lastFire t a (b + 1)) :=
      rfl
    rw [hch]
    rw [hold] at ih
    have hn : nbrSum (wave^[t] s).fire a b =
        (if 1 ≤ a then (wave^[t] s).fire (a - 1) b else 0) + (wave^[t] s).fire (a + 1) b +
        (if 1 ≤ b then (wave^[t] s).fire a (b - 1) else 0) + (wave^[t] s).fire a (b + 1) := rfl
    rw [hn]
    rcases hv with h0 | h1
    · rw [h0] at t1 t2 t3 t4
      simp only [zero_ne_one, if_false] at t1 t2 t3 t4
      rw [h0]
      simp only [zero_ne_one, if_false]
      omega
    · have hc := ((fire_eq_one_iff _ a b).mp h1).2.2
      rw [h1] at t1 t2 t3 t4
      simp only [if_true] at t1 t2 t3 t4
      rw [h1]
      simp only [if_true]
      omega

end ChainReaction

/-! ## Termination of the resolver -/
namespace ChainReaction

theorem chipsDue_eq_of_pos (s : ChainReaction) (T : Nat)
    (hpos : ∀ a < s.m, ∀ b < s.n, 0 < s.lastFire T a b) (a b : Nat) (ha : a < s.m)
    (hb : b < s.n) :
    s.chipsDue T a b =
      (ind (1 ≤ a ∧ s.lastFire T a b ≤ s.lastFire T (a - 1) b) +
        ind (a + 1 < s.m ∧ s.lastFire T a b ≤ s.lastFire T (a + 1) b)) +
      (ind (1 ≤ b ∧ s.lastFire T a b ≤ s.lastFire T a (b - 1)) +
        ind (b + 1 < s.n ∧ s.lastFire T a b ≤ s.lastFire T a (b + 1))) := by
  have p1 : 1 ≤ a → 0 < s.lastFire T (a - 1) b := fun h => hpos (a - 1) (by omega) b hb
  have p2 : a + 1 < s.m → 0 < s.lastFire T (a + 1) b := fun h => hpos (a + 1) h b hb
  have p3 : 1 ≤ b → 0 < s.lastFire T a (b - 1) := fun h => hpos a ha (b - 1) (by omega)
  have p4 : b + 1 < s.n → 0 < s.lastFire T a (b + 1) := fun h => hpos a ha (b + 1) h
  have e1 : (1 ≤ a ∧ 0 < s.lastFire T (a - 1) b ∧ s.lastFire T a b ≤ s.lastFire T (a - 1) b) ↔
      (1 ≤ a ∧ s.lastFire T a b ≤ s.lastFire T (a - 1) b) :=
    ⟨fun h => ⟨h.1, h.2.2⟩, fun h => ⟨h.1, p1 h.1, h.2⟩⟩
  have e2 : (a + 1 < s.m ∧ 0 < s.lastFire T (a + 1) b ∧
      s.lastFire T a b ≤ s.lastFire T (a + 1) b) ↔
      (a + 1 < s.m ∧ s.lastFire T a b ≤ s.lastFire T (a + 1) b) :=
    ⟨fun h => ⟨h.1, h.2.2⟩, fun h => ⟨h.1, p2 h.1, h.2⟩⟩
  have e3 : (1 ≤ b ∧ 0 < s.lastFire T a (b - 1) ∧ s.lastFire T a b ≤ s.lastFire T a (b - 1)) ↔
      (1 ≤ b ∧ s.lastFire T a b ≤ s.lastFire T a (b - 1)) :=
    ⟨fun h => ⟨h.1, h.2.2⟩, fun h => ⟨h.1, p3 h.1, h.2⟩⟩
  have e4 : (b + 1 < s.n ∧ 0 < s.lastFire T a (b + 1) ∧
      s.lastFire T a b ≤ s.lastFire T a (b + 1)) ↔
      (b + 1 < s.n ∧ s.lastFire T a b ≤ s.lastFire T a (b + 1)) :=
    ⟨fun h => ⟨h.1, h.2.2⟩, fun h => ⟨h.1, p4 h.1, h.2⟩⟩
  unfold chipsDue ind
  simp only [e1, e2, e3, e4]
  ring

/-- Once every cell has detonated, every pair of adjacent cells accounts for an orb. -/
theorem adjacentPairs_le_chipsDue (s : ChainReaction) (T : Nat)
    (hpos : ∀ a < s.m, ∀ b < s.n, 0 < s.lastFire T a b) :
    adjacentPairs s.m s.n ≤ sumCells s.m s.n (s.chipsDue T) := by
  rw [sumCells_congr (fun a ha b hb => chipsDue_eq_of_pos s T hpos a b ha hb), sumCells_add]
  have hH : (s.m : Int) * ((s.n : Int) - 1) ≤ sumCells s.m s.n (fun a b =>
      ind (1 ≤ b ∧ s.lastFire T a b ≤ s.lastFire T a (b - 1)) +
        ind (b + 1 < s.n ∧ s.lastFire T a b ≤ s.lastFire T a (b + 1))) := by
    unfold sumCells
    have h := Finset.sum_le_sum (s := Finset.range s.m)
      (f := fun _ => (s.n : Int) - 1)
      (g := fun a => ∑ b in Finset.range s.n,
        (ind (1 ≤ b ∧ s.lastFire T a b ≤ s.lastFire T a (b - 1)) +
          ind (b + 1 < s.n ∧ s.lastFire T a b ≤ s.lastFire T a (b + 1))))
      (fun a _ => line_pairs (fun b => s.lastFire T a b) s.n)
    simp only [Finset.sum_const, Finset.card_range, nsmul_eq_mul] at h
    exact h
  have hV : (s.n : Int) * ((s.m : Int) - 1) ≤ sumCells s.m s.n (fun a b =>
      ind (1 ≤ a ∧ s.lastFire T a b ≤ s.lastFire T (a - 1) b) +
        ind (a + 1 < s.m ∧ s.lastFire T a b ≤ s.lastFire T (a + 1) b)) := by
    unfold sumCells
    rw [Finset.sum_comm]
    have h := Finset.sum_le_sum (s := Finset.range s.n)
      (f := fun _ => (s.m : Int) - 1)
      (g := fun b => ∑ a in Finset.range s.m,
        (ind (1 ≤ a ∧ s.lastFire T a b ≤ s.lastFire T (a - 1) b) +
          ind (a + 1 < s.m ∧ s.lastFire T a b ≤ s.lastFire T (a + 1) b)))
      (fun b _ => line_pairs (fun a => s.lastFire T a b) s.m)
    simp only [Finset.sum_const, Finset.card_range, nsmul_eq_mul] at h
    exact h
  unfold adjacentPairs
  omega

theorem orbTotal_iterate_wave (s : ChainReaction) (k : Nat) :
    (wave^[k] s).orbTotal = sumCells s.m s.n (fun a b => ((wave^[k] s).board a b).orbs) := by
  unfold orbTotal
  rw [iterate_wave_m, iterate_wave_n]

/-- A board of the data model that holds fewer orbs than it has pairs of adjacent cells reaches
a stable board after finitely many waves. -/
theorem stable_of_few_orbs (s : ChainReaction) (h : s.CellInv)
    (hE : s.orbTotal < adjacentPairs s.m s.n) : ∃ k, (wave^[k] s).stable := by
  by_contra hne
  push_neg at hne
  have hN := orbTotal_nonneg h
  have hB := fireBound_nonneg hN (s.m + s.n)
  have hK : 0 ≤ fireBound s.orbTotal (s.m + s.n) * ((s.m : Int) * (s.n : Int)) :=
    mul_nonneg hB (mul_nonneg (Int.ofNat_nonneg _) (Int.ofNat_nonneg _))
  obtain ⟨T, hT⟩ : ∃ T : Nat,
      fireBound s.orbTotal (s.m + s.n) * ((s.m : Int) * (s.n : Int)) < (T : Int) := by
    refine ⟨(fireBound s.orbTotal (s.m + s.n) * ((s.m : Int) * (s.n : Int))).toNat + 1, ?_⟩
    push_cast
    rw [Int.toNat_of_nonneg hK]
    omega
  have hfc := fireCount_pos_of_long h T (fun t _ => hne t) hT
  have hpos : ∀ a < s.m, ∀ b < s.n, 0 < s.lastFire T a b :=
    fun a ha b hb => lastFire_pos_of_fireCount_pos s _ a b (hfc a b ha hb)
  have h1 := adjacentPairs_le_chipsDue s T hpos
  have h2 : sumCells s.m s.n (s.chipsDue T) ≤
      sumCells s.m s.n (fun a b => ((wave^[T] s).board a b).orbs) :=
    sumCells_le_sumCells (fun a ha b hb => chipsDue_le_orbs h T a b ha hb)
  have h3 := iterate_wave_orbTotal_le s T
  rw [orbTotal_iterate_wave] at h3
  exact absurd (lt_of_le_of_lt (le_trans h1 (le_trans h2 h3)) hE) (lt_irrefl _)

/-- A returned board is returned already with as many waves allowed as it took. -/
theorem process_explosions_exact {fuel : Nat} {s t : ChainReaction}
    (h : process_explosions fuel s = some t) :
    ∃ k ≤ fuel, t = wave^[k] s ∧ t.stable ∧ process_explosions k s = some t := by
  induction fuel generalizing s with
  | zero =>
    by_cases hs : s.stable
    · rw [process_explosions_of_stable hs] at h
      cases h
      exact ⟨0, le_refl _, rfl, hs, process_explosions_of_stable hs 0⟩
    · rw [process_explosions_zero_of_not_stable hs] at h; cases h
  | succ fuel ih =>
    by_cases hs : s.stable
    · rw [process_explosions_of_stable hs] at h
      cases h
      exact ⟨0, Nat.zero_le _, rfl, hs, process_explosions_of_stable hs 0⟩
    · rw [process_explosions_succ_of_not_stable hs] at h
      obtain ⟨k, hk, ht, hst, hex⟩ := ih h
      refine ⟨k + 1, by omega, by rw [Function.iterate_succ_apply]; exact ht, hst, ?_⟩
      rw [process_explosions_succ_of_not_stable hs]; exact hex

theorem process_explosions_fuel_mono {f : Nat} {s t : ChainReaction}
    (h : process_explosions f s = some t) {g : Nat} (hfg : f ≤ g) :
    process_explosions g s = some t := by
  induction f generalizing s g with
  | zero =>
    by_cases hs : s.stable
    · rw [process_explosions_of_stable hs] at h ⊢; exact h
    · rw [process_explosions_zero_of_not_stable hs] at h; cases h
  | succ f ih =>
    by_cases hs : s.stable
    · rw [process_explosions_of_stable hs] at h ⊢; exact h
    · obtain ⟨g', rfl⟩ : ∃ g', g = g' + 1 := ⟨g - 1, by omega⟩
      rw [process_explosions_succ_of_not_stable hs] at h ⊢
      exact ih h (by omega)

theorem make_move_orbTotal_le (s : ChainReaction) (i j : Nat) (p : Char) :
    (s.make_move i j p).orbTotal ≤ s.orbTotal + 1 := by
  unfold orbTotal
  rw [make_move_m, make_move_n]
  have e : (fun a b => ((s.make_move i j p).board a b).orbs) =
      (fun a b => (s.board a b).orbs + (if a = i ∧ b = j then 1 else 0)) := by
    funext a b
    rw [make_move_board]
    by_cases c : a = i ∧ b = j
    · rw [if_pos c, if_pos c, c.1, c.2]
    · rw [if_neg c, if_neg c]; simp
  rw [e, sumCells_add, sumCells_point]
  split_ifs <;> omega

/-- C2, amended. For every board size, every board that satisfies the cell invariant and every
move of Red or Blue applied to it with `make_move`: if the board has a single row or a single
column, or if the board after the move holds fewer orbs than the board has pairs of
orthogonally adjacent cells, then `process_explosions` reaches a board with no critical cell
after finitely many waves: there are `k` and `t` such that it returns `t`, the result of `k`
waves, whenever at least `k` waves are allowed. -/
theorem process_explosions_terminates (s : ChainReaction) (i j : Nat) (player : Char)
    (hinv : s.CellInv) (hp : player = 'R' ∨ player = 'B')
    (hsmall : s.m ≤ 1 ∨ s.n ≤ 1 ∨ s.orbTotal + 1 < adjacentPairs s.m s.n) :
    ∃ (k : Nat) (t : ChainReaction), t = wave^[k] (s.make_move i j player) ∧ t.stable ∧
      ∀ fuel, k ≤ fuel → process_explosions fuel (s.make_move i j player) = some t := by
  have h1 := make_move_inv hinv i j hp
  have hle := make_move_orbTotal_le s i j player
  have hex : ∃ k, (wave^[k] (s.make_move i j player)).stable := by
    by_cases hline : s.m ≤ 1 ∨ s.n ≤ 1
    · have hN := orbTotal_nonneg h1
      obtain ⟨k, _, hk⟩ := stable_of_single_line (s.make_move i j player).orbTotal.toNat
        (s.make_move i j player) h1 hline (by rw [Int.toNat_of_nonneg hN])
      exact ⟨k, hk⟩
    · have hE : s.orbTotal + 1 < adjacentPairs s.m s.n := by
        rcases hsmall with c | c | c
        · exact absurd (Or.inl c) hline
        · exact absurd (Or.inr c) hline
        · exact c
      exact stable_of_few_orbs (s.make_move i j player) h1 (by
        rw [make_move_m, make_move_n]; omega)
  obtain ⟨k, hk⟩ := hex
  obtain ⟨t, ht⟩ := process_explosions_of_iterate k hk k (le_refl _)
  obtain ⟨k', _, hiter, hst, hex⟩ := process_explosions_exact ht
  exact ⟨k', t, hiter, hst, fun fuel hf => process_explosions_fuel_mono hex hf⟩

/-- C2 amended, instance: `corner_board` holds one orb and has 12 pairs of adjacent cells, so a
Blue move on its corner is resolved after finitely many waves. -/
theorem process_explosions_terminates_witness :
    corner_board.CellInv ∧ corner_board.orbTotal + 1 < adjacentPairs corner_board.m corner_board.n ∧
      ∃ (k : Nat) (t : ChainReaction), t = wave^[k] (corner_board.make_move 0 0 'B') ∧ t.stable ∧
        ∀ fuel, k ≤ fuel → process_explosions fuel (corner_board.make_move 0 0 'B') = some t :=
  ⟨by decide, by decide,
    process_explosions_terminates corner_board 0 0 'B' (by decide) (Or.inr rfl)
      (Or.inr (Or.inr (by decide)))⟩

end ChainReaction

namespace ChainReaction

/-! ## The board model and single explosions -/

/-- C11. On every board with at least two rows and two columns and for every in-bounds cell
`(i, j)`, `get_critical_mass(i, j)` is 2 exactly when `(i, j)` is one of the four corners, 3
exactly when it lies on the perimeter without being a corner, and 4 exactly when it is interior;
the value is the same on every board with the same numbers of rows and columns, whatever the
cells hold. -/
theorem get_critical_mass_geometry (s : ChainReaction) (i j : Nat) (hm : 2 ≤ s.m) (hn : 2 ≤ s.n)
    (hi : i < s.m) (hj : j < s.n) :
    (s.get_critical_mass i j = 2 ↔
      (i = 0 ∧ j = 0) ∨ (i = 0 ∧ j = s.n - 1) ∨ (i = s.m - 1 ∧ j = 0) ∨
        (i = s.m - 1 ∧ j = s.n - 1)) ∧
    (s.get_critical_mass i j = 3 ↔
      (i = 0 ∨ i = s.m - 1 ∨ j = 0 ∨ j = s.n - 1) ∧
        ¬ ((i = 0 ∧ j = 0) ∨ (i = 0 ∧ j = s.n - 1) ∨ (i = s.m - 1 ∧ j = 0) ∨
          (i = s.m - 1 ∧ j = s.n - 1))) ∧
    (s.get_critical_mass i j = 4 ↔ (0 < i ∧ i < s.m - 1 ∧ 0 < j ∧ j < s.n - 1)) ∧
    (∀ t : ChainReaction, t.m = s.m → t.n = s.n →
      t.get_critical_mass i j = s.get_critical_mass i j) := by
  refine ⟨?_, ?_, ?_, fun t htm htn => mass_congr htm htn i j⟩
  · unfold get_critical_mass; split_ifs <;> omega
  · unfold get_critical_mass; split_ifs <;> omega
  · unfold get_critical_mass; split_ifs <;> omega

/-- C11, instance: on the 3 × 3 `corner_board` the cell `(0, 2)` is a corner and has critical
mass 2, and the centre `(1, 1)` has critical mass 4. -/
theorem get_critical_mass_geometry_witness :
    corner_board.get_critical_mass 0 2 = 2 ∧ corner_board.get_critical_mass 1 1 = 4 :=
  ⟨(get_critical_mass_geometry corner_board 0 2 (by decide) (by decide) (by decide)
      (by decide)).1.mpr (by decide),
    (get_critical_mass_geometry corner_board 1 1 (by decide) (by decide) (by decide)
      (by decide)).2.2.1.mpr (by decide)⟩

/-- C12. Move legality: `is_valid_move(i, j, player)` is true if and only if the cell has no owner
(its colour is the NUL character) or its owner is `player`; the orb count plays no role: putting
any other orb count in the cell leaves the answer as it is. -/
theorem is_valid_move_iff (s : ChainReaction) (i j : Nat) (player : Char) :
    (s.is_valid_move i j player = true ↔
      (s.board i j).color = NUL ∨ (s.board i j).color = player) ∧
    (∀ orbs : Int,
      ({ s with board := setCell s.board i j { orbs := orbs, color := (s.board i j).color } } :
        ChainReaction).is_valid_move i j player = s.is_valid_move i j player) := by
  constructor
  · simp [is_valid_move]
  · intro orbs
    simp [is_valid_move, setCell]

/-- C13. The move `make_move(i, j, player)` adds exactly one orb to the cell `(i, j)` and makes
`player` its owner; every other cell keeps its orb count and owner, and the dimensions and the
mode are kept. No explosion is resolved: when the cell reaches or exceeds its critical mass it is
left critical, listed among the cells the next wave detonates. -/
theorem make_move_frame (s : ChainReaction) (i j : Nat) (player : Char) :
    (s.make_move i j player).board i j = { orbs := (s.board i j).orbs + 1, color := player } ∧
    (∀ a b, ¬ (a = i ∧ b = j) → (s.make_move i j player).board a b = s.board a b) ∧
    (s.make_move i j player).m = s.m ∧ (s.make_move i j player).n = s.n ∧
    (s.make_move i j player).is_ai_vs_ai = s.is_ai_vs_ai ∧
    (i < s.m → j < s.n → s.get_critical_mass i j ≤ (s.board i j).orbs + 1 →
      (i, j) ∈ (s.make_move i j player).explosions ∧ ¬ (s.make_move i j player).stable) := by
  refine ⟨?_, ?_, rfl, rfl, rfl, ?_⟩
  · rw [make_move_board, if_pos ⟨rfl, rfl⟩]
  · intro a b hab
    rw [make_move_board, if_neg hab]
  · intro hi hj hc
    have hmem : (i, j) ∈ (s.make_move i j player).explosions := by
      rw [mem_explosions]
      refine ⟨hi, hj, ?_⟩
      rw [make_move_board, if_pos ⟨rfl, rfl⟩]
      exact hc
    refine ⟨hmem, fun hst => ?_⟩
    rw [(explosions_eq_nil_iff _).mpr hst] at hmem
    exact List.not_mem_nil _ hmem

/-- C13, instance: a second Blue orb on the corner of `corner_board` brings the corner to its
critical mass 2, and the corner is left critical. -/
theorem make_move_frame_witness :
    corner_board.get_critical_mass 0 0 ≤ (corner_board.board 0 0).orbs + 1 ∧
      (0, 0) ∈ (corner_board.make_move 0 0 'B').explosions ∧
      ¬ (corner_board.make_move 0 0 'B').stable :=
  ⟨by decide, (make_move_frame corner_board 0 0 'B').2.2.2.2.2 (by decide) (by decide)
    (by decide)⟩

/-- C16. Depth cutoff and evaluator selection: on every board on which `check_winner` reports no
winner and for every depth of at least 3 (`DEPTH_LIMIT`), `minimax` returns
`evaluate_board_control()` when the mode is AI-vs-AI and `evaluate_critical_cells()` otherwise,
whatever `alpha`, `beta`, `is_maximizing` and the perspective colour are; it does so also when no
recursive call is allowed (`gas = 0`) and for every wave bound, so no move is expanded, and the
board is left untouched. -/
theorem minimax_depth_cutoff (fuel gas : Nat) (depth : Int) (is_maximizing : Bool)
    (alpha beta : Int) (player : Char) (s : ChainReaction)
    (hw : s.check_winner = NUL) (hd : 3 ≤ depth) :
    minimax fuel gas depth is_maximizing alpha beta player s =
      some (if s.is_ai_vs_ai = true then s.evaluate_board_control
        else s.evaluate_critical_cells, s) := by
  have hB : ¬ (s.check_winner = 'B') := by rw [hw]; decide
  have hR : ¬ (s.check_winner = 'R') := by rw [hw]; decide
  exact minimax_of_cutoff fuel gas depth is_maximizing alpha beta player s hB hR hd

/-- C16, instance: `corner_board` holds a single orb, so there is no winner; at depth 3 in
human-vs-AI mode the value is that of `evaluate_critical_cells`, 5 for the Blue corner. -/
theorem minimax_depth_cutoff_witness :
    corner_board.check_winner = NUL ∧
      minimax 0 0 3 true INT_MIN INT_MAX 'B' corner_board =
        some (corner_board.evaluate_critical_cells, corner_board) ∧
      corner_board.evaluate_critical_cells = 5 :=
  ⟨by decide,
    minimax_depth_cutoff 0 0 3 true INT_MIN INT_MAX 'B' corner_board (by decide) (by decide),
    by decide⟩

theorem sumCells_adj_board (s : ChainReaction) (i j : Nat) (hi : i < s.m) (hj : j < s.n) :
    sumCells s.m s.n (fun a b => if adj a b i j then (1 : Int) else 0) = s.neighbours i j := by
  rw [← sumCells_adj s i j hi hj]
  refine sumCells_congr (fun a ha b hb => ?_)
  by_cases c : adj a b i j <;> simp [c, ha, hb]

theorem list_eq_singleton {α : Type} {l : List α} {x : α} (hnd : l.Nodup)
    (h : ∀ p, p ∈ l ↔ p = x) : l = [x] := by
  cases l with
  | nil => exact absurd ((h x).mpr rfl) (List.not_mem_nil _)
  | cons y l' =>
    have hy : y = x := (h y).mp (List.mem_cons_self _ _)
    subst hy
    cases l' with
    | nil => rfl
    | cons z l'' =>
      have hz : z = y := (h z).mp (List.mem_cons_of_mem _ (List.mem_cons_self _ _))
      subst hz
      exact absurd (List.mem_cons_self _ _) (List.nodup_cons.mp hnd).1

/-- C14. Orb accounting of one explosion: for every board and in-bounds cell `(i, j)`,
`explode_cell(i, j)` takes `get_critical_mass(i, j)` orbs out of `(i, j)`, adds exactly one orb to
each in-bounds orthogonal neighbour and leaves the orb count of every other cell as it is, so the
sum of all orb counts changes by exactly the number of cells of the board that are orthogonal
neighbours of `(i, j)` minus `get_critical_mass(i, j)`; that number counts the neighbours above,
below, left and right that exist. -/
theorem explode_cell_accounting (s : ChainReaction) (i j : Nat) (hi : i < s.m) (hj : j < s.n) :
    ((s.explode_cell i j).board i j).orbs = (s.board i j).orbs - s.get_critical_mass i j ∧
    (∀ a b, adj a b i j → a < s.m → b < s.n →
      ((s.explode_cell i j).board a b).orbs = (s.board a b).orbs + 1) ∧
    (∀ a b, ¬ (a = i ∧ b = j) → ¬ adj a b i j →
      ((s.explode_cell i j).board a b).orbs = (s.board a b).orbs) ∧
    (s.explode_cell i j).orbTotal - s.orbTotal =
      sumCells s.m s.n (fun a b => if adj a b i j then 1 else 0) - s.get_critical_mass i j ∧
    sumCells s.m s.n (fun a b => if adj a b i j then (1 : Int) else 0) =
      (if 1 ≤ i then 1 else 0) + (if i + 1 < s.m then 1 else 0) + (if 1 ≤ j then 1 else 0) +
        (if j + 1 < s.n then 1 else 0) := by
  have hself : ¬ adj i j i j := by unfold adj; omega
  refine ⟨?_, ?_, ?_, ?_, ?_⟩
  · rw [explode_cell_orbs]
    simp [hself]
  · intro a b hadj ha hb
    have hne : ¬ (a = i ∧ b = j) := by unfold adj at hadj; omega
    rw [explode_cell_orbs]
    simp [hadj, ha, hb, hne]
  · intro a b hne hadj
    rw [explode_cell_orbs]
    simp [hadj, hne]
  · rw [explode_cell_orbTotal s i j hi hj, sumCells_adj_board s i j hi hj]; ring
  · rw [sumCells_adj_board s i j hi hj]; rfl

/-- C14, instance: detonating the corner of the 3 × 3 board that holds two Blue orbs there
changes the number of orbs by `2 - 2 = 0`. -/
theorem explode_cell_accounting_witness :
    ((corner_board.make_move 0 0 'B').explode_cell 0 0).orbTotal -
        (corner_board.make_move 0 0 'B').orbTotal =
      sumCells 3 3 (fun a b => if adj a b 0 0 then 1 else 0) -
        (corner_board.make_move 0 0 'B').get_critical_mass 0 0 ∧
      sumCells 3 3 (fun a b => if adj a b 0 0 then (1 : Int) else 0) = 2 :=
  ⟨(explode_cell_accounting (corner_board.make_move 0 0 'B') 0 0 (by decide) (by decide)).2.2.2.1,
    by decide⟩

/-- C19. Source cell of an explosion: for every board and cell `(i, j)` with
`orbs >= get_critical_mass(i, j)`, after `explode_cell(i, j)` the cell holds its previous count
minus its critical mass, which is not negative and is positive when the cell held more than its
critical mass; its owner is cleared when the resulting count is exactly 0 and is unchanged
otherwise, so an owned cell loses its owner if and only if the resulting count is 0. -/
theorem explode_cell_source (s : ChainReaction) (i j : Nat)
    (h : s.get_critical_mass i j ≤ (s.board i j).orbs) :
    ((s.explode_cell i j).board i j).orbs = (s.board i j).orbs - s.get_critical_mass i j ∧
    0 ≤ ((s.explode_cell i j).board i j).orbs ∧
    (s.get_critical_mass i j < (s.board i j).orbs → 0 < ((s.explode_cell i j).board i j).orbs) ∧
    (((s.explode_cell i j).board i j).orbs = 0 → ((s.explode_cell i j).board i j).color = NUL) ∧
    (((s.explode_cell i j).board i j).orbs ≠ 0 →
      ((s.explode_cell i j).board i j).color = (s.board i j).color) ∧
    ((s.board i j).color ≠ NUL →
      (((s.explode_cell i j).board i j).color = NUL ↔
        ((s.explode_cell i j).board i j).orbs = 0)) := by
  have hself : ¬ (adj i j i j ∧ i < s.m ∧ j < s.n) := by unfold adj; omega
  have hb : (s.explode_cell i j).board i j =
      { orbs := (s.board i j).orbs - s.get_critical_mass i j,
        color := if (s.board i j).orbs - s.get_critical_mass i j = 0 then NUL
          else (s.board i j).color } := by
    rw [explode_cell_board, if_neg hself, if_pos ⟨rfl, rfl⟩]
  rw [hb]
  refine ⟨rfl, by simp only; omega, fun hlt => by simp only; omega, ?_, ?_, ?_⟩
  · intro h0
    simp only at h0
    simp only [h0, if_true]
  · intro h0
    simp only at h0
    simp only [h0, if_false]
  · intro hc
    simp only
    by_cases z : (s.board i j).orbs - s.get_critical_mass i j = 0
    · simp [z]
    · simp [z, hc]

/-- C19, instance: the corner of the 3 × 3 board holding two Blue orbs is at its critical mass;
after its explosion it holds no orb and has no owner. -/
theorem explode_cell_source_witness :
    (corner_board.make_move 0 0 'B').get_critical_mass 0 0 ≤
        ((corner_board.make_move 0 0 'B').board 0 0).orbs ∧
      (((corner_board.make_move 0 0 'B').explode_cell 0 0).board 0 0).orbs = 0 ∧
      (((corner_board.make_move 0 0 'B').explode_cell 0 0).board 0 0).color = NUL :=
  ⟨by decide,
    ((explode_cell_source (corner_board.make_move 0 0 'B') 0 0 (by decide)).1).trans (by decide),
    (explode_cell_source (corner_board.make_move 0 0 'B') 0 0 (by decide)).2.2.2.1 (by decide)⟩

/-- C20. Neighbours of an explosion: `explode_cell(i, j)` adds exactly one orb to each of the
cells `(i-1, j)`, `(i+1, j)`, `(i, j-1)`, `(i, j+1)` that is in bounds and sets the owner of each
to the colour the cell `(i, j)` had when the call began, whatever the neighbour's owner was;
every cell other than `(i, j)` and these in-bounds neighbours (so also a cell on the opposite
edge: there is no wraparound) is unchanged, and the dimensions are kept. -/
theorem explode_cell_neighbours (s : ChainReaction) (i j : Nat) :
    (∀ a b, adj a b i j → a < s.m → b < s.n →
      (s.explode_cell i j).board a b =
        { orbs := (s.board a b).orbs + 1, color := (s.board i j).color }) ∧
    (1 ≤ i → i - 1 < s.m → j < s.n → (s.explode_cell i j).board (i - 1) j =
        { orbs := (s.board (i - 1) j).orbs + 1, color := (s.board i j).color }) ∧
    (i + 1 < s.m → j < s.n → (s.explode_cell i j).board (i + 1) j =
        { orbs := (s.board (i + 1) j).orbs + 1, color := (s.board i j).color }) ∧
    (1 ≤ j → i < s.m → j - 1 < s.n → (s.explode_cell i j).board i (j - 1) =
        { orbs := (s.board i (j - 1)).orbs + 1, color := (s.board i j).color }) ∧
    (i < s.m → j + 1 < s.n → (s.explode_cell i j).board i (j + 1) =
        { orbs := (s.board i (j + 1)).orbs + 1, color := (s.board i j).color }) ∧
    (∀ a b, ¬ (a = i ∧ b = j) → ¬ (adj a b i j ∧ a < s.m ∧ b < s.n) →
      (s.explode_cell i j).board a b = s.board a b) ∧
    (s.explode_cell i j).m = s.m ∧ (s.explode_cell i j).n = s.n := by
  have key : ∀ a b, adj a b i j → a < s.m → b < s.n →
      (s.explode_cell i j).board a b =
        { orbs := (s.board a b).orbs + 1, color := (s.board i j).color } := by
    intro a b hadj ha hb
    rw [explode_cell_board, if_pos ⟨hadj, ha, hb⟩]
  refine ⟨key, ?_, ?_, ?_, ?_, ?_, rfl, rfl⟩
  · intro h1 h2 h3
    exact key (i - 1) j (by unfold adj; omega) h2 h3
  · intro h2 h3
    exact key (i + 1) j (by unfold adj; omega) h2 h3
  · intro h1 h2 h3
    exact key i (j - 1) (by unfold adj; omega) h2 h3
  · intro h2 h3
    exact key i (j + 1) (by unfold adj; omega) h2 h3
  · intro a b hne hadj
    rw [explode_cell_board, if_neg hadj, if_neg hne]

/-- C20, instance: on `two_blue_board` the explosion of the Blue cell `(1, 1)` turns its empty
upper neighbour `(0, 1)` into a cell with one Blue orb and leaves the far cell `(0, 2)` alone. -/
theorem explode_cell_neighbours_witness :
    (two_blue_board.explode_cell 1 1).board 0 1 = { orbs := 1, color := 'B' } ∧
      (two_blue_board.explode_cell 1 1).board 0 2 = two_blue_board.board 0 2 :=
  ⟨((explode_cell_neighbours two_blue_board 1 1).2.1 (by decide) (by decide) (by decide)).trans
      (by decide),
    (explode_cell_neighbours two_blue_board 1 1).2.2.2.2.2.1 0 2 (by decide) (by decide)⟩

/-- C15. Corner scenario: on every board with at least two rows and two columns, for every
colour `P` and every corner `(ci, cj)` that holds exactly one orb, if each in-bounds orthogonal
neighbour of the corner stays below its critical mass after gaining one orb and no other cell is
critical, then `make_move(ci, cj, P)` followed by `process_explosions` (with at least one wave
allowed) returns a board on which the corner holds no orb and has no owner, each of its
neighbours (there are exactly 2) holds exactly one more orb and is owned by `P`, and every other
cell is unchanged. -/
theorem corner_scenario (s : ChainReaction) (P : Char) (ci cj : Nat) (fuel : Nat)
    (hm : 2 ≤ s.m) (hn : 2 ≤ s.n)
    (hc : (ci = 0 ∨ ci = s.m - 1) ∧ (cj = 0 ∨ cj = s.n - 1))
    (hone : (s.board ci cj).orbs = 1)
    (hnb : ∀ a < s.m, ∀ b < s.n, adj a b ci cj →
      (s.board a b).orbs + 1 < s.get_critical_mass a b)
    (hother : ∀ a < s.m, ∀ b < s.n, ¬ (a = ci ∧ b = cj) → ¬ adj a b ci cj →
      (s.board a b).orbs < s.get_critical_mass a b)
    (hf : 1 ≤ fuel) :
    ∃ t, process_explosions fuel (s.make_move ci cj P) = some t ∧
      t.board ci cj = { orbs := 0, color := NUL } ∧
      (∀ a < s.m, ∀ b < s.n, adj a b ci cj →
        t.board a b = { orbs := (s.board a b).orbs + 1, color := P }) ∧
      (∀ a b, ¬ (a = ci ∧ b = cj) → ¬ (adj a b ci cj ∧ a < s.m ∧ b < s.n) →
        t.board a b = s.board a b) ∧
      sumCells s.m s.n (fun a b => if adj a b ci cj then (1 : Int) else 0) = 2 := by
  have hci : ci < s.m := by omega
  have hcj : cj < s.n := by omega
  have hmass : s.get_critical_mass ci cj = 2 := by
    unfold get_critical_mass; split_ifs <;> omega
  have hself : ¬ (adj ci cj ci cj ∧ ci < s.m ∧ cj < s.n) := by unfold adj; omega
  have hs1 : ((s.make_move ci cj P).board ci cj) = { orbs := 2, color := P } := by
    rw [make_move_board, if_pos ⟨rfl, rfl⟩, hone]; rfl
  -- the only critical cell after the move is the corner
  have hex : (s.make_move ci cj P).explosions = [(ci, cj)] := by
    refine list_eq_singleton (nodup_explosions _) ?_
    rintro ⟨a, b⟩
    rw [mem_explosions]
    constructor
    · rintro ⟨ha, hb, hcrit⟩
      by_cases hab : a = ci ∧ b = cj
      · rw [hab.1, hab.2]
      · exfalso
        rw [make_move_board, if_neg hab] at hcrit
        have hcrit' : s.get_critical_mass a b ≤ (s.board a b).orbs := hcrit
        by_cases hadj : adj a b ci cj
        · have := hnb a ha b hb hadj; omega
        · have := hother a ha b hb hab hadj; omega
    · intro h
      simp only [Prod.mk.injEq] at h
      rw [h.1, h.2]
      refine ⟨hci, hcj, ?_⟩
      rw [hs1]
      show s.get_critical_mass ci cj ≤ 2
      omega
  have hwave : (s.make_move ci cj P).wave = (s.make_move ci cj P).explode_cell ci cj := by
    unfold wave; rw [hex]; rfl
  -- the board after the wave
  have hb1 : ((s.make_move ci cj P).explode_cell ci cj).board ci cj =
      { orbs := 0, color := NUL } := by
    rw [explode_cell_board, make_move_m, make_move_n, if_neg hself, if_pos ⟨rfl, rfl⟩, hs1]
    have : (s.make_move ci cj P).get_critical_mass ci cj = 2 := hmass
    simp [this]
  have hb2 : ∀ a < s.m, ∀ b < s.n, adj a b ci cj →
      ((s.make_move ci cj P).explode_cell ci cj).board a b =
        { orbs := (s.board a b).orbs + 1, color := P } := by
    intro a ha b hb hadj
    have hne : ¬ (a = ci ∧ b = cj) := by unfold adj at hadj; omega
    rw [explode_cell_board, make_move_m, make_move_n, if_pos ⟨hadj, ha, hb⟩, hs1,
      make_move_board, if_neg hne]
  have hb3 : ∀ a b, ¬ (a = ci ∧ b = cj) → ¬ (adj a b ci cj ∧ a < s.m ∧ b < s.n) →
      ((s.make_move ci cj P).explode_cell ci cj).board a b = s.board a b := by
    intro a b hne hadj
    rw [explode_cell_board, make_move_m, make_move_n, if_neg hadj, if_neg hne, make_move_board,
      if_neg hne]
  have hst : ((s.make_move ci cj P).explode_cell ci cj).stable := by
    intro a ha b hb
    have ha' : a < s.m := ha
    have hb' : b < s.n := hb
    show (((s.make_move ci cj P).explode_cell ci cj).board a b).orbs < s.get_critical_mass a b
    by_cases hab : a = ci ∧ b = cj
    · rw [hab.1, hab.2, hb1, hmass]; decide
    · by_cases hadj : adj a b ci cj
      · rw [hb2 a ha' b hb' hadj]
        exact hnb a ha' b hb' hadj
      · rw [hb3 a b hab (fun h => hadj h.1)]
        exact hother a ha' b hb' hab hadj
  have hns : ¬ (s.make_move ci cj P).stable := by
    intro h
    have := (explosions_eq_nil_iff _).mpr h
    rw [hex] at this
    cases this
  obtain ⟨f, rfl⟩ : ∃ f, fuel = f + 1 := ⟨fuel - 1, by omega⟩
  refine ⟨(s.make_move ci cj P).explode_cell ci cj, ?_, hb1, hb2, hb3, ?_⟩
  · rw [process_explosions_succ_of_not_stable hns, hwave, process_explosions_of_stable hst]
  · have h1 : sumCells s.m s.n (fun a b => if adj a b ci cj then (1 : Int) else 0) =
        s.neighbours ci cj := by
      rw [← sumCells_adj s ci cj hci hcj]
      refine sumCells_congr (fun a ha b hb => ?_)
      by_cases c : adj a b ci cj <;> simp [c, ha, hb]
    rw [h1, neighbours_eq_mass s ci cj hci hcj hm hn, hmass]

/-- C15, instance: Blue plays the corner `(0, 0)` of the 3 × 3 `corner_board` (which already
holds one Blue orb there) a second time: the corner is cleared and `(1, 0)` and `(0, 1)` hold
one Blue orb each. -/
theorem corner_scenario_witness :
    ∃ t, process_explosions 5 (corner_board.make_move 0 0 'B') = some t ∧
      t.board 0 0 = { orbs := 0, color := NUL } ∧
      t.board 1 0 = { orbs := 1, color := 'B' } ∧ t.board 0 1 = { orbs := 1, color := 'B' } := by
  obtain ⟨t, ht, h0, hnb, _, _⟩ := corner_scenario corner_board 'B' 0 0 5 (by decide) (by decide)
    (by decide) (by decide) (by decide) (by decide) (by decide)
  exact ⟨t, ht, h0, hnb 1 (by decide) 0 (by decide) (by decide),
    hnb 0 (by decide) 1 (by decide) (by decide)⟩

end ChainReaction

/-! ## Reading the game state file -/

namespace ChainReaction

theorem read_size_pos {file : Option String} {new_m new_n : Int} {rest : List (List Char)}
    (h : read_size file = some (new_m, new_n, rest)) : 0 < new_m ∧ 0 < new_n := by
  unfold read_size at h
  split at h
  · exact absurd h (by simp)
  · split at h
    · exact absurd h (by simp)
    · split at h
      · exact absurd h (by simp)
      · split at h
        · exact absurd h (by simp)
        · split at h
          · exact absurd h (by simp)
          · split at h
            · exact absurd h (by simp)
            · simp only [Option.some.injEq, Prod.mk.injEq] at h
              obtain ⟨h1, h2, -⟩ := h
              subst h1 h2
              omega

theorem resize_same (s : ChainReaction) {new_m new_n : Int}
    (hm : new_m = s.m) (hn : new_n = s.n) : s.resize new_m new_n = s := by
  unfold resize
  rw [if_neg]
  intro h
  rcases h with h | h
  · exact h hm
  · exact h hn

theorem resize_m (s : ChainReaction) (new_m new_n : Int) (hm : 0 < new_m) :
    ((s.resize new_m new_n).m : Int) = new_m := by
  unfold resize
  by_cases h : new_m ≠ (s.m : Int) ∨ new_n ≠ (s.n : Int)
  · rw [if_pos h]
    show ((new_m.toNat : Nat) : Int) = new_m
    omega
  · rw [if_neg h]
    have : new_m = (s.m : Int) := by
      by_contra hc
      exact h (Or.inl hc)
    exact this.symm

theorem resize_n (s : ChainReaction) (new_m new_n : Int) (hn : 0 < new_n) :
    ((s.resize new_m new_n).n : Int) = new_n := by
  unfold resize
  by_cases h : new_m ≠ (s.m : Int) ∨ new_n ≠ (s.n : Int)
  · rw [if_pos h]
    show ((new_n.toNat : Nat) : Int) = new_n
    omega
  · rw [if_neg h]
    have : new_n = (s.n : Int) := by
      by_contra hc
      exact h (Or.inr hc)
    exact this.symm

theorem resize_board (s : ChainReaction) {new_m new_n : Int}
    (h : new_m ≠ (s.m : Int) ∨ new_n ≠ (s.n : Int)) (i j : Nat) :
    (s.resize new_m new_n).board i j = { orbs := 0, color := NUL } := by
  unfold resize
  rw [if_pos h]

theorem read_game_state_of_size {file : Option String} {new_m new_n : Int}
    {rest : List (List Char)} (s : ChainReaction)
    (h : read_size file = some (new_m, new_n, rest)) :
    ((read_game_state file s).2.m = (s.resize new_m new_n).m ∧
      (read_game_state file s).2.n = (s.resize new_m new_n).n) ∧
    (read_preamble (s.resize new_m new_n).m rest = none →
      read_game_state file s = (false, s.resize new_m new_n)) := by
  simp only [read_game_state, h]
  cases hp : read_preamble (s.resize new_m new_n).m rest with
  | none => exact ⟨⟨rfl, rfl⟩, fun _ => rfl⟩
  | some lines => exact ⟨⟨rfl, rfl⟩, fun hc => absurd hc (by simp)⟩

/-- C17 (as stated, refuted): two rejected reads that change the object. On the 1 × 2 board
`1R 0` the file `bad_token_file` (same dimensions, second token `5X`) is rejected after the
first token `2B` has been stored in cell `(0, 0)`; the file `bad_header_file` (dimensions 2 × 2,
no valid header) is rejected after `m`, `n` have been set to 2, 2 and the board emptied. -/
theorem read_game_state_partial_state :
    (read_game_state (some bad_token_file) red_cell_board).1 = false ∧
    (read_game_state (some bad_token_file) red_cell_board).2.board 0 0 = ⟨2, 'B'⟩ ∧
    red_cell_board.board 0 0 = ⟨1, 'R'⟩ ∧
    (read_game_state (some bad_header_file) red_cell_board).1 = false ∧
    (read_game_state (some bad_header_file) red_cell_board).2.m = 2 ∧
    (read_game_state (some bad_header_file) red_cell_board).2.n = 2 ∧
    (read_game_state (some bad_header_file) red_cell_board).2.board 0 0 = ⟨0, NUL⟩ ∧
    red_cell_board.m = 1 ∧ red_cell_board.n = 2 := by
  decide!

/-- C17 (amended): what a rejected read leaves behind. When `read_game_state` returns `false`
in its first part (file not opened, `Board Size:` line missing or malformed, a dimension not
positive) the object is exactly what it was. When the file declares the current `m`, `n`, a
read rejected for the header, the next-move line or the number of rows leaves the object exactly
what it was, and every read leaves `m`, `n` what they were. In every read that gets past the
first part, `m` and `n` end as the declared (positive) dimensions, and when these differ from
the current ones and the header, next-move line or number of rows is rejected, the read returns
`false` with an empty board. -/
theorem read_game_state_rejected (file : Option String) (s : ChainReaction) :
    (read_size file = none → read_game_state file s = (false, s)) ∧
    (∀ new_m new_n rest, read_size file = some (new_m, new_n, rest) →
      new_m = (s.m : Int) → new_n = (s.n : Int) →
        (read_preamble s.m rest = none → read_game_state file s = (false, s)) ∧
        (read_game_state file s).2.m = s.m ∧ (read_game_state file s).2.n = s.n) ∧
    (∀ new_m new_n rest, read_size file = some (new_m, new_n, rest) →
      0 < new_m ∧ 0 < new_n ∧
      ((read_game_state file s).2.m : Int) = new_m ∧
      ((read_game_state file s).2.n : Int) = new_n ∧
      (new_m ≠ (s.m : Int) ∨ new_n ≠ (s.n : Int) →
        read_preamble new_m.toNat rest = none →
          (read_game_state file s).1 = false ∧
          ∀ i j, (read_game_state file s).2.board i j = { orbs := 0, color := NUL })) := by
  refine ⟨?_, ?_, ?_⟩
  · intro h
    unfold read_game_state
    rw [h]
  · intro new_m new_n rest h hm hn
    have hr := read_game_state_of_size s h
    rw [resize_same s hm hn] at hr
    exact ⟨hr.2, hr.1.1, hr.1.2⟩
  · intro new_m new_n rest h
    have hp := read_size_pos h
    have hr := read_game_state_of_size s h
    have e1 := resize_m s new_m new_n hp.1
    have e2 := resize_n s new_m new_n hp.2
    refine ⟨hp.1, hp.2, ?_, ?_, ?_⟩
    · rw [hr.1.1]; exact e1
    · rw [hr.1.2]; exact e2
    · intro hd hpre
      have e3 : (s.resize new_m new_n).m = new_m.toNat := by omega
      rw [← e3] at hpre
      rw [hr.2 hpre]
      exact ⟨rfl, fun i j => resize_board s hd i j⟩

/-- C17 (amended), instance: on the 1 × 2 board `1R 0` the file `same_size_bad_header_file`
declares 1 × 2, has no valid header, and the rejected read leaves the object as it was. -/
theorem read_game_state_rejected_witness :
    read_size (some same_size_bad_header_file) =
      some (1, 2, ["Move:".data, "Next Move: AI".data, "2B 0".data]) ∧
    read_preamble red_cell_board.m ["Move:".data, "Next Move: AI".data, "2B 0".data] = none ∧
    read_game_state (some same_size_bad_header_file) red_cell_board = (false, red_cell_board) :=
  ⟨by decide!, by decide!,
    ((read_game_state_rejected (some same_size_bad_header_file) red_cell_board).2.1 1 2
      ["Move:".data, "Next Move: AI".data, "2B 0".data] (by decide!) rfl rfl).1 (by decide!)⟩

/-- C18 (code defect): tokens that are not a positive decimal integer followed by `R` or `B`
and are accepted. `1x2R` is stored as one Red orb, `+3R` and `3RR` as three Red orbs, and the
file `letter_in_count_file`, whose second token is `1x2R`, is read successfully with one Red orb
in cell `(0, 1)`. -/
theorem parse_cell_accepts_letter_in_count :
    parse_cell "1x2R".data = some ⟨1, 'R'⟩ ∧
    parse_cell "+3R".data = some ⟨3, 'R'⟩ ∧
    parse_cell "3RR".data = some ⟨3, 'R'⟩ ∧
    (read_game_state (some letter_in_count_file) red_cell_board).1 = true ∧
    (read_game_state (some letter_in_count_file) red_cell_board).2.board 0 1 = ⟨1, 'R'⟩ := by
  decide!

end ChainReaction

/-! ## Waves, conservation and evaluation -/

theorem countCells_eq_sumCells (m n : Nat) (p : Nat → Nat → Prop) [∀ i j, Decidable (p i j)] :
    countCells m n p = sumCells m n (fun i j => if p i j then 1 else 0) := by
  unfold countCells sumCells
  rw [Finset.card_filter, Finset.sum_product]
  push_cast
  rfl

theorem sumCells_mul (m n : Nat) (c : Int) (f : Nat → Nat → Int) :
    sumCells m n (fun i j => c * f i j) = c * sumCells m n f := by
  unfold sumCells
  rw [Finset.mul_sum]
  refine Finset.sum_congr rfl (fun i _ => ?_)
  rw [Finset.mul_sum]

theorem sumCells_const_le {m n : Nat} {f : Nat → Nat → Int} {c : Int}
    (h : ∀ i < m, ∀ j < n, c ≤ f i j) : c * ((m : Int) * (n : Int)) ≤ sumCells m n f := by
  have h1 := sumCells_le (m := m) (n := n) (c := -c) (f := fun i j => - f i j)
    (fun i hi j hj => by
      have := h i hi j hj
      show - f i j ≤ - c
      omega)
  have h2 : sumCells m n (fun i j => - f i j) = - sumCells m n f := by
    have := sumCells_mul m n (-1) f
    simpa using this
  rw [h2] at h1
  have h3 : -c * ((m : Int) * (n : Int)) = -(c * ((m : Int) * (n : Int))) := by ring
  rw [h3] at h1
  omega

namespace ChainReaction

theorem memInd_perm {l l' : List (Nat × Nat)} (h : l.Perm l') : memInd l = memInd l' := by
  funext a b
  unfold memInd
  simp only [h.mem_iff]

theorem fire_in_bounds (s : ChainReaction) {a b : Nat} (ha : a < s.m) (hb : b < s.n) :
    s.get_critical_mass a b * s.fire a b =
      if s.get_critical_mass a b ≤ (s.board a b).orbs then s.get_critical_mass a b else 0 := by
  unfold fire
  by_cases c : s.get_critical_mass a b ≤ (s.board a b).orbs
  · rw [if_pos ⟨ha, hb, c⟩, if_pos c]; ring
  · rw [if_neg (fun h => c h.2.2), if_neg c]; ring

/-- C21. A wave is a synchronous step: after one pass of the loop of `process_explosions` that
found a critical cell, every in-bounds cell holds its old count, minus its critical mass when it
was critical at the start of the pass, plus the number of its orthogonal neighbours that were
critical at the start of the pass (`fire` is 1 on the in-bounds cells critical at the start and
0 elsewhere). Exploding the collected cells in any other order gives every cell the same orb
count. -/
theorem wave_synchronous (s : ChainReaction) (a b : Nat) (ha : a < s.m) (hb : b < s.n) :
    (s.wave.board a b).orbs =
      (s.board a b).orbs -
        (if s.get_critical_mass a b ≤ (s.board a b).orbs then s.get_critical_mass a b else 0) +
        ((if 1 ≤ a then s.fire (a - 1) b else 0) + s.fire (a + 1) b +
          (if 1 ≤ b then s.fire a (b - 1) else 0) + s.fire a (b + 1)) ∧
    (∀ x y, s.fire x y =
      if x < s.m ∧ y < s.n ∧ s.get_critical_mass x y ≤ (s.board x y).orbs then 1 else 0) ∧
    (∀ l : List (Nat × Nat), l.Perm s.explosions →
      ((s.explode_all l).board a b).orbs = (s.wave.board a b).orbs) := by
  refine ⟨?_, fun x y => rfl, ?_⟩
  · rw [wave_orbs s a b ha hb, fire_in_bounds s ha hb]
    rfl
  · intro l hl
    have hnd : l.Nodup := hl.nodup_iff.mpr (nodup_explosions s)
    rw [explode_all_orbs s l hnd a b ha hb, memInd_perm hl]
    unfold wave
    rw [explode_all_orbs s s.explosions (nodup_explosions s) a b ha hb]

/-- C21, instance: after a second Blue orb on the corner of `corner_board`, the wave leaves the
corner with `2 - 2 + 0` orbs and gives its neighbour `(0, 1)` one orb. -/
theorem wave_synchronous_witness :
    ((corner_board.make_move 0 0 'B').wave.board 0 0).orbs = 0 ∧
      ((corner_board.make_move 0 0 'B').wave.board 0 1).orbs = 1 := by
  constructor
  · rw [(wave_synchronous (corner_board.make_move 0 0 'B') 0 0 (by decide) (by decide)).1]
    decide!
  · rw [(wave_synchronous (corner_board.make_move 0 0 'B') 0 1 (by decide) (by decide)).1]
    decide!

theorem explode_cell_orbTotal_eq (s : ChainReaction) (hm : 2 ≤ s.m) (hn : 2 ≤ s.n) (i j : Nat)
    (hi : i < s.m) (hj : j < s.n) : (s.explode_cell i j).orbTotal = s.orbTotal := by
  rw [explode_cell_orbTotal s i j hi hj, neighbours_eq_mass s i j hi hj hm hn]
  omega

/-- C22 (as stated, refuted). On the 3 × 3 board `critical_pair_board` the explosion of the
corner `(0, 0)` and the explosion of the interior cell `(1, 1)` both change the total orb count
by 0, so the change at the corner is not strictly smaller. -/
theorem corner_explosion_not_smaller :
    critical_pair_board.m = 3 ∧ critical_pair_board.n = 3 ∧
    (critical_pair_board.explode_cell 0 0).orbTotal - critical_pair_board.orbTotal = 0 ∧
    (critical_pair_board.explode_cell 1 1).orbTotal - critical_pair_board.orbTotal = 0 ∧
    ¬ ((critical_pair_board.explode_cell 0 0).orbTotal - critical_pair_board.orbTotal <
      (critical_pair_board.explode_cell 1 1).orbTotal - critical_pair_board.orbTotal) := by
  have h1 := explode_cell_orbTotal_eq critical_pair_board (by decide) (by decide) 0 0
    (by decide) (by decide)
  have h2 := explode_cell_orbTotal_eq critical_pair_board (by decide) (by decide) 1 1
    (by decide) (by decide)
  refine ⟨rfl, rfl, ?_, ?_, ?_⟩ <;> omega

/-- C22 (amended). On every board with at least three rows and three columns, `explode_cell` at
a corner cell and `explode_cell` at an interior cell change the board's total orb count by the
same amount, namely 0: the corner loses its critical mass 2 and has exactly 2 in-bounds
neighbours that gain one orb each, the interior cell loses its critical mass 4 and has exactly
4. -/
theorem explode_cell_corner_interior (s : ChainReaction) (hm : 3 ≤ s.m) (hn : 3 ≤ s.n)
    (ci cj i j : Nat) (hc : (ci = 0 ∨ ci + 1 = s.m) ∧ (cj = 0 ∨ cj + 1 = s.n))
    (hint : 0 < i ∧ i + 1 < s.m ∧ 0 < j ∧ j + 1 < s.n) :
    (s.explode_cell ci cj).orbTotal - s.orbTotal = 0 ∧
    (s.explode_cell i j).orbTotal - s.orbTotal = 0 ∧
    s.get_critical_mass ci cj = 2 ∧ s.neighbours ci cj = 2 ∧
    s.get_critical_mass i j = 4 ∧ s.neighbours i j = 4 := by
  have hci : ci < s.m := by omega
  have hcj : cj < s.n := by omega
  have hi : i < s.m := by omega
  have hj : j < s.n := by omega
  have m1 : s.get_critical_mass ci cj = 2 := by
    unfold get_critical_mass; split_ifs <;> omega
  have m2 : s.get_critical_mass i j = 4 := by
    unfold get_critical_mass; split_ifs <;> omega
  have n1 := neighbours_eq_mass s ci cj hci hcj (by omega) (by omega)
  have n2 := neighbours_eq_mass s i j hi hj (by omega) (by omega)
  have e1 := explode_cell_orbTotal_eq s (by omega) (by omega) ci cj hci hcj
  have e2 := explode_cell_orbTotal_eq s (by omega) (by omega) i j hi hj
  refine ⟨by omega, by omega, m1, by omega, m2, by omega⟩

/-- C22 (amended), instance: the corner `(0, 0)` and the centre `(1, 1)` of
`critical_pair_board`. -/
theorem explode_cell_corner_interior_witness :
    (critical_pair_board.explode_cell 0 0).orbTotal - critical_pair_board.orbTotal = 0 ∧
    (critical_pair_board.explode_cell 1 1).orbTotal - critical_pair_board.orbTotal = 0 :=
  ⟨(explode_cell_corner_interior critical_pair_board (by decide) (by decide) 0 0 1 1
      (by decide) (by decide)).1,
    (explode_cell_corner_interior critical_pair_board (by decide) (by decide) 0 0 1 1
      (by decide) (by decide)).2.1⟩

theorem make_move_orbTotal (s : ChainReaction) (i j : Nat) (p : Char) (hi : i < s.m)
    (hj : j < s.n) : (s.make_move i j p).orbTotal = s.orbTotal + 1 := by
  unfold orbTotal
  rw [make_move_m, make_move_n]
  have e : (fun a b => ((s.make_move i j p).board a b).orbs) =
      (fun a b => (s.board a b).orbs + (if a = i ∧ b = j then 1 else 0)) := by
    funext a b
    rw [make_move_board]
    by_cases c : a = i ∧ b = j
    · rw [if_pos c, if_pos c, c.1, c.2]
    · rw [if_neg c, if_neg c]; simp
  rw [e, sumCells_add, sumCells_point, if_pos ⟨hi, hj⟩]

/-- C28. Exact conservation on boards with at least two rows and two columns: the critical mass
of every cell equals the number of its in-bounds orthogonal neighbours, so `explode_cell` at any
cell and every wave leave the sum of all orb counts unchanged; a move followed by any number of
waves raises the total by exactly 1, and so does a move followed by `process_explosions`
whenever it returns. -/
theorem orbTotal_conserved (s : ChainReaction) (hm : 2 ≤ s.m) (hn : 2 ≤ s.n) :
    (∀ i < s.m, ∀ j < s.n, s.get_critical_mass i j = s.neighbours i j ∧
      s.neighbours i j =
        sumCells s.m s.n (fun a b => if adj a b i j then (1 : Int) else 0)) ∧
    (∀ i < s.m, ∀ j < s.n, (s.explode_cell i j).orbTotal = s.orbTotal) ∧
    s.wave.orbTotal = s.orbTotal ∧
    (∀ i < s.m, ∀ j < s.n, ∀ (player : Char) (k : Nat),
      (wave^[k] (s.make_move i j player)).orbTotal = s.orbTotal + 1) ∧
    (∀ i < s.m, ∀ j < s.n, ∀ (player : Char) (fuel : Nat) (t : ChainReaction),
      process_explosions fuel (s.make_move i j player) = some t →
        t.orbTotal = s.orbTotal + 1) := by
  have hk : ∀ i < s.m, ∀ j < s.n, ∀ (player : Char) (k : Nat),
      (wave^[k] (s.make_move i j player)).orbTotal = s.orbTotal + 1 := by
    intro i hi j hj player k
    rw [iterate_wave_orbTotal_eq (s.make_move i j player) hm hn k,
      make_move_orbTotal s i j player hi hj]
  refine ⟨?_, ?_, wave_orbTotal_eq s hm hn, hk, ?_⟩
  · intro i hi j hj
    refine ⟨(neighbours_eq_mass s i j hi hj hm hn).symm, ?_⟩
    exact (sumCells_adj_board s i j hi hj).symm
  · intro i hi j hj
    exact explode_cell_orbTotal_eq s hm hn i j hi hj
  · intro i hi j hj player fuel t ht
    obtain ⟨k, _, rfl, _⟩ := process_explosions_some ht
    exact hk i hi j hj player k

/-- C28, instance: on the 3 × 3 `corner_board` a second Blue orb on the corner followed by one
wave leaves `1 + 1` orbs on the board. -/
theorem orbTotal_conserved_witness :
    (corner_board.make_move 0 0 'B').wave.orbTotal = corner_board.orbTotal + 1 :=
  (orbTotal_conserved corner_board (by decide) (by decide)).2.2.2.1 0 (by decide) 0 (by decide)
    'B' 1

end ChainReaction

namespace ChainReaction

theorem sumCells_zero (m n : Nat) : sumCells m n (fun _ _ => (0 : Int)) = 0 := by
  simp [sumCells]

theorem mass_eq_two_iff (s : ChainReaction) {i j : Nat} (hi : i < s.m) (hj : j < s.n) :
    s.get_critical_mass i j = 2 ↔ s.corner i j := by
  unfold get_critical_mass corner
  split_ifs <;> omega

theorem mass_eq_three_iff (s : ChainReaction) {i j : Nat} (hi : i < s.m) (hj : j < s.n) :
    s.get_critical_mass i j = 3 ↔ s.on_edge i j ∧ ¬ s.corner i j := by
  unfold get_critical_mass corner on_edge
  split_ifs <;> omega

/-- A player without any legal move faces a board that is won by the other colour. -/
theorem winner_of_no_move (s : ChainReaction) (hinv : s.CellInv) (hcells : 2 ≤ s.m * s.n)
    (hfit : s.orbTotal ≤ INT_MAX) (P : Char) (hP : P = 'R' ∨ P = 'B')
    (h : ∀ i < s.m, ∀ j < s.n, s.is_valid_move i j P = false) :
    s.check_winner = if P = 'R' then 'B' else 'R' := by
  have hcell : ∀ i < s.m, ∀ j < s.n, (s.board i j).color = (if P = 'R' then 'B' else 'R') ∧
      1 ≤ (s.board i j).orbs := by
    intro i hi j hj
    have hv := h i hi j hj
    simp only [is_valid_move, Bool.or_eq_false_iff, beq_eq_false_iff_ne, ne_eq] at hv
    obtain ⟨h0, h1, h2⟩ := hinv i hi j hj
    have horb : (s.board i j).orbs ≠ 0 := fun e => hv.1 (h1.mp e)
    refine ⟨?_, by omega⟩
    rcases hP with rfl | rfl
    · rcases h2 with c | c | c
      · exact absurd c hv.1
      · exact absurd c hv.2
      · simpa using c
    · rcases h2 with c | c | c
      · exact absurd c hv.1
      · simpa using c
      · exact absurd c hv.2
  have hmn : (2 : Int) ≤ (s.m : Int) * (s.n : Int) := by exact_mod_cast hcells
  rw [check_winner_eq s (by
    rw [red_count_eq_redTotal hinv, blue_count_eq_blueTotal hinv, ← orbTotal_eq hinv]
    exact hfit)]
  rcases hP with rfl | rfl
  · have hr : s.red_count = 0 := by
      unfold red_count
      refine Eq.trans (sumCells_congr (fun i hi j hj => ?_)) (sumCells_zero s.m s.n)
      have hc := (hcell i hi j hj).1
      simp only [if_true] at hc
      rw [if_neg]
      rw [hc]
      exact fun h => absurd h.1 (by decide)
    have hb : 2 ≤ s.blue_count := by
      unfold blue_count
      have := sumCells_const_le (m := s.m) (n := s.n) (c := 1)
        (f := fun i j => if (s.board i j).color = 'B' ∧ (s.board i j).orbs > 0
          then (s.board i j).orbs else 0)
        (fun i hi j hj => by
          have hc := hcell i hi j hj
          simp only [if_true] at hc
          show 1 ≤ (if (s.board i j).color = 'B' ∧ (s.board i j).orbs > 0
            then (s.board i j).orbs else 0)
          rw [if_pos ⟨hc.1, by omega⟩]
          exact hc.2)
      omega
    rw [if_neg (by omega), if_pos ⟨hr, by omega⟩]
    rfl
  · have hb : s.blue_count = 0 := by
      unfold blue_count
      refine Eq.trans (sumCells_congr (fun i hi j hj => ?_)) (sumCells_zero s.m s.n)
      have hc := (hcell i hi j hj).1
      rw [if_neg (by decide)] at hc
      rw [if_neg]
      rw [hc]
      exact fun h => absurd h.1 (by decide)
    have hr : 2 ≤ s.red_count := by
      unfold red_count
      have := sumCells_const_le (m := s.m) (n := s.n) (c := 1)
        (f := fun i j => if (s.board i j).color = 'R' ∧ (s.board i j).orbs > 0
          then (s.board i j).orbs else 0)
        (fun i hi j hj => by
          have hc := hcell i hi j hj
          rw [if_neg (by decide)] at hc
          show 1 ≤ (if (s.board i j).color = 'R' ∧ (s.board i j).orbs > 0
            then (s.board i j).orbs else 0)
          rw [if_pos ⟨hc.1, by omega⟩]
          exact hc.2)
      omega
    rw [if_neg (by omega), if_neg (by omega), if_pos ⟨hb, by omega⟩, if_neg (by decide)]

/-- C27. A forfeit only happens on a decided board: on every board with at least 2 cells that
satisfies the cell invariant and whose number of orbs is a value of an `int` (so that the `int`
counters of `check_winner` hold the totals), for `P` Red or Blue, if `is_valid_move(i, j, P)` is
false for every cell then `check_winner` returns the opponent of `P`. -/
theorem forfeit_on_decided_board (s : ChainReaction) (P : Char) (hinv : s.CellInv)
    (hcells : 2 ≤ s.m * s.n) (hfit : s.orbTotal ≤ INT_MAX) (hP : P = 'R' ∨ P = 'B')
    (h : ∀ i < s.m, ∀ j < s.n, s.is_valid_move i j P = false) :
    s.check_winner = (if P = 'R' then 'B' else 'R') := by
  rcases hP with rfl | rfl
  · exact winner_of_no_move s hinv hcells hfit 'R' (Or.inl rfl) h
  · exact winner_of_no_move s hinv hcells hfit 'B' (Or.inr rfl) h

/-- C27, instance: Blue has no legal move on `all_red_board`, which Red has won. -/
theorem forfeit_on_decided_board_witness :
    (∀ i < all_red_board.m, ∀ j < all_red_board.n,
      all_red_board.is_valid_move i j 'B' = false) ∧ all_red_board.check_winner = 'R' :=
  ⟨by decide, forfeit_on_decided_board all_red_board 'B' (by decide) (by decide) (by decide!)
    (Or.inr rfl) (by decide)⟩

theorem critical_sum_eq (s : ChainReaction) (c : Char) :
    sumCells s.m s.n (fun i j => if (s.board i j).color = c then
        (if s.get_critical_mass i j = 2 then 5 else if s.get_critical_mass i j = 3 then 3 else 0)
      else 0) =
    5 * countCells s.m s.n (fun i j => (s.board i j).color = c ∧ s.corner i j) +
      3 * countCells s.m s.n
        (fun i j => (s.board i j).color = c ∧ s.on_edge i j ∧ ¬ s.corner i j) := by
  rw [countCells_eq_sumCells, countCells_eq_sumCells, ← sumCells_mul, ← sumCells_mul,
    ← sumCells_add]
  refine sumCells_congr (fun i hi j hj => ?_)
  have h2 := mass_eq_two_iff s hi hj
  have h3 := mass_eq_three_iff s hi hj
  by_cases hc : (s.board i j).color = c
  · by_cases k2 : s.get_critical_mass i j = 2
    · have k3 : ¬ (s.on_edge i j ∧ ¬ s.corner i j) := fun h => h.2 (h2.mp k2)
      simp [hc, k2, h2.mp k2]
    · by_cases k3 : s.get_critical_mass i j = 3
      · have c2 : ¬ s.corner i j := fun h => k2 (h2.mpr h)
        simp [hc, k3, c2, (h3.mp k3).1]
      · have c2 : ¬ s.corner i j := fun h => k2 (h2.mpr h)
        have c3 : ¬ s.on_edge i j := fun h => k3 (h3.mpr ⟨h, c2⟩)
        simp [hc, k2, k3, c2, c3]
  · simp [hc]

/-- C30. Critical-cell control: for every board, `evaluate_critical_cells` returns
`(5 * number of Blue-owned corner cells + 3 * number of Blue-owned non-corner edge cells) -
(5 * number of Red-owned corner cells + 3 * number of Red-owned non-corner edge cells)`.
Interior cells and orb counts contribute nothing: a board of the same size whose edge cells
have the same owners gets the same value. -/
theorem evaluate_critical_cells_spec (s : ChainReaction) :
    s.evaluate_critical_cells =
      (5 * countCells s.m s.n (fun i j => (s.board i j).color = 'B' ∧ s.corner i j) +
        3 * countCells s.m s.n
          (fun i j => (s.board i j).color = 'B' ∧ s.on_edge i j ∧ ¬ s.corner i j)) -
      (5 * countCells s.m s.n (fun i j => (s.board i j).color = 'R' ∧ s.corner i j) +
        3 * countCells s.m s.n
          (fun i j => (s.board i j).color = 'R' ∧ s.on_edge i j ∧ ¬ s.corner i j)) ∧
    (∀ t : ChainReaction, t.m = s.m → t.n = s.n →
      (∀ i < s.m, ∀ j < s.n, s.on_edge i j → (t.board i j).color = (s.board i j).color) →
      t.evaluate_critical_cells = s.evaluate_critical_cells) := by
  constructor
  · rw [evaluate_critical_cells_eq, critical_sum_eq s 'B', critical_sum_eq s 'R']
  · intro t htm htn hcol
    have key : ∀ c : Char,
        sumCells t.m t.n (fun i j => if (t.board i j).color = c then
          (if t.get_critical_mass i j = 2 then 5
            else if t.get_critical_mass i j = 3 then 3 else 0) else 0) =
        sumCells s.m s.n (fun i j => if (s.board i j).color = c then
          (if s.get_critical_mass i j = 2 then 5
            else if s.get_critical_mass i j = 3 then 3 else 0) else 0) := by
      intro c
      rw [htm, htn]
      refine sumCells_congr (fun i hi j hj => ?_)
      rw [mass_congr htm htn i j]
      by_cases he : s.on_edge i j
      · rw [hcol i hi j hj he]
      · have k2 : ¬ (s.get_critical_mass i j = 2) := fun h =>
          he (by have := (mass_eq_two_iff s hi hj).mp h; unfold corner at this; unfold on_edge; omega)
        have k3 : ¬ (s.get_critical_mass i j = 3) := fun h =>
          he ((mass_eq_three_iff s hi hj).mp h).1
        simp [k2, k3]
    rw [evaluate_critical_cells_eq, evaluate_critical_cells_eq, key 'B', key 'R']

/-- C30, instance: on `two_blue_board` Blue owns the corner `(1, 0)` and the edge cell `(1, 1)`,
Red owns nothing, and the value is `5 + 3`. -/
theorem evaluate_critical_cells_spec_witness :
    two_blue_board.evaluate_critical_cells = (5 * 1 + 3 * 1) - (5 * 0 + 3 * 0) :=
  (evaluate_critical_cells_spec two_blue_board).1.trans (by decide!)

end ChainReaction

/-! ## The search: who moves, and where a cutoff ends -/

namespace ChainReaction

/-- C23 (code defect). The node that `minimax_decision(P)` searches after the root move of `P` is
`minimax(0, P == 'B' ? false : true, ...)`. For `P` Blue its loops test `is_valid_move` with
Red, the opponent. For `P` Red its loops test `is_valid_move` with Red again: the node expands
the moves of `P` itself. On `two_blue_board` after the Red root move `(0, 0)` the cell `(1, 0)` is
legal for Blue only and `(0, 0)` for Red only; the node as called is valued `1000`, and `-1000`
when it is called the way the Blue root calls it (`is_maximizing = false`, the opponent to
move). -/
theorem red_root_expands_red :
    (∀ (fuel gas : Nat) (a b : Int) (s : ChainReaction), s.check_winner = NUL →
      minimax fuel (gas + 1) 0 (if ('R' : Char) = 'B' then false else true) a b 'R' s =
        match max_rows (fun a b t => minimax fuel gas (0 + 1) false a b 'R' t)
            fuel 'R' b s.n (List.range s.m) (INT_MIN, a, s) with
        | none => none
        | some (best_value, _, s1) => some (best_value, s1)) ∧
    (∀ (fuel gas : Nat) (a b : Int) (s : ChainReaction), s.check_winner = NUL →
      minimax fuel (gas + 1) 0 (if ('B' : Char) = 'B' then false else true) a b 'B' s =
        match min_rows (fun a b t => minimax fuel gas (0 + 1) true a b 'B' t)
            fuel 'R' a s.n (List.range s.m) (INT_MAX, b, s) with
        | none => none
        | some (best_value, _, s1) => some (best_value, s1)) ∧
    (process_explosions 10 (two_blue_board.make_move 0 0 'R')).map toRows =
      some (toRows (two_blue_board.make_move 0 0 'R')) ∧
    (two_blue_board.make_move 0 0 'R').check_winner = NUL ∧
    (two_blue_board.make_move 0 0 'R').is_valid_move 1 0 'B' = true ∧
    (two_blue_board.make_move 0 0 'R').is_valid_move 1 0 'R' = false ∧
    (two_blue_board.make_move 0 0 'R').is_valid_move 0 0 'R' = true ∧
    (two_blue_board.make_move 0 0 'R').is_valid_move 0 0 'B' = false ∧
    (minimax 10 3 0 true INT_MIN INT_MAX 'R' (two_blue_board.make_move 0 0 'R')).map Prod.fst =
      some 1000 ∧
    (minimax 10 3 0 false INT_MIN INT_MAX 'R' (two_blue_board.make_move 0 0 'R')).map Prod.fst =
      some (-1000) := by
  refine ⟨?_, ?_, by decide!, by decide!, by decide!, by decide!, by decide!, by decide!,
    by decide!, by decide!⟩
  · intro fuel gas a b s hw
    have hB : ¬ (s.check_winner = 'B') := by rw [hw]; decide
    have hR : ¬ (s.check_winner = 'R') := by rw [hw]; decide
    rw [minimax_expand fuel gas 0 _ a b 'R' s hB hR (by decide)]
    rfl
  · intro fuel gas a b s hw
    have hB : ¬ (s.check_winner = 'B') := by rw [hw]; decide
    have hR : ¬ (s.check_winner = 'R') := by rw [hw]; decide
    rw [minimax_expand fuel gas 0 _ a b 'B' s hB hR (by decide)]
    rfl

/-- C24 (code defect). The `break` of `minimax` leaves the loop over the columns only. On
`late_cut_board` (2 × 3, first row `1B 1R 1B`) the minimizing node
`minimax(2, false, 1000, INT_MAX, 'B')`, which the search of `minimax_decision('B')` on
`empty_board` reaches by the moves Blue `(0, 0)`, Red `(0, 1)`, Blue `(0, 2)`, first expands the
Red move `(0, 1)`, valued 7, so that `beta = 7 <= alpha = 1000`; it then still expands the Red
move `(1, 0)` of the next row, valued 2, and returns 2, while the textbook search that stops the
whole node at the first cutoff returns 7. -/
theorem minimax_break_leaves_row_only :
    toRows (((empty_board.make_move 0 0 'B').make_move 0 1 'R').make_move 0 2 'B') =
      toRows late_cut_board ∧
    late_cut_board.check_winner = NUL ∧
    late_cut_board.is_valid_move 0 0 'R' = false ∧
    late_cut_board.is_valid_move 0 1 'R' = true ∧
    late_cut_board.is_valid_move 1 0 'R' = true ∧
    (minimax 10 0 3 true 1000 INT_MAX 'B' (late_cut_board.make_move 0 1 'R')).map Prod.fst =
      some 7 ∧
    (minimax 10 0 3 true 1000 7 'B' (late_cut_board.make_move 1 0 'R')).map Prod.fst = some 2 ∧
    (minimax 10 1 2 false 1000 INT_MAX 'B' late_cut_board).map Prod.fst = some 2 ∧
    minimax_textbook 10 1 2 false 1000 INT_MAX 'B' late_cut_board = some 7 := by
  refine ⟨by decide!, by decide!, by decide!, by decide!, by decide!, by decide!, by decide!,
    by decide!, by decide!⟩

end ChainReaction

/-! ## Only the mover detonates -/

namespace ChainReaction

theorem explode_all_cons (t : ChainReaction) (p : Nat × Nat) (l : List (Nat × Nat)) :
    t.explode_all (p :: l) = (t.explode_cell p.1 p.2).explode_all l := rfl

theorem explode_all_nil (t : ChainReaction) : t.explode_all [] = t := rfl

theorem moverInv_make_move {s : ChainReaction} (hst : s.stable) (i j : Nat) (P : Char) :
    MoverInv P (s.make_move i j P) := by
  intro a ha b hb hc
  rw [make_move_board] at hc ⊢
  by_cases c : a = i ∧ b = j
  · rw [if_pos c]
  · rw [if_neg c] at hc
    have := hst a ha b hb
    have e : (s.make_move i j P).get_critical_mass a b = s.get_critical_mass a b := rfl
    rw [e] at hc
    omega

theorem explode_cell_moverInv {P : Char} {t : ChainReaction} (h : MoverInv P t) (i j : Nat)
    (hc : (t.board i j).color = P) : MoverInv P (t.explode_cell i j) := by
  intro a ha b hb hcrit
  rw [explode_cell_m] at ha
  rw [explode_cell_n] at hb
  rw [explode_cell_mass] at hcrit
  rw [explode_cell_board] at hcrit ⊢
  by_cases c1 : adj a b i j ∧ a < t.m ∧ b < t.n
  · rw [if_pos c1]; exact hc
  · rw [if_neg c1] at hcrit ⊢
    by_cases c2 : a = i ∧ b = j
    · rw [if_pos c2] at hcrit ⊢
      simp only at hcrit ⊢
      have h2 := two_le_mass t a b
      rw [if_neg (by omega)]
      exact hc
    · rw [if_neg c2] at hcrit ⊢
      exact h a ha b hb hcrit

theorem waveInv_head_owner {P : Char} {t : ChainReaction} {p : Nat × Nat}
    {l : List (Nat × Nat)} (hW : WaveInv t (p :: l)) (hJ : MoverInv P t) :
    (t.board p.1 p.2).color = P := by
  have := hW.2.2 p (List.mem_cons_self _ _)
  exact hJ p.1 this.1 p.2 this.2.1 this.2.2

theorem explode_all_moverInv {P : Char} : ∀ (l : List (Nat × Nat)) (t : ChainReaction),
    WaveInv t l → MoverInv P t → MoverInv P (t.explode_all l) ∧ (t.explode_all l).CellInv := by
  intro l
  induction l with
  | nil => intro t hW hJ; exact ⟨hJ, hW.1⟩
  | cons p l ih =>
    intro t hW hJ
    rw [explode_all_cons]
    exact ih _ (waveInv_step hW) (explode_cell_moverInv hJ p.1 p.2 (waveInv_head_owner hW hJ))

theorem wave_moverInv {P : Char} {t : ChainReaction} (hinv : t.CellInv) (hJ : MoverInv P t) :
    MoverInv P t.wave :=
  (explode_all_moverInv t.explosions t (waveInv_explosions hinv) hJ).1

theorem iterate_wave_moverInv {P : Char} {t : ChainReaction} (hinv : t.CellInv)
    (hJ : MoverInv P t) (k : Nat) : MoverInv P (wave^[k] t) := by
  induction k with
  | zero => exact hJ
  | succ k ih =>
    rw [Function.iterate_succ_apply']
    exact wave_moverInv (iterate_wave_inv hinv k) ih

/-- A cell that another colour than the detonating one owns after an explosion was not touched
by it. -/
theorem explode_cell_other {t : ChainReaction} {i j : Nat} {P Q : Char}
    (hc : (t.board i j).color = P) (hQ : ¬ (Q = NUL)) (hPQ : ¬ (P = Q)) (a b : Nat)
    (h : ((t.explode_cell i j).board a b).color = Q) :
    (t.explode_cell i j).board a b = t.board a b ∧ ¬ (a = i ∧ b = j) ∧
      ¬ (adj a b i j ∧ a < t.m ∧ b < t.n) := by
  rw [explode_cell_board] at h ⊢
  by_cases c1 : adj a b i j ∧ a < t.m ∧ b < t.n
  · rw [if_pos c1] at h
    simp only at h
    exact absurd (hc.symm.trans h) hPQ
  · rw [if_neg c1] at h ⊢
    by_cases c2 : a = i ∧ b = j
    · rw [if_pos c2] at h
      simp only at h
      by_cases z : (t.board i j).orbs - t.get_critical_mass i j = 0
      · rw [if_pos z] at h; exact absurd h.symm hQ
      · rw [if_neg z] at h; exact absurd (hc.symm.trans h) hPQ
    · rw [if_neg c2] at h ⊢
      exact ⟨rfl, c2, c1⟩

theorem wave_steps {P Q : Char} (hQ : ¬ (Q = NUL)) (hPQ : ¬ (P = Q)) :
    ∀ (l : List (Nat × Nat)) (t : ChainReaction), WaveInv t l → MoverInv P t → ∀ (r a b : Nat),
      ((t.explode_all (l.take (r + 1))).board a b).color = Q →
        (t.explode_all (l.take (r + 1))).board a b = (t.explode_all (l.take r)).board a b := by
  intro l
  induction l with
  | nil => intro t _ _ r a b _; simp
  | cons p l ih =>
    intro t hW hJ r a b h
    cases r with
    | zero =>
      simp only [List.take_succ_cons, List.take_zero, explode_all_cons, explode_all_nil] at h ⊢
      exact (explode_cell_other (waveInv_head_owner hW hJ) hQ hPQ a b h).1
    | succ r =>
      simp only [List.take_succ_cons, explode_all_cons] at h ⊢
      exact ih _ (waveInv_step hW)
        (explode_cell_moverInv hJ p.1 p.2 (waveInv_head_owner hW hJ)) r a b h

theorem waveInv_of_take {t : ChainReaction} {l : List (Nat × Nat)} (hW : WaveInv t l) (r : Nat) :
    WaveInv t (l.take r) :=
  ⟨hW.1, hW.2.1.sublist (List.take_sublist r l), fun p hp => hW.2.2 p (List.mem_of_mem_take hp)⟩

/-- The orbs in the cells that `Q` owns do not increase from `t` to `u` when every cell that `Q`
owns in `u` is a cell of `t`. -/
theorem owned_total_le {t u : ChainReaction} (Q : Char) (hinv : t.CellInv) (hm : u.m = t.m)
    (hn : u.n = t.n)
    (h : ∀ a b, (u.board a b).color = Q → u.board a b = t.board a b) :
    sumCells u.m u.n (fun a b => if (u.board a b).color = Q then (u.board a b).orbs else 0) ≤
      sumCells t.m t.n (fun a b => if (t.board a b).color = Q then (t.board a b).orbs else 0) := by
  rw [hm, hn]
  refine sumCells_le_sumCells (fun a ha b hb => ?_)
  by_cases c : (u.board a b).color = Q
  · have e := h a b c
    rw [if_pos c, e, if_pos (by rw [← e]; exact c)]
  · rw [if_neg c]
    have := (hinv a ha b hb).1
    split_ifs <;> omega

theorem explode_all_untouched : ∀ (l : List (Nat × Nat)) (t : ChainReaction) (a b : Nat),
    (a, b) ∉ l → (∀ p ∈ l, ¬ (adj a b p.1 p.2 ∧ a < t.m ∧ b < t.n)) →
      (t.explode_all l).board a b = t.board a b := by
  intro l
  induction l with
  | nil => intro t a b _ _; rfl
  | cons p l ih =>
    intro t a b hmem hadj
    rw [explode_all_cons]
    have h1 : (a, b) ∉ l := fun h => hmem (List.mem_cons_of_mem _ h)
    have h2 : ¬ (a = p.1 ∧ b = p.2) := by
      rintro ⟨rfl, rfl⟩
      exact hmem (List.mem_cons_self _ _)
    rw [ih (t.explode_cell p.1 p.2) a b h1
      (fun q hq => hadj q (List.mem_cons_of_mem _ hq)), explode_cell_board,
      if_neg (hadj p (List.mem_cons_self _ _)), if_neg h2]

theorem explode_all_other {P Q : Char} (hQ : ¬ (Q = NUL)) (hPQ : ¬ (P = Q)) :
    ∀ (l : List (Nat × Nat)) (t : ChainReaction), WaveInv t l → MoverInv P t → ∀ (a b : Nat),
      ((t.explode_all l).board a b).color = Q →
        (a, b) ∉ l ∧ (∀ p ∈ l, ¬ (adj a b p.1 p.2 ∧ a < t.m ∧ b < t.n)) ∧
          (t.explode_all l).board a b = t.board a b := by
  intro l
  induction l with
  | nil => intro t _ _ a b _; exact ⟨List.not_mem_nil _, fun p hp => absurd hp (List.not_mem_nil _), rfl⟩
  | cons p l ih =>
    intro t hW hJ a b h
    rw [explode_all_cons] at h ⊢
    have hown := waveInv_head_owner hW hJ
    obtain ⟨i1, i2, i3⟩ := ih _ (waveInv_step hW) (explode_cell_moverInv hJ p.1 p.2 hown) a b h
    rw [i3] at h
    obtain ⟨e1, e2, e3⟩ := explode_cell_other hown hQ hPQ a b h
    refine ⟨?_, ?_, i3.trans e1⟩
    · intro hmem
      rcases List.mem_cons.mp hmem with c | c
      · exact e2 ⟨congrArg Prod.fst c, congrArg Prod.snd c⟩
      · exact i1 c
    · intro q hq
      rcases List.mem_cons.mp hq with c | c
      · rw [c]; exact e3
      · exact i2 q c

end ChainReaction

namespace ChainReaction

theorem cell_eq {x y : Cell} (h1 : x.orbs = y.orbs) (h2 : x.color = y.color) : x = y := by
  cases x; cases y; simp_all

theorem explode_all_perm {P : Char} (hP : P = 'R' ∨ P = 'B') {t : ChainReaction}
    (hJ : MoverInv P t) {l l' : List (Nat × Nat)} (hl : WaveInv t l) (hperm : l'.Perm l)
    (a b : Nat) : (t.explode_all l').board a b = (t.explode_all l).board a b := by
  have hl' : WaveInv t l' :=
    ⟨hl.1, hperm.nodup_iff.mpr hl.2.1, fun p hp => hl.2.2 p (hperm.mem_iff.mp hp)⟩
  by_cases hin : a < t.m ∧ b < t.n
  · obtain ⟨ha, hb⟩ := hin
    have horbs : ((t.explode_all l').board a b).orbs = ((t.explode_all l).board a b).orbs := by
      rw [explode_all_orbs t l' hl'.2.1 a b ha hb, explode_all_orbs t l hl.2.1 a b ha hb,
        memInd_perm hperm]
    have hQ : ¬ ((if P = 'R' then 'B' else 'R' : Char) = NUL) := by
      split_ifs
      · exact NUL_ne_B
      · exact NUL_ne_R
    have hPQ : ¬ (P = (if P = 'R' then 'B' else 'R' : Char)) := by
      rcases hP with rfl | rfl <;> decide
    by_cases c' : ((t.explode_all l').board a b).color = (if P = 'R' then 'B' else 'R')
    · obtain ⟨i1, i2, i3⟩ := explode_all_other hQ hPQ l' t hl' hJ a b c'
      rw [i3, explode_all_untouched l t a b (fun h => i1 (hperm.mem_iff.mpr h))
        (fun p hp => i2 p (hperm.mem_iff.mpr hp))]
    · by_cases c : ((t.explode_all l).board a b).color = (if P = 'R' then 'B' else 'R')
      · obtain ⟨i1, i2, i3⟩ := explode_all_other hQ hPQ l t hl hJ a b c
        rw [i3, explode_all_untouched l' t a b (fun h => i1 (hperm.mem_iff.mp h))
          (fun p hp => i2 p (hperm.mem_iff.mp hp))]
      · refine cell_eq horbs ?_
        have k' := (explode_all_moverInv l' t hl' hJ).2 a
          (by rw [explode_all_m]; exact ha) b (by rw [explode_all_n]; exact hb)
        have k := (explode_all_moverInv l t hl hJ).2 a
          (by rw [explode_all_m]; exact ha) b (by rw [explode_all_n]; exact hb)
        have own : ∀ x : Cell, (x.orbs = 0 ↔ x.color = NUL) →
            (x.color = NUL ∨ x.color = 'R' ∨ x.color = 'B') →
            ¬ (x.color = (if P = 'R' then 'B' else 'R')) →
            x.color = if x.orbs = 0 then NUL else P := by
          intro x h1 h2 h3
          by_cases z : x.orbs = 0
          · rw [if_pos z]; exact h1.mp z
          · rw [if_neg z]
            have hn : ¬ (x.color = NUL) := fun e => z (h1.mpr e)
            rcases hP with rfl | rfl
            · rcases h2 with e | e | e
              · exact absurd e hn
              · exact e
              · exact absurd e (by simpa using h3)
            · rcases h2 with e | e | e
              · exact absurd e hn
              · exact absurd e (by simpa using h3)
              · exact e
        rw [own _ k'.2.1 k'.2.2 c', own _ k.2.1 k.2.2 c, horbs]
  · have hout : ∀ l0 : List (Nat × Nat), (∀ p ∈ l0, p.1 < t.m ∧ p.2 < t.n) →
        (t.explode_all l0).board a b = t.board a b := by
      intro l0 h0
      refine explode_all_untouched l0 t a b (fun h => hin (h0 (a, b) h)) (fun p _ h => hin h.2)
    rw [hout l' (fun p hp => ⟨(hl'.2.2 p hp).1, (hl'.2.2 p hp).2.1⟩),
      hout l (fun p hp => ⟨(hl.2.2 p hp).1, (hl.2.2 p hp).2.1⟩)]

theorem wave_upto_m (t : ChainReaction) (r : Nat) : (t.wave_upto r).m = t.m :=
  explode_all_m _ _

theorem wave_upto_n (t : ChainReaction) (r : Nat) : (t.wave_upto r).n = t.n :=
  explode_all_n _ _

/-- C29. Only the mover detonates. Starting from a stable board that satisfies the cell
invariant, after `make_move(i, j, P)` with `P` Red or Blue, at the start of every wave of
`process_explosions` (after any number `k` of waves) every critical cell is owned by `P`.
Consequently, from one `explode_cell` call of a wave to the next, a cell owned by the opponent
of `P` afterwards is a cell that was not changed (so no cell becomes owned by the opponent), the
opponent's total orb count does not increase, and exploding the critical cells of a wave in any
other order gives the same board. The legality of the move is not needed. -/
theorem only_mover_detonates (s : ChainReaction) (i j : Nat) (P : Char) (hst : s.stable)
    (hinv : s.CellInv) (hP : P = 'R' ∨ P = 'B') (k : Nat) :
    (∀ a < s.m, ∀ b < s.n,
      (wave^[k] (s.make_move i j P)).get_critical_mass a b ≤
          ((wave^[k] (s.make_move i j P)).board a b).orbs →
        ((wave^[k] (s.make_move i j P)).board a b).color = P) ∧
    (∀ r a b : Nat,
      (((wave^[k] (s.make_move i j P)).wave_upto (r + 1)).board a b).color =
          (if P = 'R' then 'B' else 'R') →
        ((wave^[k] (s.make_move i j P)).wave_upto (r + 1)).board a b =
          ((wave^[k] (s.make_move i j P)).wave_upto r).board a b) ∧
    (∀ r : Nat,
      (P = 'R' → ((wave^[k] (s.make_move i j P)).wave_upto (r + 1)).blueTotal ≤
        ((wave^[k] (s.make_move i j P)).wave_upto r).blueTotal) ∧
      (P = 'B' → ((wave^[k] (s.make_move i j P)).wave_upto (r + 1)).redTotal ≤
        ((wave^[k] (s.make_move i j P)).wave_upto r).redTotal)) ∧
    (∀ l : List (Nat × Nat), l.Perm (wave^[k] (s.make_move i j P)).explosions → ∀ a b : Nat,
      ((wave^[k] (s.make_move i j P)).explode_all l).board a b =
        (wave^[k] (s.make_move i j P)).wave.board a b) := by
  have h1 : (s.make_move i j P).CellInv := make_move_inv hinv i j hP
  have hk : (wave^[k] (s.make_move i j P)).CellInv := iterate_wave_inv h1 k
  have hJ : MoverInv P (wave^[k] (s.make_move i j P)) :=
    iterate_wave_moverInv h1 (moverInv_make_move hst i j P) k
  have hW := waveInv_explosions hk
  have hQ : ¬ ((if P = 'R' then 'B' else 'R' : Char) = NUL) := by
    split_ifs
    · exact NUL_ne_B
    · exact NUL_ne_R
  have hPQ : ¬ (P = (if P = 'R' then 'B' else 'R' : Char)) := by
    rcases hP with rfl | rfl <;> decide
  have hstep := wave_steps hQ hPQ _ _ hW hJ
  refine ⟨?_, hstep, ?_, ?_⟩
  · intro a ha b hb hc
    exact hJ a (by rw [iterate_wave_m]; exact ha) b (by rw [iterate_wave_n]; exact hb) hc
  · intro r
    have hcell : ((wave^[k] (s.make_move i j P)).wave_upto r).CellInv :=
      (explode_all_moverInv _ _ (waveInv_of_take hW r) hJ).2
    have hle := owned_total_le (if P = 'R' then 'B' else 'R') hcell
      ((wave_upto_m _ (r + 1)).trans (wave_upto_m _ r).symm)
      ((wave_upto_n _ (r + 1)).trans (wave_upto_n _ r).symm) (hstep r)
    constructor
    · intro e
      rw [if_pos e] at hle
      exact hle
    · intro e
      rw [if_neg (by rw [e]; decide)] at hle
      exact hle
  · intro l hl a b
    exact explode_all_perm hP hJ hW hl a b

/-- C29, instance: after a second Blue orb on the corner of `corner_board` the only critical
cell, the corner, is owned by Blue, and Red's total does not grow with the first explosion. -/
theorem only_mover_detonates_witness :
    corner_board.stable ∧ corner_board.CellInv ∧
      ((corner_board.make_move 0 0 'B').board 0 0).color = 'B' ∧
      ((corner_board.make_move 0 0 'B').wave_upto 1).redTotal ≤
        ((corner_board.make_move 0 0 'B').wave_upto 0).redTotal :=
  ⟨by decide, by decide,
    (only_mover_detonates corner_board 0 0 'B' (by decide) (by decide) (Or.inr rfl) 0).1 0
      (by decide) 0 (by decide) (by decide!),
    ((only_mover_detonates corner_board 0 0 'B' (by decide) (by decide) (Or.inr rfl) 0).2.2.1
      0).2 rfl⟩

end ChainReaction

/-! ## The root decision as a fold over the cells -/

namespace ChainReaction

theorem decision_fold_append (player : Char) (s : ChainReaction) (val : Nat → Nat → Option Int)
    (l1 l2 : List (Nat × Nat)) (st : Int × (Int × Int)) :
    decision_fold player s val (l1 ++ l2) st =
      (decision_fold player s val l1 st).bind (decision_fold player s val l2) := by
  obtain ⟨bv, bm⟩ := st
  induction l1 generalizing bv bm with
  | nil => rfl
  | cons p l1 ih =>
    simp only [List.cons_append, decision_fold]
    split
    · split
      · rfl
      · split
        · exact ih _ _
        · split
          · exact ih _ _
          · exact ih _ _
    · exact ih _ _

theorem root_value_eq (fuel : Nat) (player : Char) (s : ChainReaction) (i j : Nat) :
    root_value fuel player s i j =
      match process_explosions fuel (s.make_move i j player) with
      | none => none
      | some s1 =>
        match minimax fuel 3 0 (if player = 'B' then false else true) INT_MIN INT_MAX player s1 with
        | none => none
        | some (value, _) => some value := rfl

/-- The loop over the columns of `minimax_decision` computes the fold over the cells of the
row. -/
theorem decision_cols_eq_fold (fuel : Nat) (player : Char) (s : ChainReaction) (i : Nat)
    (js : List Nat) (bv : Int) (bm : Int × Int) (f : Bool) :
    ∃ f', decision_cols fuel player i js (bv, bm, f, s) =
      (decision_fold player s (root_value fuel player s) (js.map (fun j => (i, j))) (bv, bm)).map
        (fun r => (r.1, r.2, f', s)) := by
  induction js generalizing bv bm f with
  | nil => exact ⟨f, rfl⟩
  | cons j js ih =>
    simp only [List.map_cons, decision_fold, decision_cols]
    by_cases hvalid : s.is_valid_move i j player = true
    · rw [if_pos hvalid, if_pos hvalid, root_value_eq]
      cases hs1 : process_explosions fuel (s.make_move i j player) with
      | none => exact ⟨f, rfl⟩
      | some s1 =>
        simp only []
        cases hmm : minimax fuel 3 0 (if player = 'B' then false else true) INT_MIN INT_MAX
            player s1 with
        | none => exact ⟨f, rfl⟩
        | some r =>
          obtain ⟨value, s2⟩ := r
          have hs2 : s2 = s1 := minimax_board _ _ _ _ _ _ _ _ _ _ hmm
          subst hs2
          simp only [restore_eq hs1]
          by_cases c1 : player = 'B' ∧ value > bv
          · rw [if_pos c1, if_pos c1]; exact ih _ _ _
          · rw [if_neg c1, if_neg c1]
            by_cases c2 : player = 'R' ∧ value < bv
            · rw [if_pos c2, if_pos c2]; exact ih _ _ _
            · rw [if_neg c2, if_neg c2]; exact ih _ _ _
    · rw [if_neg hvalid, if_neg hvalid]
      exact ih _ _ _

theorem decision_rows_eq_fold (fuel : Nat) (player : Char) (s : ChainReaction) (n : Nat)
    (is : List Nat) (bv : Int) (bm : Int × Int) (f : Bool) :
    ∃ f', decision_rows fuel player n is (bv, bm, f, s) =
      (decision_fold player s (root_value fuel player s)
        (is.flatMap (fun i => (List.range n).map (fun j => (i, j)))) (bv, bm)).map
        (fun r => (r.1, r.2, f', s)) := by
  induction is generalizing bv bm f with
  | nil => exact ⟨f, rfl⟩
  | cons i is ih =>
    rw [List.flatMap_cons, decision_fold_append]
    obtain ⟨f1, hcols⟩ := decision_cols_eq_fold fuel player s i (List.range n) bv bm f
    simp only [decision_rows, hcols]
    cases hfold : decision_fold player s (root_value fuel player s)
        ((List.range n).map (fun j => (i, j))) (bv, bm) with
    | none => exact ⟨f, rfl⟩
    | some r =>
      obtain ⟨b1, m1⟩ := r
      simp only [Option.map_some', Option.some_bind]
      exact ih _ _ _

theorem minimax_decision_eq_fold (fuel : Nat) (player : Char) (s : ChainReaction) :
    minimax_decision fuel player s =
      (decision_fold player s (root_value fuel player s) (allCells s.m s.n)
        (if player = 'B' then INT_MIN else INT_MAX, (-1, -1))).map (fun r => (r.2, s)) := by
  obtain ⟨f', h⟩ := decision_rows_eq_fold fuel player s s.n (List.range s.m)
    (if player = 'B' then INT_MIN else INT_MAX) (-1, -1) false
  unfold minimax_decision
  rw [h]
  unfold allCells
  cases decision_fold player s (root_value fuel player s)
      ((List.range s.m).flatMap (fun i => (List.range s.n).map (fun j => (i, j))))
      (if player = 'B' then INT_MIN else INT_MAX, (-1, -1)) with
  | none => rfl
  | some r => rfl

theorem improves_trans {P : Char} {a b c : Int} (h1 : improves P a b) (h2 : improves P b c) :
    improves P a c := by
  rcases h1 with ⟨e1, h1⟩ | ⟨e1, h1⟩
  · rcases h2 with ⟨_, h2⟩ | ⟨e2, _⟩
    · exact Or.inl ⟨e1, by omega⟩
    · rw [e1] at e2; exact absurd e2 (by decide)
  · rcases h2 with ⟨e2, _⟩ | ⟨_, h2⟩
    · rw [e1] at e2; exact absurd e2 (by decide)
    · exact Or.inr ⟨e1, by omega⟩

theorem improves_of_not {P : Char} {a b c : Int} (h1 : improves P a c) (h2 : ¬ improves P b c) :
    improves P a b := by
  rcases h1 with ⟨e1, h1⟩ | ⟨e1, h1⟩
  · have : ¬ (b > c) := fun h => h2 (Or.inl ⟨e1, h⟩)
    exact Or.inl ⟨e1, by omega⟩
  · have : ¬ (b < c) := fun h => h2 (Or.inr ⟨e1, h⟩)
    exact Or.inr ⟨e1, by omega⟩

/-- What the fold over the cells retains: either no cell replaced `best_value`, and then every
legal cell of the list has a value that does not improve on it; or the list splits at the
retained cell, whose value improves on every legal cell before it and is not improved on by any
legal cell after it. -/
theorem decision_fold_spec (player : Char) (s : ChainReaction) (val : Nat → Nat → Option Int) :
    ∀ (l : List (Nat × Nat)) (bv : Int) (bm : Int × Int) (bv' : Int) (bm' : Int × Int),
      decision_fold player s val l (bv, bm) = some (bv', bm') →
      (bv' = bv ∧ bm' = bm ∧
        ∀ p ∈ l, s.is_valid_move p.1 p.2 player = true →
          ∃ v, val p.1 p.2 = some v ∧ ¬ improves player v bv) ∨
      (∃ (l1 : List (Nat × Nat)) (p0 : Nat × Nat) (l2 : List (Nat × Nat)),
        l = l1 ++ p0 :: l2 ∧ s.is_valid_move p0.1 p0.2 player = true ∧
        val p0.1 p0.2 = some bv' ∧ bm' = ((p0.1 : Int), (p0.2 : Int)) ∧ improves player bv' bv ∧
        (∀ p ∈ l1, s.is_valid_move p.1 p.2 player = true →
          ∃ v, val p.1 p.2 = some v ∧ improves player bv' v) ∧
        (∀ p ∈ l2, s.is_valid_move p.1 p.2 player = true →
          ∃ v, val p.1 p.2 = some v ∧ ¬ improves player v bv')) := by
  intro l
  induction l with
  | nil =>
    intro bv bm bv' bm' h
    simp only [decision_fold, Option.some.injEq, Prod.mk.injEq] at h
    exact Or.inl ⟨h.1.symm, h.2.symm, fun p hp => absurd hp (List.not_mem_nil _)⟩
  | cons p l ih =>
    intro bv bm bv' bm' h
    simp only [decision_fold] at h
    by_cases hvalid : s.is_valid_move p.1 p.2 player = true
    · rw [if_pos hvalid] at h
      cases hv : val p.1 p.2 with
      | none => rw [hv] at h; cases h
      | some value =>
        rw [hv] at h
        simp only [] at h
        have hupd : improves player value bv →
            decision_fold player s val l (value, ((p.1 : Int), (p.2 : Int))) = some (bv', bm') := by
          intro himp
          rcases himp with c | c
          · rw [if_pos c] at h; exact h
          · by_cases c1 : player = 'B' ∧ value > bv
            · rw [if_pos c1] at h; exact h
            · rw [if_neg c1, if_pos c] at h; exact h
        have hkeep : ¬ improves player value bv →
            decision_fold player s val l (bv, bm) = some (bv', bm') := by
          intro himp
          rw [if_neg (fun c => himp (Or.inl c)), if_neg (fun c => himp (Or.inr c))] at h
          exact h
        by_cases himp : improves player value bv
        · rcases ih _ _ _ _ (hupd himp) with ⟨e1, e2, hall⟩ | ⟨l1, p0, l2, hl, hp0, hv0, hbm, hi0, h1, h2⟩
          · refine Or.inr ⟨[], p, l, rfl, hvalid, by rw [hv, e1], e2, by rw [e1]; exact himp,
              fun q hq => absurd hq (List.not_mem_nil _), ?_⟩
            intro q hq hqv
            obtain ⟨v, hv1, hv2⟩ := hall q hq hqv
            exact ⟨v, hv1, by rw [e1]; exact hv2⟩
          · refine Or.inr ⟨p :: l1, p0, l2, by rw [hl]; rfl, hp0, hv0, hbm, ?_, ?_, h2⟩
            · exact improves_trans hi0 himp
            · intro q hq hqv
              rcases List.mem_cons.mp hq with c | c
              · rw [c]; exact ⟨value, hv, hi0⟩
              · exact h1 q c hqv
        · rcases ih _ _ _ _ (hkeep himp) with ⟨e1, e2, hall⟩ | ⟨l1, p0, l2, hl, hp0, hv0, hbm, hi0, h1, h2⟩
          · refine Or.inl ⟨e1, e2, ?_⟩
            intro q hq hqv
            rcases List.mem_cons.mp hq with c | c
            · rw [c]; exact ⟨value, hv, himp⟩
            · exact hall q c hqv
          · refine Or.inr ⟨p :: l1, p0, l2, by rw [hl]; rfl, hp0, hv0, hbm, hi0, ?_, h2⟩
            intro q hq hqv
            rcases List.mem_cons.mp hq with c | c
            · rw [c]
              exact ⟨value, hv, improves_of_not hi0 himp⟩
            · exact h1 q c hqv
    · rw [if_neg hvalid] at h
      rcases ih _ _ _ _ h with ⟨e1, e2, hall⟩ | ⟨l1, p0, l2, hl, hp0, hv0, hbm, hi0, h1, h2⟩
      · refine Or.inl ⟨e1, e2, ?_⟩
        intro q hq hqv
        rcases List.mem_cons.mp hq with c | c
        · rw [c] at hqv; exact absurd hqv hvalid
        · exact hall q c hqv
      · refine Or.inr ⟨p :: l1, p0, l2, by rw [hl]; rfl, hp0, hv0, hbm, hi0, ?_, h2⟩
        intro q hq hqv
        rcases List.mem_cons.mp hq with c | c
        · rw [c] at hqv; exact absurd hqv hvalid
        · exact h1 q c hqv

/-- The fold returns when the value of every legal cell of the list is known. -/
theorem decision_fold_returns (player : Char) (s : ChainReaction) (val : Nat → Nat → Option Int) :
    ∀ (l : List (Nat × Nat)) (st : Int × (Int × Int)),
      (∀ p ∈ l, s.is_valid_move p.1 p.2 player = true → ∃ v, val p.1 p.2 = some v) →
        ∃ r, decision_fold player s val l st = some r := by
  intro l
  induction l with
  | nil => intro st _; exact ⟨st, rfl⟩
  | cons p l ih =>
    intro st h
    obtain ⟨bv, bm⟩ := st
    have hl : ∀ q ∈ l, s.is_valid_move q.1 q.2 player = true → ∃ v, val q.1 q.2 = some v :=
      fun q hq => h q (List.mem_cons_of_mem _ hq)
    simp only [decision_fold]
    by_cases hvalid : s.is_valid_move p.1 p.2 player = true
    · obtain ⟨v, hv⟩ := h p (List.mem_cons_self _ _) hvalid
      rw [if_pos hvalid, hv]
      simp only []
      split_ifs
      · exact ih _ hl
      · exact ih _ hl
      · exact ih _ hl
    · rw [if_neg hvalid]
      exact ih _ hl

theorem allCells_sorted (m n : Nat) :
    (allCells m n).Pairwise (fun p q => p.1 < q.1 ∨ (p.1 = q.1 ∧ p.2 < q.2)) := by
  unfold allCells
  rw [List.pairwise_flatMap]
  constructor
  · intro i _
    rw [List.pairwise_map]
    exact (List.pairwise_lt_range n).imp (fun h => Or.inr ⟨rfl, h⟩)
  · refine (List.pairwise_lt_range m).imp ?_
    intro a b hab x hx y hy
    obtain ⟨_, _, rfl⟩ := List.mem_map.mp hx
    obtain ⟨_, _, rfl⟩ := List.mem_map.mp hy
    exact Or.inl hab

/-- In the row-major list of cells, the cells before `(i0, j0)` are the in-bounds cells of an
earlier row or of the same row and an earlier column. -/
theorem mem_before_of_lt {m n : Nat} {l1 l2 : List (Nat × Nat)} {i0 j0 : Nat}
    (h : allCells m n = l1 ++ (i0, j0) :: l2) {i j : Nat} (hj : j < n)
    (hlt : i < i0 ∨ (i = i0 ∧ j < j0)) : (i, j) ∈ l1 := by
  have hp0 : (i0, j0) ∈ allCells m n := by rw [h]; simp
  have hi0 := (mem_allCells.mp hp0).1
  have hmem : (i, j) ∈ allCells m n := mem_allCells.mpr ⟨by omega, hj⟩
  have hs := allCells_sorted m n
  rw [h] at hmem hs
  rcases List.mem_append.mp hmem with c | c
  · exact c
  · exfalso
    have hs2 := (List.pairwise_append.mp hs).2.1
    rcases List.mem_cons.mp c with e | e
    · have e1 := congrArg Prod.fst e
      have e2 := congrArg Prod.snd e
      simp only at e1 e2
      omega
    · have := (List.pairwise_cons.mp hs2).1 (i, j) e
      simp only at this
      omega

end ChainReaction

namespace ChainReaction

theorem not_improves_self (P : Char) (v : Int) : ¬ improves P v v := by
  unfold improves
  omega

theorem improves_asymm {P : Char} {a b : Int} (h : improves P a b) : ¬ improves P b a := by
  intro h2
  exact not_improves_self P a (improves_trans h h2)

/-- C25. Root tie-break is encounter order. If the search of every legal root move returns a
value and some legal move has a value that improves on the initial `best_value` (greater than
`INT_MIN` for Blue, smaller than `INT_MAX` for Red), then `minimax_decision` returns a legal
in-bounds move `(i0, j0)` with value `v0` such that no legal move has a better value (`v <= v0`
for Blue, `v0 <= v` for Red) and every legal move that comes earlier in row-major order (an
earlier row, or the same row and an earlier column) has a value different from `v0`: the move
returned is the first that attains the extreme value. -/
theorem root_tie_break (fuel : Nat) (P : Char) (s : ChainReaction)
    (hval : ∀ i < s.m, ∀ j < s.n, s.is_valid_move i j P = true →
      (root_value fuel P s i j).isSome = true)
    (himp : ∃ i < s.m, ∃ j < s.n, s.is_valid_move i j P = true ∧
      ∃ v, root_value fuel P s i j = some v ∧
        improves P v (if P = 'B' then INT_MIN else INT_MAX)) :
    ∃ (i0 j0 : Nat) (v0 : Int), i0 < s.m ∧ j0 < s.n ∧ s.is_valid_move i0 j0 P = true ∧
      root_value fuel P s i0 j0 = some v0 ∧
      minimax_decision fuel P s = some (((i0 : Int), (j0 : Int)), s) ∧
      (∀ i < s.m, ∀ j < s.n, s.is_valid_move i j P = true →
        ∀ v, root_value fuel P s i j = some v →
          (P = 'B' → v ≤ v0) ∧ (P = 'R' → v0 ≤ v) ∧
          ((i < i0 ∨ (i = i0 ∧ j < j0)) → v ≠ v0)) := by
  obtain ⟨⟨bv', bm'⟩, hfold⟩ := decision_fold_returns P s (root_value fuel P s)
    (allCells s.m s.n) (if P = 'B' then INT_MIN else INT_MAX, (-1, -1)) (by
      rintro ⟨i, j⟩ hp hv
      obtain ⟨hi, hj⟩ := mem_allCells.mp hp
      exact Option.isSome_iff_exists.mp (hval i hi j hj hv))
  rcases decision_fold_spec P s _ _ _ _ _ _ hfold with
    ⟨_, _, hall⟩ | ⟨l1, ⟨i0, j0⟩, l2, hl, hp0, hv0, hbm, _, h1, h2⟩
  · exfalso
    obtain ⟨i, hi, j, hj, hv, v, hrv, hbetter⟩ := himp
    obtain ⟨v', hv1, hv2⟩ := hall (i, j) (mem_allCells.mpr ⟨hi, hj⟩) hv
    simp only [hrv, Option.some.injEq] at hv1
    rw [← hv1] at hv2
    exact hv2 hbetter
  · have hmem : (i0, j0) ∈ allCells s.m s.n := by rw [hl]; simp
    obtain ⟨hi0, hj0⟩ := mem_allCells.mp hmem
    refine ⟨i0, j0, bv', hi0, hj0, hp0, hv0, ?_, ?_⟩
    · rw [minimax_decision_eq_fold, hfold, hbm]
      rfl
    · intro i hi j hj hv v hrv
      have hearly : (i, j) ∈ l1 → improves P bv' v := by
        intro hm1
        obtain ⟨v', e1, e2⟩ := h1 (i, j) hm1 hv
        simp only [hrv, Option.some.injEq] at e1
        rw [e1]; exact e2
      have hnot : ¬ improves P v bv' := by
        have hm : (i, j) ∈ allCells s.m s.n := mem_allCells.mpr ⟨hi, hj⟩
        rw [hl] at hm
        rcases List.mem_append.mp hm with c | c
        · exact improves_asymm (hearly c)
        · rcases List.mem_cons.mp c with e | e
          · have e1 := congrArg Prod.fst e
            have e2 := congrArg Prod.snd e
            simp only at e1 e2
            rw [e1, e2, hv0] at hrv
            simp only [Option.some.injEq] at hrv
            rw [← hrv]
            exact not_improves_self P bv'
          · obtain ⟨v', e1, e2⟩ := h2 (i, j) e hv
            simp only [hrv, Option.some.injEq] at e1
            rw [e1]; exact e2
      refine ⟨?_, ?_, ?_⟩
      · intro e
        have : ¬ (v > bv') := fun h => hnot (Or.inl ⟨e, h⟩)
        omega
      · intro e
        have : ¬ (v < bv') := fun h => hnot (Or.inr ⟨e, h⟩)
        omega
      · intro hlt heq
        have := hearly (mem_before_of_lt hl hj hlt)
        rw [heq] at this
        exact not_improves_self P bv' this

/-- C25, instance: with Red to move on `two_blue_board` the four legal root moves are valued and
`(0, 0)` is valued `1000 < INT_MAX`; the root decision returns a legal move. -/
theorem root_tie_break_witness :
    ∃ (i0 j0 : Nat) (v0 : Int), root_value 10 'R' two_blue_board i0 j0 = some v0 ∧
      minimax_decision 10 'R' two_blue_board = some (((i0 : Int), (j0 : Int)), two_blue_board) := by
  obtain ⟨i0, j0, v0, _, _, _, h1, h2, _⟩ := root_tie_break 10 'R' two_blue_board (by decide!)
    ⟨0, by decide, 0, by decide, by decide, 1000, by decide!, by decide⟩
  exact ⟨i0, j0, v0, h1, h2⟩

end ChainReaction

/-! ## The values of the search stay inside the evaluators' range -/

namespace ChainReaction

theorem move_resolve_inv {fuel : Nat} {s s1 : ChainReaction} {i j : Nat} {p : Char}
    (hinv : s.CellInv) (hp : p = 'R' ∨ p = 'B')
    (h : process_explosions fuel (s.make_move i j p) = some s1) : s1.CellInv := by
  obtain ⟨k, _, rfl, _⟩ := process_explosions_some h
  exact iterate_wave_inv (make_move_inv hinv i j hp) k

theorem move_resolve_orbTotal {fuel : Nat} {s s1 : ChainReaction} {i j : Nat} {p : Char}
    (h : process_explosions fuel (s.make_move i j p) = some s1) :
    s1.orbTotal ≤ s.orbTotal + 1 := by
  obtain ⟨k, _, rfl, _⟩ := process_explosions_some h
  exact le_trans (iterate_wave_orbTotal_le _ k) (make_move_orbTotal_le s i j p)

theorem max_cols_range {child : Int → Int → ChainReaction → Option (Int × ChainReaction)}
    {B : Int} {fuel : Nat} {cur : Char} (hcur : cur = 'R' ∨ cur = 'B') {s : ChainReaction}
    (hinv : s.CellInv)
    (hchild : ∀ a b t v t', t.CellInv → t.m = s.m → t.n = s.n → t.orbTotal ≤ s.orbTotal + 1 →
      child a b t = some (v, t') → t' = t ∧ -B ≤ v ∧ v ≤ B)
    (beta : Int) (i : Nat) (js : List Nat) (bv al : Int) (bv' al' : Int) (s' : ChainReaction)
    (h : max_cols child fuel cur beta i js (bv, al, s) = some (bv', al', s')) :
    s' = s ∧ bv ≤ bv' ∧ bv' ≤ max bv B ∧
      ((∃ j ∈ js, s.is_valid_move i j cur = true) → -B ≤ bv') := by
  induction js generalizing bv al with
  | nil =>
    simp only [max_cols, Option.some.injEq, Prod.mk.injEq] at h
    refine ⟨h.2.2.symm, by omega, by omega, ?_⟩
    rintro ⟨j, hj, _⟩
    exact absurd hj (List.not_mem_nil _)
  | cons j js ih =>
    simp only [max_cols] at h
    split at h
    · split at h
      · cases h
      · rename_i s1 hs1
        split at h
        · cases h
        · rename_i v s2 hc
          obtain ⟨e2, hv1, hv2⟩ := hchild _ _ _ _ _ (move_resolve_inv hinv hcur hs1)
            (move_resolve_m hs1) (move_resolve_n hs1) (move_resolve_orbTotal hs1) hc
          subst e2
          rw [restore_eq hs1] at h
          split at h
          · simp only [Option.some.injEq, Prod.mk.injEq] at h
            refine ⟨h.2.2.symm, by omega, by omega, fun _ => by omega⟩
          · obtain ⟨r1, r2, r3, _⟩ := ih _ _ h
            refine ⟨r1, by omega, by omega, fun _ => by omega⟩
    · rename_i hvalid
      obtain ⟨r1, r2, r3, r4⟩ := ih _ _ h
      refine ⟨r1, r2, r3, ?_⟩
      rintro ⟨j', hj', hv'⟩
      rcases List.mem_cons.mp hj' with c | c
      · rw [c] at hv'; exact absurd hv' hvalid
      · exact r4 ⟨j', c, hv'⟩

theorem max_rows_range {child : Int → Int → ChainReaction → Option (Int × ChainReaction)}
    {B : Int} {fuel : Nat} {cur : Char} (hcur : cur = 'R' ∨ cur = 'B') {s : ChainReaction}
    (hinv : s.CellInv)
    (hchild : ∀ a b t v t', t.CellInv → t.m = s.m → t.n = s.n → t.orbTotal ≤ s.orbTotal + 1 →
      child a b t = some (v, t') → t' = t ∧ -B ≤ v ∧ v ≤ B)
    (beta : Int) (n : Nat) (is : List Nat) (bv al : Int) (bv' al' : Int) (s' : ChainReaction)
    (h : max_rows child fuel cur beta n is (bv, al, s) = some (bv', al', s')) :
    s' = s ∧ bv ≤ bv' ∧ bv' ≤ max bv B ∧
      ((∃ i ∈ is, ∃ j < n, s.is_valid_move i j cur = true) → -B ≤ bv') := by
  induction is generalizing bv al with
  | nil =>
    simp only [max_rows, Option.some.injEq, Prod.mk.injEq] at h
    refine ⟨h.2.2.symm, by omega, by omega, ?_⟩
    rintro ⟨i, hi, _⟩
    exact absurd hi (List.not_mem_nil _)
  | cons i is ih =>
    simp only [max_rows] at h
    split at h
    · cases h
    · rename_i st1 hst
      obtain ⟨b1, a1, s1⟩ := st1
      obtain ⟨c1, c2, c3, c4⟩ := max_cols_range hcur hinv hchild beta i _ bv al b1 a1 s1 hst
      subst c1
      obtain ⟨r1, r2, r3, r4⟩ := ih _ _ h
      refine ⟨r1, by omega, by omega, ?_⟩
      rintro ⟨i', hi', j, hj, hv⟩
      rcases List.mem_cons.mp hi' with c | c
      · have := c4 ⟨j, List.mem_range.mpr hj, by rw [← c]; exact hv⟩
        omega
      · exact r4 ⟨i', c, j, hj, hv⟩

theorem min_cols_range {child : Int → Int → ChainReaction → Option (Int × ChainReaction)}
    {B : Int} {fuel : Nat} {cur : Char} (hcur : cur = 'R' ∨ cur = 'B') {s : ChainReaction}
    (hinv : s.CellInv)
    (hchild : ∀ a b t v t', t.CellInv → t.m = s.m → t.n = s.n → t.orbTotal ≤ s.orbTotal + 1 →
      child a b t = some (v, t') → t' = t ∧ -B ≤ v ∧ v ≤ B)
    (alpha : Int) (i : Nat) (js : List Nat) (bv be : Int) (bv' be' : Int) (s' : ChainReaction)
    (h : min_cols child fuel cur alpha i js (bv, be, s) = some (bv', be', s')) :
    s' = s ∧ bv' ≤ bv ∧ min bv (-B) ≤ bv' ∧
      ((∃ j ∈ js, s.is_valid_move i j cur = true) → bv' ≤ B) := by
  induction js generalizing bv be with
  | nil =>
    simp only [min_cols, Option.some.injEq, Prod.mk.injEq] at h
    refine ⟨h.2.2.symm, by omega, by omega, ?_⟩
    rintro ⟨j, hj, _⟩
    exact absurd hj (List.not_mem_nil _)
  | cons j js ih =>
    simp only [min_cols] at h
    split at h
    · split at h
      · cases h
      · rename_i s1 hs1
        split at h
        · cases h
        · rename_i v s2 hc
          obtain ⟨e2, hv1, hv2⟩ := hchild _ _ _ _ _ (move_resolve_inv hinv hcur hs1)
            (move_resolve_m hs1) (move_resolve_n hs1) (move_resolve_orbTotal hs1) hc
          subst e2
          rw [restore_eq hs1] at h
          split at h
          · simp only [Option.some.injEq, Prod.mk.injEq] at h
            refine ⟨h.2.2.symm, by omega, by omega, fun _ => by omega⟩
          · obtain ⟨r1, r2, r3, _⟩ := ih _ _ h
            refine ⟨r1, by omega, by omega, fun _ => by omega⟩
    · rename_i hvalid
      obtain ⟨r1, r2, r3, r4⟩ := ih _ _ h
      refine ⟨r1, r2, r3, ?_⟩
      rintro ⟨j', hj', hv'⟩
      rcases List.mem_cons.mp hj' with c | c
      · rw [c] at hv'; exact absurd hv' hvalid
      · exact r4 ⟨j', c, hv'⟩

theorem min_rows_range {child : Int → Int → ChainReaction → Option (Int × ChainReaction)}
    {B : Int} {fuel : Nat} {cur : Char} (hcur : cur = 'R' ∨ cur = 'B') {s : ChainReaction}
    (hinv : s.CellInv)
    (hchild : ∀ a b t v t', t.CellInv → t.m = s.m → t.n = s.n → t.orbTotal ≤ s.orbTotal + 1 →
      child a b t = some (v, t') → t' = t ∧ -B ≤ v ∧ v ≤ B)
    (alpha : Int) (n : Nat) (is : List Nat) (bv be : Int) (bv' be' : Int) (s' : ChainReaction)
    (h : min_rows child fuel cur alpha n is (bv, be, s) = some (bv', be', s')) :
    s' = s ∧ bv' ≤ bv ∧ min bv (-B) ≤ bv' ∧
      ((∃ i ∈ is, ∃ j < n, s.is_valid_move i j cur = true) → bv' ≤ B) := by
  induction is generalizing bv be with
  | nil =>
    simp only [min_rows, Option.some.injEq, Prod.mk.injEq] at h
    refine ⟨h.2.2.symm, by omega, by omega, ?_⟩
    rintro ⟨i, hi, _⟩
    exact absurd hi (List.not_mem_nil _)
  | cons i is ih =>
    simp only [min_rows] at h
    split at h
    · cases h
    · rename_i st1 hst
      obtain ⟨b1, a1, s1⟩ := st1
      obtain ⟨c1, c2, c3, c4⟩ := min_cols_range hcur hinv hchild alpha i _ bv be b1 a1 s1 hst
      subst c1
      obtain ⟨r1, r2, r3, r4⟩ := ih _ _ h
      refine ⟨r1, by omega, by omega, ?_⟩
      rintro ⟨i', hi', j, hj, hv⟩
      rcases List.mem_cons.mp hi' with c | c
      · have := c4 ⟨j, List.mem_range.mpr hj, by rw [← c]; exact hv⟩
        omega
      · exact r4 ⟨i', c, j, hj, hv⟩

/-- On a board with at least two cells that satisfies the cell invariant, whose number of orbs is
a value of an `int` and which has no winner, each of the two colours has a legal move. -/
theorem exists_move_of_no_winner {s : ChainReaction} (hinv : s.CellInv) (hcells : 2 ≤ s.m * s.n)
    (hfit : s.orbTotal ≤ INT_MAX) (hB : ¬ (s.check_winner = 'B')) (hR : ¬ (s.check_winner = 'R')) {cur : Char}
    (hcur : cur = 'R' ∨ cur = 'B') :
    ∃ i ∈ List.range s.m, ∃ j < s.n, s.is_valid_move i j cur = true := by
  by_contra hne
  have hall : ∀ i < s.m, ∀ j < s.n, s.is_valid_move i j cur = false := by
    intro i hi j hj
    by_contra hv
    exact hne ⟨i, List.mem_range.mpr hi, j, hj, by simpa using hv⟩
  have hw := winner_of_no_move s hinv hcells hfit cur hcur hall
  rcases hcur with rfl | rfl
  · rw [if_pos rfl] at hw; exact hB hw
  · rw [if_neg (by decide)] at hw; exact hR hw

/-- Every value `minimax` returns on a board with at least two cells that satisfies the cell
invariant lies between `-B` and `B`, for any `B` that bounds 1000 and the evaluators, when the
number of orbs stays a value of an `int` on the boards below the node. -/
theorem minimax_range (fuel : Nat) (player : Char) (hP : player = 'R' ∨ player = 'B') (B : Int)
    (hB1 : 1000 ≤ B) (gas : Nat) :
    ∀ (depth : Int) (mx : Bool) (alpha beta : Int) (s : ChainReaction) (v : Int)
      (s' : ChainReaction), s.CellInv → 2 ≤ s.m * s.n → 5 * ((s.m : Int) * (s.n : Int)) ≤ B →
      s.orbTotal + (gas : Int) ≤ INT_MAX →
      minimax fuel gas depth mx alpha beta player s = some (v, s') → s' = s ∧ -B ≤ v ∧ v ≤ B := by
  have hmin : INT_MIN = -2147483648 := rfl
  have hmax : INT_MAX = 2147483647 := rfl
  have hleaf : ∀ (s : ChainReaction), 5 * ((s.m : Int) * (s.n : Int)) ≤ B →
      -B ≤ (if s.is_ai_vs_ai then s.evaluate_board_control else s.evaluate_critical_cells) ∧
      (if s.is_ai_vs_ai then s.evaluate_board_control else s.evaluate_critical_cells) ≤ B := by
    intro s hfit
    have e1 := evaluate_critical_cells_bound s
    have e2 := evaluate_board_control_bound s
    split_ifs <;> constructor <;> omega
  have hterm : ∀ c : Char, -B ≤ (if player = c then (1000 : Int) else -1000) ∧
      (if player = c then (1000 : Int) else -1000) ≤ B := by
    intro c; split_ifs <;> constructor <;> omega
  induction gas with
  | zero =>
    intro depth mx alpha beta s v s' hinv hcells hfit horb h
    by_cases hB : s.check_winner = 'B'
    · rw [minimax_of_winner_B _ _ _ _ _ _ _ _ hB] at h
      simp only [Option.some.injEq, Prod.mk.injEq] at h
      rw [← h.1]; exact ⟨h.2.symm, hterm 'B'⟩
    · by_cases hR : s.check_winner = 'R'
      · rw [minimax_of_winner_R _ _ _ _ _ _ _ _ hR] at h
        simp only [Option.some.injEq, Prod.mk.injEq] at h
        rw [← h.1]; exact ⟨h.2.symm, hterm 'R'⟩
      · by_cases hd : depth ≥ DEPTH_LIMIT
        · rw [minimax_of_cutoff _ _ _ _ _ _ _ _ hB hR hd] at h
          simp only [Option.some.injEq, Prod.mk.injEq] at h
          rw [← h.1]; exact ⟨h.2.symm, hleaf s hfit⟩
        · rw [minimax_zero_expand _ _ _ _ _ _ _ hB hR hd] at h; cases h
  | succ gas ih =>
    intro depth mx alpha beta s v s' hinv hcells hfit horb h
    by_cases hB : s.check_winner = 'B'
    · rw [minimax_of_winner_B _ _ _ _ _ _ _ _ hB] at h
      simp only [Option.some.injEq, Prod.mk.injEq] at h
      rw [← h.1]; exact ⟨h.2.symm, hterm 'B'⟩
    · by_cases hR : s.check_winner = 'R'
      · rw [minimax_of_winner_R _ _ _ _ _ _ _ _ hR] at h
        simp only [Option.some.injEq, Prod.mk.injEq] at h
        rw [← h.1]; exact ⟨h.2.symm, hterm 'R'⟩
      · by_cases hd : depth ≥ DEPTH_LIMIT
        · rw [minimax_of_cutoff _ _ _ _ _ _ _ _ hB hR hd] at h
          simp only [Option.some.injEq, Prod.mk.injEq] at h
          rw [← h.1]; exact ⟨h.2.symm, hleaf s hfit⟩
        · rw [minimax_expand _ _ _ _ _ _ _ _ hB hR hd] at h
          have hcur : (if mx = true then player else (if player = 'B' then 'R' else 'B')) = 'R' ∨
              (if mx = true then player else (if player = 'B' then 'R' else 'B')) = 'B' := by
            rcases hP with rfl | rfl <;> cases mx <;> simp
          have hchild : ∀ (flag : Bool) (a b : Int) (t : ChainReaction) (w : Int)
              (t' : ChainReaction), t.CellInv → t.m = s.m → t.n = s.n →
              t.orbTotal ≤ s.orbTotal + 1 →
              minimax fuel gas (depth + 1) flag a b player t = some (w, t') →
              t' = t ∧ -B ≤ w ∧ w ≤ B := by
            intro flag a b t w t' ht hm hn ho hc
            exact ih _ _ _ _ _ _ _ ht (by rw [hm, hn]; exact hcells)
              (by rw [hm, hn]; exact hfit) (by push_cast at horb; omega) hc
          have hex := exists_move_of_no_winner hinv hcells (by push_cast at horb; omega) hB hR
            hcur
          split at h
          · rename_i hmx
            rw [if_pos hmx] at hcur hex
            split at h
            · cases h
            · rename_i bv al s1 hrows
              simp only [Option.some.injEq, Prod.mk.injEq] at h
              obtain ⟨r1, r2, r3, r4⟩ := max_rows_range hcur hinv (hchild false) _ _ _ _ _ _ _ _
                hrows
              have := r4 hex
              rw [← h.1, ← h.2]
              exact ⟨r1, by omega, by omega⟩
          · rename_i hmx
            rw [if_neg hmx] at hcur hex
            split at h
            · cases h
            · rename_i bv al s1 hrows
              simp only [Option.some.injEq, Prod.mk.injEq] at h
              obtain ⟨r1, r2, r3, r4⟩ := min_rows_range hcur hinv (hchild true) _ _ _ _ _ _ _ _
                hrows
              have := r4 hex
              rw [← h.1, ← h.2]
              exact ⟨r1, by omega, by omega⟩

end ChainReaction

/-! ## The search returns on boards that are not too full -/

namespace ChainReaction

/-- A move on a board that allows `d + 1` further moves is resolved after finitely many waves,
and the board returned allows `d` further moves. -/
theorem move_resolves {d : Nat} {s : ChainReaction} (h : Tame (d + 1) s) {cur : Char}
    (hcur : cur = 'R' ∨ cur = 'B') (i j : Nat) :
    ∃ (k : Nat) (t : ChainReaction),
      (∀ fuel, k ≤ fuel → process_explosions fuel (s.make_move i j cur) = some t) ∧
        Tame d t ∧ t.m = s.m ∧ t.n = s.n := by
  obtain ⟨hinv, hsmall⟩ := h
  have h1 := make_move_inv hinv i j hcur
  have hle := make_move_orbTotal_le s i j cur
  have hex : ∃ k, (wave^[k] (s.make_move i j cur)).stable := by
    by_cases hline : s.m ≤ 1 ∨ s.n ≤ 1
    · have hN := orbTotal_nonneg h1
      obtain ⟨k, _, hk⟩ := stable_of_single_line (s.make_move i j cur).orbTotal.toNat
        (s.make_move i j cur) h1 hline (by rw [Int.toNat_of_nonneg hN])
      exact ⟨k, hk⟩
    · have hE : s.orbTotal + ((d + 1 : Nat) : Int) < adjacentPairs s.m s.n := by
        rcases hsmall with c | c | c
        · exact absurd (Or.inl c) hline
        · exact absurd (Or.inr c) hline
        · exact c
      exact stable_of_few_orbs (s.make_move i j cur) h1 (by
        rw [make_move_m, make_move_n]; push_cast at hE; omega)
  obtain ⟨k, hk⟩ := hex
  obtain ⟨t, ht⟩ := process_explosions_of_iterate k hk k (le_refl _)
  obtain ⟨k', _, hiter, _, hexact⟩ := process_explosions_exact ht
  refine ⟨k', t, fun fuel hf => process_explosions_fuel_mono hexact hf, ?_, ?_, ?_⟩
  · refine ⟨move_resolve_inv hinv hcur ht, ?_⟩
    rw [move_resolve_m ht, move_resolve_n ht]
    rcases hsmall with c | c | c
    · exact Or.inl c
    · exact Or.inr (Or.inl c)
    · refine Or.inr (Or.inr ?_)
      have h2 : t.orbTotal ≤ (s.make_move i j cur).orbTotal := by
        rw [hiter]; exact iterate_wave_orbTotal_le _ _
      push_cast at c
      omega
  · exact move_resolve_m ht
  · exact move_resolve_n ht

theorem unpruned_fold_returns {g : Nat} {P cur : Char} (hcur : cur = 'R' ∨ cur = 'B')
    {s : ChainReaction} (htame : Tame (g + 1) s) (flag : Bool) (pick : Int → Int → Int)
    (depth : Int)
    (IH : ∀ t : ChainReaction, Tame g t → ∃ F : Nat, ∀ fuel, F ≤ fuel → ∀ mx : Bool,
      ∃ v, minimax_unpruned fuel g depth mx P t = some v) :
    ∀ l : List (Nat × Nat), ∃ F : Nat, ∀ fuel, F ≤ fuel → ∀ best : Int,
      ∃ best', unpruned_fold (fun t => minimax_unpruned fuel g depth flag P t) fuel cur s pick
        l best = some best' := by
  intro l
  induction l with
  | nil => exact ⟨0, fun fuel _ best => ⟨best, rfl⟩⟩
  | cons p l ih =>
    obtain ⟨F1, hF1⟩ := ih
    by_cases hvalid : s.is_valid_move p.1 p.2 cur = true
    · obtain ⟨k, t, hproc, ht, _, _⟩ := move_resolves htame hcur p.1 p.2
      obtain ⟨F2, hF2⟩ := IH t ht
      refine ⟨max F1 (max k F2), fun fuel hf best => ?_⟩
      obtain ⟨v, hv⟩ := hF2 fuel (by omega) flag
      simp only [unpruned_fold, if_pos hvalid, hproc fuel (by omega), hv]
      exact hF1 fuel (by omega) _
    · refine ⟨F1, fun fuel hf best => ?_⟩
      simp only [unpruned_fold, if_neg hvalid]
      exact hF1 fuel hf _

/-- On a board that allows `g` further moves, minimax without pruning called `g` plies above the
depth limit returns once enough waves are allowed. -/
theorem minimax_unpruned_returns (P : Char) (hP : P = 'R' ∨ P = 'B') (g : Nat) :
    ∀ s : ChainReaction, Tame g s → ∃ F : Nat, ∀ fuel, F ≤ fuel → ∀ mx : Bool,
      ∃ v, minimax_unpruned fuel g ((3 : Int) - (g : Int)) mx P s = some v := by
  induction g with
  | zero =>
    intro s _
    refine ⟨0, fun fuel _ mx => ?_⟩
    by_cases hB : s.check_winner = 'B'
    · exact ⟨_, minimax_unpruned_of_winner_B _ _ _ _ _ _ hB⟩
    · by_cases hR : s.check_winner = 'R'
      · exact ⟨_, minimax_unpruned_of_winner_R _ _ _ _ _ _ hR⟩
      · exact ⟨_, minimax_unpruned_of_cutoff _ _ _ _ _ _ hB hR (by
          show ((3 : Int) - ((0 : Nat) : Int)) ≥ 3
          simp)⟩
  | succ g ih =>
    intro s htame
    by_cases hB : s.check_winner = 'B'
    · exact ⟨0, fun fuel _ mx => ⟨_, minimax_unpruned_of_winner_B _ _ _ _ _ _ hB⟩⟩
    · by_cases hR : s.check_winner = 'R'
      · exact ⟨0, fun fuel _ mx => ⟨_, minimax_unpruned_of_winner_R _ _ _ _ _ _ hR⟩⟩
      · have hd : ¬ (((3 : Int) - ((g + 1 : Nat) : Int)) ≥ DEPTH_LIMIT) := by
          show ¬ (((3 : Int) - ((g + 1 : Nat) : Int)) ≥ 3)
          push_cast; omega
        have e : ((3 : Int) - ((g + 1 : Nat) : Int)) + 1 = (3 : Int) - (g : Int) := by
          push_cast; ring
        have hcur : ∀ mx : Bool,
            (if mx = true then P else (if P = 'B' then 'R' else 'B')) = 'R' ∨
            (if mx = true then P else (if P = 'B' then 'R' else 'B')) = 'B' := by
          intro mx
          rcases hP with rfl | rfl <;> cases mx <;> simp
        obtain ⟨F1, hF1⟩ := unpruned_fold_returns (hcur true) htame false max _ ih
          (allCells s.m s.n)
        obtain ⟨F2, hF2⟩ := unpruned_fold_returns (hcur false) htame true min _ ih
          (allCells s.m s.n)
        refine ⟨max F1 F2, fun fuel hf mx => ?_⟩
        rw [minimax_unpruned_expand _ _ _ _ _ _ hB hR hd, e]
        cases mx with
        | true => exact hF1 fuel (by omega) _
        | false => exact hF2 fuel (by omega) _

/-- On a board that allows four further moves, every root move is valued by minimax without
pruning once enough waves are allowed. -/
theorem root_value_unpruned_returns (P : Char) (hP : P = 'R' ∨ P = 'B') {s : ChainReaction}
    (htame : Tame 4 s) :
    ∀ l : List (Nat × Nat), ∃ F : Nat, ∀ fuel, F ≤ fuel → ∀ p ∈ l,
      ∃ v, root_value_unpruned fuel P s p.1 p.2 = some v := by
  intro l
  induction l with
  | nil => exact ⟨0, fun fuel _ p hp => absurd hp (List.not_mem_nil _)⟩
  | cons q l ih =>
    obtain ⟨F1, hF1⟩ := ih
    obtain ⟨k, t, hproc, ht, _, _⟩ := move_resolves htame hP q.1 q.2
    obtain ⟨F2, hF2⟩ := minimax_unpruned_returns P hP 3 t ht
    refine ⟨max F1 (max k F2), fun fuel hf p hp => ?_⟩
    rcases List.mem_cons.mp hp with c | c
    · rw [c]
      obtain ⟨v, hv⟩ := hF2 fuel (by omega) (if P = 'B' then false else true)
      refine ⟨v, ?_⟩
      unfold root_value_unpruned
      rw [hproc fuel (by omega)]
      simpa using hv
    · exact hF1 fuel (by omega) p c

end ChainReaction

namespace ChainReaction

theorem root_value_range (fuel : Nat) (P : Char) (hP : P = 'R' ∨ P = 'B') (s : ChainReaction)
    (hinv : s.CellInv) (hcells : 2 ≤ s.m * s.n)
    (hfit : 5 * ((s.m : Int) * (s.n : Int)) ≤ INT_MAX) (horb : s.orbTotal + 4 ≤ INT_MAX)
    (i j : Nat) (v : Int)
    (h : root_value fuel P s i j = some v) : INT_MIN < v ∧ v < INT_MAX := by
  have hmin : INT_MIN = -2147483648 := rfl
  have hmax : INT_MAX = 2147483647 := rfl
  rw [root_value_eq] at h
  split at h
  · cases h
  · rename_i s1 hs1
    split at h
    · cases h
    · rename_i value s2 hmm
      simp only [Option.some.injEq] at h
      have hfit1 : 5 * ((s1.m : Int) * (s1.n : Int)) ≤ 2147483645 := by
        rw [move_resolve_m hs1, move_resolve_n hs1]
        rw [hmax] at hfit
        generalize (s.m : Int) * (s.n : Int) = x at hfit
        omega
      have := minimax_range fuel P hP 2147483645 (by norm_num) 3 _ _ _ _ s1 _ _
        (move_resolve_inv hinv hP hs1)
        (by rw [move_resolve_m hs1, move_resolve_n hs1]; exact hcells) hfit1
        (by have := move_resolve_orbTotal hs1; push_cast; omega) hmm
      omega

theorem improves_of_range {P : Char} (hP : P = 'R' ∨ P = 'B') {v : Int}
    (h : INT_MIN < v ∧ v < INT_MAX) : improves P v (if P = 'B' then INT_MIN else INT_MAX) := by
  rcases hP with rfl | rfl
  · exact Or.inr ⟨rfl, by rw [if_neg (by decide)]; exact h.2⟩
  · exact Or.inl ⟨rfl, by rw [if_pos rfl]; exact h.1⟩

theorem root_value_of_unpruned (fuel : Nat) (P : Char) (s : ChainReaction)
    (hfit : 5 * ((s.m : Int) * (s.n : Int)) ≤ INT_MAX) (i j : Nat) (v : Int)
    (h : root_value_unpruned fuel P s i j = some v) : root_value fuel P s i j = some v := by
  obtain ⟨s1, hs1, hmm⟩ := root_value_sound fuel P s hfit i j v h
  rw [root_value_eq, hs1]
  simp only [hmm]

/-- When some move is legal and the values of the legal root moves lie strictly between `INT_MIN`
and `INT_MAX`, the move the root loop retains is a legal in-bounds cell. -/
theorem decision_fold_legal (fuel : Nat) (P : Char) (hP : P = 'R' ∨ P = 'B') (s : ChainReaction)
    (hrange : ∀ i j v, root_value fuel P s i j = some v → INT_MIN < v ∧ v < INT_MAX)
    (hmove : ∃ i < s.m, ∃ j < s.n, s.is_valid_move i j P = true) (bv' : Int) (bm' : Int × Int)
    (hfold : decision_fold P s (root_value fuel P s) (allCells s.m s.n)
      (if P = 'B' then INT_MIN else INT_MAX, (-1, -1)) = some (bv', bm')) :
    ∃ i j : Nat, i < s.m ∧ j < s.n ∧ s.is_valid_move i j P = true ∧
      bm' = ((i : Int), (j : Int)) := by
  rcases decision_fold_spec P s _ _ _ _ _ _ hfold with
    ⟨_, _, hall⟩ | ⟨l1, ⟨i0, j0⟩, l2, hl, hp0, _, hbm, _, _, _⟩
  · exfalso
    obtain ⟨i, hi, j, hj, hv⟩ := hmove
    obtain ⟨v, hv1, hv2⟩ := hall (i, j) (mem_allCells.mpr ⟨hi, hj⟩) hv
    exact hv2 (improves_of_range hP (hrange i j v hv1))
  · have hmem : (i0, j0) ∈ allCells s.m s.n := by rw [hl]; simp
    obtain ⟨hi0, hj0⟩ := mem_allCells.mp hmem
    exact ⟨i0, j0, hi0, hj0, hp0, hbm⟩

/-- C26, as claimed, fails where the search does not return: `full_board` (2 × 2, one orb in
every cell) satisfies the cell invariant, has 4 cells and 4 orbs, and `(0, 0)` is a legal move
for Red, yet `minimax_decision('R')` returns nothing, whatever the bound on the waves: the first
root move it tries, `(0, 0)`, is never resolved by `process_explosions`. -/
theorem minimax_decision_hangs_on_full_board :
    full_board.CellInv ∧ 2 ≤ full_board.m * full_board.n ∧
      5 * ((full_board.m : Int) * (full_board.n : Int)) ≤ INT_MAX ∧
      full_board.orbTotal + 4 ≤ INT_MAX ∧ full_board.is_valid_move 0 0 'R' = true ∧
      ∀ fuel, minimax_decision fuel 'R' full_board = none := by
  refine ⟨by decide, by decide, by decide, by decide!, by decide, fun fuel => ?_⟩
  have hnone := process_explosions_none_of_overfull (full_board.make_move 0 0 'R') (by decide)
    (by decide) (by decide) fuel
  have hcols : ∀ (js : List Nat) (st : Int × (Int × Int) × Bool),
      decision_cols fuel 'R' 0 (0 :: js) (st.1, st.2.1, st.2.2, full_board) = none := by
    intro js st
    rw [decision_cols, if_pos (by decide)]
    simp only [hnone]
  have hrows : decision_rows fuel 'R' full_board.n (List.range full_board.m)
      (if 'R' = 'B' then INT_MIN else INT_MAX, (-1, -1), false, full_board) = none := by
    show decision_rows fuel 'R' 2 (0 :: [1]) _ = none
    rw [decision_rows]
    have := hcols [1] (if 'R' = 'B' then INT_MIN else INT_MAX, (-1, -1), false)
    show (match decision_cols fuel 'R' 0 (0 :: [1]) _ with
      | none => none
      | some st1 => decision_rows fuel 'R' 2 [1] st1) = none
    rw [this]
  unfold minimax_decision
  rw [hrows]

/-- C26, amended. The sentinel means "no legal move" whenever the search returns. On every board
with at least 2 cells that satisfies the cell invariant and whose evaluator values and orb counts
stay values of an `int` during the search (`5 * m * n <= INT_MAX`, orbs + 4 `<= INT_MAX`), for `P`
Red or Blue with at least one legal move: whenever `minimax_decision(P)` returns, it returns the
coordinates of an in-bounds cell that is a legal move for `P`, never `(-1, -1)`; the value of
every root move lies strictly between `INT_MIN` and `INT_MAX`; and when the board has a single
row or column, or holds fewer orbs than its number of pairs of adjacent cells less 4 (so that the
four moves the search stacks are always resolved), `minimax_decision(P)` does return once enough
waves are allowed. -/
theorem minimax_decision_legal (s : ChainReaction) (P : Char) (hinv : s.CellInv)
    (hcells : 2 ≤ s.m * s.n) (hP : P = 'R' ∨ P = 'B')
    (hfit : 5 * ((s.m : Int) * (s.n : Int)) ≤ INT_MAX) (horb : s.orbTotal + 4 ≤ INT_MAX)
    (hmove : ∃ i < s.m, ∃ j < s.n, s.is_valid_move i j P = true) :
    (∀ (fuel : Nat) (mv : Int × Int) (s' : ChainReaction),
      minimax_decision fuel P s = some (mv, s') →
        ∃ i j : Nat, i < s.m ∧ j < s.n ∧ s.is_valid_move i j P = true ∧
          mv = ((i : Int), (j : Int))) ∧
    (∀ (fuel i j : Nat) (v : Int), root_value fuel P s i j = some v →
      INT_MIN < v ∧ v < INT_MAX) ∧
    ((s.m ≤ 1 ∨ s.n ≤ 1 ∨ s.orbTotal + 4 < adjacentPairs s.m s.n) →
      ∃ F : Nat, ∀ fuel, F ≤ fuel →
        ∃ i j : Nat, i < s.m ∧ j < s.n ∧ s.is_valid_move i j P = true ∧
          minimax_decision fuel P s = some (((i : Int), (j : Int)), s)) := by
  have hrange : ∀ (fuel i j : Nat) (v : Int), root_value fuel P s i j = some v →
      INT_MIN < v ∧ v < INT_MAX :=
    fun fuel i j v h => root_value_range fuel P hP s hinv hcells hfit horb i j v h
  refine ⟨?_, hrange, ?_⟩
  · intro fuel mv s' h
    rw [minimax_decision_eq_fold] at h
    cases hfold : decision_fold P s (root_value fuel P s) (allCells s.m s.n)
        (if P = 'B' then INT_MIN else INT_MAX, (-1, -1)) with
    | none => rw [hfold] at h; cases h
    | some r =>
      obtain ⟨bv', bm'⟩ := r
      rw [hfold] at h
      simp only [Option.map_some', Option.some.injEq, Prod.mk.injEq] at h
      rw [← h.1]
      exact decision_fold_legal fuel P hP s (hrange fuel) hmove bv' bm' hfold
  · intro hsmall
    have htame : Tame 4 s := ⟨hinv, by
      rcases hsmall with c | c | c
      · exact Or.inl c
      · exact Or.inr (Or.inl c)
      · exact Or.inr (Or.inr (by push_cast; exact c))⟩
    obtain ⟨F, hF⟩ := root_value_unpruned_returns P hP htame (allCells s.m s.n)
    refine ⟨F, fun fuel hf => ?_⟩
    obtain ⟨⟨bv', bm'⟩, hfold⟩ := decision_fold_returns P s (root_value fuel P s)
      (allCells s.m s.n) (if P = 'B' then INT_MIN else INT_MAX, (-1, -1)) (by
        intro p hp _
        obtain ⟨v, hv⟩ := hF fuel hf p hp
        exact ⟨v, root_value_of_unpruned fuel P s hfit p.1 p.2 v hv⟩)
    obtain ⟨i, j, hi, hj, hv, hbm⟩ :=
      decision_fold_legal fuel P hP s (hrange fuel) hmove bv' bm' hfold
    refine ⟨i, j, hi, hj, hv, ?_⟩
    rw [minimax_decision_eq_fold, hfold, hbm]
    rfl

/-- C26, instance: `two_blue_board` (2 × 3, 2 orbs, 7 pairs of adjacent cells) with Red to move:
the root decision returns a legal move once enough waves are allowed. -/
theorem minimax_decision_legal_witness :
    ∃ F : Nat, ∀ fuel, F ≤ fuel →
      ∃ i j : Nat, i < two_blue_board.m ∧ j < two_blue_board.n ∧
        two_blue_board.is_valid_move i j 'R' = true ∧
        minimax_decision fuel 'R' two_blue_board = some (((i : Int), (j : Int)), two_blue_board) :=
  (minimax_decision_legal two_blue_board 'R' (by decide) (by decide) (Or.inl rfl) (by decide)
    (by decide!) ⟨0, by decide, 0, by decide, by decide⟩).2.2 (Or.inr (Or.inr (by decide)))

end ChainReaction
/-! ## The evaluators -/

namespace ChainReaction

theorem evaluate_explosion_potential_eq (s : ChainReaction) :
    s.evaluate_explosion_potential =
      sumCells s.m s.n (fun i j =>
        if (s.board i j).color = 'B' ∧ (s.board i j).orbs > 0 ∧
          s.get_critical_mass i j - (s.board i j).orbs ≤ 1 then 4 else 0) -
      sumCells s.m s.n (fun i j =>
        if (s.board i j).color = 'R' ∧ (s.board i j).orbs > 0 ∧
          s.get_critical_mass i j - (s.board i j).orbs ≤ 1 then 4 else 0) := by
  have e : (fun (acc : Int × Int) (i j : Nat) =>
      (if (s.board i j).orbs > 0 then
        if s.get_critical_mass i j - (s.board i j).orbs ≤ 1 ∧ (s.board i j).color = 'B' then
          (acc.1 + 4, acc.2)
        else if s.get_critical_mass i j - (s.board i j).orbs ≤ 1 ∧ (s.board i j).color = 'R' then
          (acc.1, acc.2 + 4)
        else acc
      else acc : Int × Int)) =
      (fun (acc : Int × Int) (i j : Nat) =>
        (acc.1 + (if (s.board i j).color = 'B' ∧ (s.board i j).orbs > 0 ∧
            s.get_critical_mass i j - (s.board i j).orbs ≤ 1 then 4 else 0),
         acc.2 + (if (s.board i j).color = 'R' ∧ (s.board i j).orbs > 0 ∧
            s.get_critical_mass i j - (s.board i j).orbs ≤ 1 then 4 else 0))) := by
    funext acc i j
    have bR : ¬ ('B' = 'R') := by decide
    by_cases c0 : (s.board i j).orbs > 0
    · by_cases c1 : s.get_critical_mass i j - (s.board i j).orbs ≤ 1
      · by_cases cB : (s.board i j).color = 'B'
        · have cR : ¬ ((s.board i j).color = 'R') := by rw [cB]; exact bR
          simp [c0, c1, cB, bR]
        · by_cases cR : (s.board i j).color = 'R'
          · simp [c0, c1, cB, cR]
          · simp [c0, c1, cB, cR]
      · simp [c0, c1]
    · simp [c0]
  unfold evaluate_explosion_potential
  simp only [e, forCells_pair_sum, zero_add]

theorem sumCells_ite_four (m n : Nat) (p : Nat → Nat → Prop) [∀ i j, Decidable (p i j)] :
    sumCells m n (fun i j => if p i j then (4 : Int) else 0) = 4 * countCells m n p := by
  rw [countCells_eq_sumCells, ← sumCells_mul]
  refine sumCells_congr (fun i _ j _ => ?_)
  split_ifs <;> simp

theorem countCells_congr {m n : Nat} {p q : Nat → Nat → Prop} [∀ i j, Decidable (p i j)]
    [∀ i j, Decidable (q i j)] (h : ∀ i < m, ∀ j < n, (p i j ↔ q i j)) :
    countCells m n p = countCells m n q := by
  rw [countCells_eq_sumCells, countCells_eq_sumCells]
  refine sumCells_congr (fun i hi j hj => ?_)
  by_cases c : p i j
  · rw [if_pos c, if_pos ((h i hi j hj).mp c)]
  · rw [if_neg c, if_neg (fun hq => c ((h i hi j hj).mpr hq))]

/-- C31. Board control: for every board, `evaluate_board_control` returns the number of cells
owned by Blue minus the number of cells owned by Red; under the cell invariant these are the
numbers of cells that Blue and Red occupy with at least one orb. -/
theorem evaluate_board_control_spec (s : ChainReaction) :
    s.evaluate_board_control =
      countCells s.m s.n (fun i j => (s.board i j).color = 'B') -
        countCells s.m s.n (fun i j => (s.board i j).color = 'R') ∧
    (s.CellInv →
      countCells s.m s.n (fun i j => (s.board i j).color = 'B') =
        countCells s.m s.n (fun i j => (s.board i j).color = 'B' ∧ (s.board i j).orbs > 0) ∧
      countCells s.m s.n (fun i j => (s.board i j).color = 'R') =
        countCells s.m s.n (fun i j => (s.board i j).color = 'R' ∧ (s.board i j).orbs > 0)) := by
  constructor
  · rw [evaluate_board_control_eq, countCells_eq_sumCells, countCells_eq_sumCells]
  · intro hinv
    have key : ∀ c : Char, ¬ (c = NUL) → ∀ i < s.m, ∀ j < s.n,
        ((s.board i j).color = c ↔ (s.board i j).color = c ∧ (s.board i j).orbs > 0) := by
      intro c hc i hi j hj
      obtain ⟨h0, h1, _⟩ := hinv i hi j hj
      constructor
      · intro e
        have : ¬ ((s.board i j).orbs = 0) := fun z => hc (e.symm.trans (h1.mp z))
        exact ⟨e, by omega⟩
      · exact fun e => e.1
    exact ⟨countCells_congr (key 'B' NUL_ne_B), countCells_congr (key 'R' NUL_ne_R)⟩

/-- C31, instance: on `two_blue_board` Blue owns two cells and Red none. -/
theorem evaluate_board_control_spec_witness :
    two_blue_board.CellInv ∧ two_blue_board.evaluate_board_control = 2 - 0 :=
  ⟨by decide, (evaluate_board_control_spec two_blue_board).1.trans (by decide!)⟩

/-- C32 (as stated, refuted). On `overfull_board` the corner `(0, 0)` holds 4 Blue orbs and has
critical mass 2: its orb count differs from its critical mass by 2, no cell is within 1 orb of
its critical mass, and `evaluate_explosion_potential` returns 4, not 0. -/
theorem explosion_potential_counts_overfull :
    overfull_board.get_critical_mass 0 0 = 2 ∧ (overfull_board.board 0 0).orbs = 4 ∧
    overfull_board.evaluate_explosion_potential = 4 ∧
    4 * countCells 2 2 (fun i j => (overfull_board.board i j).color = 'B' ∧
        (overfull_board.board i j).orbs > 0 ∧
        -1 ≤ overfull_board.get_critical_mass i j - (overfull_board.board i j).orbs ∧
        overfull_board.get_critical_mass i j - (overfull_board.board i j).orbs ≤ 1) -
      4 * countCells 2 2 (fun i j => (overfull_board.board i j).color = 'R' ∧
        (overfull_board.board i j).orbs > 0 ∧
        -1 ≤ overfull_board.get_critical_mass i j - (overfull_board.board i j).orbs ∧
        overfull_board.get_critical_mass i j - (overfull_board.board i j).orbs ≤ 1) = 0 := by
  refine ⟨by decide, by decide, by decide!, by decide!⟩

/-- C32 (amended). Explosion potential: for every board, `evaluate_explosion_potential` returns
4 times the number of Blue-owned occupied cells whose orb count is at least their critical mass
less 1 (`critical - orbs <= 1`; a cell above its critical mass counts however far above) minus
4 times the same number for Red. On a board where no cell holds more than its critical mass
plus 1, this is the number of occupied cells whose orb count differs from their critical mass by
at most 1. -/
theorem evaluate_explosion_potential_spec (s : ChainReaction) :
    s.evaluate_explosion_potential =
      4 * countCells s.m s.n (fun i j => (s.board i j).color = 'B' ∧ (s.board i j).orbs > 0 ∧
          s.get_critical_mass i j - (s.board i j).orbs ≤ 1) -
        4 * countCells s.m s.n (fun i j => (s.board i j).color = 'R' ∧ (s.board i j).orbs > 0 ∧
          s.get_critical_mass i j - (s.board i j).orbs ≤ 1) ∧
    ((∀ i < s.m, ∀ j < s.n, (s.board i j).orbs ≤ s.get_critical_mass i j + 1) →
      s.evaluate_explosion_potential =
        4 * countCells s.m s.n (fun i j => (s.board i j).color = 'B' ∧ (s.board i j).orbs > 0 ∧
            -1 ≤ s.get_critical_mass i j - (s.board i j).orbs ∧
            s.get_critical_mass i j - (s.board i j).orbs ≤ 1) -
          4 * countCells s.m s.n (fun i j => (s.board i j).color = 'R' ∧ (s.board i j).orbs > 0 ∧
            -1 ≤ s.get_critical_mass i j - (s.board i j).orbs ∧
            s.get_critical_mass i j - (s.board i j).orbs ≤ 1)) := by
  have h1 : s.evaluate_explosion_potential =
      4 * countCells s.m s.n (fun i j => (s.board i j).color = 'B' ∧ (s.board i j).orbs > 0 ∧
          s.get_critical_mass i j - (s.board i j).orbs ≤ 1) -
        4 * countCells s.m s.n (fun i j => (s.board i j).color = 'R' ∧ (s.board i j).orbs > 0 ∧
          s.get_critical_mass i j - (s.board i j).orbs ≤ 1) := by
    rw [evaluate_explosion_potential_eq, sumCells_ite_four, sumCells_ite_four]
  refine ⟨h1, fun hle => ?_⟩
  rw [h1]
  have key : ∀ c : Char, ∀ i < s.m, ∀ j < s.n,
      ((s.board i j).color = c ∧ (s.board i j).orbs > 0 ∧
          s.get_critical_mass i j - (s.board i j).orbs ≤ 1 ↔
        (s.board i j).color = c ∧ (s.board i j).orbs > 0 ∧
          -1 ≤ s.get_critical_mass i j - (s.board i j).orbs ∧
          s.get_critical_mass i j - (s.board i j).orbs ≤ 1) := by
    intro c i hi j hj
    have := hle i hi j hj
    constructor
    · rintro ⟨a, b, d⟩; exact ⟨a, b, by omega, d⟩
    · rintro ⟨a, b, _, d⟩; exact ⟨a, b, d⟩
  rw [countCells_congr (key 'B'), countCells_congr (key 'R')]

/-- C32 (amended), instance: `two_blue_board` is stable; its Blue corner `(1, 0)` holds 1 orb,
one less than its critical mass 2, and its Blue edge cell `(1, 1)` holds 1 orb, two less than
its critical mass 3: the value is `4 * 1 - 4 * 0`. -/
theorem evaluate_explosion_potential_spec_witness :
    (∀ i < two_blue_board.m, ∀ j < two_blue_board.n,
      (two_blue_board.board i j).orbs ≤ two_blue_board.get_critical_mass i j + 1) ∧
    two_blue_board.evaluate_explosion_potential = 4 * 1 - 4 * 0 :=
  ⟨by decide,
    ((evaluate_explosion_potential_spec two_blue_board).2 (by decide)).trans (by decide!)⟩

theorem chain_length_forCells_stable {fuel : Nat} {s : ChainReaction} (hst : s.stable) :
    forCells s.m s.n (chain_length_step fuel s) (some (0, 0)) = some (0, 0) := by
  rw [forCells_eq_foldl]
  have key : ∀ (l : List (Nat × Nat)), (∀ p ∈ l, p.1 < s.m ∧ p.2 < s.n) →
      l.foldl (fun acc p => chain_length_step fuel s acc p.1 p.2) (some (0, 0)) =
        some (0, 0) := by
    intro l
    induction l with
    | nil => intro _; rfl
    | cons p l ih =>
      intro h
      have hp := h p (List.mem_cons_self _ _)
      have hlt := hst p.1 hp.1 p.2 hp.2
      rw [List.foldl_cons]
      have e : chain_length_step fuel s (some (0, 0)) p.1 p.2 = some (0, 0) := by
        unfold chain_length_step
        simp only []
        rw [if_neg (by omega)]
      rw [e]
      exact ih (fun q hq => h q (List.mem_cons_of_mem _ hq))
  exact key _ (fun p hp => by
    obtain ⟨i, j⟩ := p
    exact mem_allCells.mp hp)

/-- C33. The chain-length evaluator is non-destructive: whenever `evaluate_chain_length`
returns, the object it leaves is the object it was called on, cell for cell (`simulate_chain`
writes only its copy `temp_board`); and on a board with no critical cell it returns 0, whatever
the bound on the passes of `simulate_chain`, which is then never called. -/
theorem evaluate_chain_length_frame (s : ChainReaction) :
    (∀ (fuel : Nat) (v : Int) (s' : ChainReaction),
      evaluate_chain_length fuel s = some (v, s') →
        s' = s ∧ ∀ i j, s'.board i j = s.board i j) ∧
    ((∀ i < s.m, ∀ j < s.n, ¬ ((s.board i j).orbs > 0 ∧
        (s.board i j).orbs ≥ s.get_critical_mass i j)) →
      ∀ fuel, evaluate_chain_length fuel s = some (0, s)) := by
  constructor
  · intro fuel v s' h
    unfold evaluate_chain_length at h
    simp only [] at h
    split at h
    · cases h
    · simp only [Option.some.injEq, Prod.mk.injEq] at h
      have e : s' = s := h.2.symm
      exact ⟨e, fun i j => by rw [e]⟩
  · intro hnone fuel
    have hst : s.stable := by
      intro i hi j hj
      have := hnone i hi j hj
      have := two_le_mass s i j
      omega
    unfold evaluate_chain_length
    simp only [chain_length_forCells_stable hst]
    rfl

/-- C33, instance: `two_blue_board` has no critical cell and is valued 0; on `corner_board` with
a second Blue orb on its corner the corner is critical, the call returns 1 and leaves the board
as it was. -/
theorem evaluate_chain_length_frame_witness :
    evaluate_chain_length 0 two_blue_board = some (0, two_blue_board) ∧
    (evaluate_chain_length 10 (corner_board.make_move 0 0 'B')).map Prod.fst = some 1 ∧
    ∀ v s', evaluate_chain_length 10 (corner_board.make_move 0 0 'B') = some (v, s') →
      s' = corner_board.make_move 0 0 'B' :=
  ⟨(evaluate_chain_length_frame two_blue_board).2 (by decide) 0, by decide!,
    fun v s' h => ((evaluate_chain_length_frame (corner_board.make_move 0 0 'B')).1 10 v s' h).1⟩

end ChainReaction

/-! ## Max-Cut: the greedy construction -/

namespace MaxCut

theorem mem_vertices {g : Graph} {z : Int} : z ∈ vertices g ↔ 1 ≤ z ∧ z ≤ (g.V : Int) := by
  unfold vertices
  rw [List.mem_map]
  constructor
  · rintro ⟨k, hk, rfl⟩
    have := List.mem_range.mp hk
    omega
  · rintro ⟨h1, h2⟩
    refine ⟨(z - 1).toNat, List.mem_range.mpr (by omega), by omega⟩

/-- What `std::max_element` returns on a non-empty range: the range splits at the returned
element, every element before it is smaller and no element after it is greater. -/
theorem max_fold_spec (es : List Edge) : ∀ e0 : Edge,
    ∃ l1 l2 : List Edge,
      e0 :: es = l1 ++ (es.foldl (fun largest x => if largest.weight < x.weight then x
        else largest) e0) :: l2 ∧
      (∀ x ∈ l1, x.weight <
        (es.foldl (fun largest x => if largest.weight < x.weight then x else largest) e0).weight) ∧
      (∀ x ∈ l2, x.weight ≤
        (es.foldl (fun largest x => if largest.weight < x.weight then x else largest) e0).weight) := by
  induction es with
  | nil => intro e0; exact ⟨[], [], rfl, fun x hx => absurd hx (List.not_mem_nil _),
      fun x hx => absurd hx (List.not_mem_nil _)⟩
  | cons x xs ih =>
    intro e0
    rw [List.foldl_cons]
    by_cases c : e0.weight < x.weight
    · rw [if_pos c]
      obtain ⟨l1, l2, hl, h1, h2⟩ := ih x
      refine ⟨e0 :: l1, l2, by rw [hl]; rfl, ?_, h2⟩
      intro y hy
      rcases List.mem_cons.mp hy with e | e
      · rw [e]
        have hx : x ∈ l1 ++ (xs.foldl (fun largest x => if largest.weight < x.weight then x
            else largest) x) :: l2 := by rw [← hl]; exact List.mem_cons_self _ _
        rcases List.mem_append.mp hx with m | m
        · have := h1 x m; omega
        · rcases List.mem_cons.mp m with m | m
          · rw [← m]; exact c
          · have := h2 x m; omega
      · exact h1 y e
    · rw [if_neg c]
      obtain ⟨l1, l2, hl, h1, h2⟩ := ih e0
      cases l1 with
      | nil =>
        simp only [List.nil_append, List.cons.injEq] at hl
        refine ⟨[], x :: xs, by rw [← hl.1]; rfl, fun y hy => absurd hy (List.not_mem_nil _), ?_⟩
        intro y hy
        rcases List.mem_cons.mp hy with e | e
        · rw [e, ← hl.1]; omega
        · rw [hl.2] at e; exact h2 y e
      | cons a l1 =>
        simp only [List.cons_append, List.cons.injEq] at hl
        refine ⟨a :: x :: l1, l2, by
          rw [← hl.1]
          exact congrArg (fun t => e0 :: x :: t) hl.2, ?_, h2⟩
        intro y hy
        have ha := h1 a (List.mem_cons_self _ _)
        rcases List.mem_cons.mp hy with e | e
        · rw [e]; exact ha
        · rcases List.mem_cons.mp e with e | e
          · rw [e, ← hl.1] at *; omega
          · exact h1 y (List.mem_cons_of_mem _ e)

theorem insert_apply (S : IntSet) (z k : Int) :
    insert S z k = if k = z then true else S k := rfl

theorem erase_apply (S : IntSet) (z k : Int) :
    erase S z k = if k = z then false else S k := rfl

/-- Invariant of the loop of `greedyMaxCut`: the assigned vertices are the members of `X` and
`Y`, and no vertex is in both. -/
theorem greedy_fold_spec (g : Graph) : ∀ (l : List Int) (X Y : IntSet) (A : Int → Bool),
    (∀ k, A k = true ↔ (X k = true ∨ Y k = true)) → (∀ k, ¬ (X k = true ∧ Y k = true)) →
    (∀ k, ((l.foldl (greedy_step g) (X, Y, A)).1 k = true ∨
        (l.foldl (greedy_step g) (X, Y, A)).2.1 k = true) ↔
      ((X k = true ∨ Y k = true) ∨ k ∈ l)) ∧
    (∀ k, ¬ ((l.foldl (greedy_step g) (X, Y, A)).1 k = true ∧
      (l.foldl (greedy_step g) (X, Y, A)).2.1 k = true)) ∧
    (∀ k, X k = true → (l.foldl (greedy_step g) (X, Y, A)).1 k = true) ∧
    (∀ k, Y k = true → (l.foldl (greedy_step g) (X, Y, A)).2.1 k = true) := by
  intro l
  induction l with
  | nil =>
    intro X Y A _ hd
    refine ⟨fun k => ?_, hd, fun k h => h, fun k h => h⟩
    simp
  | cons z l ih =>
    intro X Y A hA hd
    rw [List.foldl_cons]
    by_cases ha : A z = true
    · have e : greedy_step g (X, Y, A) z = (X, Y, A) := by
        unfold greedy_step
        rw [if_pos ha]
      rw [e]
      obtain ⟨i1, i2, i3, i4⟩ := ih X Y A hA hd
      refine ⟨fun k => ?_, i2, i3, i4⟩
      rw [i1 k, List.mem_cons]
      constructor
      · rintro (h | h)
        · exact Or.inl h
        · exact Or.inr (Or.inr h)
      · rintro (h | h | h)
        · exact Or.inl h
        · rw [h]; exact Or.inl ((hA z).mp ha)
        · exact Or.inr h
    · have hz : ¬ (X z = true ∨ Y z = true) := fun h => ha ((hA z).mpr h)
      have hXz : X z = false := by
        cases h : X z
        · rfl
        · exact absurd (Or.inl h) hz
      have hYz : Y z = false := by
        cases h : Y z
        · rfl
        · exact absurd (Or.inr h) hz
      by_cases hw : (greedy_weights g X Y z).1 > (greedy_weights g X Y z).2
      · have e : greedy_step g (X, Y, A) z =
            (insert X z, Y, fun k => if k = z then true else A k) := by
          unfold greedy_step
          rw [if_neg ha]
          simp only []
          rw [if_pos hw]
        rw [e]
        obtain ⟨i1, i2, i3, i4⟩ := ih (insert X z) Y (fun k => if k = z then true else A k)
          (fun k => by
            rw [insert_apply]
            by_cases c : k = z
            · simp [c]
            · simp only [c, if_false]; exact hA k)
          (fun k => by
            rw [insert_apply]
            by_cases c : k = z
            · rw [c, hYz]; simp
            · simp only [c, if_false]; exact hd k)
        refine ⟨fun k => ?_, i2, fun k h => i3 k (by
          rw [insert_apply]; by_cases c : k = z
          · simp [c]
          · simp only [c, if_false]; exact h), i4⟩
        rw [i1 k, List.mem_cons, insert_apply]
        by_cases c : k = z
        · simp [c]
        · simp [c]
      · have e : greedy_step g (X, Y, A) z =
            (X, insert Y z, fun k => if k = z then true else A k) := by
          unfold greedy_step
          rw [if_neg ha]
          simp only []
          rw [if_neg hw]
        rw [e]
        obtain ⟨i1, i2, i3, i4⟩ := ih X (insert Y z) (fun k => if k = z then true else A k)
          (fun k => by
            rw [insert_apply]
            by_cases c : k = z
            · simp [c]
            · simp only [c, if_false]; exact hA k)
          (fun k => by
            rw [insert_apply]
            by_cases c : k = z
            · rw [c, hXz]; simp
            · simp only [c, if_false]; exact hd k)
        refine ⟨fun k => ?_, i2, i3, fun k h => i4 k (by
          rw [insert_apply]; by_cases c : k = z
          · simp [c]
          · simp only [c, if_false]; exact h)⟩
        rw [i1 k, List.mem_cons, insert_apply]
        by_cases c : k = z
        · simp [c]
        · simp [c]

/-- C38. Greedy Max-Cut returns a partition. For every graph with at least one edge, all edge
endpoints in `1 .. V` and whose first edge of greatest weight is not a self-loop, `greedyMaxCut`
returns sets `X` and `Y` that are disjoint and whose union is exactly `{1, ..., V}`, with the
endpoint `u` of that edge in `X` and its endpoint `v` in `Y`. The edge is the one
`getMaxWeightEdge` returns: every edge before it in edge order is lighter and no edge is
heavier. -/
theorem greedy_partition (g : Graph) (hne : g.edges ≠ [])
    (hend : ∀ e ∈ g.edges, 1 ≤ e.u ∧ e.u ≤ (g.V : Int) ∧ 1 ≤ e.v ∧ e.v ≤ (g.V : Int))
    (hloop : ∀ e, getMaxWeightEdge g = some e → e.u ≠ e.v) :
    ∃ (e : Edge) (X Y : IntSet), getMaxWeightEdge g = some e ∧
      (∃ l1 l2 : List Edge, g.edges = l1 ++ e :: l2 ∧ (∀ x ∈ l1, x.weight < e.weight) ∧
        (∀ x ∈ l2, x.weight ≤ e.weight)) ∧
      greedyMaxCut g = some (X, Y) ∧
      (∀ z, ¬ (X z = true ∧ Y z = true)) ∧
      (∀ z, (X z = true ∨ Y z = true) ↔ (1 ≤ z ∧ z ≤ (g.V : Int))) ∧
      X e.u = true ∧ Y e.v = true := by
  cases hes : g.edges with
  | nil => exact absurd hes hne
  | cons e0 es =>
    obtain ⟨l1, l2, hl, h1, h2⟩ := max_fold_spec es e0
    have hmax : getMaxWeightEdge g = some (es.foldl (fun largest x =>
        if largest.weight < x.weight then x else largest) e0) := by
      unfold getMaxWeightEdge
      rw [hes]
    generalize es.foldl (fun largest x => if largest.weight < x.weight then x else largest) e0
      = e at hl h1 h2 hmax
    have hmem : e ∈ g.edges := by rw [hes, hl]; simp
    obtain ⟨u1, u2, v1, v2⟩ := hend e hmem
    have huv := hloop e hmax
    have hA : ∀ k, (if k = e.v then true else if k = e.u then true else false) = true ↔
        (insert emptySet e.u k = true ∨ insert emptySet e.v k = true) := by
      intro k
      simp only [insert_apply, emptySet]
      by_cases c1 : k = e.v
      · simp [c1]
      · by_cases c2 : k = e.u
        · simp [c2]
        · simp [c1, c2]
    have hd : ∀ k, ¬ (insert emptySet e.u k = true ∧ insert emptySet e.v k = true) := by
      intro k
      simp only [insert_apply, emptySet]
      by_cases c1 : k = e.v
      · have c2 : ¬ (k = e.u) := fun h => huv (h.symm.trans c1)
        simp [c2]
      · simp [c1]
    obtain ⟨i1, i2, i3, i4⟩ := greedy_fold_spec g (vertices g) (insert emptySet e.u)
      (insert emptySet e.v) (fun k => if k = e.v then true else if k = e.u then true else false)
      hA hd
    refine ⟨e, _, _, hmax, ⟨l1, l2, hl, h1, h2⟩, ?_, i2, ?_, ?_, ?_⟩
    · unfold greedyMaxCut
      rw [hmax]
      simp only []
      rw [if_pos ⟨by omega, u2, by omega, v2⟩]
    · intro z
      rw [i1 z, mem_vertices]
      simp only [insert_apply, emptySet]
      constructor
      · rintro ((h | h) | h)
        · by_cases c : z = e.u
          · rw [c]; exact ⟨u1, u2⟩
          · simp [c] at h
        · by_cases c : z = e.v
          · rw [c]; exact ⟨v1, v2⟩
          · simp [c] at h
        · exact h
      · exact fun h => Or.inr h
    · exact i3 e.u (by simp [insert_apply])
    · exact i4 e.v (by simp [insert_apply])

/-- C38, instance: on `triangle` the heaviest edge is `1 - 2`; the greedy construction puts 1 in
`X` and 2 in `Y`. -/
theorem greedy_partition_witness :
    ∃ (e : Edge) (X Y : IntSet), getMaxWeightEdge triangle = some e ∧
      greedyMaxCut triangle = some (X, Y) ∧ X e.u = true ∧ Y e.v = true := by
  obtain ⟨e, X, Y, h1, _, h2, _, _, h3, h4⟩ := greedy_partition triangle (by decide) (by decide)
    (by decide)
  exact ⟨e, X, Y, h1, h2, h3, h4⟩

end MaxCut

/-! ## Max-Cut: local search -/

namespace MaxCut

/-- While the sum of the absolute weights is a value of an `int`, the `int` accumulator of
`computeCutWeight` never wraps: the cut weight is the sum of the weights of the cut edges. -/
theorem computeCutWeight_eq_sum (g : Graph) (X Y : IntSet) (htot : total_weight g ≤ INT_MAX) :
    computeCutWeight g X Y = (g.edges.map (cut_term X Y)).sum := by
  unfold computeCutWeight
  have key : ∀ (l : List Edge) (a b : Int), -b ≤ a → a ≤ b →
      b + (l.map (fun e => if 0 ≤ e.weight then e.weight else - e.weight)).sum ≤ INT_MAX →
      l.foldl (fun weight e =>
        if ((X e.u && Y e.v) || (X e.v && Y e.u)) = true then wrap_int (weight + e.weight)
        else weight) a =
        a + (l.map (cut_term X Y)).sum := by
    intro l
    induction l with
    | nil => intro a b _ _ _; simp
    | cons e l ih =>
      intro a b h1 h2 h3
      have n1 : 0 ≤ (l.map (fun e => if 0 ≤ e.weight then e.weight else - e.weight)).sum :=
        List.sum_nonneg (fun x hx => by
          obtain ⟨y, _, rfl⟩ := List.mem_map.1 hx
          split_ifs <;> omega)
      rw [List.map_cons, List.sum_cons] at h3
      have hw : -(b + (if 0 ≤ e.weight then e.weight else - e.weight)) ≤ a + e.weight ∧
          a + e.weight ≤ b + (if 0 ≤ e.weight then e.weight else - e.weight) := by
        split_ifs <;> constructor <;> omega
      have hb : 0 ≤ (if 0 ≤ e.weight then e.weight else - e.weight) := by
        split_ifs <;> omega
      have e1 : (if ((X e.u && Y e.v) || (X e.v && Y e.u)) = true
          then wrap_int (a + e.weight) else a) = a + cut_term X Y e := by
        unfold cut_term
        split_ifs
        · exact wrap_int_of_range (by unfold INT_MIN; unfold INT_MAX at h3; omega) (by omega)
        · omega
      have hc : -(b + (if 0 ≤ e.weight then e.weight else - e.weight)) ≤ a + cut_term X Y e ∧
          a + cut_term X Y e ≤ b + (if 0 ≤ e.weight then e.weight else - e.weight) := by
        unfold cut_term
        split_ifs at hw ⊢ <;> constructor <;> omega
      rw [List.foldl_cons, e1,
        ih _ (b + (if 0 ≤ e.weight then e.weight else - e.weight)) hc.1 hc.2 (by omega),
        List.map_cons, List.sum_cons]
      omega
  rw [key g.edges 0 0 (le_refl _) (le_refl _) (by
    have : total_weight g = (g.edges.map (fun e =>
      if 0 ≤ e.weight then e.weight else - e.weight)).sum := rfl
    omega)]
  omega

theorem local_sigmas_diff (g : Graph) (Y : IntSet) (v : Int) :
    (local_sigmas g Y v).2 - (local_sigmas g Y v).1 = (g.edges.map (gain_term Y v)).sum := by
  unfold local_sigmas
  have key : ∀ (l : List Edge) (acc : Int × Int),
      (l.foldl (fun (acc : Int × Int) e =>
        if e.u = v then
          (if Y e.v = true then (acc.1 + e.weight, acc.2) else (acc.1, acc.2 + e.weight))
        else if e.v = v then
          (if Y e.u = true then (acc.1 + e.weight, acc.2) else (acc.1, acc.2 + e.weight))
        else acc) acc).2 -
      (l.foldl (fun (acc : Int × Int) e =>
        if e.u = v then
          (if Y e.v = true then (acc.1 + e.weight, acc.2) else (acc.1, acc.2 + e.weight))
        else if e.v = v then
          (if Y e.u = true then (acc.1 + e.weight, acc.2) else (acc.1, acc.2 + e.weight))
        else acc) acc).1 = acc.2 - acc.1 + (l.map (gain_term Y v)).sum := by
    intro l
    induction l with
    | nil => intro acc; simp
    | cons e l ih =>
      intro acc
      rw [List.foldl_cons, ih, List.map_cons, List.sum_cons]
      unfold gain_term
      split_ifs <;> omega
  rw [key]
  simp

theorem splits_iff {g : Graph} {X Y : IntSet} (h : Splits g X Y) {k : Int} (h1 : 1 ≤ k)
    (h2 : k ≤ (g.V : Int)) : Y k = !(X k) := by
  have a := h.1 k
  have b := h.2 k h1 h2
  cases hx : X k <;> cases hy : Y k <;> simp_all

theorem flip_fst (X Y : IntSet) (v k : Int) :
    (flip X Y v).1 k = if k = v then !(X v) else X k := by
  unfold flip
  by_cases c : X v = true
  · rw [if_pos c]
    show erase X v k = _
    rw [erase_apply, c]; rfl
  · rw [if_neg c]
    show insert X v k = _
    rw [insert_apply]
    have : X v = false := by simpa using c
    rw [this]; rfl

theorem flip_snd {g : Graph} {X Y : IntSet} (h : Splits g X Y) {v : Int} (h1 : 1 ≤ v)
    (h2 : v ≤ (g.V : Int)) (k : Int) :
    (flip X Y v).2 k = if k = v then !(Y v) else Y k := by
  have hy := splits_iff h h1 h2
  unfold flip
  by_cases c : X v = true
  · rw [if_pos c]
    show insert Y v k = _
    rw [insert_apply, hy, c]; rfl
  · rw [if_neg c]
    show erase Y v k = _
    rw [erase_apply]
    have : X v = false := by simpa using c
    rw [hy, this]; rfl

theorem splits_flip {g : Graph} {X Y : IntSet} (h : Splits g X Y) {v : Int} (h1 : 1 ≤ v)
    (h2 : v ≤ (g.V : Int)) : Splits g (flip X Y v).1 (flip X Y v).2 := by
  have hy := splits_iff h h1 h2
  constructor
  · intro k
    rw [flip_fst, flip_snd h h1 h2]
    by_cases c : k = v
    · simp only [c, if_true, hy]
      cases X v <;> simp
    · simp only [c, if_false]
      exact h.1 k
  · intro k k1 k2
    rw [flip_fst, flip_snd h h1 h2]
    by_cases c : k = v
    · simp only [c, if_true, hy]
      cases X v <;> simp
    · simp only [c, if_false]
      exact h.2 k k1 k2

/-- The effect on one edge of moving `v` to the other side. -/
theorem cut_term_flip {g : Graph} {X Y : IntSet} (h : Splits g X Y) {v : Int} (h1 : 1 ≤ v)
    (h2 : v ≤ (g.V : Int)) (e : Edge) (hne : e.u ≠ e.v)
    (hu : 1 ≤ e.u ∧ e.u ≤ (g.V : Int)) (hv : 1 ≤ e.v ∧ e.v ≤ (g.V : Int)) :
    cut_term (flip X Y v).1 (flip X Y v).2 e =
      cut_term X Y e + (if X v = true then gain_term Y v e else - gain_term Y v e) := by
  have yv := splits_iff h h1 h2
  have yeu := splits_iff h hu.1 hu.2
  have yev := splits_iff h hv.1 hv.2
  unfold cut_term gain_term
  simp only [flip_fst, flip_snd h h1 h2, yeu, yev, yv]
  by_cases c1 : e.u = v
  · have c2 : ¬ (e.v = v) := fun c => hne (c1.trans c.symm)
    rw [← c1]
    simp only [c2, if_true, if_false, hne.symm]
    cases X e.u <;> cases X e.v <;> simp
  · by_cases c2 : e.v = v
    · rw [← c2]
      simp only [c1, if_true, if_false, hne]
      cases X e.u <;> cases X e.v <;> simp
    · simp only [c1, c2, if_false]
      cases X v <;> simp

theorem cut_flip {g : Graph} {X Y : IntSet} (h : Splits g X Y) {v : Int} (h1 : 1 ≤ v)
    (h2 : v ≤ (g.V : Int))
    (hwf : ∀ e ∈ g.edges, e.u ≠ e.v ∧ 1 ≤ e.u ∧ e.u ≤ (g.V : Int) ∧ 1 ≤ e.v ∧
      e.v ≤ (g.V : Int))
    (htot : total_weight g ≤ INT_MAX) :
    computeCutWeight g (flip X Y v).1 (flip X Y v).2 =
      computeCutWeight g X Y +
        (if X v = true then (local_sigmas g Y v).2 - (local_sigmas g Y v).1
          else (local_sigmas g Y v).1 - (local_sigmas g Y v).2) := by
  have hd := local_sigmas_diff g Y v
  rw [computeCutWeight_eq_sum g _ _ htot, computeCutWeight_eq_sum g _ _ htot]
  have key : ∀ l : List Edge, (∀ e ∈ l, e ∈ g.edges) →
      (l.map (cut_term (flip X Y v).1 (flip X Y v).2)).sum =
        (l.map (cut_term X Y)).sum +
          (if X v = true then (l.map (gain_term Y v)).sum else - (l.map (gain_term Y v)).sum) := by
    intro l
    induction l with
    | nil => intro _; simp
    | cons e l ih =>
      intro hl
      obtain ⟨a, b, c, d, f⟩ := hwf e (hl e (List.mem_cons_self _ _))
      rw [List.map_cons, List.sum_cons, List.map_cons, List.sum_cons, List.map_cons,
        List.sum_cons, ih (fun x hx => hl x (List.mem_cons_of_mem _ hx)),
        cut_term_flip h h1 h2 e a ⟨b, c⟩ ⟨d, f⟩]
      split_ifs <;> omega
  rw [key g.edges (fun e he => he), ← hd]
  split_ifs <;> omega

/-- The body of the loop over the vertices moves `v` exactly when the move increases the cut
weight. -/
theorem local_step_eq {g : Graph} {X Y : IntSet} (h : Splits g X Y) {v : Int} (h1 : 1 ≤ v)
    (h2 : v ≤ (g.V : Int))
    (hwf : ∀ e ∈ g.edges, e.u ≠ e.v ∧ 1 ≤ e.u ∧ e.u ≤ (g.V : Int) ∧ 1 ≤ e.v ∧
      e.v ≤ (g.V : Int))
    (htot : total_weight g ≤ INT_MAX) (improved : Bool) :
    local_step g (X, Y, improved) v =
      if computeCutWeight g (flip X Y v).1 (flip X Y v).2 > computeCutWeight g X Y then
        ((flip X Y v).1, (flip X Y v).2, true)
      else (X, Y, improved) := by
  have hc := cut_flip h h1 h2 hwf htot
  have yv := splits_iff h h1 h2
  unfold local_step
  simp only []
  cases hx : X v
  · have hy : Y v = true := by rw [yv, hx]; rfl
    rw [hx] at hc
    simp only [Bool.false_eq_true, if_false] at hc
    rw [if_neg (by rw [hy]; simp), if_neg (by simp)]
    by_cases c : (local_sigmas g Y v).1 - (local_sigmas g Y v).2 > 0
    · rw [if_pos ⟨hy, c⟩, if_pos (by omega)]
      unfold flip
      rw [if_neg (by rw [hx]; simp)]
    · rw [if_neg (fun k => c k.2), if_neg (by omega)]
  · rw [hx] at hc
    simp only [if_true] at hc
    have hy : Y v = false := by rw [yv, hx]; rfl
    rw [if_neg (by simp)]
    by_cases c : (local_sigmas g Y v).2 - (local_sigmas g Y v).1 > 0
    · rw [if_pos ⟨rfl, c⟩, if_pos (by omega)]
      unfold flip
      rw [if_pos hx]
    · rw [if_neg (fun k => c k.2), if_neg (by rw [hy]; simp), if_neg (by omega)]

theorem cut_term_le (X Y : IntSet) (e : Edge) :
    cut_term X Y e ≤ (if 0 ≤ e.weight then e.weight else - e.weight) := by
  unfold cut_term
  split_ifs <;> omega

theorem computeCutWeight_le_total (g : Graph) (X Y : IntSet) (htot : total_weight g ≤ INT_MAX) :
    computeCutWeight g X Y ≤ total_weight g := by
  rw [computeCutWeight_eq_sum g X Y htot]
  unfold total_weight
  generalize g.edges = l
  induction l with
  | nil => simp
  | cons e l ih =>
    rw [List.map_cons, List.sum_cons, List.map_cons, List.sum_cons]
    have := cut_term_le X Y e
    omega

/-- One pass of the loop over the vertices: the sets stay a partition, the cut weight does not
drop, and either a vertex was moved and the cut weight went up, or nothing changed and no vertex
of the list could be moved with gain. -/
theorem local_pass_spec (g : Graph)
    (hwf : ∀ e ∈ g.edges, e.u ≠ e.v ∧ 1 ≤ e.u ∧ e.u ≤ (g.V : Int) ∧ 1 ≤ e.v ∧
      e.v ≤ (g.V : Int))
    (htot : total_weight g ≤ INT_MAX) :
    ∀ (l : List Int), (∀ v ∈ l, 1 ≤ v ∧ v ≤ (g.V : Int)) →
    ∀ (X Y : IntSet) (improved : Bool), Splits g X Y →
      Splits g (l.foldl (local_step g) (X, Y, improved)).1
          (l.foldl (local_step g) (X, Y, improved)).2.1 ∧
        computeCutWeight g X Y ≤
          computeCutWeight g (l.foldl (local_step g) (X, Y, improved)).1
            (l.foldl (local_step g) (X, Y, improved)).2.1 ∧
        (((l.foldl (local_step g) (X, Y, improved)).2.2 = true ∧
            (improved = true ∨ computeCutWeight g X Y <
              computeCutWeight g (l.foldl (local_step g) (X, Y, improved)).1
                (l.foldl (local_step g) (X, Y, improved)).2.1)) ∨
          (l.foldl (local_step g) (X, Y, improved) = (X, Y, improved) ∧
            ∀ v ∈ l, computeCutWeight g (flip X Y v).1 (flip X Y v).2 ≤
              computeCutWeight g X Y)) := by
  intro l
  induction l with
  | nil =>
    intro _ X Y improved hs
    refine ⟨hs, le_refl _, Or.inr ⟨rfl, fun v hv => absurd hv (List.not_mem_nil v)⟩⟩
  | cons v l ih =>
    intro hl X Y improved hs
    obtain ⟨v1, v2⟩ := hl v (List.mem_cons_self _ _)
    have hl2 : ∀ x ∈ l, 1 ≤ x ∧ x ≤ (g.V : Int) := fun x hx => hl x (List.mem_cons_of_mem _ hx)
    rw [List.foldl_cons, local_step_eq hs v1 v2 hwf htot]
    by_cases c : computeCutWeight g (flip X Y v).1 (flip X Y v).2 > computeCutWeight g X Y
    · rw [if_pos c]
      obtain ⟨i1, i2, i3⟩ := ih hl2 (flip X Y v).1 (flip X Y v).2 true (splits_flip hs v1 v2)
      refine ⟨i1, by omega, Or.inl ⟨?_, Or.inr (by omega)⟩⟩
      rcases i3 with h | h
      · exact h.1
      · rw [h.1]
    · rw [if_neg c]
      obtain ⟨i1, i2, i3⟩ := ih hl2 X Y improved hs
      refine ⟨i1, i2, ?_⟩
      rcases i3 with h | h
      · exact Or.inl h
      · refine Or.inr ⟨h.1, fun x hx => ?_⟩
        rcases List.mem_cons.1 hx with e | e
        · rw [e]; omega
        · exact h.2 x e

theorem local_loop_succ (g : Graph) (fuel : Nat) (X Y : IntSet) (iterations : Int) :
    local_loop g (fuel + 1) (X, Y, true, iterations) =
      local_loop g fuel
        (((vertices g).foldl (local_step g) (X, Y, false)).1,
          ((vertices g).foldl (local_step g) (X, Y, false)).2.1,
          ((vertices g).foldl (local_step g) (X, Y, false)).2.2, iterations + 1) := by
  rw [local_loop]
  simp

theorem local_loop_false (g : Graph) (fuel : Nat) (X Y : IntSet) (iterations : Int) :
    local_loop g fuel (X, Y, false, iterations) = some ((X, Y), iterations) := by
  cases fuel <;> simp [local_loop]

theorem local_loop_fuel_mono (g : Graph) : ∀ (fuel : Nat) (X Y : IntSet) (improved : Bool)
    (iterations : Int) (r : (IntSet × IntSet) × Int),
    local_loop g fuel (X, Y, improved, iterations) = some r →
    ∀ fuel2, fuel ≤ fuel2 → local_loop g fuel2 (X, Y, improved, iterations) = some r := by
  intro fuel
  induction fuel with
  | zero =>
    intro X Y improved iterations r h fuel2 _
    cases improved with
    | false => rw [local_loop_false] at h ⊢; exact h
    | true => simp [local_loop] at h
  | succ n ih =>
    intro X Y improved iterations r h fuel2 hle
    cases improved with
    | false => rw [local_loop_false] at h ⊢; exact h
    | true =>
      obtain ⟨k, rfl⟩ : ∃ k, fuel2 = k + 1 := ⟨fuel2 - 1, by omega⟩
      rw [local_loop_succ] at h ⊢
      exact ih _ _ _ _ r h k (by omega)

/-- The loop `while (improved)` ends: the cut weight goes up in every pass but the last and is
bounded by the total weight. -/
theorem local_loop_terminates (g : Graph)
    (hwf : ∀ e ∈ g.edges, e.u ≠ e.v ∧ 1 ≤ e.u ∧ e.u ≤ (g.V : Int) ∧ 1 ≤ e.v ∧
      e.v ≤ (g.V : Int))
    (htot : total_weight g ≤ INT_MAX) :
    ∀ (n : Nat) (X Y : IntSet) (iterations : Int), Splits g X Y →
      total_weight g - computeCutWeight g X Y ≤ (n : Int) →
      ∃ (F : Nat) (Xf Yf : IntSet) (it : Int),
        local_loop g F (X, Y, true, iterations) = some ((Xf, Yf), it) ∧ Splits g Xf Yf ∧
          computeCutWeight g X Y ≤ computeCutWeight g Xf Yf ∧
          ∀ v, 1 ≤ v → v ≤ (g.V : Int) →
            computeCutWeight g (flip Xf Yf v).1 (flip Xf Yf v).2 ≤ computeCutWeight g Xf Yf := by
  intro n
  induction n with
  | zero =>
    intro X Y iterations hs hn
    obtain ⟨i1, i2, i3⟩ := local_pass_spec g hwf htot (vertices g)
      (fun v hv => mem_vertices.1 hv) X Y false hs
    have hb := computeCutWeight_le_total g
      ((vertices g).foldl (local_step g) (X, Y, false)).1
      ((vertices g).foldl (local_step g) (X, Y, false)).2.1 htot
    rcases i3 with h | h
    · rcases h.2 with h2 | h2
      · exact absurd h2 (by decide)
      · exfalso
        have : ((0 : Nat) : Int) = 0 := rfl
        omega
    · refine ⟨1, X, Y, iterations + 1, ?_, hs, le_refl _, fun v v1 v2 =>
        h.2 v (mem_vertices.2 ⟨v1, v2⟩)⟩
      rw [local_loop_succ, h.1]
      exact local_loop_false g 0 X Y (iterations + 1)
  | succ n ih =>
    intro X Y iterations hs hn
    obtain ⟨i1, i2, i3⟩ := local_pass_spec g hwf htot (vertices g)
      (fun v hv => mem_vertices.1 hv) X Y false hs
    rcases i3 with h | h
    · rcases h.2 with h2 | h2
      · exact absurd h2 (by decide)
      · obtain ⟨F, Xf, Yf, it, e, j1, j2, j3⟩ := ih
          ((vertices g).foldl (local_step g) (X, Y, false)).1
          ((vertices g).foldl (local_step g) (X, Y, false)).2.1 (iterations + 1) i1 (by
            push_cast at hn
            omega)
        refine ⟨F + 1, Xf, Yf, it, ?_, j1, by omega, j3⟩
        rw [local_loop_succ, h.1]
        exact e
    · refine ⟨1, X, Y, iterations + 1, ?_, hs, le_refl _, fun v v1 v2 =>
        h.2 v (mem_vertices.2 ⟨v1, v2⟩)⟩
      rw [local_loop_succ, h.1]
      exact local_loop_false g 0 X Y (iterations + 1)


/-- C37. Max-Cut local search never worsens the cut: for every graph on the vertices `1..V`
(every edge joins two of them) without self-loops, whose absolute weights add up to a value of an
`int`, and whose vertices are all split between the disjoint sets `X` and `Y`, the body of the
vertex loop of `localSearchMaxCut` either leaves the state alone or moves the vertex to the other
side with a strictly larger `computeCutWeight`; with enough fuel the loop ends, the returned
sets again split the vertices, their cut weight is at least that of the input, and moving any
single vertex to the other side does not increase it. -/
theorem local_search_spec (g : Graph) (X Y : IntSet)
    (hwf : ∀ e ∈ g.edges, e.u ≠ e.v ∧ 1 ≤ e.u ∧ e.u ≤ (g.V : Int) ∧ 1 ≤ e.v ∧
      e.v ≤ (g.V : Int))
    (htot : total_weight g ≤ INT_MAX)
    (hs : Splits g X Y) :
    (∀ (X1 Y1 : IntSet) (improved : Bool) (v : Int), Splits g X1 Y1 → 1 ≤ v → v ≤ (g.V : Int) →
      local_step g (X1, Y1, improved) v = (X1, Y1, improved) ∨
        (local_step g (X1, Y1, improved) v = ((flip X1 Y1 v).1, (flip X1 Y1 v).2, true) ∧
          computeCutWeight g X1 Y1 < computeCutWeight g (flip X1 Y1 v).1 (flip X1 Y1 v).2)) ∧
      ∃ (F : Nat) (Xf Yf : IntSet) (it : Int),
        (∀ fuel, F ≤ fuel → localSearchMaxCut fuel g X Y = some ((Xf, Yf), it)) ∧
          Splits g Xf Yf ∧
          computeCutWeight g X Y ≤ computeCutWeight g Xf Yf ∧
          ∀ v, 1 ≤ v → v ≤ (g.V : Int) →
            computeCutWeight g (flip Xf Yf v).1 (flip Xf Yf v).2 ≤ computeCutWeight g Xf Yf := by
  constructor
  · intro X1 Y1 improved v h v1 v2
    rw [local_step_eq h v1 v2 hwf htot]
    by_cases c : computeCutWeight g (flip X1 Y1 v).1 (flip X1 Y1 v).2 > computeCutWeight g X1 Y1
    · rw [if_pos c]
      exact Or.inr ⟨rfl, c⟩
    · rw [if_neg c]
      exact Or.inl rfl
  · obtain ⟨F, Xf, Yf, it, e, j1, j2, j3⟩ := local_loop_terminates g hwf htot
      (total_weight g - computeCutWeight g X Y).toNat X Y 0 hs (Int.self_le_toNat _)
    exact ⟨F, Xf, Yf, it, fun fuel hf => local_loop_fuel_mono g F X Y true 0 _ e fuel hf,
      j1, j2, j3⟩

/-- C37, instance: on `triangle`, started with every vertex in `X`, the search ends in a
partition whose cut weight is at least the initial 0. -/
theorem local_search_spec_witness :
    ∃ (F : Nat) (Xf Yf : IntSet) (it : Int),
      (∀ fuel, F ≤ fuel →
        localSearchMaxCut fuel triangle (ofList [1, 2, 3]) emptySet = some ((Xf, Yf), it)) ∧
        computeCutWeight triangle (ofList [1, 2, 3]) emptySet ≤
          computeCutWeight triangle Xf Yf := by
  obtain ⟨_, F, Xf, Yf, it, h1, _, h2, _⟩ := local_search_spec triangle (ofList [1, 2, 3])
    emptySet (by decide) (by decide)
    ⟨fun k h => absurd h.2 (by simp [emptySet]), fun k k1 k2 => by
      have : ((triangle.V : Nat) : Int) = 3 := rfl
      have hk : k = 1 ∨ k = 2 ∨ k = 3 := by omega
      rcases hk with e | e | e <;> rw [e] <;> exact Or.inl (by decide!)⟩
  exact ⟨F, Xf, Yf, it, h1, h2⟩

end MaxCut

/-! ## The wire format: what `write_game_state` writes, `read_game_state` reads back -/

namespace ChainReaction

theorem isdigit_digitChar (d : Nat) (h : d < 10) :
    isdigit (Nat.digitChar d) = true ∧ (((Nat.digitChar d).toNat : Int) - 48 = (d : Int)) := by
  interval_cases d <;> exact ⟨by decide, by decide⟩

theorem digits_value_append (l : List Char) (c : Char) :
    digits_value (l ++ [c]) = 10 * digits_value l + ((c.toNat : Int) - 48) := by
  unfold digits_value
  rw [List.foldl_append]
  rfl

/-- The digits that `Nat.toDigitsCore` puts in front of `ds` are decimal digits with value
`n`. -/
theorem toDigitsCore_spec : ∀ (fuel n : Nat) (ds : List Char), n < fuel →
    ∃ l, Nat.toDigitsCore 10 fuel n ds = l ++ ds ∧ l ≠ [] ∧ (∀ c ∈ l, isdigit c = true) ∧
      digits_value l = (n : Int) := by
  intro fuel
  induction fuel with
  | zero => intro n ds h; exact absurd h (Nat.not_lt_zero n)
  | succ fuel ih =>
    intro n ds h
    obtain ⟨d1, d2⟩ := isdigit_digitChar (n % 10) (Nat.mod_lt n (by decide))
    by_cases hz : n / 10 = 0
    · refine ⟨[Nat.digitChar (n % 10)], ?_, by simp, ?_, ?_⟩
      · simp [Nat.toDigitsCore, hz]
      · intro c hc
        rw [List.mem_singleton.1 hc]; exact d1
      · have e := digits_value_append [] (Nat.digitChar (n % 10))
        rw [List.nil_append] at e
        rw [e, d2]
        have : digits_value [] = 0 := rfl
        rw [this]
        omega
    · obtain ⟨l, e, _, l2, l3⟩ := ih (n / 10) (Nat.digitChar (n % 10) :: ds) (by omega)
      refine ⟨l ++ [Nat.digitChar (n % 10)], ?_, by simp, ?_, ?_⟩
      · simp [Nat.toDigitsCore, hz, e]
      · intro c hc
        rcases List.mem_append.1 hc with k | k
        · exact l2 c k
        · rw [List.mem_singleton.1 k]; exact d1
      · rw [digits_value_append, l3, d2]
        omega

/-- What `operator<<` writes for a value that is not negative: decimal digits with that value. -/
theorem print_int_spec (v : Nat) :
    print_int (v : Int) ≠ [] ∧ (∀ c ∈ print_int (v : Int), isdigit c = true) ∧
      digits_value (print_int (v : Int)) = (v : Int) := by
  obtain ⟨l, e, l1, l2, l3⟩ := toDigitsCore_spec (v + 1) v [] (Nat.lt_succ_self v)
  have hp : print_int (v : Int) = l := by
    unfold print_int
    rw [if_neg (by omega)]
    show Nat.toDigitsCore 10 (v + 1) v [] = l
    rw [e, List.append_nil]
  rw [hp]
  exact ⟨l1, l2, l3⟩

theorem isdigit_not_isspace {c : Char} (h : isdigit c = true) : isspace c = false := by
  cases hs : isspace c with
  | false => rfl
  | true =>
    exfalso
    unfold isspace at hs
    simp only [decide_eq_true_eq] at hs
    rcases hs with k | k | k | k | k | k <;> rw [k] at h <;> exact absurd h (by decide)

theorem isdigit_ne {c d : Char} (h : isdigit c = true) (hd : isdigit d = false) : c ≠ d := by
  intro e
  rw [e, hd] at h
  exact absurd h (by decide)

/-- Reading back a decimal number that is followed by something other than a digit. -/
theorem scan_int_print (v : Nat) (hv : (v : Int) ≤ INT_MAX) (rest : List Char)
    (hrest : ∀ c, rest.head? = some c → isdigit c = false) :
    scan_int (print_int (v : Int) ++ rest) = some ((v : Int), rest) := by
  obtain ⟨p1, p2, p3⟩ := print_int_spec v
  generalize print_int (v : Int) = l at p1 p2 p3
  obtain ⟨c0, l0, rfl⟩ : ∃ c0 l0, l = c0 :: l0 := by
    cases l with
    | nil => exact absurd rfl p1
    | cons a b => exact ⟨a, b, rfl⟩
  have hc0 : isdigit c0 = true := p2 c0 (List.mem_cons_self _ _)
  have h1 : List.dropWhile isspace (c0 :: l0 ++ rest) = c0 :: l0 ++ rest := by
    rw [List.cons_append, List.dropWhile_cons_of_neg]
    rw [isdigit_not_isspace hc0]
    decide
  have h2 : (c0 :: l0 ++ rest).head? = some c0 := rfl
  have h3 : ¬ (some c0 = some '-' ∨ some c0 = some '+') := by
    intro k
    rcases k with k | k
    · exact isdigit_ne hc0 (by decide) (Option.some.inj k)
    · exact isdigit_ne hc0 (by decide) (Option.some.inj k)
  have h3b : ¬ (some c0 = some '-') := fun k => h3 (Or.inl k)
  have hr : List.takeWhile isdigit rest = [] ∧ List.dropWhile isdigit rest = rest := by
    cases rest with
    | nil => exact ⟨rfl, rfl⟩
    | cons a b =>
      have := hrest a rfl
      exact ⟨List.takeWhile_cons_of_neg (by rw [this]; decide),
        List.dropWhile_cons_of_neg (by rw [this]; decide)⟩
  have h4 : List.takeWhile isdigit (c0 :: l0 ++ rest) = c0 :: l0 := by
    rw [List.takeWhile_append_of_pos p2, hr.1, List.append_nil]
  have h5 : List.dropWhile isdigit (c0 :: l0 ++ rest) = rest := by
    rw [List.dropWhile_append_of_pos p2, hr.2]
  unfold scan_int
  simp only [h1, h2]
  rw [if_neg h3]
  simp only [h4, h5]
  rw [if_neg (List.cons_ne_nil _ _), if_neg h3b, p3, if_pos]
  constructor
  · unfold INT_MIN; omega
  · exact hv

theorem scan_int_space (cs : List Char) : scan_int (' ' :: cs) = scan_int cs := by
  unfold scan_int
  rw [List.dropWhile_cons_of_pos (by decide)]

/-- One `std::getline`: a line without a newline in it, ended by a newline. -/
theorem getlines_line : ∀ (l rest cur : List Char), (∀ c ∈ l, c ≠ '\n') →
    getlines (l ++ '\n' :: rest) cur = (cur.reverse ++ l) :: getlines rest [] := by
  intro l
  induction l with
  | nil =>
    intro rest cur _
    simp [getlines]
  | cons c l ih =>
    intro rest cur h
    rw [List.cons_append, getlines, if_neg (h c (List.mem_cons_self _ _)),
      ih rest (c :: cur) (fun x hx => h x (List.mem_cons_of_mem _ hx))]
    simp

/-- One `iss >> cell`: a word without white space in it, ended by a space. -/
theorem words_token : ∀ (tok rest cur : List Char), (∀ c ∈ tok, isspace c = false) →
    cur.reverse ++ tok ≠ [] →
    words (tok ++ ' ' :: rest) cur = (cur.reverse ++ tok) :: words rest [] := by
  intro tok
  induction tok with
  | nil =>
    intro rest cur _ hne
    have hc : cur ≠ [] := by
      intro k
      rw [k] at hne
      exact hne rfl
    rw [List.nil_append, words, if_pos (by decide), if_neg hc, List.append_nil]
  | cons c tok ih =>
    intro rest cur h hne
    have hc := h c (List.mem_cons_self _ _)
    rw [List.cons_append, words, if_neg (by rw [hc]; decide),
      ih rest (c :: cur) (fun x hx => h x (List.mem_cons_of_mem _ hx)) (by simp)]
    simp

/-- The last `iss >> cell`: a word without white space in it at the end of the line. -/
theorem words_last : ∀ (tok cur : List Char), (∀ c ∈ tok, isspace c = false) →
    cur.reverse ++ tok ≠ [] → words tok cur = [cur.reverse ++ tok] := by
  intro tok
  induction tok with
  | nil =>
    intro cur _ hne
    have hc : cur ≠ [] := by
      intro k
      rw [k] at hne
      exact hne rfl
    rw [words, if_neg hc, List.append_nil]
  | cons c tok ih =>
    intro cur h hne
    have hc := h c (List.mem_cons_self _ _)
    rw [words, if_neg (by rw [hc]; decide),
      ih (c :: cur) (fun x hx => h x (List.mem_cons_of_mem _ hx)) (by simp)]
    simp

theorem isdigit_ne_newline {c : Char} (h : isdigit c = true) : c ≠ '\n' :=
  isdigit_ne h (by decide)

/-- The token written for a cell has no white space in it and is read back as the cell. -/
theorem write_cell_spec (c : Cell) (h0 : 0 ≤ c.orbs) (h1 : c.orbs = 0 ↔ c.color = NUL)
    (h2 : c.color = NUL ∨ c.color = 'R' ∨ c.color = 'B') (h3 : c.orbs ≤ INT_MAX) :
    write_cell c ≠ [] ∧ (∀ x ∈ write_cell c, isspace x = false) ∧
      (∀ x ∈ write_cell c, x ≠ '\n') ∧ parse_cell (write_cell c) = some c := by
  obtain ⟨orbs, color⟩ := c
  simp only [] at h0 h1 h2 h3
  unfold write_cell
  by_cases hz : orbs = 0
  · have hc : color = NUL := h1.1 hz
    subst hz
    subst hc
    simp only [if_true]
    refine ⟨by decide, by decide, by decide, by decide⟩
  · simp only [hz, if_false]
    obtain ⟨k, rfl⟩ : ∃ k : Nat, orbs = (k : Int) := ⟨orbs.toNat, by omega⟩
    obtain ⟨p1, p2, p3⟩ := print_int_spec k
    have hcol : color = 'R' ∨ color = 'B' := by
      rcases h2 with e | e
      · exact absurd (h1.2 e) hz
      · exact e
    have hsp : isspace color = false := by
      rcases hcol with e | e <;> rw [e] <;> decide
    have hnl : color ≠ '\n' := by
      rcases hcol with e | e <;> rw [e] <;> decide
    have hlen : 2 ≤ (print_int (k : Int) ++ [color]).length := by
      rw [List.length_append]
      have : 0 < (print_int (k : Int)).length := List.length_pos.2 p1
      simp only [List.length_singleton]
      omega
    refine ⟨by simp, ?_, ?_, ?_⟩
    · intro x hx
      rcases List.mem_append.1 hx with e | e
      · exact isdigit_not_isspace (p2 x e)
      · rw [List.mem_singleton.1 e]; exact hsp
    · intro x hx
      rcases List.mem_append.1 hx with e | e
      · exact isdigit_ne_newline (p2 x e)
      · rw [List.mem_singleton.1 e]; exact hnl
    · unfold parse_cell
      have hne : print_int (k : Int) ++ [color] ≠ "0".data := by
        intro e
        have := congrArg List.length e
        have l1 : ("0".data).length = 1 := rfl
        omega
      have hl : (print_int (k : Int) ++ [color]).getLast? = some color := by simp
      have hd : (print_int (k : Int) ++ [color]).dropLast = print_int (k : Int) := by simp
      have hs : stoi (print_int (k : Int)) = some (k : Int) := by
        unfold stoi
        have := scan_int_print k h3 [] (fun c hc => by simp at hc)
        rw [List.append_nil] at this
        rw [this]
        rfl
      rw [if_neg hne, hl, hd, hs, if_neg]
      · simp only []
        rw [if_neg (by omega)]
        rfl
      · intro e
        rcases e with e | e
        · omega
        · rcases hcol with c | c
          · exact e.1 (by rw [c])
          · exact e.2 (by rw [c])

theorem flatMap_congr_mem {α β : Type} (l : List α) (f g : α → List β)
    (h : ∀ a ∈ l, f a = g a) : l.flatMap f = l.flatMap g := by
  induction l with
  | nil => rfl
  | cons a l ih =>
    rw [List.flatMap_cons, List.flatMap_cons, h a (List.mem_cons_self _ _),
      ih (fun x hx => h x (List.mem_cons_of_mem _ hx))]

/-- The words of a run of tokens that are each followed by a space. -/
theorem words_tokens {α : Type} (tok : α → List Char) (last : List Char) : ∀ (l : List α),
    (∀ a ∈ l, tok a ≠ [] ∧ ∀ x ∈ tok a, isspace x = false) →
    words (l.flatMap (fun a => tok a ++ [' ']) ++ last) [] = l.map tok ++ words last [] := by
  intro l
  induction l with
  | nil => intro _; rfl
  | cons a l ih =>
    intro h
    obtain ⟨a1, a2⟩ := h a (List.mem_cons_self _ _)
    rw [List.flatMap_cons, List.append_assoc, List.append_assoc, List.singleton_append,
      words_token (tok a) _ [] a2 (by simpa using a1),
      ih (fun x hx => h x (List.mem_cons_of_mem _ hx))]
    rfl

/-- The text of row `i` without the newline that ends it: a line of `n` cell tokens. -/
theorem write_cells_spec (s : ChainReaction) (i : Nat) (hi : i < s.m) (hn : 1 ≤ s.n)
    (hinv : s.CellInv) (hmax : ∀ i < s.m, ∀ j < s.n, (s.board i j).orbs ≤ INT_MAX) :
    (∀ x ∈ write_cells s i, x ≠ '\n') ∧ write_cells s i ≠ [] ∧
      words (write_cells s i) [] = (List.range s.n).map (fun j => write_cell (s.board i j)) := by
  have hc : ∀ j < s.n, write_cell (s.board i j) ≠ [] ∧
      (∀ x ∈ write_cell (s.board i j), isspace x = false) ∧
      (∀ x ∈ write_cell (s.board i j), x ≠ '\n') ∧
      parse_cell (write_cell (s.board i j)) = some (s.board i j) := fun j hj =>
    write_cell_spec _ (hinv i hi j hj).1 (hinv i hi j hj).2.1 (hinv i hi j hj).2.2 (hmax i hi j hj)
  unfold write_cells
  refine ⟨?_, ?_, ?_⟩
  · intro x hx
    obtain ⟨j, hj, hx2⟩ := List.mem_flatMap.1 hx
    rcases List.mem_append.1 hx2 with e | e
    · exact (hc j (List.mem_range.1 hj)).2.2.1 x e
    · split at e
      · have : x = ' ' := by simpa using e
        rw [this]; decide
      · exact absurd e (List.not_mem_nil x)
  · obtain ⟨k, hk⟩ : ∃ k, s.n = k + 1 := ⟨s.n - 1, by omega⟩
    rw [hk, List.range_succ, List.flatMap_append]
    intro e
    have e2 := (List.append_eq_nil.1 e).2
    rw [List.flatMap_cons, List.flatMap_nil, List.append_nil] at e2
    exact (hc k (by omega)).1 (List.append_eq_nil.1 e2).1
  · obtain ⟨k, hk⟩ : ∃ k, s.n = k + 1 := ⟨s.n - 1, by omega⟩
    have e1 : (List.range k).flatMap (fun j =>
        write_cell (s.board i j) ++ (if (j : Int) < (s.n : Int) - 1 then " ".data else [])) =
        (List.range k).flatMap (fun j => write_cell (s.board i j) ++ [' ']) :=
      flatMap_congr_mem _ _ _ (fun j hj => by
        have := List.mem_range.1 hj
        rw [if_pos (by omega)])
    have e2 : (if ((k : Nat) : Int) < (s.n : Int) - 1 then " ".data else []) = [] :=
      if_neg (by omega)
    rw [show List.range s.n = List.range (k + 1) by rw [hk]]
    rw [List.range_succ, List.flatMap_append, e1, List.flatMap_cons, List.flatMap_nil, e2,
      List.append_nil, List.append_nil,
      words_tokens (fun j => write_cell (s.board i j)) _ (List.range k) (fun j hj =>
        ⟨(hc j (by have := List.mem_range.1 hj; omega)).1,
          (hc j (by have := List.mem_range.1 hj; omega)).2.1⟩),
      words_last _ [] (hc k (by omega)).2.1 (by simpa using (hc k (by omega)).1),
      List.map_append]
    rfl

/-- The loop over the tokens of a row whose tokens are all accepted: the cells of the row from
column `j0` on are stored, nothing else changes. -/
theorem read_cells_spec (i n : Nat) (f : Nat → Cell) (tok : Nat → List Char)
    (h : ∀ j < n, parse_cell (tok j) = some (f j)) :
    ∀ (k j0 : Nat) (b : Nat → Nat → Cell), j0 + k ≤ n →
      read_cells i ((List.range' j0 k).map tok) j0 b =
        (true, fun x y => if x = i ∧ j0 ≤ y ∧ y < j0 + k then f y else b x y) := by
  intro k
  induction k with
  | zero =>
    intro j0 b _
    show (true, b) = _
    congr 1
    funext x y
    rw [if_neg (by omega)]
  | succ k ih =>
    intro j0 b hk
    rw [List.range'_succ, List.map_cons, read_cells, h j0 (by omega)]
    simp only []
    rw [ih (j0 + 1) _ (by omega)]
    congr 1
    funext x y
    unfold setCell
    by_cases c1 : x = i ∧ j0 + 1 ≤ y ∧ y < j0 + 1 + k
    · rw [if_pos c1, if_pos ⟨c1.1, by omega, by omega⟩]
    · rw [if_neg c1]
      by_cases c2 : x = i ∧ y = j0
      · rw [if_pos c2, if_pos ⟨c2.1, by omega, by omega⟩, c2.2]
      · rw [if_neg c2, if_neg]
        intro c3
        by_cases c4 : y = j0
        · exact c2 ⟨c3.1, c4⟩
        · exact c1 ⟨c3.1, by omega, by omega⟩

/-- The loop over the board lines when every line has `n` tokens that are all accepted: the
cells of the rows from `i0` on are stored, nothing else changes. -/
theorem read_rows_spec (m n : Nat) (f : Nat → Nat → Cell) (line : Nat → List Char)
    (tok : Nat → Nat → List Char)
    (h : ∀ i < m, words (line i) [] = (List.range n).map (tok i) ∧
      ∀ j < n, parse_cell (tok i j) = some (f i j)) :
    ∀ (k i0 : Nat) (b : Nat → Nat → Cell), i0 + k ≤ m →
      read_rows n ((List.range' i0 k).map line) i0 b =
        (true, fun x y => if (i0 ≤ x ∧ x < i0 + k) ∧ y < n then f x y else b x y) := by
  intro k
  induction k with
  | zero =>
    intro i0 b _
    show (true, b) = _
    congr 1
    funext x y
    rw [if_neg (by omega)]
  | succ k ih =>
    intro i0 b hk
    obtain ⟨h1, h2⟩ := h i0 (by omega)
    rw [List.range'_succ, List.map_cons, read_rows, h1, if_neg (by simp), List.range_eq_range',
      read_cells_spec i0 n (f i0) (tok i0) h2 n 0 b (by omega)]
    simp only []
    rw [ih (i0 + 1) _ (by omega)]
    congr 1
    funext x y
    by_cases c1 : (i0 + 1 ≤ x ∧ x < i0 + 1 + k) ∧ y < n
    · rw [if_pos c1, if_pos ⟨⟨by omega, by omega⟩, c1.2⟩]
    · rw [if_neg c1]
      by_cases c2 : x = i0 ∧ 0 ≤ y ∧ y < 0 + n
      · rw [if_pos c2, if_pos ⟨⟨by omega, by omega⟩, by omega⟩, c2.1]
      · rw [if_neg c2, if_neg]
        intro c3
        by_cases c4 : x = i0
        · exact c2 ⟨c4, by omega, by omega⟩
        · exact c1 ⟨⟨by omega, by omega⟩, c3.2⟩

/-- The lines that `std::getline` delivers for a run of lines that each end in a newline. -/
theorem getlines_rows {α : Type} (body : α → List Char) : ∀ (l : List α),
    (∀ a ∈ l, ∀ x ∈ body a, x ≠ '\n') →
    getlines (l.flatMap (fun a => body a ++ ['\n'])) [] = l.map body := by
  intro l
  induction l with
  | nil => intro _; rfl
  | cons a l ih =>
    intro h
    rw [List.flatMap_cons, List.append_assoc, List.singleton_append,
      getlines_line (body a) _ [] (h a (List.mem_cons_self _ _)),
      ih (fun x hx => h x (List.mem_cons_of_mem _ hx))]
    rfl

/-- The first line that `write_game_state` writes is read back as the two dimensions. -/
theorem read_size_line (m n : Nat) (hm2 : (m : Int) ≤ INT_MAX)
    (hn2 : (n : Int) ≤ INT_MAX) :
    (∀ x ∈ "Board Size: ".data ++ print_int (m : Int) ++ " ".data ++ print_int (n : Int),
      x ≠ '\n') ∧
    ("Board Size:".data.isPrefixOf
      ("Board Size: ".data ++ print_int (m : Int) ++ " ".data ++ print_int (n : Int))) = true ∧
    scan_int (("Board Size: ".data ++ print_int (m : Int) ++ " ".data ++
      print_int (n : Int)).drop 11) = some ((m : Int), ' ' :: print_int (n : Int)) ∧
    scan_int (' ' :: print_int (n : Int)) = some ((n : Int), []) := by
  obtain ⟨_, pm, _⟩ := print_int_spec m
  obtain ⟨_, pn, _⟩ := print_int_spec n
  have e : "Board Size: ".data ++ print_int (m : Int) ++ " ".data ++ print_int (n : Int) =
      'B' :: 'o' :: 'a' :: 'r' :: 'd' :: ' ' :: 'S' :: 'i' :: 'z' :: 'e' :: ':' :: ' ' ::
        (print_int (m : Int) ++ ' ' :: print_int (n : Int)) := by
    rw [List.append_assoc, List.append_assoc]
    rfl
  have hlit : ∀ x ∈ "Board Size: ".data, x ≠ '\n' := by decide
  refine ⟨?_, ?_, ?_, ?_⟩
  · intro x hx
    rcases List.mem_append.1 hx with k | k
    · rcases List.mem_append.1 k with k | k
      · rcases List.mem_append.1 k with k | k
        · exact hlit x k
        · exact isdigit_ne_newline (pm x k)
      · have : x = ' ' := by simpa using k
        rw [this]; decide
    · exact isdigit_ne_newline (pn x k)
  · rw [e]
    rfl
  · rw [e]
    show scan_int (' ' :: (print_int (m : Int) ++ ' ' :: print_int (n : Int))) = _
    rw [scan_int_space, scan_int_print m hm2 _ (fun c hc => by
      have : c = ' ' := by simpa using hc.symm
      rw [this]; decide)]
  · rw [scan_int_space]
    have := scan_int_print n hn2 [] (fun c hc => by simp at hc)
    rw [List.append_nil] at this
    exact this


/-- The lines of the file that `write_game_state` writes. -/
theorem getlines_write_game_state (s : ChainReaction) (header next_move : String)
    (hn : 1 ≤ s.n) (hinv : s.CellInv)
    (hm2 : (s.m : Int) ≤ INT_MAX) (hn2 : (s.n : Int) ≤ INT_MAX)
    (hmax : ∀ i < s.m, ∀ j < s.n, (s.board i j).orbs ≤ INT_MAX)
    (hh : ∀ x ∈ header.data, x ≠ '\n') (hnext : ∀ x ∈ next_move.data, x ≠ '\n') :
    getlines (s.write_game_state header next_move).data [] =
      ("Board Size: ".data ++ print_int (s.m : Int) ++ " ".data ++ print_int (s.n : Int)) ::
        header.data :: ("Next Move: ".data ++ next_move.data) ::
          (List.range s.m).map (write_cells s) := by
  have hd : (s.write_game_state header next_move).data =
      ("Board Size: ".data ++ print_int (s.m : Int) ++ " ".data ++ print_int (s.n : Int)) ++
        '\n' :: (header.data ++
          '\n' :: (("Next Move: ".data ++ next_move.data) ++
            '\n' :: (List.range s.m).flatMap (fun i => write_cells s i ++ ['\n']))) := by
    show ("Board Size: ".data ++ print_int (s.m : Int) ++ " ".data ++ print_int (s.n : Int) ++
      ['\n'] ++ header.data ++ ['\n'] ++ "Next Move: ".data ++ next_move.data ++ ['\n'] ++
      (List.range s.m).flatMap (fun i => write_cells s i ++ ['\n'])) = _
    simp only [List.append_assoc, List.singleton_append]
    rfl
  have h1 := (read_size_line s.m s.n hm2 hn2).1
  have hlit : ∀ x ∈ "Next Move: ".data, x ≠ '\n' := by decide
  have h3 : ∀ x ∈ "Next Move: ".data ++ next_move.data, x ≠ '\n' := by
    intro x hx
    rcases List.mem_append.1 hx with k | k
    · exact hlit x k
    · exact hnext x k
  rw [hd, getlines_line _ _ [] h1, getlines_line _ _ [] hh, getlines_line _ _ [] h3,
    getlines_rows (write_cells s) (List.range s.m) (fun i hi =>
      (write_cells_spec s i (List.mem_range.1 hi) hn hinv hmax).1)]
  rfl

/-- The first part of `read_game_state` on the file that `write_game_state` writes. -/
theorem read_size_write_game_state (s : ChainReaction) (header next_move : String)
    (hm : 1 ≤ s.m) (hn : 1 ≤ s.n) (hinv : s.CellInv)
    (hm2 : (s.m : Int) ≤ INT_MAX) (hn2 : (s.n : Int) ≤ INT_MAX)
    (hmax : ∀ i < s.m, ∀ j < s.n, (s.board i j).orbs ≤ INT_MAX)
    (hh : ∀ x ∈ header.data, x ≠ '\n') (hnext : ∀ x ∈ next_move.data, x ≠ '\n') :
    read_size (some (s.write_game_state header next_move)) =
      some ((s.m : Int), (s.n : Int),
        header.data :: ("Next Move: ".data ++ next_move.data) ::
          (List.range s.m).map (write_cells s)) := by
  obtain ⟨_, l2, l3, l4⟩ := read_size_line s.m s.n hm2 hn2
  unfold read_size
  simp only [getlines_write_game_state s header next_move hn hinv hm2 hn2 hmax hh hnext]
  rw [if_neg (not_not.2 l2), l3]
  simp only []
  rw [l4]
  simp only []
  rw [if_neg (by omega)]

/-- The part of `read_game_state` between the dimensions and the board rows on the file that
`write_game_state` writes in AI-vs-AI mode. -/
theorem read_preamble_write_game_state (s : ChainReaction) (next_move : String)
    (hn : 1 ≤ s.n) (hinv : s.CellInv)
    (hmax : ∀ i < s.m, ∀ j < s.n, (s.board i j).orbs ≤ INT_MAX)
    (hnext : next_move = "AI Red" ∨ next_move = "AI Blue") :
    read_preamble s.m ("AI vs AI Move:".data :: ("Next Move: ".data ++ next_move.data) ::
      (List.range s.m).map (write_cells s)) = some ((List.range s.m).map (write_cells s)) := by
  have hf : ((List.range s.m).map (write_cells s)).filter (fun l => ¬ l.isEmpty) =
      (List.range s.m).map (write_cells s) := by
    rw [List.filter_eq_self]
    intro l hl
    obtain ⟨i, hi, rfl⟩ := List.mem_map.1 hl
    have := (write_cells_spec s i (List.mem_range.1 hi) hn hinv hmax).2.1
    cases hw : write_cells s i with
    | nil => exact absurd hw this
    | cons a b => rfl
  unfold read_preamble
  simp only []
  rw [if_neg (fun k => k.2 rfl), if_neg]
  · simp only [hf]
    rw [if_neg (by simp)]
  · intro k
    rcases hnext with e | e
    · subst e
      exact k.2.1 rfl
    · subst e
      exact k.2.2 rfl

/-- C36: the wire format round trip in AI-vs-AI mode. For every board with `m, n ≥ 1` that
satisfies the cell invariant (an owned cell is Red or Blue) and whose dimensions and orb counts
are values of an `int`, the text that `write_game_state` writes with the header
`AI vs AI Move:` and the next mover `AI Red` or `AI Blue` is accepted by `read_game_state`
called on any object `t`, which then holds the same dimensions and, cell for cell, the same orb
counts and owners. -/
theorem wire_round_trip (s t : ChainReaction) (next_move : String)
    (hm : 1 ≤ s.m) (hn : 1 ≤ s.n) (hinv : s.CellInv)
    (hm2 : (s.m : Int) ≤ INT_MAX) (hn2 : (s.n : Int) ≤ INT_MAX)
    (hmax : ∀ i < s.m, ∀ j < s.n, (s.board i j).orbs ≤ INT_MAX)
    (hnext : next_move = "AI Red" ∨ next_move = "AI Blue") :
    (read_game_state (some (s.write_game_state "AI vs AI Move:" next_move)) t).1 = true ∧
      (read_game_state (some (s.write_game_state "AI vs AI Move:" next_move)) t).2.m = s.m ∧
      (read_game_state (some (s.write_game_state "AI vs AI Move:" next_move)) t).2.n = s.n ∧
      ∀ i < s.m, ∀ j < s.n,
        (read_game_state (some (s.write_game_state "AI vs AI Move:" next_move)) t).2.board i j =
          s.board i j := by
  have hnl : ∀ x ∈ next_move.data, x ≠ '\n' := by
    rcases hnext with e | e <;> subst e <;> decide
  have hsize := read_size_write_game_state s "AI vs AI Move:" next_move hm hn hinv hm2 hn2 hmax
    (by decide) hnl
  have rm : (t.resize (s.m : Int) (s.n : Int)).m = s.m := by
    have := resize_m t (s.m : Int) (s.n : Int) (by omega)
    exact_mod_cast this
  have rn : (t.resize (s.m : Int) (s.n : Int)).n = s.n := by
    have := resize_n t (s.m : Int) (s.n : Int) (by omega)
    exact_mod_cast this
  have hpre := read_preamble_write_game_state s next_move hn hinv hmax hnext
  have hrows := read_rows_spec s.m s.n s.board (write_cells s)
    (fun i j => write_cell (s.board i j))
    (fun i hi => ⟨(write_cells_spec s i hi hn hinv hmax).2.2, fun j hj =>
      (write_cell_spec _ (hinv i hi j hj).1 (hinv i hi j hj).2.1 (hinv i hi j hj).2.2
        (hmax i hi j hj)).2.2.2⟩) s.m 0 (t.resize (s.m : Int) (s.n : Int)).board (by omega)
  rw [← List.range_eq_range'] at hrows
  simp only [read_game_state, hsize, rm, rn, hpre, hrows]
  refine ⟨trivial, trivial, trivial, fun i hi j hj => ?_⟩
  rw [if_pos ⟨⟨by omega, by omega⟩, hj⟩]

/-- C36, instance: the file written for `full_board` is read back, by an object that held the
empty 2 × 3 board, as a 2 × 2 board with a Blue orb at `(0, 1)`. -/
theorem wire_round_trip_witness :
    (read_game_state (some (full_board.write_game_state "AI vs AI Move:" "AI Red"))
        empty_board).1 = true ∧
      (read_game_state (some (full_board.write_game_state "AI vs AI Move:" "AI Red"))
        empty_board).2.m = 2 ∧
      (read_game_state (some (full_board.write_game_state "AI vs AI Move:" "AI Red"))
        empty_board).2.n = 2 ∧
      (read_game_state (some (full_board.write_game_state "AI vs AI Move:" "AI Red"))
        empty_board).2.board 0 1 = { orbs := 1, color := 'B' } := by
  obtain ⟨a, b, c, d⟩ := wire_round_trip full_board empty_board "AI Red" (by decide) (by decide)
    (by decide) (by decide) (by decide) (by decide) (Or.inl rfl)
  exact ⟨a, b, c, d 0 (by decide) 1 (by decide)⟩

end ChainReaction

/-! ## The AI-vs-AI loop -/

namespace ChainReaction

/-- What one iteration of the loop of `run_ai_vs_ai` does to `prev_board` and
`no_progress_count`, and which `break` it takes, by the outcome of `read_game_state`. -/
theorem ai_vs_ai_body_spec (fuel : Nat) (file : Option String) (st : LoopState)
    (r : LoopState × Option String × Option LoopExit)
    (h : ai_vs_ai_body fuel file st = some r) :
    ((read_game_state file st.game).1 = false →
      r.1.prev_board = st.prev_board ∧ r.1.no_progress_count = st.no_progress_count ∧
        r.1.current_player = st.current_player ∧ r.2.2 = none) ∧
    ((read_game_state file st.game).1 = true →
      (read_game_state file st.game).2.is_ai_vs_ai = false →
      r.1.prev_board = st.prev_board ∧ r.1.no_progress_count = st.no_progress_count ∧
        r.2.2 = some LoopExit.mode) ∧
    ((read_game_state file st.game).1 = true →
      (read_game_state file st.game).2.is_ai_vs_ai = true →
      r.1.no_progress_count =
          (if (read_game_state file st.game).2.board_to_string = st.prev_board
            then st.no_progress_count + 1 else 0) ∧
        r.1.prev_board = (read_game_state file st.game).2.board_to_string ∧
        (r.2.2 = some LoopExit.stall ↔
          ((read_game_state file st.game).2.board_to_string = st.prev_board ∧
            st.no_progress_count + 1 ≥ 2)) ∧
        r.2.2 ≠ some LoopExit.forfeit ∧ r.2.2 ≠ some LoopExit.mode) := by
  unfold ai_vs_ai_body at h
  cases hrd : read_game_state file st.game with
  | mk b g =>
    rw [hrd] at h
    cases b with
    | false =>
      simp only [Option.some.injEq] at h
      subst h
      simp
    | true =>
      simp only [] at h
      by_cases hmode : g.is_ai_vs_ai = false
      · rw [if_pos hmode] at h
        simp only [Option.some.injEq] at h
        subst h
        simp [hmode]
      · rw [if_neg hmode] at h
        have hm : g.is_ai_vs_ai = true := by simpa using hmode
        refine ⟨fun k => absurd k (by simp), fun _ k => absurd k (by simp [hm]), fun _ _ => ?_⟩
        simp only [] at h ⊢
        by_cases hc : g.board_to_string = st.prev_board
        · simp only [hc, if_true, true_and] at h ⊢
          by_cases h2 : st.no_progress_count + 1 ≥ 2
          · rw [if_pos h2] at h
            simp only [Option.some.injEq] at h
            subst h
            simp [h2]
          · rw [if_neg h2] at h
            simp only [h2, if_false] at h
            split at h
            · exact absurd h (by simp)
            · split at h
              · simp only [Option.some.injEq] at h
                subst h
                simp [h2]
              · split at h
                · exact absurd h (by simp)
                · split at h <;>
                  · simp only [Option.some.injEq] at h
                    subst h
                    simp [h2]
        · simp only [hc, if_false, false_and] at h ⊢
          split at h
          · exact absurd h (by simp)
          · split at h
            · rw [if_neg (by decide)] at h
              simp only [Option.some.injEq] at h
              subst h
              simp
            · split at h
              · exact absurd h (by simp)
              · split at h <;>
                · simp only [Option.some.injEq] at h
                  subst h
                  simp

/-- The `break` for no progress does not wait for the search: the iteration returns with any
fuel. -/
theorem ai_vs_ai_body_stall (fuel : Nat) (file : Option String) (st : LoopState)
    (h1 : (read_game_state file st.game).1 = true)
    (h2 : (read_game_state file st.game).2.is_ai_vs_ai = true)
    (h3 : (read_game_state file st.game).2.board_to_string = st.prev_board)
    (h4 : st.no_progress_count + 1 ≥ 2) :
    ai_vs_ai_body fuel file st =
      some ({ st with game := (read_game_state file st.game).2,
                      no_progress_count := st.no_progress_count + 1 }, none,
        some LoopExit.stall) := by
  unfold ai_vs_ai_body
  cases hrd : read_game_state file st.game with
  | mk b g =>
    rw [hrd] at h1 h2 h3
    simp only [] at h1 h2 h3
    subst h1
    simp only []
    rw [if_neg (by rw [h2]; decide)]
    simp only [h3, if_true, true_and]
    rw [if_pos h4]

/-- At the head of the loop `no_progress_count` is 0 or 1. -/
theorem ai_vs_ai_loop_count (fuel : Nat) : ∀ (files : List (Option String)) (st0 st : LoopState),
    0 ≤ st0.no_progress_count → st0.no_progress_count ≤ 1 →
    ai_vs_ai_loop fuel files st0 = some (st, none) →
    0 ≤ st.no_progress_count ∧ st.no_progress_count ≤ 1 := by
  intro files
  induction files with
  | nil =>
    intro st0 st a b h
    simp only [ai_vs_ai_loop, Option.some.injEq, Prod.mk.injEq] at h
    rw [← h.1]
    exact ⟨a, b⟩
  | cons file files ih =>
    intro st0 st a b h
    rw [ai_vs_ai_loop] at h
    cases hb : ai_vs_ai_body fuel file st0 with
    | none => rw [hb] at h; exact absurd h (by simp)
    | some r =>
      obtain ⟨st1, w, e⟩ := r
      rw [hb] at h
      cases e with
      | some e => simp at h
      | none =>
        simp only [] at h
        obtain ⟨s1, s2, s3⟩ := ai_vs_ai_body_spec fuel file st0 _ hb
        cases hr : (read_game_state file st0.game).1 with
        | false =>
          have k := s1 hr
          simp only [] at k
          exact ih st1 st (by omega) (by omega) h
        | true =>
          cases hm : (read_game_state file st0.game).2.is_ai_vs_ai with
          | false =>
            have k := s2 hr hm
            exact absurd k.2.2 (by simp)
          | true =>
            have k := s3 hr hm
            simp only [] at k
            by_cases hc : (read_game_state file st0.game).2.board_to_string = st0.prev_board
            · rw [if_pos hc] at k
              have ns : ¬ (st0.no_progress_count + 1 ≥ 2) := fun c =>
                absurd (k.2.2.1.2 ⟨hc, c⟩) (by simp)
              exact ih st1 st (by omega) (by omega) h
            · rw [if_neg hc] at k
              exact ih st1 st (by omega) (by omega) h

/-- A cell that `read_game_state` stores is empty and unowned, or holds orbs of Red or Blue. -/
theorem parse_cell_valid {tok : List Char} {c : Cell} (h : parse_cell tok = some c) :
    (c.orbs = 0 ∧ c.color = NUL) ∨ (0 < c.orbs ∧ (c.color = 'R' ∨ c.color = 'B')) := by
  unfold parse_cell at h
  split at h
  · simp only [Option.some.injEq] at h
    rw [← h]
    exact Or.inl ⟨rfl, rfl⟩
  · split at h
    · exact absurd h (by simp)
    · rename_i hsuffix
      split at h
      · exact absurd h (by simp)
      · rename_i orbs _
        split at h
        · exact absurd h (by simp)
        · rename_i hpos
          simp only [Option.some.injEq] at h
          rw [← h]
          refine Or.inr ⟨by simpa using hpos, ?_⟩
          simp only []
          by_cases c1 : tok.getLast? = some 'R'
          · rw [c1]; exact Or.inl rfl
          · by_cases c2 : tok.getLast? = some 'B'
            · rw [c2]; exact Or.inr rfl
            · exact absurd (Or.inr ⟨c1, c2⟩) hsuffix

theorem read_cells_valid (i : Nat) : ∀ (toks : List (List Char)) (j0 : Nat)
    (b b' : Nat → Nat → Cell), read_cells i toks j0 b = (true, b') →
    (∀ y, j0 ≤ y → y < j0 + toks.length →
      (((b' i y).orbs = 0 ∧ (b' i y).color = NUL) ∨
        (0 < (b' i y).orbs ∧ ((b' i y).color = 'R' ∨ (b' i y).color = 'B')))) ∧
    (∀ x y, (x ≠ i ∨ y < j0 ∨ j0 + toks.length ≤ y) → b' x y = b x y) := by
  intro toks
  induction toks with
  | nil =>
    intro j0 b b' h
    simp only [read_cells, Prod.mk.injEq, true_and] at h
    subst h
    exact ⟨fun y h1 h2 => by simp at h2; omega, fun _ _ _ => rfl⟩
  | cons tok rest ih =>
    intro j0 b b' h
    rw [read_cells] at h
    cases hp : parse_cell tok with
    | none => rw [hp] at h; simp at h
    | some c =>
      rw [hp] at h
      simp only [] at h
      obtain ⟨v, f⟩ := ih _ _ _ h
      have hv := parse_cell_valid hp
      simp only [List.length_cons]
      refine ⟨fun y h1 h2 => ?_, fun x y hxy => ?_⟩
      · by_cases e : y = j0
        · rw [e, f i j0 (Or.inr (Or.inl (by omega)))]
          unfold setCell
          rw [if_pos ⟨rfl, rfl⟩]
          exact hv
        · exact v y (by omega) (by omega)
      · rw [f x y (by omega)]
        unfold setCell
        rw [if_neg (by omega)]

theorem read_rows_valid (n : Nat) : ∀ (lines : List (List Char)) (i0 : Nat)
    (b b' : Nat → Nat → Cell), read_rows n lines i0 b = (true, b') →
    (∀ x y, i0 ≤ x → x < i0 + lines.length → y < n →
      (((b' x y).orbs = 0 ∧ (b' x y).color = NUL) ∨
        (0 < (b' x y).orbs ∧ ((b' x y).color = 'R' ∨ (b' x y).color = 'B')))) ∧
    (∀ x y, x < i0 → b' x y = b x y) := by
  intro lines
  induction lines with
  | nil =>
    intro i0 b b' h
    simp only [read_rows, Prod.mk.injEq, true_and] at h
    subst h
    exact ⟨fun x y h1 h2 => by simp at h2; omega, fun _ _ _ => rfl⟩
  | cons line rest ih =>
    intro i0 b b' h
    rw [read_rows] at h
    split at h
    · simp at h
    · rename_i hlen
      have hlen2 : (words line []).length = n := by simpa using hlen
      cases hc : read_cells i0 (words line []) 0 b with
      | mk ok b1 =>
        rw [hc] at h
        cases ok with
        | false => simp at h
        | true =>
          simp only [] at h
          obtain ⟨v, f⟩ := ih _ _ _ h
          obtain ⟨v1, f1⟩ := read_cells_valid i0 _ _ _ _ hc
          simp only [List.length_cons]
          refine ⟨fun x y h1 h2 h3 => ?_, fun x y hx => ?_⟩
          · by_cases e : x = i0
            · rw [e, f i0 y (by omega)]
              exact v1 y (by omega) (by omega)
            · exact v x y (by omega) (by omega) h3
          · rw [f x y (by omega), f1 x y (Or.inl (by omega))]

theorem read_preamble_length {m : Nat} {rest lines : List (List Char)}
    (h : read_preamble m rest = some lines) : lines.length = m := by
  unfold read_preamble at h
  split at h
  · exact absurd h (by simp)
  · split at h
    · exact absurd h (by simp)
    · split at h
      · exact absurd h (by simp)
      · split at h
        · exact absurd h (by simp)
        · simp only [] at h
          split at h
          · exact absurd h (by simp)
          · rename_i hl
            simp only [Option.some.injEq] at h
            rw [← h]
            simpa using hl

/-- The board that a successful `read_game_state` leaves has at least one row and one column and
satisfies the cell invariant. -/
theorem read_game_state_valid {file : Option String} {s : ChainReaction}
    (h : (read_game_state file s).1 = true) :
    (read_game_state file s).2.CellInv ∧ 1 ≤ (read_game_state file s).2.m ∧
      1 ≤ (read_game_state file s).2.n := by
  cases hs : read_size file with
  | none => simp [read_game_state, hs] at h
  | some r =>
    obtain ⟨new_m, new_n, rest⟩ := r
    obtain ⟨pm, pn⟩ := read_size_pos hs
    have rm := resize_m s new_m new_n pm
    have rn := resize_n s new_m new_n pn
    cases hp : read_preamble (s.resize new_m new_n).m rest with
    | none => simp [read_game_state, hs, hp] at h
    | some lines =>
      have hl := read_preamble_length hp
      cases hr : read_rows (s.resize new_m new_n).n lines 0 (s.resize new_m new_n).board with
      | mk ok b' =>
        simp only [read_game_state, hs, hp, hr] at h ⊢
        subst h
        obtain ⟨v, _⟩ := read_rows_valid _ _ _ _ _ hr
        refine ⟨?_, by show 1 ≤ (s.resize new_m new_n).m; omega,
          by show 1 ≤ (s.resize new_m new_n).n; omega⟩
        intro i hi j hj
        have hi2 : i < (s.resize new_m new_n).m := hi
        have hj2 : j < (s.resize new_m new_n).n := hj
        have hv := v i j (Nat.zero_le _) (by omega) hj2
        show 0 ≤ (b' i j).orbs ∧ ((b' i j).orbs = 0 ↔ (b' i j).color = NUL) ∧
          ((b' i j).color = NUL ∨ (b' i j).color = 'R' ∨ (b' i j).color = 'B')
        rcases hv with ⟨a, c⟩ | ⟨a, c⟩
        · exact ⟨by omega, ⟨fun _ => c, fun _ => a⟩, Or.inl c⟩
        · refine ⟨by omega, ⟨fun e => by omega, fun e => ?_⟩, Or.inr c⟩
          exfalso
          rcases c with c | c
          · rw [c] at e; exact absurd e (by decide)
          · rw [c] at e; exact absurd e (by decide)

theorem write_cell_shape (c : Cell) (h0 : 0 ≤ c.orbs) (h1 : c.orbs = 0 ↔ c.color = NUL)
    (h2 : c.color = NUL ∨ c.color = 'R' ∨ c.color = 'B') :
    write_cell c ≠ [] ∧ (∀ x ∈ write_cell c, isspace x = false) ∧
      (∀ x ∈ write_cell c, x ≠ '\n') := by
  obtain ⟨orbs, color⟩ := c
  simp only [] at h0 h1 h2
  unfold write_cell
  by_cases hz : orbs = 0
  · simp only [hz, if_true]
    refine ⟨by decide, by decide, by decide⟩
  · simp only [hz, if_false]
    obtain ⟨k, rfl⟩ : ∃ k : Nat, orbs = (k : Int) := ⟨orbs.toNat, by omega⟩
    obtain ⟨p1, p2, p3⟩ := print_int_spec k
    have hcol : color = 'R' ∨ color = 'B' := by
      rcases h2 with e | e
      · exact absurd (h1.2 e) hz
      · exact e
    have hsp : isspace color = false := by
      rcases hcol with e | e <;> rw [e] <;> decide
    have hnl : color ≠ '\n' := by
      rcases hcol with e | e <;> rw [e] <;> decide
    refine ⟨by simp, ?_, ?_⟩
    · intro x hx
      rcases List.mem_append.1 hx with e | e
      · exact isdigit_not_isspace (p2 x e)
      · rw [List.mem_singleton.1 e]; exact hsp
    · intro x hx
      rcases List.mem_append.1 hx with e | e
      · exact isdigit_ne_newline (p2 x e)
      · rw [List.mem_singleton.1 e]; exact hnl

/-- Two cells of the data model with the same token are the same cell. -/
theorem write_cell_inj (c d : Cell) (c0 : 0 ≤ c.orbs) (c1 : c.orbs = 0 ↔ c.color = NUL)
    (d0 : 0 ≤ d.orbs) (d1 : d.orbs = 0 ↔ d.color = NUL)
    (h : write_cell c = write_cell d) : c = d := by
  obtain ⟨a, p⟩ := c
  obtain ⟨b, q⟩ := d
  simp only [] at c0 c1 d0 d1
  unfold write_cell at h
  simp only [] at h
  have hlen : ∀ (k : Nat) (x : Char), "0".data ≠ print_int (k : Int) ++ [x] := by
    intro k x e
    have := congrArg List.length e
    rw [List.length_append] at this
    have l1 : ("0".data).length = 1 := rfl
    have l2 : 0 < (print_int (k : Int)).length := List.length_pos.2 (print_int_spec k).1
    simp only [List.length_singleton] at this
    omega
  by_cases ha : a = 0
  · by_cases hb : b = 0
    · rw [ha, hb, c1.1 ha, d1.1 hb]
    · exfalso
      rw [if_pos ha, if_neg hb] at h
      obtain ⟨k, rfl⟩ : ∃ k : Nat, b = (k : Int) := ⟨b.toNat, by omega⟩
      exact hlen k q h
  · by_cases hb : b = 0
    · exfalso
      rw [if_neg ha, if_pos hb] at h
      obtain ⟨k, rfl⟩ : ∃ k : Nat, a = (k : Int) := ⟨a.toNat, by omega⟩
      exact hlen k p h.symm
    · rw [if_neg ha, if_neg hb] at h
      obtain ⟨k, rfl⟩ : ∃ k : Nat, a = (k : Int) := ⟨a.toNat, by omega⟩
      obtain ⟨l, rfl⟩ : ∃ l : Nat, b = (l : Int) := ⟨b.toNat, by omega⟩
      obtain ⟨e1, e2⟩ := List.append_inj' h rfl
      have e3 : ((k : Nat) : Int) = (l : Int) := by
        rw [← (print_int_spec k).2.2, ← (print_int_spec l).2.2, e1]
      rw [e3, List.singleton_inj.1 e2]

theorem map_range_inj {α : Type} {a b : Nat} {f g : Nat → α}
    (h : (List.range a).map f = (List.range b).map g) : a = b ∧ ∀ i < a, f i = g i := by
  have hl : a = b := by
    have := congrArg List.length h
    simpa using this
  refine ⟨hl, fun i hi => ?_⟩
  have := congrArg (fun l => l[i]?) h
  simp only [List.getElem?_map] at this
  rw [List.getElem?_range hi, List.getElem?_range (by omega)] at this
  simpa using this

/-- The text of `board_to_string`: every cell token followed by a space, every row followed by a
newline. -/
theorem board_to_string_data (s : ChainReaction) :
    s.board_to_string.data = (List.range s.m).flatMap (fun i =>
      (List.range s.n).flatMap (fun j => write_cell (s.board i j) ++ [' ']) ++ ['\n']) := by
  unfold board_to_string
  show (List.range s.m).flatMap _ = _
  refine flatMap_congr_mem _ _ _ (fun i _ => ?_)
  show _ ++ ['\n'] = _
  congr 1
  refine flatMap_congr_mem _ _ _ (fun j _ => ?_)
  unfold write_cell
  split_ifs
  · rfl
  · rfl

/-- The lines and words of the text of `board_to_string` are the rows and the cell tokens. -/
theorem board_to_string_lines (s : ChainReaction) (hinv : s.CellInv) :
    getlines s.board_to_string.data [] = (List.range s.m).map (fun i =>
      (List.range s.n).flatMap (fun j => write_cell (s.board i j) ++ [' '])) ∧
    ∀ i < s.m, words ((List.range s.n).flatMap (fun j => write_cell (s.board i j) ++ [' '])) [] =
      (List.range s.n).map (fun j => write_cell (s.board i j)) := by
  have hc : ∀ i < s.m, ∀ j < s.n, write_cell (s.board i j) ≠ [] ∧
      (∀ x ∈ write_cell (s.board i j), isspace x = false) ∧
      (∀ x ∈ write_cell (s.board i j), x ≠ '\n') := fun i hi j hj =>
    write_cell_shape _ (hinv i hi j hj).1 (hinv i hi j hj).2.1 (hinv i hi j hj).2.2
  constructor
  · rw [board_to_string_data, getlines_rows (fun i =>
      (List.range s.n).flatMap (fun j => write_cell (s.board i j) ++ [' ']))]
    intro i hi x hx
    obtain ⟨j, hj, hx2⟩ := List.mem_flatMap.1 hx
    rcases List.mem_append.1 hx2 with e | e
    · exact (hc i (List.mem_range.1 hi) j (List.mem_range.1 hj)).2.2 x e
    · rw [List.mem_singleton.1 e]; decide
  · intro i hi
    have := words_tokens (fun j => write_cell (s.board i j)) [] (List.range s.n) (fun j hj =>
      ⟨(hc i hi j (List.mem_range.1 hj)).1, (hc i hi j (List.mem_range.1 hj)).2.1⟩)
    rw [List.append_nil] at this
    rw [this]
    show _ ++ [] = _
    rw [List.append_nil]

/-- Boards of the data model with the same text are the same board. -/
theorem board_to_string_inj (g h : ChainReaction) (hg : g.CellInv) (hh : h.CellInv)
    (hm : 1 ≤ g.m) (e : g.board_to_string = h.board_to_string) : same_board g h := by
  obtain ⟨g1, g2⟩ := board_to_string_lines g hg
  obtain ⟨h1, h2⟩ := board_to_string_lines h hh
  rw [e, h1] at g1
  obtain ⟨em, erow⟩ := map_range_inj g1
  have e0 := erow 0 (by omega)
  have hn : g.n = h.n := by
    have w := h2 0 (by omega)
    rw [e0, g2 0 (by omega)] at w
    exact (map_range_inj w).1
  refine ⟨em.symm, hn, fun i hi j hj => ?_⟩
  have w := h2 i (by omega)
  rw [erow i (by omega), g2 i hi] at w
  have t := (map_range_inj w).2 j (by omega)
  exact write_cell_inj _ _ (hg i hi j hj).1 (hg i hi j hj).2.1 (hh i (by omega) j (by omega)).1
    (hh i (by omega) j (by omega)).2.1 t

theorem board_to_string_congr (g h : ChainReaction) (e : same_board g h) :
    g.board_to_string = h.board_to_string := by
  obtain ⟨em, en, ec⟩ := e
  have : g.board_to_string.data = h.board_to_string.data := by
    rw [board_to_string_data, board_to_string_data, ← em, ← en]
    refine flatMap_congr_mem _ _ _ (fun i hi => ?_)
    congr 1
    refine flatMap_congr_mem _ _ _ (fun j hj => ?_)
    rw [ec i (List.mem_range.1 hi) j (List.mem_range.1 hj)]
  exact String.ext this

theorem board_to_string_ne_empty (g : ChainReaction) (hg : g.CellInv) (hm : 1 ≤ g.m) :
    g.board_to_string ≠ "" := by
  intro e
  have h1 := (board_to_string_lines g hg).1
  rw [e] at h1
  have := congrArg List.length h1
  simp only [List.length_map, List.length_range] at this
  have l0 : (getlines ([] : List Char) []).length = 0 := rfl
  rw [l0] at this
  omega

/-- The stall counter in terms of the board text: the counter is 0 or 1 at the head of the loop,
is reset when the text of the board read differs from `prev_board` and incremented when it is
identical, and the loop breaks as a stall exactly when the counter reaches 2. -/
theorem stall_counter_text (fuel : Nat) (files : List (Option String)) (s : ChainReaction)
    (st : LoopState) (file : Option String) (r : LoopState × Option String × Option LoopExit)
    (hrun : run_ai_vs_ai fuel files s = some (st, none))
    (h : ai_vs_ai_body fuel file st = some r) :
    (0 ≤ st.no_progress_count ∧ st.no_progress_count ≤ 1) ∧
    ((read_game_state file st.game).1 = false →
      r.1.no_progress_count = st.no_progress_count ∧ r.1.prev_board = st.prev_board ∧
        r.2.2 = none) ∧
    ((read_game_state file st.game).1 = true →
      (read_game_state file st.game).2.is_ai_vs_ai = true →
      ((read_game_state file st.game).2.board_to_string ≠ st.prev_board →
        r.1.no_progress_count = 0) ∧
      ((read_game_state file st.game).2.board_to_string = st.prev_board →
        r.1.no_progress_count = st.no_progress_count + 1) ∧
      r.1.prev_board = (read_game_state file st.game).2.board_to_string) ∧
    (r.2.2 = some LoopExit.stall ↔
      ((read_game_state file st.game).1 = true ∧
        (read_game_state file st.game).2.is_ai_vs_ai = true ∧
        (read_game_state file st.game).2.board_to_string = st.prev_board ∧
        st.no_progress_count = 1)) ∧
    (r.2.2 = some LoopExit.stall ↔ r.1.no_progress_count = 2) ∧
    (r.2.2 = some LoopExit.stall → ∀ fuel2, ai_vs_ai_body fuel2 file st = some r) ∧
    (0 ≤ r.1.no_progress_count ∧ r.1.no_progress_count ≤ 2) ∧
    r.2.2 ≠ some LoopExit.forfeit := by
  obtain ⟨c0, c1⟩ := ai_vs_ai_loop_count fuel files _ st (le_refl _)
    (show (0 : Int) ≤ 1 by decide) hrun
  obtain ⟨s1, s2, s3⟩ := ai_vs_ai_body_spec fuel file st r h
  refine ⟨⟨c0, c1⟩, fun k => ⟨(s1 k).2.1, (s1 k).1, (s1 k).2.2.2⟩, fun k1 k2 => ?_, ?_⟩
  · have k := s3 k1 k2
    refine ⟨fun hc => ?_, fun hc => ?_, k.2.1⟩
    · rw [k.1, if_neg hc]
    · rw [k.1, if_pos hc]
  · cases hr : (read_game_state file st.game).1 with
    | false =>
      have k := s1 hr
      refine ⟨⟨fun e => ?_, fun e => absurd e.1 (by simp)⟩, ⟨fun e => ?_, fun e => ?_⟩,
        fun e => ?_, ⟨by omega, by omega⟩, by rw [k.2.2.2]; simp⟩
      · rw [k.2.2.2] at e; exact absurd e (by simp)
      · rw [k.2.2.2] at e; exact absurd e (by simp)
      · exfalso; omega
      · rw [k.2.2.2] at e; exact absurd e (by simp)
    | true =>
      cases hm : (read_game_state file st.game).2.is_ai_vs_ai with
      | false =>
        have k := s2 hr hm
        refine ⟨⟨fun e => ?_, fun e => absurd e.2.1 (by simp)⟩, ⟨fun e => ?_, fun e => ?_⟩,
          fun e => ?_, ⟨by omega, by omega⟩, by rw [k.2.2]; simp⟩
        · rw [k.2.2] at e; exact absurd e (by simp)
        · rw [k.2.2] at e; exact absurd e (by simp)
        · exfalso; omega
        · rw [k.2.2] at e; exact absurd e (by simp)
      | true =>
        have k := s3 hr hm
        by_cases hc : (read_game_state file st.game).2.board_to_string = st.prev_board
        · rw [if_pos hc] at k
          refine ⟨⟨fun e => ⟨rfl, rfl, hc, ?_⟩, fun e => k.2.2.1.2 ⟨hc, by omega⟩⟩,
            ⟨fun e => ?_, fun e => k.2.2.1.2 ⟨hc, by omega⟩⟩, fun e fuel2 => ?_,
            ⟨by omega, by omega⟩, k.2.2.2.1⟩
          · have := (k.2.2.1.1 e).2
            omega
          · have := (k.2.2.1.1 e).2
            omega
          · have h4 := (k.2.2.1.1 e).2
            rw [ai_vs_ai_body_stall fuel file st hr hm hc h4] at h
            rw [ai_vs_ai_body_stall fuel2 file st hr hm hc h4]
            exact h
        · rw [if_neg hc] at k
          have ns : r.2.2 ≠ some LoopExit.stall := fun e => hc (k.2.2.1.1 e).1
          refine ⟨⟨fun e => absurd e ns, fun e => absurd e.2.2.1 hc⟩,
            ⟨fun e => absurd e ns, fun e => ?_⟩, fun e => absurd e ns,
            ⟨by omega, by omega⟩, k.2.2.2.1⟩
          exfalso; omega

/-- At the head of the loop `prev_board` is the text of the board read on the previous poll, the
empty text when no poll has read a board yet. -/
theorem ai_vs_ai_loop_last (fuel : Nat) : ∀ (files : List (Option String))
    (st0 : LoopState) (last0 : Option ChainReaction) (st : LoopState),
    (last0 = none → st0.prev_board = "") →
    (∀ gp, last0 = some gp → st0.prev_board = gp.board_to_string ∧ gp.CellInv ∧ 1 ≤ gp.m) →
    ai_vs_ai_loop fuel files st0 = some (st, none) →
    (last_board_read fuel files st0 last0 = none → st.prev_board = "") ∧
    (∀ gp, last_board_read fuel files st0 last0 = some gp →
      st.prev_board = gp.board_to_string ∧ gp.CellInv ∧ 1 ≤ gp.m) := by
  intro files
  induction files with
  | nil =>
    intro st0 last0 st a b h
    simp only [ai_vs_ai_loop, Option.some.injEq, Prod.mk.injEq] at h
    rw [← h.1]
    exact ⟨a, b⟩
  | cons file files ih =>
    intro st0 last0 st a b h
    rw [ai_vs_ai_loop] at h
    cases hb : ai_vs_ai_body fuel file st0 with
    | none => rw [hb] at h; exact absurd h (by simp)
    | some r =>
      obtain ⟨st1, w, e⟩ := r
      rw [hb] at h
      cases e with
      | some e => simp at h
      | none =>
        simp only [] at h
        rw [last_board_read, hb]
        simp only []
        obtain ⟨s1, s2, s3⟩ := ai_vs_ai_body_spec fuel file st0 _ hb
        cases hr : (read_game_state file st0.game).1 with
        | false =>
          have k := s1 hr
          simp only [] at k
          rw [if_neg (by simp)]
          refine ih st1 last0 st (fun c => ?_) (fun gp c => ?_) h
          · rw [k.1]; exact a c
          · rw [k.1]; exact b gp c
        | true =>
          rw [if_pos rfl]
          cases hm : (read_game_state file st0.game).2.is_ai_vs_ai with
          | false =>
            have k := s2 hr hm
            exact absurd k.2.2 (by simp)
          | true =>
            have k := s3 hr hm
            simp only [] at k
            obtain ⟨v1, v2, _⟩ := read_game_state_valid hr
            refine ih st1 _ st (fun c => absurd c (by simp)) (fun gp c => ?_) h
            simp only [Option.some.injEq] at c
            rw [← c]
            exact ⟨k.2.1, v1, v2⟩

/-- C35: stall detection in `run_ai_vs_ai`. Let `st` be the loop state at the head of the loop
after the polls `files`, let `last_board_read` be the board read on the previous poll (the last
poll whose read succeeded, none before the first), and let `r` be the outcome of the next
iteration, which reads `file`. The counter is 0 or 1 at the head of the loop. A failed read
changes neither the counter nor `prev_board`. After a successful read in AI-vs-AI mode the text
of the board read equals `prev_board` exactly when the board read is the board read on the
previous poll (same dimensions, same cells); the counter is 0 when the board differs from the
board read on the previous poll, or no board was read before, and one more than before when it
is identical. The loop breaks as a stall exactly when the board is identical and the counter was
1, that is exactly when the counter reaches 2, and this outcome does not depend on the fuel of
the search, which is not started. The counter never exceeds 2, and the `break` in the forfeit
branch is never taken. -/
theorem stall_detection (fuel : Nat) (files : List (Option String)) (s : ChainReaction)
    (st : LoopState) (file : Option String) (r : LoopState × Option String × Option LoopExit)
    (hrun : run_ai_vs_ai fuel files s = some (st, none))
    (h : ai_vs_ai_body fuel file st = some r) :
    (0 ≤ st.no_progress_count ∧ st.no_progress_count ≤ 1) ∧
    ((read_game_state file st.game).1 = false →
      r.1.no_progress_count = st.no_progress_count ∧ r.1.prev_board = st.prev_board ∧
        r.2.2 = none) ∧
    ((read_game_state file st.game).1 = true →
      (read_game_state file st.game).2.is_ai_vs_ai = true →
      ((read_game_state file st.game).2.board_to_string = st.prev_board ↔
        ∃ gp, last_board_read fuel files
            { game := s, current_player := 'R', prev_board := "", no_progress_count := 0 }
            none = some gp ∧ same_board (read_game_state file st.game).2 gp) ∧
      ((¬ ∃ gp, last_board_read fuel files
            { game := s, current_player := 'R', prev_board := "", no_progress_count := 0 }
            none = some gp ∧ same_board (read_game_state file st.game).2 gp) →
        r.1.no_progress_count = 0) ∧
      ((∃ gp, last_board_read fuel files
            { game := s, current_player := 'R', prev_board := "", no_progress_count := 0 }
            none = some gp ∧ same_board (read_game_state file st.game).2 gp) →
        r.1.no_progress_count = st.no_progress_count + 1) ∧
      r.1.prev_board = (read_game_state file st.game).2.board_to_string) ∧
    (r.2.2 = some LoopExit.stall ↔
      ((read_game_state file st.game).1 = true ∧
        (read_game_state file st.game).2.is_ai_vs_ai = true ∧
        (∃ gp, last_board_read fuel files
            { game := s, current_player := 'R', prev_board := "", no_progress_count := 0 }
            none = some gp ∧ same_board (read_game_state file st.game).2 gp) ∧
        st.no_progress_count = 1)) ∧
    (r.2.2 = some LoopExit.stall ↔ r.1.no_progress_count = 2) ∧
    (r.2.2 = some LoopExit.stall → ∀ fuel2, ai_vs_ai_body fuel2 file st = some r) ∧
    (0 ≤ r.1.no_progress_count ∧ r.1.no_progress_count ≤ 2) ∧
    r.2.2 ≠ some LoopExit.forfeit := by
  obtain ⟨t1, t2, t3, t4, t5, t6, t7, t8⟩ := stall_counter_text fuel files s st file r hrun h
  obtain ⟨i1, i2⟩ := ai_vs_ai_loop_last fuel files
    { game := s, current_player := 'R', prev_board := "", no_progress_count := 0 } none st
    (fun _ => rfl) (fun gp c => absurd c (by simp)) hrun
  have hiff : (read_game_state file st.game).1 = true →
      ((read_game_state file st.game).2.board_to_string = st.prev_board ↔
        ∃ gp, last_board_read fuel files
            { game := s, current_player := 'R', prev_board := "", no_progress_count := 0 }
            none = some gp ∧ same_board (read_game_state file st.game).2 gp) := by
    intro hr
    obtain ⟨v1, v2, _⟩ := read_game_state_valid hr
    constructor
    · intro e
      cases hl : last_board_read fuel files
          { game := s, current_player := 'R', prev_board := "", no_progress_count := 0 } none with
      | none =>
        exfalso
        rw [i1 hl] at e
        exact board_to_string_ne_empty _ v1 v2 e
      | some gp =>
        obtain ⟨p1, p2, _⟩ := i2 gp hl
        rw [p1] at e
        exact ⟨gp, rfl, board_to_string_inj _ _ v1 p2 v2 e⟩
    · rintro ⟨gp, hl, hsame⟩
      rw [(i2 gp hl).1]
      exact board_to_string_congr _ _ hsame
  refine ⟨t1, t2, fun hr hm => ?_, ?_, t5, t6, t7, t8⟩
  · obtain ⟨a, b, c⟩ := t3 hr hm
    refine ⟨hiff hr, fun nd => a (fun e => nd ((hiff hr).1 e)), fun d => b ((hiff hr).2 d), c⟩
  · constructor
    · intro e
      obtain ⟨hr, hm, hc, h1⟩ := t4.1 e
      exact ⟨hr, hm, (hiff hr).1 hc, h1⟩
    · rintro ⟨hr, hm, d, h1⟩
      exact t4.2 ⟨hr, hm, (hiff hr).2 d, h1⟩

/-- C35, instance: after two polls that read the file of the empty 1 × 2 board the counter is 1;
a third poll that reads the same board breaks as a stall with the counter at 2. -/
theorem stall_detection_witness :
    ∃ (st : LoopState) (r : LoopState × Option String × Option LoopExit),
      run_ai_vs_ai 5 [some ai_game_file, some ai_game_file] ai_game_board = some (st, none) ∧
        ai_vs_ai_body 5 (some ai_game_file) st = some r ∧ st.no_progress_count = 1 ∧
        r.2.2 = some LoopExit.stall ∧ r.1.no_progress_count = 2 := by
  have key : (run_ai_vs_ai 5 [some ai_game_file, some ai_game_file] ai_game_board).map
      (fun p => (p.2, (read_game_state (some ai_game_file) p.1.game).1,
        (read_game_state (some ai_game_file) p.1.game).2.is_ai_vs_ai,
        decide ((read_game_state (some ai_game_file) p.1.game).2.board_to_string =
          p.1.prev_board), p.1.no_progress_count)) = some (none, true, true, true, 1) := by
    decide!
  cases hrun : run_ai_vs_ai 5 [some ai_game_file, some ai_game_file] ai_game_board with
  | none =>
    rw [hrun] at key
    exact absurd key (by simp)
  | some p =>
    obtain ⟨st, e⟩ := p
    rw [hrun] at key
    simp only [Option.map_some', Option.some.injEq, Prod.mk.injEq, decide_eq_true_eq] at key
    obtain ⟨k0, k1, k2, k3, k4⟩ := key
    subst k0
    have hb := ai_vs_ai_body_stall 5 (some ai_game_file) st k1 k2 k3 (by omega)
    have t := stall_detection 5 [some ai_game_file, some ai_game_file] ai_game_board st
      (some ai_game_file) _ hrun hb
    exact ⟨st, _, rfl, hb, k4, rfl, t.2.2.2.2.1.1 rfl⟩

end ChainReaction

